import Mathlib

/-!
Sudoku solver by Dancing Links (Algorithm X).

A shallow embedding of `Sudoku.cpp`: the `DLXSolver` struct with its methods `init`,
`addRow`, `cover`, `uncover`, `search`, and the function `SolveSudokuDLX`.

Pointers are addresses (`Nat`) into a heap whose fields are stored per field
(`L`, `R`, `U`, `D`, `row`, `col`); address `0` is the null pointer, address `1` is the
master header `head` that lives inside the solver object, and `new DLXNode()` hands out the
address `next` and increments it.  The pointer-chasing loops of the source have no static
bound, so each loop takes a `fuel` argument and returns `none` when it runs out.
-/

namespace Sudoku

/-- The null pointer. -/
def null : Nat := 0

/-- Address of the master header node `head`, a member of the solver object. -/
def head : Nat := 1

/-- `INT_MAX` of `<climits>` for a 32-bit `int`. -/
def INT_MAX : Int := 2147483647

section Memory

variable {α : Type} [Inhabited α]

/-- Two arrays hold the same memory contents when they agree at every address; cells
beyond the end of an array read as the default value. -/
def MemEq (a b : Array α) : Prop := ∀ i, a.getD i default = b.getD i default

/-- Write `v` at index `i` of an array, growing the array with default cells when `i`
lies beyond its end. -/
def setRaw (a : Array α) (i : Nat) (v : α) : Array α :=
  if h : i < a.size then a.set ⟨i, h⟩ v else (a ++ mkArray (i - a.size) default).push v

theorem getD_setRaw (a : Array α) (i j : Nat) (v : α) :
    (setRaw a i v).getD j default = if j = i then v else a.getD j default := by
  unfold setRaw
  simp only [Array.getD_eq_get?]
  split
  · rw [Array.get?_set]
    by_cases hj : j = i
    · subst hj; simp
    · have : ¬ i = j := fun h => hj h.symm
      simp [hj, this]
  · have hs : a.size + (i - a.size) = i := by omega
    rw [Array.getElem?_push, Array.getElem?_append]
    simp only [Array.size_append, Array.size_mkArray, hs]
    by_cases hj : j = i
    · simp [hj]
    · simp only [hj, if_false]
      by_cases h1 : j < a.size
      · simp [h1]
      · simp only [h1, if_false, Array.getElem?_mkArray]
        have : a[j]? = none := by simp; omega
        rw [this]
        split <;> rfl

end Memory

/-- A region of memory holding one field of every node: a total map from addresses to
values, stored as an array and taken up to `MemEq`. -/
def Mem (α : Type) [Inhabited α] : Type := Quot (MemEq (α := α))

namespace Mem

variable {α : Type} [Inhabited α]

/-- Read the cell at address `i`. -/
def get (m : Mem α) (i : Nat) : α :=
  Quot.lift (fun a : Array α => a.getD i default) (fun _ _ h => h i) m

/-- Write `v` to the cell at address `i`. -/
def set (m : Mem α) (i : Nat) (v : α) : Mem α :=
  Quot.map (fun a : Array α => setRaw a i v)
    (fun a b h j => by rw [getD_setRaw, getD_setRaw, h j]) m

/-- A region of `n` cells holding `v` (`std::vector::assign(n, v)`). -/
def fill (n : Nat) (v : α) : Mem α := Quot.mk _ (mkArray n v)

/-- The region with no cell written yet. -/
def empty : Mem α := Quot.mk _ #[]

end Mem

/-- `struct DLXSolver`, together with the heap of `DLXNode`s it points into, stored field
by field. -/
structure DLXSolver where
  nCols : Nat
  colSize : Mem Int
  colHead : Mem Nat
  row : Mem Int
  col : Mem Int
  L : Mem Nat
  R : Mem Nat
  U : Mem Nat
  D : Mem Nat
  next : Nat
  solution : List Nat
  outRows : List Int

namespace DLXSolver

/-- `p->L = v`. -/
def setL (s : DLXSolver) (p v : Nat) : DLXSolver := { s with L := s.L.set p v }

/-- `p->R = v`. -/
def setR (s : DLXSolver) (p v : Nat) : DLXSolver := { s with R := s.R.set p v }

/-- `p->U = v`. -/
def setU (s : DLXSolver) (p v : Nat) : DLXSolver := { s with U := s.U.set p v }

/-- `p->D = v`. -/
def setD (s : DLXSolver) (p v : Nat) : DLXSolver := { s with D := s.D.set p v }

/-- `p->row = v`. -/
def setRow (s : DLXSolver) (p : Nat) (v : Int) : DLXSolver := { s with row := s.row.set p v }

/-- `p->col = v`. -/
def setCol (s : DLXSolver) (p : Nat) (v : Int) : DLXSolver := { s with col := s.col.set p v }

/-- `colSize[i] = v`. -/
def setColSize (s : DLXSolver) (i : Nat) (v : Int) : DLXSolver :=
  { s with colSize := s.colSize.set i v }

/-- `colHead[i] = v`. -/
def setColHead (s : DLXSolver) (i : Nat) (v : Nat) : DLXSolver :=
  { s with colHead := s.colHead.set i v }

/-- `solution.push_back(r)`. -/
def pushSolution (s : DLXSolver) (r : Nat) : DLXSolver :=
  { s with solution := s.solution ++ [r] }

/-- `solution.pop_back()`. -/
def popSolution (s : DLXSolver) : DLXSolver := { s with solution := s.solution.dropLast }

/-- `new DLXNode()`: a fresh address, initialised by the constructor
`DLXNode(): row(-1), col(-1), L(this), R(this), U(this), D(this)`. -/
def newNode (s : DLXSolver) : Nat × DLXSolver :=
  let p := s.next
  let s := { s with next := p + 1 }
  let s := s.setRow p (-1)
  let s := s.setCol p (-1)
  let s := s.setL p p
  let s := s.setR p p
  let s := s.setU p p
  let s := s.setD p p
  (p, s)

/-- Body of the loop `for (int i = 0; i < cols; ++i)` of `init`. -/
def initStep (s : DLXSolver) (i : Nat) : DLXSolver :=
  let (c, s) := s.newNode
  let s := s.setCol c i
  let s := s.setD c c
  let s := s.setU c c
  let s := s.setR c head
  let s := s.setL c (s.L.get head)
  let s := if s.L.get head ≠ null then s.setR (s.L.get head) c else s
  let s := s.setL head c
  let s := if s.R.get head = head then s.setR head c else s
  s.setColHead i c

/-- `void init(int cols)`. -/
def init (s : DLXSolver) (cols : Nat) : DLXSolver :=
  let s := { s with nCols := cols, colSize := Mem.fill cols 0, colHead := Mem.fill cols null }
  let s := s.setR head head
  let s := s.setL head head
  let s := s.setD head head
  let s := s.setU head head
  (List.range cols).foldl initStep s

/-- The solver object before the constructor body runs: the member `head` is
default-constructed, the vectors are empty, the heap starts at address `2`. -/
def raw : DLXSolver :=
  let s : DLXSolver :=
    { nCols := 0, colSize := Mem.empty, colHead := Mem.empty, row := Mem.empty,
      col := Mem.empty, L := Mem.empty, R := Mem.empty, U := Mem.empty, D := Mem.empty,
      next := 2, solution := [], outRows := [] }
  let s := s.setRow head (-1)
  let s := s.setCol head (-1)
  let s := s.setL head head
  let s := s.setR head head
  let s := s.setU head head
  s.setD head head

/-- The constructor `DLXSolver() { init(0); }`. -/
def new : DLXSolver := raw.init 0

/-- Body of the loop `for (int c : cols)` of `addRow`; the loop carries the locals
`first` and `prev`. -/
def addRowStep (rowID : Int) (st : DLXSolver × Nat × Nat) (c : Nat) : DLXSolver × Nat × Nat :=
  let s := st.1
  let first := st.2.1
  let prev := st.2.2
  let (node, s) := s.newNode
  let s := s.setRow node rowID
  let s := s.setCol node c
  let s := s.setD node (s.colHead.get c)
  let s := s.setU node (s.U.get (s.colHead.get c))
  let s := s.setD (s.U.get (s.colHead.get c)) node
  let s := s.setU (s.colHead.get c) node
  let s := s.setColSize c (s.colSize.get c + 1)
  if first = null then
    let s := s.setR node node
    let s := s.setL node node
    (s, node, node)
  else
    let s := s.setL node prev
    let s := s.setR node first
    let s := s.setR prev node
    let s := s.setL first node
    (s, first, node)

/-- `void addRow(int rowID, const std::vector<int>& cols)`. -/
def addRow (s : DLXSolver) (rowID : Int) (cols : List Nat) : DLXSolver :=
  (cols.foldl (addRowStep rowID) (s, null, null)).1

/-- Body of the inner loop of `cover`: unlink `j` from its column. -/
def unlinkNode (s : DLXSolver) (j : Nat) : DLXSolver :=
  let s := s.setU (s.D.get j) (s.U.get j)
  let s := s.setD (s.U.get j) (s.D.get j)
  s.setColSize (s.col.get j).toNat (s.colSize.get (s.col.get j).toNat - 1)

/-- Inner loop of `cover`: `for (DLXNode* j = r->R; j != r; j = j->R)`, at `j`. -/
def coverRow (r : Nat) : Nat → Nat → DLXSolver → Option DLXSolver
  | 0, _, _ => none
  | fuel + 1, j, s =>
    if j = r then some s
    else
      let s := s.unlinkNode j
      coverRow r fuel (s.R.get j) s

/-- Outer loop of `cover`: `for (DLXNode* r = c->D; r != c; r = r->D)`, at `r`. -/
def coverCol (c : Nat) : Nat → Nat → DLXSolver → Option DLXSolver
  | 0, _, _ => none
  | fuel + 1, r, s =>
    if r = c then some s
    else
      match coverRow r fuel (s.R.get r) s with
      | none => none
      | some s => coverCol c fuel (s.D.get r) s

/-- `void cover(DLXNode* c)`. -/
def cover (fuel : Nat) (s : DLXSolver) (c : Nat) : Option DLXSolver :=
  let s := s.setL (s.R.get c) (s.L.get c)
  let s := s.setR (s.L.get c) (s.R.get c)
  coverCol c fuel (s.D.get c) s

/-- Body of the inner loop of `uncover`: link `j` back into its column. -/
def relinkNode (s : DLXSolver) (j : Nat) : DLXSolver :=
  let s := s.setColSize (s.col.get j).toNat (s.colSize.get (s.col.get j).toNat + 1)
  let s := s.setU (s.D.get j) j
  s.setD (s.U.get j) j

/-- Inner loop of `uncover`: `for (DLXNode* j = r->L; j != r; j = j->L)`, at `j`. -/
def uncoverRow (r : Nat) : Nat → Nat → DLXSolver → Option DLXSolver
  | 0, _, _ => none
  | fuel + 1, j, s =>
    if j = r then some s
    else
      let s := s.relinkNode j
      uncoverRow r fuel (s.L.get j) s

/-- Outer loop of `uncover`: `for (DLXNode* r = c->U; r != c; r = r->U)`, at `r`. -/
def uncoverCol (c : Nat) : Nat → Nat → DLXSolver → Option DLXSolver
  | 0, _, _ => none
  | fuel + 1, r, s =>
    if r = c then some s
    else
      match uncoverRow r fuel (s.L.get r) s with
      | none => none
      | some s => uncoverCol c fuel (s.U.get r) s

/-- `void uncover(DLXNode* c)`. -/
def uncover (fuel : Nat) (s : DLXSolver) (c : Nat) : Option DLXSolver :=
  match uncoverCol c fuel (s.U.get c) s with
  | none => none
  | some s =>
    let s := s.setL (s.R.get c) c
    some (s.setR (s.L.get c) c)

/-- The column-choosing loop of `search`:
`for (DLXNode* j = head.R; j != &head; j = j->R)`, at `j`, with the locals `c` and `best`. -/
def chooseCol (s : DLXSolver) : Nat → Nat → Nat → Int → Option (Nat × Int)
  | 0, _, _, _ => none
  | fuel + 1, j, c, best =>
    if j = head then some (c, best)
    else if s.colSize.get (s.col.get j).toNat < best then
      chooseCol s fuel (s.R.get j) j (s.colSize.get (s.col.get j).toNat)
    else chooseCol s fuel (s.R.get j) c best

/-- The loop `for (DLXNode* j = r->R; j != r; j = j->R) cover(colHead[j->col]);`, at `j`. -/
def coverRowCols (r : Nat) : Nat → Nat → DLXSolver → Option DLXSolver
  | 0, _, _ => none
  | fuel + 1, j, s =>
    if j = r then some s
    else
      match cover fuel s (s.colHead.get (s.col.get j).toNat) with
      | none => none
      | some s => coverRowCols r fuel (s.R.get j) s

/-- The loop `for (DLXNode* j = r->L; j != r; j = j->L) uncover(colHead[j->col]);`, at `j`. -/
def uncoverRowCols (r : Nat) : Nat → Nat → DLXSolver → Option DLXSolver
  | 0, _, _ => none
  | fuel + 1, j, s =>
    if j = r then some s
    else
      match uncover fuel s (s.colHead.get (s.col.get j).toNat) with
      | none => none
      | some s => uncoverRowCols r fuel (s.L.get j) s

mutual

/-- `bool search()`; the result is the returned flag and the solver afterwards. -/
def search : Nat → DLXSolver → Option (Bool × DLXSolver)
  | 0, _ => none
  | fuel + 1, s =>
    if s.R.get head = head then
      some (true, { s with outRows := s.solution.map s.row.get })
    else
      match chooseCol s fuel (s.R.get head) null INT_MAX with
      | none => none
      | some (c, best) =>
        if c = null ∨ best = 0 then some (false, s)
        else
          match cover fuel s c with
          | none => none
          | some s => searchRows c fuel (s.D.get c) s

/-- The row loop of `search`: `for (DLXNode* r = c->D; r != c; r = r->D)`, at `r`, followed
by `uncover(c); return false;`. -/
def searchRows (c : Nat) : Nat → Nat → DLXSolver → Option (Bool × DLXSolver)
  | 0, _, _ => none
  | fuel + 1, r, s =>
    if r = c then
      match uncover fuel s c with
      | none => none
      | some s => some (false, s)
    else
      let s := s.pushSolution r
      match coverRowCols r fuel (s.R.get r) s with
      | none => none
      | some s =>
        match search fuel s with
        | none => none
        | some (true, s) => some (true, s)
        | some (false, s) =>
          match uncoverRowCols r fuel (s.L.get r) s with
          | none => none
          | some s =>
            let s := s.popSolution
            searchRows c fuel (s.D.get r) s

end

end DLXSolver

/-- `static inline int BoxIndex(int r, int c)`. -/
def BoxIndex (r c : Nat) : Nat := (r / 3) * 3 + (c / 3)

/-- `struct MapRow { int r,c,v; }`. -/
structure MapRow where
  r : Nat
  c : Nat
  v : Nat
deriving DecidableEq, Repr, Inhabited

/-- An `int[9][9]` array, read at indices below 9. -/
abbrev Grid := Nat → Nat → Int

/-- The locals `dlx`, `mapRows`, `rowID` carried by the encoding loops. -/
structure Enc where
  dlx : DLXSolver
  mapRows : List MapRow
  rowID : Int

/-- Body of the loop `for (int v=1; v<=9; v++)` of `SolveSudokuDLX`. -/
def encodeDigit (input : Grid) (r c : Nat) (e : Enc) (v : Nat) : Enc :=
  if input r c ≠ 0 ∧ input r c ≠ (v : Int) then e
  else
    let cell := r * 9 + c
    let rowC := 81 + r * 9 + (v - 1)
    let colC := 162 + c * 9 + (v - 1)
    let boxC := 243 + BoxIndex r c * 9 + (v - 1)
    { dlx := e.dlx.addRow e.rowID [cell, rowC, colC, boxC]
      mapRows := e.mapRows ++ [⟨r, c, v⟩]
      rowID := e.rowID + 1 }

/-- Body of the loop `for (int c=0;c<9;c++)`. -/
def encodeCell (input : Grid) (r : Nat) (e : Enc) (c : Nat) : Enc :=
  (List.range' 1 9).foldl (encodeDigit input r c) e

/-- Body of the loop `for (int r=0;r<9;r++)`. -/
def encodeRow (input : Grid) (e : Enc) (r : Nat) : Enc :=
  (List.range 9).foldl (encodeCell input r) e

/-- The three nested encoding loops of `SolveSudokuDLX`, after `dlx.init(324)`. -/
def encode (input : Grid) : Enc :=
  (List.range 9).foldl (encodeRow input) ⟨DLXSolver.new.init 324, [], 0⟩

/-- Body of `for (int id : dlx.outRows)`: `tmp[m.r][m.c] = m.v` for `m = mapRows[id]`. -/
def decodeStep (mapRows : List MapRow) (tmp : Grid) (id : Int) : Grid :=
  let m := mapRows.getD id.toNat default
  Function.update tmp m.r (Function.update (tmp m.r) m.c (m.v : Int))

/-- `bool SolveSudokuDLX(const int input[9][9], int result[9][9])`: the returned flag and
the contents of `result` afterwards; `none` when the fuel runs out. -/
def SolveSudokuDLX (fuel : Nat) (input result : Grid) : Option (Bool × Grid) :=
  let e := encode input
  match e.dlx.search fuel with
  | none => none
  | some (false, _) => some (false, result)
  | some (true, dlx) =>
    let tmp : Grid := dlx.outRows.foldl (decodeStep e.mapRows) (fun _ _ => 0)
    some (true, fun r c => if r < 9 ∧ c < 9 then tmp r c else result r c)

end Sudoku

/-! Vocabulary of the proofs: the abstract state of the matrix, the invariants of the
solver, and the predicates in which the properties of `SolveSudokuDLX` are stated. -/

namespace Sudoku

/-- `Seg nx pv a l b`: following `nx` from `a` passes through exactly the nodes of `l`, in
order, and arrives at `b`; `pv` is the way back. -/
def Seg (nx pv : Nat → Nat) : Nat → List Nat → Nat → Prop
  | a, [], b => nx a = b ∧ pv b = a
  | a, x :: xs, b => nx a = x ∧ pv x = a ∧ Seg nx pv x xs b

namespace DLXSolver

/-- The column index stored in node `j`, as the solver uses it to index `colSize` and
`colHead` (`colSize[j->col]`, `colHead[j->col]`). -/
def colN (s : DLXSolver) (j : Nat) : Nat := (s.col.get j).toNat

end DLXSolver

/-- The node addresses of each row added so far, in the order of their creation. -/
abbrev Layout := List (List Nat)

/-- The nodes that follow `r` on its row ring, up to `r` itself: the nodes the loop
`for (j = r->R; j != r; j = j->R)` visits. -/
def rowRest (rows : Layout) (r : Nat) : List Nat :=
  match rows.find? (fun row => decide (r ∈ row)) with
  | none => []
  | some row => (row.dropWhile (fun x => decide (x ≠ r))).tail ++ row.takeWhile (fun x => decide (x ≠ r))

/-- The part of the structure that `cover`, `uncover` and `search` never change: the
addresses of head, column headers and nodes are distinct, headers and nodes carry their
column index, and the nodes of each row form a horizontal ring with distinct columns. -/
structure Static (rows : Layout) (s : DLXSolver) : Prop where
  addrs : (null :: head :: ((List.range s.nCols).map s.colHead.get ++ rows.flatten)).Nodup
  hcol : ∀ d, d < s.nCols → s.colN (s.colHead.get d) = d
  ncol : ∀ j, j ∈ rows.flatten → s.colN j < s.nCols
  rring : ∀ row, row ∈ rows → ∀ l1 r l2, row = l1 ++ r :: l2 →
    Seg s.R.get s.L.get r (l2 ++ l1) r
  rcols : ∀ row, row ∈ rows → (row.map s.colN).Nodup

/-- Vertical links stay inside a column: the nodes above and below any node carry the
same column index as the node. -/
def DLXSolver.Closed (s : DLXSolver) : Prop :=
  ∀ x, s.colN (s.U.get x) = s.colN x ∧ s.colN (s.D.get x) = s.colN x

/-- The vertical rings: `V d` lists the nodes linked in column `d`, top to bottom. -/
structure VInv (rows : Layout) (V : Nat → List Nat) (s : DLXSolver) : Prop where
  vr : ∀ d, d < s.nCols →
    Seg s.D.get s.U.get (s.colHead.get d) (V d) (s.colHead.get d)
  vr_nodup : ∀ d, (V d).Nodup
  vr_mem : ∀ d j, j ∈ V d → j ∈ rows.flatten ∧ s.colN j = d
  size : ∀ d, d < s.nCols → s.colSize.get d = ((V d).length : Int)
  closed : s.Closed

/-- The abstract state of the matrix: the columns on the header ring, in ring order, and
for every column the nodes on its vertical ring. -/
structure Abs where
  active : List Nat
  vring : Nat → List Nat

/-- The solver state `s` represents the abstract state `a` of the matrix `rows`. -/
structure Rep (rows : Layout) (a : Abs) (s : DLXSolver) : Prop where
  hring : Seg s.R.get s.L.get head (a.active.map s.colHead.get) head
  act_nodup : a.active.Nodup
  act_lt : ∀ d, d ∈ a.active → d < s.nCols
  vinv : VInv rows a.vring s
  live : ∀ row, row ∈ rows → ∀ j, j ∈ row → s.colN j ∈ a.active →
    (j ∈ a.vring (s.colN j) ↔ ∀ j', j' ∈ row → s.colN j' ∈ a.active)

/-- The nodes that `cover` unlinks when it covers column `c`. -/
def coverNodes (rows : Layout) (a : Abs) (c : Nat) : List Nat :=
  (a.vring c).flatMap (rowRest rows)

/-- The abstract effect of `cover` on column `c`. -/
def coverAbs (rows : Layout) (a : Abs) (c : Nat) : Abs where
  active := a.active.erase c
  vring := fun d => (a.vring d).filter (fun x => decide (x ∉ coverNodes rows a c))

open DLXSolver

namespace DLXSolver

/-- `Frame s t`: `t` differs from `s` at most in the links `L`, `R`, `U`, `D` and in the
column sizes. -/
structure Frame (s t : DLXSolver) : Prop where
  nCols : t.nCols = s.nCols
  colHead : t.colHead = s.colHead
  row : t.row = s.row
  col : t.col = s.col
  next : t.next = s.next
  solution : t.solution = s.solution
  outRows : t.outRows = s.outRows

/-- The first two statements of `cover`: take the header `c` off the header ring. -/
def unlinkHeader (s : DLXSolver) (c : Nat) : DLXSolver :=
  let s := s.setL (s.R.get c) (s.L.get c)
  s.setR (s.L.get c) (s.R.get c)

/-- The last two statements of `uncover`: put the header `c` back on the header ring. -/
def relinkHeader (s : DLXSolver) (c : Nat) : DLXSolver :=
  let s := s.setL (s.R.get c) c
  s.setR (s.L.get c) c

end DLXSolver

/-- The state reached by `cover` on column `c`. -/
def coverState (rows : Layout) (a : Abs) (s : DLXSolver) (c : Nat) : DLXSolver :=
  (coverNodes rows a c).foldl DLXSolver.unlinkNode (s.unlinkHeader (s.colHead.get c))

/-- The abstract state and the solver state after covering the columns `ds` one after the
other. -/
def coverAll (rows : Layout) (ds : List Nat) (z : Abs × DLXSolver) : Abs × DLXSolver :=
  ds.foldl (fun z d => (coverAbs rows z.1 d, coverState rows z.1 z.2 d)) z

/-- A set of rows of the matrix that covers every column of `A` exactly once. -/
def IsCover (rows : Layout) (cn : Nat → Nat) (A : List Nat) (P : List (List Nat)) : Prop :=
  (∀ p, p ∈ P → p ∈ rows) ∧ (P.flatMap (fun p => p.map cn)).Perm A

/-- The columns still to be covered once the row of node `r` has been chosen. -/
def afterRow (rows : Layout) (cn : Nat → Nat) (A : List Nat) (r : Nat) : List Nat :=
  ((r :: rowRest rows r).map cn).foldl List.erase A

/-- Fuel that suffices for `search` on a state with `k` active columns. -/
def fuelBound (rows : Layout) (k : Nat) : Nat := (k + 1) * (3 * rows.flatten.length + 4)

/-- What a successful `search` started in state `s` has produced: rows were pushed on the
solution stack, `outRows` lists their ids, and the rows form an exact cover of the columns
that were active. -/
def Found (rows : Layout) (a : Abs) (s t : DLXSolver) : Prop :=
  ∃ picks P, t.solution = s.solution ++ picks ∧ t.outRows = t.solution.map s.row.get ∧
    List.Forall₂ (fun r p => r ∈ p) picks P ∧ IsCover rows s.colN a.active P

/-- The contract of `search` for a call in state `s`. -/
def SearchOk (rows : Layout) (a : Abs) (s : DLXSolver) (res : Bool × DLXSolver) : Prop :=
  (res.1 = true → Found rows a s res.2) ∧
  (res.1 = false → res.2 = s ∧ ∀ P, ¬ IsCover rows s.colN a.active P)

/-- The contract of the row loop of `search`, entered with the rows `rest` still to try. -/
def RowsOk (rows : Layout) (a : Abs) (s : DLXSolver) (rest : List Nat)
    (res : Bool × DLXSolver) : Prop :=
  (res.1 = true → Found rows a s res.2) ∧
  (res.1 = false → res.2 = s ∧
    ∀ r, r ∈ rest → ∀ P, ¬ IsCover rows s.colN (afterRow rows s.colN a.active r) P)

/-- `search` meets its contract when run with `fuel`. -/
def SearchSpecAt (rows : Layout) (fuel : Nat) : Prop :=
  ∀ a s, Static rows s → Rep rows a s → fuelBound rows a.active.length ≤ fuel →
    ∃ res, search fuel s = some res ∧ SearchOk rows a s res

/-- The row loop of `search` meets its contract when run with `fuel`, entered right after
`cover(c)` or after a row was tried and undone. -/
def RowsSpecAt (rows : Layout) (fuel : Nat) : Prop :=
  ∀ a s c rest p, Static rows s → Rep rows a s → c ∈ a.active →
    Seg (coverState rows a s c).D.get (coverState rows a s c).U.get p rest (s.colHead.get c) →
    (∀ r, r ∈ rest → r ∈ a.vring c) →
    a.active.length * (3 * rows.flatten.length + 4) + rest.length + 1 ≤ fuel →
    ∃ res, searchRows (s.colHead.get c) fuel ((coverState rows a s c).D.get p)
      (coverState rows a s c) = some res ∧ RowsOk rows a s rest res

/-- The abstract state of a freshly built matrix: every column is on the header ring, and
the ring of a column holds the nodes of that column in the order of their creation. -/
def builtAbs (rows : Layout) (s : DLXSolver) : Abs where
  active := List.range s.nCols
  vring := fun d => rows.flatten.filter (fun j => decide (s.colN j = d))

/-- The invariant of the construction by `init` and `addRow`. -/
structure Built (rows : Layout) (s : DLXSolver) : Prop where
  static : Static rows s
  rep : Rep rows (builtAbs rows s) s
  bounded : ∀ x, s.U.get x < s.next ∧ s.D.get x < s.next
  alloc : ∀ x, x ∈ (List.range s.nCols).map s.colHead.get ++ rows.flatten → x < s.next
  next_ge : 2 ≤ s.next

/-- The row ids and column lists of the rows of the matrix, as stored in the nodes. -/
def RowTags (rows : Layout) (tags : List (Int × List Nat)) (s : DLXSolver) : Prop :=
  List.Forall₂ (fun row t => row.map s.colN = t.2 ∧ ∀ j, j ∈ row → s.row.get j = t.1) rows tags

/-- The invariant of the loop of `init(n)` after `i` headers have been created. -/
structure InitInv (n i : Nat) (s : DLXSolver) : Prop where
  nCols : s.nCols = n
  next : s.next = 2 + i
  colHead : ∀ d, d < i → s.colHead.get d = 2 + d
  colN : ∀ d, d < i → s.colN (2 + d) = d
  hring : Seg s.R.get s.L.get head ((List.range i).map (fun d => 2 + d)) head
  self : ∀ d, d < i → s.U.get (2 + d) = 2 + d ∧ s.D.get (2 + d) = 2 + d
  size : ∀ d, s.colSize.get d = 0
  closed : s.Closed
  bounded : ∀ x, s.U.get x < s.next ∧ s.D.get x < s.next
  sol : s.solution = []

/-- The part of `init` before its loop. -/
def initReset (s : DLXSolver) (cols : Nat) : DLXSolver :=
  let s := { s with nCols := cols, colSize := Mem.fill cols 0, colHead := Mem.fill cols null }
  let s := s.setR head head
  let s := s.setL head head
  let s := s.setD head head
  s.setU head head

/-- The four columns that the encoder gives the row tagged `(r, c, v)`. -/
def colsOf (m : MapRow) : List Nat :=
  [m.r * 9 + m.c, 81 + m.r * 9 + (m.v - 1), 162 + m.c * 9 + (m.v - 1),
    243 + BoxIndex m.r m.c * 9 + (m.v - 1)]

/-- The test of the encoder: the cell is empty or already holds the digit. -/
def Allowed (input : Grid) (m : MapRow) : Prop :=
  input m.r m.c = 0 ∨ input m.r m.c = (m.v : Int)

instance (input : Grid) (m : MapRow) : Decidable (Allowed input m) := by
  unfold Allowed; infer_instance

/-- Row ids and column lists of the rows added for the tags `ms`, the first id being `k`. -/
def tagsFrom (k : Nat) : List MapRow → List (Int × List Nat)
  | [] => []
  | m :: ms => ((k : Int), colsOf m) :: tagsFrom (k + 1) ms

/-- The tags of the rows the encoder emits for one cell. -/
def cellTags (input : Grid) (r c : Nat) : List MapRow :=
  ((List.range' 1 9).filter (fun v => decide (Allowed input ⟨r, c, v⟩))).map (fun v => ⟨r, c, v⟩)

/-- The tags of all rows the encoder emits, in the order of emission. -/
def allTags (input : Grid) : List MapRow :=
  (List.range 9).flatMap (fun r => (List.range 9).flatMap (fun c => cellTags input r c))

/-- The invariant of the encoding loops. -/
structure EncInv (e : Enc) : Prop where
  built : ∃ rows, Built rows e.dlx ∧ RowTags rows (tagsFrom 0 e.mapRows) e.dlx
  nCols : e.dlx.nCols = 324
  rowID : e.rowID = (e.mapRows.length : Int)
  sol : e.dlx.solution = []

/-- How many of the 9 cells of row `r` hold the digit `v`. -/
def countRow (g : Grid) (r v : Nat) : Nat :=
  ((List.range 9).filter (fun c => decide (g r c = (v : Int)))).length

/-- How many of the 9 cells of column `c` hold the digit `v`. -/
def countCol (g : Grid) (c v : Nat) : Nat :=
  ((List.range 9).filter (fun r => decide (g r c = (v : Int)))).length

/-- How many of the 9 cells of the 3x3 box `b` hold the digit `v`; the boxes are numbered
as by `BoxIndex`. -/
def countBox (g : Grid) (b v : Nat) : Nat :=
  ((List.range 9).filter
    (fun i => decide (g (b / 3 * 3 + i / 3) (b % 3 * 3 + i % 3) = (v : Int)))).length

/-- A completed grid that obeys the rules: every cell holds a digit 1..9 and every row,
column and 3x3 box holds each digit exactly once. -/
def ValidGrid (g : Grid) : Prop :=
  (∀ r c, r < 9 → c < 9 → 1 ≤ g r c ∧ g r c ≤ 9) ∧
  ∀ v, 1 ≤ v → v ≤ 9 → ∀ k, k < 9 →
    countRow g k v = 1 ∧ countCol g k v = 1 ∧ countBox g k v = 1

/-- The grid `g` keeps every given (non-zero cell) of `input`. -/
def Agrees (input g : Grid) : Prop :=
  ∀ r c, r < 9 → c < 9 → input r c ≠ 0 → g r c = input r c

/-- The decoding loop, run on the tags of the chosen rows. -/
def decodeTags (M : List MapRow) (tmp : Grid) : Grid :=
  M.foldl (fun tmp m => Function.update tmp m.r (Function.update (tmp m.r) m.c (m.v : Int))) tmp

/-- The tags of the rows of an exact cover of the 324 columns. -/
structure CoverTags (M : List MapRow) : Prop where
  ok : ∀ m, m ∈ M → m.r < 9 ∧ m.c < 9 ∧ 1 ≤ m.v ∧ m.v ≤ 9
  perm : (M.flatMap colsOf).Perm (List.range 324)

/-- The 81 tags `(r, c, g[r][c])` of a completed grid, cell by cell. -/
def gridTags (g : Grid) : List MapRow :=
  (List.range 81).map (fun k => ⟨k / 9, k % 9, (g (k / 9) (k % 9)).toNat⟩)

/-- Fuel that suffices for every call of `SolveSudokuDLX`: the matrix has at most
`729 * 4` nodes and 324 columns. -/
def solveFuel : Nat := 2844400

/-- The tags `mapRows[id]` of the row ids listed in `outRows`. -/
def pickedTags (mapRows : List MapRow) (dlx : DLXSolver) : List MapRow :=
  dlx.outRows.map (fun id => mapRows.getD id.toNat default)

/-- What the encoding loops of `SolveSudokuDLX` have built, for the node layout `rows`. -/
structure Encoded (input : Grid) (rows : Layout) : Prop where
  built : Built rows (encode input).dlx
  tags : RowTags rows (tagsFrom 0 (allTags input)) (encode input).dlx
  nCols : (encode input).dlx.nCols = 324
  sol : (encode input).dlx.solution = []
  mapRows : (encode input).mapRows = allTags input
  rowID : (encode input).rowID = ((allTags input).length : Int)
  size : rows.flatten.length ≤ 2916

/-- A completed grid: the standard band pattern, with every digit shifted by `k`. -/
def shiftGrid (k : Nat) : Grid :=
  fun r c => ((((r % 3) * 3 + r / 3 + c + k) % 9 + 1 : Nat) : Int)

/-- Executable test of `ValidGrid`. -/
def validB (g : Grid) : Bool :=
  (List.range 9).all (fun r => (List.range 9).all (fun c => decide (1 ≤ g r c ∧ g r c ≤ 9))) &&
  (List.range' 1 9).all (fun v => (List.range 9).all (fun k =>
    decide (countRow g k v = 1 ∧ countCol g k v = 1 ∧ countBox g k v = 1)))

/-- The empty grid. -/
def emptyGrid : Grid := fun _ _ => 0

/-- The grid whose only clue is the digit `v` at cell `(r, c)`. -/
def clueGrid (r c : Nat) (v : Int) : Grid :=
  fun r' c' => if r' = r ∧ c' = c then v else 0

/-- The matrix built by `init(n)` followed by one call `addRow(id, cols)` for each entry
`(id, cols)` of `rs`. -/
def buildMatrix (n : Nat) (rs : List (Int × List Nat)) : DLXSolver :=
  rs.foldl (fun s r => s.addRow r.1 r.2) (DLXSolver.new.init n)

/-- Two distinct cells of one row, one column or one 3x3 box hold the same non-zero value. -/
def HasDuplicate (input : Grid) : Prop :=
  ∃ r c r' c', r < 9 ∧ c < 9 ∧ r' < 9 ∧ c' < 9 ∧ (r ≠ r' ∨ c ≠ c') ∧
    (r = r' ∨ c = c' ∨ BoxIndex r c = BoxIndex r' c') ∧
    input r c ≠ 0 ∧ input r c = input r' c'

/-- The grid with `grid[0][0] = grid[0][1] = 5` and all other cells 0. -/
def dupGrid : Grid := fun r c => if r = 0 ∧ c < 2 then 5 else 0

/-- The columns of the row that the encoder added with id `id`: those of the tag
`mapRows[id]`. -/
def rowCols (e : Enc) (id : Int) : List Nat :=
  colsOf (e.mapRows.getD id.toNat default)

/-- What a successful search on the encoded matrix leaves in `outRows`: ids of added rows
whose columns split the 324 columns, hence 81 pairwise disjoint rows, one for every cell. -/
def OutRowsCover (e : Enc) (outRows : List Int) : Prop :=
  (∀ id, id ∈ outRows → 0 ≤ id ∧ id < e.rowID) ∧
  (outRows.flatMap (rowCols e)).Perm (List.range 324) ∧
  outRows.length = 81 ∧
  outRows.Pairwise (fun a b => List.Disjoint (rowCols e a) (rowCols e b)) ∧
  ∀ r c, r < 9 → c < 9 → ∃ id, id ∈ outRows ∧
    (e.mapRows.getD id.toNat default).r = r ∧ (e.mapRows.getD id.toNat default).c = c

/-- The tag `mapRows[id]` of the row that the encoder added with id `id`. -/
def rowTag (e : Enc) (id : Int) : MapRow :=
  e.mapRows.getD id.toNat default

/-- The rows with the ids `ids` cover each of the 324 columns exactly once. -/
def ExactCover (e : Enc) (ids : List Int) : Prop :=
  ∀ k, k < 324 → ∃! id, id ∈ ids ∧ k ∈ rowCols e id

/-- The tags of the rows with the ids `ids` assign exactly one digit to each of the 81
cells. -/
def OneDigitPerCell (e : Enc) (ids : List Int) : Prop :=
  ∀ r c, r < 9 → c < 9 → ∃! id, id ∈ ids ∧ (rowTag e id).r = r ∧ (rowTag e id).c = c

/-- The grid that the rows with the ids `ids` stand for: the decoding loop of
`SolveSudokuDLX`, `tmp[m.r][m.c] = m.v` for `m = mapRows[id]`, run on a zero grid. -/
def gridOfRows (e : Enc) (ids : List Int) : Grid :=
  ids.foldl (decodeStep e.mapRows) (fun _ _ => 0)

/-- The place of a tag in the order of the encoding loops: cell by cell, digit by digit. -/
def tagKey (m : MapRow) : Nat := (m.r * 9 + m.c) * 9 + (m.v - 1)

/-- The nodes of the row with id `id` in the encoded matrix: `addRow` allocates them at the
four addresses from `326 + 4 * id` on (after `head` at 1 and the 324 column headers at
2..325); they carry the row id and, in this order, the cell column, the row-digit column,
the column-digit column and the box-digit column of the tag `mapRows[id]`. -/
def RowShape (e : Enc) (id : Nat) : Prop :=
  (∀ t, t < 4 → e.dlx.row.get (326 + 4 * id + t) = (id : Int)) ∧
  e.dlx.col.get (326 + 4 * id) =
    (((e.mapRows.getD id default).r * 9 + (e.mapRows.getD id default).c : Nat) : Int) ∧
  e.dlx.col.get (326 + 4 * id + 1) =
    ((81 + (e.mapRows.getD id default).r * 9 + ((e.mapRows.getD id default).v - 1) : Nat) : Int) ∧
  e.dlx.col.get (326 + 4 * id + 2) =
    ((162 + (e.mapRows.getD id default).c * 9 + ((e.mapRows.getD id default).v - 1) : Nat) : Int) ∧
  e.dlx.col.get (326 + 4 * id + 3) =
    ((243 + ((e.mapRows.getD id default).r / 3 * 3 + (e.mapRows.getD id default).c / 3) * 9 +
      ((e.mapRows.getD id default).v - 1) : Nat) : Int)

/-- The invariant of the encoding loops on the addresses of the nodes. -/
structure EncAddr (e : Enc) : Prop where
  rowID : e.rowID = (e.mapRows.length : Int)
  next : e.dlx.next = 326 + 4 * e.mapRows.length
  shape : ∀ id, id < e.mapRows.length → RowShape e id

/-- The nodes met on the way from `p` to `stop` along the links `nx`: what a loop
`for (x = p; x != stop; x = nx(x))` visits, in order. -/
def walk (nx : Nat → Nat) (stop : Nat) : Nat → Nat → Option (List Nat)
  | 0, _ => none
  | fuel + 1, p =>
    if p = stop then some [] else (walk nx stop fuel (nx p)).map (fun l => p :: l)

/-- The column headers on the header ring, in ring order: the nodes that
`for (j = head.R; j != &head; j = j->R)` visits. -/
def DLXSolver.headerRing (s : DLXSolver) (fuel : Nat) : Option (List Nat) :=
  walk s.R.get head fuel (s.R.get head)

/-- The nodes on the vertical ring of the column header `c`, top to bottom: the nodes that
`for (r = c->D; r != c; r = r->D)` visits. -/
def DLXSolver.colRing (s : DLXSolver) (fuel : Nat) (c : Nat) : Option (List Nat) :=
  walk s.D.get c fuel (s.D.get c)

/-- The live count of the column of the header or node `j`: `colSize[j->col]`. -/
def DLXSolver.sizeAt (s : DLXSolver) (j : Nat) : Int :=
  s.colSize.get (s.col.get j).toNat

/-- The invocations of `search()` made by the row loop of `search` on the column header
`c`, entered at the node `r` in the state `s`: `RowsCalls c fuel r s f' s'` says that the
loop invokes `search()` in the state `s'`, with fuel `f'`. That is the invocation for the
row of `r`, made once the columns of the row are covered, or, if that one returns false
and the columns are uncovered again, an invocation made by the rest of the loop. -/
def RowsCalls (c : Nat) : Nat → Nat → DLXSolver → Nat → DLXSolver → Prop
  | 0, _, _, _, _ => False
  | fuel + 1, r, s, f', s' =>
    r ≠ c ∧ ∃ s3,
      coverRowCols r fuel ((s.pushSolution r).R.get r) (s.pushSolution r) = some s3 ∧
      ((f' = fuel ∧ s' = s3) ∨
        ∃ s4 s5, search fuel s3 = some (false, s4) ∧
          uncoverRowCols r fuel (s4.L.get r) s4 = some s5 ∧
          RowsCalls c fuel (s5.popSolution.D.get r) s5.popSolution f' s')

/-- The invocations of `search()` made by the body of `search()` run in the state `s`:
`SearchCalls fuel s f' s'` says that it invokes `search()` in the state `s'`, with fuel
`f'`. -/
def SearchCalls : Nat → DLXSolver → Nat → DLXSolver → Prop
  | 0, _, _, _ => False
  | fuel + 1, s, f', s' =>
    s.R.get head ≠ head ∧
    ∃ c best, chooseCol s fuel (s.R.get head) null INT_MAX = some (c, best) ∧
      ¬ (c = null ∨ best = 0) ∧
      ∃ s1, cover fuel s c = some s1 ∧ RowsCalls c fuel (s1.D.get c) s1 f' s'

/-- `Invoked f0 s0 d f s`: the call of `search()` in the state `s0`, with fuel `f0`, leads,
`d` levels of recursion further down, to an invocation of `search()` in the state `s`,
with fuel `f`. The call itself is the one at level 0. -/
inductive Invoked (f0 : Nat) (s0 : DLXSolver) : Nat → Nat → DLXSolver → Prop
  | top : Invoked f0 s0 0 f0 s0
  | call {d f f' : Nat} {s s' : DLXSolver} :
      Invoked f0 s0 d f s → SearchCalls f s f' s' → Invoked f0 s0 (d + 1) f' s'

/-- The states in which the `cover` calls of the loop
`for (j = r->R; j != r; j = j->R) cover(colHead[j->col])` return, the loop being at `j` in
the state `s`. -/
def CoverRowVisits (r : Nat) : Nat → Nat → DLXSolver → DLXSolver → Prop
  | 0, _, _, _ => False
  | fuel + 1, j, s, t =>
    j ≠ r ∧ ∃ s', cover fuel s (s.colHead.get (s.col.get j).toNat) = some s' ∧
      (t = s' ∨ CoverRowVisits r fuel (s'.R.get j) s' t)

/-- The states in which the `uncover` calls of the loop
`for (j = r->L; j != r; j = j->L) uncover(colHead[j->col])` return, the loop being at `j`
in the state `s`. -/
def UncoverRowVisits (r : Nat) : Nat → Nat → DLXSolver → DLXSolver → Prop
  | 0, _, _, _ => False
  | fuel + 1, j, s, t =>
    j ≠ r ∧ ∃ s', uncover fuel s (s.colHead.get (s.col.get j).toNat) = some s' ∧
      (t = s' ∨ UncoverRowVisits r fuel (s'.L.get j) s' t)

/-- The states in which the `cover` and `uncover` calls made by the row loop of `search`
on the column header `c` return, the loop being at `r` in the state `s`; the calls made
inside the nested invocations of `search()` are not counted here. -/
def RowsVisits (c : Nat) : Nat → Nat → DLXSolver → DLXSolver → Prop
  | 0, _, _, _ => False
  | fuel + 1, r, s, t =>
    (r = c ∧ uncover fuel s c = some t) ∨
    (r ≠ c ∧
      (CoverRowVisits r fuel ((s.pushSolution r).R.get r) (s.pushSolution r) t ∨
        ∃ s3 s4,
          coverRowCols r fuel ((s.pushSolution r).R.get r) (s.pushSolution r) = some s3 ∧
          search fuel s3 = some (false, s4) ∧
          (UncoverRowVisits r fuel (s4.L.get r) s4 t ∨
            ∃ s5, uncoverRowCols r fuel (s4.L.get r) s4 = some s5 ∧
              RowsVisits c fuel (s5.popSolution.D.get r) s5.popSolution t)))

/-- The states in which the `cover` and `uncover` calls made by the body of `search()`,
run in the state `s`, return. -/
def SearchVisits : Nat → DLXSolver → DLXSolver → Prop
  | 0, _, _ => False
  | fuel + 1, s, t =>
    s.R.get head ≠ head ∧
    ∃ c best, chooseCol s fuel (s.R.get head) null INT_MAX = some (c, best) ∧
      ¬ (c = null ∨ best = 0) ∧
      ∃ s1, cover fuel s c = some s1 ∧ (t = s1 ∨ RowsVisits c fuel (s1.D.get c) s1 t)

/-- The states in which a `cover` or `uncover` call returns during the call of `search()`
in the state `s0`, with fuel `f0`, the nested invocations included. -/
def Visited (f0 : Nat) (s0 t : DLXSolver) : Prop :=
  ∃ d f s, Invoked f0 s0 d f s ∧ SearchVisits f s t

/-- A state of the matrix `rows` that differs from `s0` in links, counts and stacks only,
and that represents some abstract state. -/
def Good (rows : Layout) (s0 s : DLXSolver) : Prop :=
  Static rows s ∧ s.nCols = s0.nCols ∧ s.colHead = s0.colHead ∧ s.row = s0.row ∧
    s.col = s0.col ∧ ∃ a, Rep rows a s

/-- The invariant of the invocations of `search()`: the state is good, the rows `P` of the
nodes on the solution stack are rows of the matrix, and their columns together with the
active columns are the columns of the matrix, each once. -/
def CallInv (rows : Layout) (s0 s : DLXSolver) : Prop :=
  Static rows s ∧ s.nCols = s0.nCols ∧ s.colHead = s0.colHead ∧ s.row = s0.row ∧
    s.col = s0.col ∧
    ∃ a P, Rep rows a s ∧ List.Forall₂ (fun r p => r ∈ p) s.solution P ∧
      (∀ p, p ∈ P → p ∈ rows) ∧
      (P.flatMap (fun p => p.map s.colN) ++ a.active).Perm (List.range s.nCols)

/-- The columns of the rows on the solution stack of `s`, read off the row ids of the
stacked nodes and the table `mapRows` of the encoder. -/
def stackCols (e : Enc) (s : DLXSolver) : List Nat :=
  s.solution.flatMap (fun r => rowCols e (s.row.get r))

/-- A small matrix with 3 columns and the rows {0,1}, {0,2}, {1}, {1,2}: `head` is at
address 1, the column headers are at 2..4 and the nodes of the rows at 5..11. On it
`search` first tries the row {0,1}, fails, and then finds the cover by {0,2} and {1}. -/
def demoMatrix : DLXSolver :=
  buildMatrix 3 [(0, [0, 1]), (1, [0, 2]), (2, [1]), (3, [1, 2])]

/-- The state of the demo matrix after the first `cover` call of `search`. -/
def demoCovered : DLXSolver := (cover 19 demoMatrix 2).getD demoMatrix

/-- The state of the demo matrix at the first nested invocation of `search`. -/
def demoChild : DLXSolver :=
  (coverRowCols 5 18 ((demoCovered.pushSolution 5).R.get 5) (demoCovered.pushSolution 5)).getD
    demoMatrix

/-- Whether the row with id `id` has a node in column `k` of the matrix `s`: whether the
walk `for (i = c->D; i != c; i = i->D)` from the header `c = colHead[k]` visits a node whose
`row` field is `id`. -/
def DLXSolver.rowMeets (s : DLXSolver) (id : Int) (k : Nat) : Bool :=
  match s.colRing s.next (s.colHead.get k) with
  | some ring => ring.any (fun x => decide (s.row.get x = id))
  | none => false

/-- The rows of the matrix `e.dlx` with the ids `ids` cover each of the 324 columns exactly
once: every column ring holds a node of exactly one of them. -/
def CoversMatrix (e : Enc) (ids : List Int) : Prop :=
  ∀ k, k < 324 → ∃! id, id ∈ ids ∧ e.dlx.rowMeets id k = true

/-- The ids 0..80 of the 81 rows that the encoder emits for a solved grid, one for each
cell. -/
def solvedIds : List Int := (List.range 81).map Int.ofNat

end Sudoku

/-! Theorems. -/

namespace Sudoku

namespace Mem

variable {α : Type} [Inhabited α]

theorem get_set (m : Mem α) (i j : Nat) (v : α) :
    (m.set i v).get j = if j = i then v else m.get j := by
  induction m using Quot.ind
  exact getD_setRaw _ i j v

theorem get_set_fn (m : Mem α) (i : Nat) (v : α) :
    (m.set i v).get = Function.update m.get i v := by
  funext j
  rw [get_set, Function.update_apply]

theorem get_fill (n : Nat) (v : α) (i : Nat) :
    (fill n v).get i = if i < n then v else default := by
  show (mkArray n v).getD i default = _
  simp only [Array.getD_eq_get?, Array.getElem?_mkArray]
  split <;> rfl

theorem get_empty (i : Nat) : (empty : Mem α).get i = default := by
  show (#[] : Array α).getD i default = _
  simp

theorem ext {m m' : Mem α} (h : ∀ i, m.get i = m'.get i) : m = m' := by
  induction m using Quot.ind
  induction m' using Quot.ind
  exact Quot.sound h

theorem ext_fn {m m' : Mem α} (h : m.get = m'.get) : m = m' :=
  ext fun i => congrFun h i

theorem set_set_same (m : Mem α) (i : Nat) (v w : α) : (m.set i v).set i w = m.set i w := by
  apply ext; intro j; simp only [get_set]; split <;> rfl

theorem set_get_self (m : Mem α) (i : Nat) : m.set i (m.get i) = m := by
  apply ext; intro j; simp only [get_set]; split
  · subst_vars; rfl
  · rfl

end Mem

section SegTheory

variable {nx pv : Nat → Nat}

theorem seg_nil {a b : Nat} : Seg nx pv a [] b ↔ nx a = b ∧ pv b = a := Iff.rfl

theorem seg_cons {a x b : Nat} {xs : List Nat} :
    Seg nx pv a (x :: xs) b ↔ nx a = x ∧ pv x = a ∧ Seg nx pv x xs b := Iff.rfl

theorem seg_append {a x b : Nat} {l1 l2 : List Nat} :
    Seg nx pv a (l1 ++ x :: l2) b ↔ Seg nx pv a l1 x ∧ Seg nx pv x l2 b := by
  induction l1 generalizing a with
  | nil => simp only [List.nil_append, seg_cons, seg_nil]; tauto
  | cons y ys ih => simp only [List.cons_append, seg_cons, ih]; tauto

theorem seg_snoc {a x b : Nat} {l : List Nat} :
    Seg nx pv a (l ++ [x]) b ↔ Seg nx pv a l x ∧ nx x = b ∧ pv b = x := by
  rw [seg_append]; rfl

theorem seg_reverse {a b : Nat} {l : List Nat} (h : Seg nx pv a l b) :
    Seg pv nx b l.reverse a := by
  induction l generalizing a with
  | nil => exact ⟨h.2, h.1⟩
  | cons x xs ih =>
    obtain ⟨h1, h2, h3⟩ := h
    rw [List.reverse_cons, seg_snoc]
    exact ⟨ih h3, h2, h1⟩

theorem seg_congr {nx' pv' : Nat → Nat} {a b : Nat} {l : List Nat}
    (hn : ∀ x ∈ a :: l, nx' x = nx x) (hp : ∀ x ∈ l ++ [b], pv' x = pv x)
    (h : Seg nx pv a l b) : Seg nx' pv' a l b := by
  induction l generalizing a with
  | nil =>
    refine ⟨?_, ?_⟩
    · rw [hn a (by simp)]; exact h.1
    · rw [hp b (by simp)]; exact h.2
  | cons x xs ih =>
    obtain ⟨h1, h2, h3⟩ := h
    refine ⟨?_, ?_, ih ?_ ?_ h3⟩
    · rw [hn a (by simp)]; exact h1
    · rw [hp x (by simp)]; exact h2
    · intro y hy; exact hn y (List.mem_cons_of_mem _ hy)
    · intro y hy; exact hp y (by simp at hy ⊢; tauto)

/-- The successor of a node of the segment lies in the segment or is its end. -/
theorem seg_nx_mem {a b j : Nat} {l : List Nat} (h : Seg nx pv a l b) (hj : j ∈ l) :
    nx j ∈ l ++ [b] := by
  induction l generalizing a with
  | nil => simp at hj
  | cons x xs ih =>
    obtain ⟨_, _, h3⟩ := h
    rcases List.mem_cons.1 hj with rfl | hj'
    · cases xs with
      | nil => simp [h3.1]
      | cons y ys => simp [h3.1]
    · have := ih h3 hj'
      simp at this ⊢; tauto

/-- The predecessor of a node of the segment lies in the segment or is its start. -/
theorem seg_pv_mem {a b j : Nat} {l : List Nat} (h : Seg nx pv a l b) (hj : j ∈ l) :
    pv j ∈ a :: l := by
  have := seg_nx_mem (seg_reverse h) (List.mem_reverse.2 hj)
  simp at this ⊢; tauto

theorem seg_nx_start {a b : Nat} {l : List Nat} (h : Seg nx pv a l b) :
    nx a = (l ++ [b]).head (by simp) := by
  cases l with
  | nil => exact h.1
  | cons x xs => exact h.1

/-- A node of the segment is linked in: its neighbours point back at it. -/
theorem seg_linked {a b j : Nat} {l : List Nat} (h : Seg nx pv a l b) (hj : j ∈ l) :
    nx (pv j) = j ∧ pv (nx j) = j := by
  induction l generalizing a with
  | nil => simp at hj
  | cons x xs ih =>
    obtain ⟨h1, h2, h3⟩ := h
    rcases List.mem_cons.1 hj with rfl | hj'
    · refine ⟨by rw [h2, h1], ?_⟩
      cases xs with
      | nil => rw [h3.1, h3.2]
      | cons y ys => rw [h3.1, h3.2.1]
    · exact ih h3 hj'

/-- Unlinking a node of a segment (`nx[pv j] := nx j; pv[nx j] := pv j`) leaves the segment
without that node. -/
theorem seg_unlink {a b j : Nat} {l : List Nat} (h : Seg nx pv a l b) (hj : j ∈ l)
    (hnd : (a :: l).Nodup) (hb : b ∉ l) :
    Seg (Function.update nx (pv j) (nx j)) (Function.update pv (nx j) (pv j))
      a (l.erase j) b := by
  induction l generalizing a with
  | nil => simp at hj
  | cons x xs ih =>
    obtain ⟨h1, h2, h3⟩ := h
    have hnd' : (x :: xs).Nodup := (List.nodup_cons.1 hnd).2
    have hax : a ∉ x :: xs := (List.nodup_cons.1 hnd).1
    have hxs : x ∉ xs := (List.nodup_cons.1 hnd').1
    have hbx : b ≠ x := fun e => hb (e ▸ List.mem_cons_self _ _)
    have hbxs : b ∉ xs := fun e => hb (List.mem_cons_of_mem _ e)
    by_cases hjx : j = x
    · subst hjx
      rw [List.erase_cons_head, h2]
      cases xs with
      | nil =>
        obtain ⟨h4, h5⟩ := h3
        rw [seg_nil, h4]
        exact ⟨by simp, by simp⟩
      | cons y ys =>
        obtain ⟨h4, h5, h6⟩ := h3
        rw [h4, seg_cons]
        refine ⟨by simp, by simp, ?_⟩
        refine seg_congr ?_ ?_ h6
        · intro z hz
          rw [Function.update_noteq]
          rintro rfl
          exact hax (List.mem_cons_of_mem _ hz)
        · intro z hz
          rw [Function.update_noteq]
          rintro rfl
          have hyys : z ∉ ys := (List.nodup_cons.1 (List.nodup_cons.1 hnd').2).1
          simp at hz
          rcases hz with hz | hz
          · exact hyys hz
          · exact hb (by simp [hz])
    · have hj' : j ∈ xs := by
        rcases List.mem_cons.1 hj with e | e
        · exact absurd e hjx
        · exact e
      have hxj : ¬ x = j := fun e => hjx e.symm
      rw [List.erase_cons_tail (by simpa using hxj)]
      have hpv := seg_pv_mem h3 hj'
      have hnx := seg_nx_mem h3 hj'
      refine ⟨?_, ?_, ih h3 hj' hnd' hbxs⟩
      · rw [Function.update_noteq, h1]
        intro e; exact hax (e ▸ hpv)
      · rw [Function.update_noteq, h2]
        intro e
        rw [e] at hxs
        simp at hnx
        rcases hnx with hnx | hnx
        · exact hxs hnx
        · exact hbx (by rw [← hnx, e])

/-- Rotating a ring: if the ring starts and ends at `a`, it can be read from any of its
nodes. -/
theorem seg_rotate {a x : Nat} {l1 l2 : List Nat} (h : Seg nx pv a (l1 ++ x :: l2) a) :
    Seg nx pv x (l2 ++ a :: l1) x := by
  rw [seg_append] at h ⊢
  exact ⟨h.2, h.1⟩

end SegTheory

namespace DLXSolver

@[simp] theorem setL_L (s : DLXSolver) (p v : Nat) :
    (s.setL p v).L.get = Function.update s.L.get p v := Mem.get_set_fn _ _ _
@[simp] theorem setR_R (s : DLXSolver) (p v : Nat) :
    (s.setR p v).R.get = Function.update s.R.get p v := Mem.get_set_fn _ _ _
@[simp] theorem setU_U (s : DLXSolver) (p v : Nat) :
    (s.setU p v).U.get = Function.update s.U.get p v := Mem.get_set_fn _ _ _
@[simp] theorem setD_D (s : DLXSolver) (p v : Nat) :
    (s.setD p v).D.get = Function.update s.D.get p v := Mem.get_set_fn _ _ _

theorem unlinkNode_U (s : DLXSolver) (j : Nat) :
    (s.unlinkNode j).U.get = Function.update s.U.get (s.D.get j) (s.U.get j) := by
  simp [unlinkNode, setColSize, setD, setU, Mem.get_set_fn]

theorem unlinkNode_D (s : DLXSolver) (j : Nat) :
    (s.unlinkNode j).D.get = Function.update s.D.get (s.U.get j) (s.D.get j) := by
  simp only [unlinkNode, setColSize, setD, setU, Mem.get_set_fn]
  rw [Function.update_apply]
  split
  · rfl
  · rfl

theorem unlinkNode_colSize (s : DLXSolver) (j : Nat) :
    (s.unlinkNode j).colSize.get =
      Function.update s.colSize.get (s.colN j) (s.colSize.get (s.colN j) - 1) := by
  simp [unlinkNode, setColSize, setD, setU, Mem.get_set_fn, colN]

@[simp] theorem unlinkNode_L (s : DLXSolver) (j : Nat) : (s.unlinkNode j).L = s.L := rfl
@[simp] theorem unlinkNode_R (s : DLXSolver) (j : Nat) : (s.unlinkNode j).R = s.R := rfl
@[simp] theorem unlinkNode_col (s : DLXSolver) (j : Nat) : (s.unlinkNode j).col = s.col := rfl
@[simp] theorem unlinkNode_row (s : DLXSolver) (j : Nat) : (s.unlinkNode j).row = s.row := rfl
@[simp] theorem unlinkNode_colHead (s : DLXSolver) (j : Nat) :
    (s.unlinkNode j).colHead = s.colHead := rfl
@[simp] theorem unlinkNode_nCols (s : DLXSolver) (j : Nat) :
    (s.unlinkNode j).nCols = s.nCols := rfl
@[simp] theorem unlinkNode_next (s : DLXSolver) (j : Nat) : (s.unlinkNode j).next = s.next := rfl
@[simp] theorem unlinkNode_solution (s : DLXSolver) (j : Nat) :
    (s.unlinkNode j).solution = s.solution := rfl
@[simp] theorem unlinkNode_outRows (s : DLXSolver) (j : Nat) :
    (s.unlinkNode j).outRows = s.outRows := rfl
@[simp] theorem unlinkNode_colN (s : DLXSolver) (j x : Nat) :
    (s.unlinkNode j).colN x = s.colN x := rfl

end DLXSolver

open DLXSolver

theorem Static.head_not_node {rows : Layout} {s : DLXSolver} (h : Static rows s) {j : Nat}
    (hj : j ∈ rows.flatten) : j ≠ head ∧ j ≠ null := by
  have := h.addrs
  simp only [List.nodup_cons, List.mem_cons, List.mem_append, not_or] at this
  refine ⟨?_, ?_⟩
  · rintro rfl; exact this.2.1.2 hj
  · rintro rfl; exact this.1.2.2 hj

theorem Static.hdr_not_node {rows : Layout} {s : DLXSolver} (h : Static rows s) {d : Nat}
    (hd : d < s.nCols) : s.colHead.get d ∉ rows.flatten := by
  have := h.addrs
  simp only [List.nodup_cons, List.mem_cons, List.mem_append, not_or] at this
  have h2 := this.2.2
  rw [List.nodup_append] at h2
  intro hm
  exact h2.2.2 (List.mem_map.2 ⟨d, List.mem_range.2 hd, rfl⟩) hm

theorem Static.hdr_ne {rows : Layout} {s : DLXSolver} (h : Static rows s) {d : Nat}
    (hd : d < s.nCols) : s.colHead.get d ≠ head ∧ s.colHead.get d ≠ null := by
  have := h.addrs
  simp only [List.nodup_cons, List.mem_cons, List.mem_append, not_or] at this
  have hm : s.colHead.get d ∈ (List.range s.nCols).map s.colHead.get :=
    List.mem_map.2 ⟨d, List.mem_range.2 hd, rfl⟩
  refine ⟨?_, ?_⟩
  · intro e; rw [e] at hm; exact this.2.1.1 hm
  · intro e; rw [e] at hm; exact this.1.2.1 hm

theorem Static.hdr_inj {rows : Layout} {s : DLXSolver} (h : Static rows s) {d e : Nat}
    (hd : d < s.nCols) (he : e < s.nCols) (heq : s.colHead.get d = s.colHead.get e) :
    d = e := by
  rw [← h.hcol d hd, ← h.hcol e he, heq]

/-- `Static` only reads fields that the link surgery on columns leaves alone. -/
theorem Static.congr {rows : Layout} {s s' : DLXSolver} (h : Static rows s)
    (h1 : s'.nCols = s.nCols) (h2 : s'.colHead = s.colHead) (h3 : s'.col = s.col)
    (h4 : ∀ j, j ∈ rows.flatten → s'.R.get j = s.R.get j)
    (h5 : ∀ j, j ∈ rows.flatten → s'.L.get j = s.L.get j) : Static rows s' := by
  have hc : s'.colN = s.colN := by funext x; simp only [colN, h3]
  refine ⟨?_, ?_, ?_, ?_, ?_⟩
  · rw [h1, h2]; exact h.addrs
  · rw [h1, h2, hc]; exact h.hcol
  · rw [h1, hc]; exact h.ncol
  · intro row hrow l1 r l2 e
    have hsub : ∀ x, x ∈ r :: (l2 ++ l1) → x ∈ rows.flatten := by
      intro x hx
      refine List.mem_flatten.2 ⟨row, hrow, ?_⟩
      rw [e]; simp at hx ⊢; tauto
    refine seg_congr ?_ ?_ (h.rring row hrow l1 r l2 e)
    · intro x hx; exact h4 x (hsub x hx)
    · intro x hx; exact h5 x (hsub x (by simp at hx ⊢; tauto))
  · rw [hc]; exact h.rcols

theorem Static.unlinkNode_static {rows : Layout} {s : DLXSolver} (h : Static rows s) (j : Nat) :
    Static rows (s.unlinkNode j) :=
  h.congr rfl rfl rfl (fun _ _ => rfl) (fun _ _ => rfl)

/-- Unlinking a node that is on its column's ring removes it from that ring and leaves
all other rings as they are. -/
theorem VInv.unlinkNode_vinv {rows : Layout} {V : Nat → List Nat} {s : DLXSolver}
    (hs : Static rows s) (h : VInv rows V s) {j : Nat} (hj : j ∈ V (s.colN j)) :
    VInv rows (Function.update V (s.colN j) ((V (s.colN j)).erase j)) (s.unlinkNode j) := by
  have hjn := (h.vr_mem _ _ hj).1
  have hlt := hs.ncol j hjn
  have hseg := h.vr _ hlt
  have hnx := seg_nx_mem hseg hj
  have hpv := seg_pv_mem hseg hj
  have hcU : s.colN (s.U.get j) = s.colN j := (h.closed j).1
  have hcD : s.colN (s.D.get j) = s.colN j := (h.closed j).2
  refine ⟨?_, ?_, ?_, ?_, ?_⟩
  · intro d hd
    show Seg (s.unlinkNode j).D.get (s.unlinkNode j).U.get (s.colHead.get d) _ (s.colHead.get d)
    rw [unlinkNode_D, unlinkNode_U]
    by_cases hdj : d = s.colN j
    · subst hdj
      rw [Function.update_same]
      have hh : s.colHead.get (s.colN j) ∉ V (s.colN j) := fun hm =>
        hs.hdr_not_node hd (h.vr_mem _ _ hm).1
      exact seg_unlink hseg hj (List.nodup_cons.2 ⟨hh, h.vr_nodup _⟩) hh
    · rw [Function.update_noteq hdj]
      have hmem : ∀ x, x ∈ s.colHead.get d :: V d → s.colN x = d := by
        intro x hx
        rcases List.mem_cons.1 hx with rfl | hx
        · exact hs.hcol d hd
        · exact (h.vr_mem _ _ hx).2
      refine seg_congr ?_ ?_ (h.vr d hd)
      · intro x hx
        rw [Function.update_noteq]
        rintro rfl
        exact hdj ((hmem _ hx).symm.trans hcU)
      · intro x hx
        rw [Function.update_noteq]
        rintro rfl
        exact hdj ((hmem _ (by simp at hx ⊢; tauto)).symm.trans hcD)
  · intro d
    by_cases hdj : d = s.colN j
    · subst hdj; rw [Function.update_same]; exact (h.vr_nodup _).erase _
    · rw [Function.update_noteq hdj]; exact h.vr_nodup d
  · intro d x hx
    by_cases hdj : d = s.colN j
    · subst hdj; rw [Function.update_same] at hx
      exact h.vr_mem _ _ (List.mem_of_mem_erase hx)
    · rw [Function.update_noteq hdj] at hx; exact h.vr_mem _ _ hx
  · intro d hd
    rw [unlinkNode_colSize]
    by_cases hdj : d = s.colN j
    · subst hdj
      rw [Function.update_same, Function.update_same, h.size _ hd, List.length_erase_of_mem hj]
      have : 0 < (V (s.colN j)).length := List.length_pos_of_mem hj
      omega
    · rw [Function.update_noteq hdj, Function.update_noteq hdj]; exact h.size d hd
  · intro x
    show s.colN ((s.unlinkNode j).U.get x) = s.colN x ∧ s.colN ((s.unlinkNode j).D.get x) = s.colN x
    rw [unlinkNode_U, unlinkNode_D]
    refine ⟨?_, ?_⟩
    · rw [Function.update_apply]
      split
      · rename_i e; rw [e, hcU, hcD]
      · exact (h.closed x).1
    · rw [Function.update_apply]
      split
      · rename_i e; rw [e, hcU, hcD]
      · exact (h.closed x).2

namespace DLXSolver

theorem Frame.refl (s : DLXSolver) : Frame s s := ⟨rfl, rfl, rfl, rfl, rfl, rfl, rfl⟩

theorem Frame.trans {s t u : DLXSolver} (h1 : Frame s t) (h2 : Frame t u) : Frame s u :=
  ⟨h2.nCols.trans h1.nCols, h2.colHead.trans h1.colHead, h2.row.trans h1.row,
    h2.col.trans h1.col, h2.next.trans h1.next, h2.solution.trans h1.solution,
    h2.outRows.trans h1.outRows⟩

theorem Frame.colN {s t : DLXSolver} (h : Frame s t) : t.colN = s.colN := by
  funext x; simp only [DLXSolver.colN, h.col]

theorem foldl_unlinkNode_frame (js : List Nat) (s : DLXSolver) :
    Frame s (js.foldl unlinkNode s) ∧ (js.foldl unlinkNode s).L = s.L ∧
      (js.foldl unlinkNode s).R = s.R := by
  induction js generalizing s with
  | nil => exact ⟨Frame.refl s, rfl, rfl⟩
  | cons j js ih =>
    obtain ⟨h1, h2, h3⟩ := ih (s.unlinkNode j)
    simp only [List.foldl_cons]
    have h0 : Frame s (s.unlinkNode j) := ⟨rfl, rfl, rfl, rfl, rfl, rfl, rfl⟩
    exact ⟨Frame.trans h0 h1, h2, h3⟩

/-- Unlinking nodes of other columns leaves the vertical links of column `cN` alone. -/
theorem foldl_unlinkNode_other (cN : Nat) (js : List Nat) (s : DLXSolver) (hc : s.Closed)
    (hjs : ∀ j, j ∈ js → s.colN j ≠ cN) :
    (js.foldl unlinkNode s).Closed ∧ ∀ x, s.colN x = cN →
      (js.foldl unlinkNode s).U.get x = s.U.get x ∧
      (js.foldl unlinkNode s).D.get x = s.D.get x := by
  induction js generalizing s with
  | nil => exact ⟨hc, fun _ _ => ⟨rfl, rfl⟩⟩
  | cons j js ih =>
    have hj : s.colN j ≠ cN := hjs j (List.mem_cons_self _ _)
    have hc1 : (s.unlinkNode j).Closed := by
      intro x
      show s.colN ((s.unlinkNode j).U.get x) = s.colN x ∧
        s.colN ((s.unlinkNode j).D.get x) = s.colN x
      rw [unlinkNode_U, unlinkNode_D]
      refine ⟨?_, ?_⟩
      · rw [Function.update_apply]
        split
        · rename_i e; rw [e, (hc j).1, (hc j).2]
        · exact (hc x).1
      · rw [Function.update_apply]
        split
        · rename_i e; rw [e, (hc j).1, (hc j).2]
        · exact (hc x).2
    obtain ⟨h1, h2⟩ := ih (s.unlinkNode j) hc1 (fun j' hj' => hjs j' (List.mem_cons_of_mem _ hj'))
    refine ⟨h1, ?_⟩
    intro x hx
    obtain ⟨h3, h4⟩ := h2 x hx
    rw [List.foldl_cons, h3, h4, unlinkNode_U, unlinkNode_D]
    refine ⟨?_, ?_⟩
    · rw [Function.update_noteq]
      rintro rfl
      exact hj (((hc j).2).symm.trans hx)
    · rw [Function.update_noteq]
      rintro rfl
      exact hj (((hc j).1).symm.trans hx)

/-- The inner loop of `cover` unlinks the nodes of the row ring after `r`, in order. -/
theorem coverRow_eq {r : Nat} (rest : List Nat) (fuel p : Nat) (s : DLXSolver)
    (hseg : Seg s.R.get s.L.get p rest r) (hr : r ∉ rest) (hf : rest.length < fuel) :
    coverRow r fuel (s.R.get p) s = some (rest.foldl unlinkNode s) := by
  induction rest generalizing fuel p s with
  | nil =>
    obtain ⟨h1, _⟩ := hseg
    cases fuel with
    | zero => simp at hf
    | succ f => simp [coverRow, h1]
  | cons x xs ih =>
    obtain ⟨h1, _, h3⟩ := hseg
    cases fuel with
    | zero => simp at hf
    | succ f =>
      have hxr : x ≠ r := fun e => hr (e ▸ List.mem_cons_self _ _)
      rw [h1, coverRow, if_neg hxr]
      exact ih f x (s.unlinkNode x) h3 (fun e => hr (List.mem_cons_of_mem _ e))
        (by simpa using hf)

/-- The outer loop of `cover` walks down the ring of column `c` and, row by row, unlinks
the other nodes of each row. -/
theorem coverCol_eq {c : Nat} (rest : Nat → List Nat) (rs : List Nat) (fuel p : Nat)
    (s : DLXSolver) (hc : s.Closed) (hseg : Seg s.D.get s.U.get p rs c) (hcr : c ∉ rs)
    (hcol : ∀ x, x ∈ rs ++ [c] → s.colN x = s.colN c)
    (hrow : ∀ r, r ∈ rs → Seg s.R.get s.L.get r (rest r) r ∧ r ∉ rest r ∧
      ∀ j, j ∈ rest r → s.colN j ≠ s.colN c)
    (hf : ∀ r, r ∈ rs → (rest r).length + rs.length < fuel) (hf0 : 0 < fuel) :
    coverCol c fuel (s.D.get p) s = some ((rs.flatMap rest).foldl unlinkNode s) := by
  induction rs generalizing fuel p s with
  | nil =>
    obtain ⟨h1, _⟩ := hseg
    cases fuel with
    | zero => simp at hf0
    | succ f => simp [coverCol, h1]
  | cons r rs ih =>
    obtain ⟨h1, _, h3⟩ := hseg
    cases fuel with
    | zero => simp at hf0
    | succ f =>
      have hrc : r ≠ c := fun e => hcr (e ▸ List.mem_cons_self _ _)
      obtain ⟨hr1, hr2, hr3⟩ := hrow r (List.mem_cons_self _ _)
      have hfr := hf r (List.mem_cons_self _ _)
      simp only [List.length_cons] at hfr
      rw [h1, coverCol, if_neg hrc, coverRow_eq (rest r) f r s hr1 hr2 (by omega)]
      obtain ⟨hfr1, hfr2, hfr3⟩ := foldl_unlinkNode_frame (rest r) s
      obtain ⟨hcl, hud⟩ := foldl_unlinkNode_other (s.colN c) (rest r) s hc hr3
      have hcn := hfr1.colN
      simp only [List.flatMap_cons, List.foldl_append]
      refine ih f r _ hcl ?_ (fun e => hcr (List.mem_cons_of_mem _ e)) ?_ ?_ ?_ ?_
      · refine seg_congr ?_ ?_ h3
        · intro x hx
          refine (hud x (hcol x ?_)).2
          simp at hx ⊢; tauto
        · intro x hx
          refine (hud x (hcol x ?_)).1
          simp at hx ⊢; tauto
      · intro x hx
        rw [hcn]
        exact hcol x (by simp at hx ⊢; tauto)
      · intro r' hr'
        obtain ⟨a1, a2, a3⟩ := hrow r' (List.mem_cons_of_mem _ hr')
        rw [hfr2, hfr3, hcn]
        exact ⟨a1, a2, a3⟩
      · intro r' hr'
        have := hf r' (List.mem_cons_of_mem _ hr')
        simp only [List.length_cons] at this
        omega
      · have := hf r (List.mem_cons_self _ _)
        simp only [List.length_cons] at this
        omega

end DLXSolver

theorem flatten_nodup_unique {L : List (List Nat)} (h : L.flatten.Nodup) {r : Nat}
    {row row' : List Nat} (h1 : row ∈ L) (h2 : row' ∈ L) (hr : r ∈ row) (hr' : r ∈ row') :
    row = row' := by
  induction L with
  | nil => simp at h1
  | cons x xs ih =>
    rw [List.flatten_cons, List.nodup_append] at h
    obtain ⟨_, hxs, hdis⟩ := h
    rcases List.mem_cons.1 h1 with rfl | h1'
    · rcases List.mem_cons.1 h2 with rfl | h2'
      · rfl
      · exact absurd (List.mem_flatten.2 ⟨row', h2', hr'⟩) (fun hm => hdis hr hm)
    · rcases List.mem_cons.1 h2 with rfl | h2'
      · exact absurd (List.mem_flatten.2 ⟨row, h1', hr⟩) (fun hm => hdis hr' hm)
      · exact ih hxs h1' h2'

theorem takeWhile_ne_split (l1 l2 : List Nat) (r : Nat) (h : r ∉ l1) :
    (l1 ++ r :: l2).takeWhile (fun x => decide (x ≠ r)) = l1 ∧
      (l1 ++ r :: l2).dropWhile (fun x => decide (x ≠ r)) = r :: l2 := by
  induction l1 with
  | nil => simp [List.takeWhile, List.dropWhile]
  | cons x xs ih =>
    have hx : x ≠ r := fun e => h (e ▸ List.mem_cons_self _ _)
    obtain ⟨h1, h2⟩ := ih (fun e => h (List.mem_cons_of_mem _ e))
    simp only [List.cons_append, List.takeWhile_cons, List.dropWhile_cons, hx, ne_eq,
      not_false_eq_true, decide_True, if_true]
    simp only [ne_eq] at h1 h2
    exact ⟨by rw [h1], h2⟩

theorem Static.flatten_nodup {rows : Layout} {s : DLXSolver} (h : Static rows s) :
    rows.flatten.Nodup := by
  have := h.addrs
  simp only [List.nodup_cons] at this
  exact (List.nodup_append.1 this.2.2).2.1

theorem Static.row_nodup {rows : Layout} {s : DLXSolver} (h : Static rows s)
    {row : List Nat} (hrow : row ∈ rows) : row.Nodup :=
  (List.nodup_flatten.1 h.flatten_nodup).1 row hrow

theorem Static.rowRest_eq {rows : Layout} {s : DLXSolver} (h : Static rows s)
    {row : List Nat} (hrow : row ∈ rows) {l1 l2 : List Nat} {r : Nat}
    (e : row = l1 ++ r :: l2) : rowRest rows r = l2 ++ l1 := by
  have hr : r ∈ row := by rw [e]; simp
  have hnd := h.row_nodup hrow
  have hr1 : r ∉ l1 := by
    rw [e] at hnd
    have := (List.nodup_append.1 hnd).2.2
    intro hm
    exact this hm (List.mem_cons_self _ _)
  unfold rowRest
  cases hf : rows.find? (fun row => decide (r ∈ row)) with
  | none =>
    rw [List.find?_eq_none] at hf
    have := hf row hrow
    simp [hr] at this
  | some row' =>
    have hp := List.find?_some hf
    have hm := List.mem_of_find?_eq_some hf
    have hr' : r ∈ row' := by simpa using hp
    have : row = row' := flatten_nodup_unique h.flatten_nodup hrow hm hr hr'
    subst this
    obtain ⟨h1, h2⟩ := takeWhile_ne_split l1 l2 r hr1
    simp only [e, h1, h2, List.tail_cons]

/-- What the static structure says about the row of a node `r`. -/
theorem Static.row_facts {rows : Layout} {s : DLXSolver} (h : Static rows s) {r : Nat}
    (hr : r ∈ rows.flatten) :
    ∃ row, row ∈ rows ∧ r ∈ row ∧ (∀ x, x ∈ row ↔ x = r ∨ x ∈ rowRest rows r) ∧
      Seg s.R.get s.L.get r (rowRest rows r) r ∧ r ∉ rowRest rows r ∧
      (rowRest rows r).Nodup ∧
      (∀ j, j ∈ rowRest rows r → s.colN j ≠ s.colN r) ∧
      ((rowRest rows r).map s.colN).Nodup := by
  obtain ⟨row, hrow, hrr⟩ := List.mem_flatten.1 hr
  obtain ⟨l1, l2, e⟩ := List.append_of_mem hrr
  have hrest := h.rowRest_eq hrow e
  have hnd := h.row_nodup hrow
  have hcols := h.rcols row hrow
  rw [e] at hnd hcols
  have hperm : (l1 ++ r :: l2).Perm (r :: (l2 ++ l1)) := by
    refine List.perm_middle.trans (List.Perm.cons _ List.perm_append_comm)
  have hnd' := hperm.nodup_iff.1 hnd
  have hcols' := (hperm.map s.colN).nodup_iff.1 hcols
  rw [List.map_cons] at hcols'
  refine ⟨row, hrow, hrr, ?_, ?_, ?_, ?_, ?_, ?_⟩
  · intro x
    rw [hrest, e, hperm.mem_iff, List.mem_cons]
  · rw [hrest]; exact h.rring row hrow l1 r l2 e
  · rw [hrest]; exact (List.nodup_cons.1 hnd').1
  · rw [hrest]; exact (List.nodup_cons.1 hnd').2
  · rw [hrest]
    intro j hj e'
    exact (List.nodup_cons.1 hcols').1 (e' ▸ List.mem_map_of_mem _ hj)
  · rw [hrest]; exact (List.nodup_cons.1 hcols').2

/-- Unlinking a list of distinct nodes, each on its column's ring, filters them out of
every ring. -/
theorem VInv.unlinkFold {rows : Layout} (js : List Nat) (V : Nat → List Nat) (s : DLXSolver)
    (hs : Static rows s) (h : VInv rows V s) (hnd : js.Nodup)
    (hjs : ∀ j, j ∈ js → j ∈ V (s.colN j)) :
    VInv rows (fun d => (V d).filter (fun x => decide (x ∉ js)))
      (js.foldl DLXSolver.unlinkNode s) := by
  induction js generalizing V s with
  | nil =>
    have : (fun d => (V d).filter (fun x => decide (x ∉ ([] : List Nat)))) = V := by
      funext d; simp
    rw [this]; exact h
  | cons j js ih =>
    have hj := hjs j (List.mem_cons_self _ _)
    have hjnd := List.nodup_cons.1 hnd
    have h1 := h.unlinkNode_vinv hs hj
    have key := ih (Function.update V (s.colN j) ((V (s.colN j)).erase j)) (s.unlinkNode j)
      (hs.unlinkNode_static j) h1 hjnd.2 (by
        intro j' hj'
        have hne : j' ≠ j := fun e => hjnd.1 (e ▸ hj')
        have hm := hjs j' (List.mem_cons_of_mem _ hj')
        show j' ∈ Function.update V (s.colN j) ((V (s.colN j)).erase j) (s.colN j')
        by_cases hc : s.colN j' = s.colN j
        · rw [hc, Function.update_same]
          rw [hc] at hm
          exact (List.mem_erase_of_ne hne).2 hm
        · rw [Function.update_noteq hc]; exact hm)
    have hfun : (fun d => (Function.update V (s.colN j) ((V (s.colN j)).erase j) d).filter
        (fun x => decide (x ∉ js))) =
        (fun d => (V d).filter (fun x => decide (x ∉ j :: js))) := by
      funext d
      by_cases hd : d = s.colN j
      · subst hd
        rw [Function.update_same, (h.vr_nodup _).erase_eq_filter, List.filter_filter]
        apply List.filter_congr
        intro x _
        by_cases hx : x = j <;> simp [hx]
      · rw [Function.update_noteq hd]
        apply List.filter_congr
        intro x hx
        have : x ≠ j := by
          rintro rfl
          exact hd ((h.vr_mem _ _ hx).2).symm
        simp [this]
    rw [hfun] at key
    exact key

namespace DLXSolver

theorem cover_def (fuel : Nat) (s : DLXSolver) (c : Nat) :
    cover fuel s c = coverCol c fuel ((s.unlinkHeader c).D.get c) (s.unlinkHeader c) := rfl

theorem unlinkHeader_L (s : DLXSolver) (c : Nat) :
    (s.unlinkHeader c).L.get = Function.update s.L.get (s.R.get c) (s.L.get c) := by
  simp [unlinkHeader, setL, setR, Mem.get_set_fn]

theorem unlinkHeader_R (s : DLXSolver) (c : Nat) :
    (s.unlinkHeader c).R.get = Function.update s.R.get (s.L.get c) (s.R.get c) := by
  simp only [unlinkHeader, setL, setR, Mem.get_set_fn]
  rw [Function.update_apply]
  split <;> rfl

@[simp] theorem unlinkHeader_U (s : DLXSolver) (c : Nat) : (s.unlinkHeader c).U = s.U := rfl
@[simp] theorem unlinkHeader_D (s : DLXSolver) (c : Nat) : (s.unlinkHeader c).D = s.D := rfl
@[simp] theorem unlinkHeader_colSize (s : DLXSolver) (c : Nat) :
    (s.unlinkHeader c).colSize = s.colSize := rfl
@[simp] theorem unlinkHeader_colN (s : DLXSolver) (c x : Nat) :
    (s.unlinkHeader c).colN x = s.colN x := rfl

theorem unlinkHeader_frame (s : DLXSolver) (c : Nat) : Frame s (s.unlinkHeader c) :=
  ⟨rfl, rfl, rfl, rfl, rfl, rfl, rfl⟩

end DLXSolver

theorem length_le_of_nodup_subset {l m : List Nat} (hl : l.Nodup) (h : ∀ x, x ∈ l → x ∈ m) :
    l.length ≤ m.length :=
  (List.subperm_of_subset hl h).length_le

/-- The neighbours of an active header on the header ring are headers or `head`, never
nodes. -/
theorem Rep.hdr_neighbours {rows : Layout} {a : Abs} {s : DLXSolver} (hs : Static rows s)
    (h : Rep rows a s) {c : Nat} (hc : c ∈ a.active) :
    s.R.get (s.colHead.get c) ∉ rows.flatten ∧ s.L.get (s.colHead.get c) ∉ rows.flatten := by
  have hm : s.colHead.get c ∈ a.active.map s.colHead.get := List.mem_map_of_mem _ hc
  have h1 := seg_nx_mem h.hring hm
  have h2 := seg_pv_mem h.hring hm
  have key : ∀ x, x ∈ head :: a.active.map s.colHead.get → x ∉ rows.flatten := by
    intro x hx hn
    rcases List.mem_cons.1 hx with rfl | hx
    · exact (hs.head_not_node hn).1 rfl
    · obtain ⟨d, hd, rfl⟩ := List.mem_map.1 hx
      exact hs.hdr_not_node (h.act_lt d hd) hn
  exact ⟨key _ (by simp at h1 ⊢; tauto), key _ h2⟩

theorem Static.unlinkHeader_static {rows : Layout} {a : Abs} {s : DLXSolver} (hs : Static rows s)
    (h : Rep rows a s) {c : Nat} (hc : c ∈ a.active) :
    Static rows (s.unlinkHeader (s.colHead.get c)) := by
  obtain ⟨h1, h2⟩ := h.hdr_neighbours hs hc
  refine hs.congr rfl rfl rfl ?_ ?_
  · intro j hj
    rw [unlinkHeader_R, Function.update_noteq]
    rintro rfl; exact h2 hj
  · intro j hj
    rw [unlinkHeader_L, Function.update_noteq]
    rintro rfl; exact h1 hj

theorem VInv.unlinkHeader_vinv {rows : Layout} {V : Nat → List Nat} {s : DLXSolver}
    (h : VInv rows V s) (c : Nat) : VInv rows V (s.unlinkHeader c) :=
  ⟨h.vr, h.vr_nodup, h.vr_mem, h.size, h.closed⟩

/-- The rows that meet an active column on its ring have all their nodes on rings. -/
theorem Rep.coverNodes_linked {rows : Layout} {a : Abs} {s : DLXSolver} (hs : Static rows s)
    (h : Rep rows a s) {c : Nat} (hc : c ∈ a.active) {j : Nat}
    (hj : j ∈ coverNodes rows a c) :
    j ∈ a.vring (s.colN j) ∧ s.colN j ∈ a.active ∧ s.colN j ≠ c ∧ j ∈ rows.flatten := by
  obtain ⟨r, hr, hjr⟩ := List.mem_flatMap.1 hj
  obtain ⟨hrn, hrc⟩ := h.vinv.vr_mem c r hr
  obtain ⟨row, hrow, hrr, hmem, _, _, _, hne, _⟩ := hs.row_facts hrn
  have hjrow : j ∈ row := (hmem j).2 (Or.inr hjr)
  have hlive := (h.live row hrow r hrr (by rw [hrc]; exact hc)).1 (by rw [hrc]; exact hr)
  have hja := hlive j hjrow
  refine ⟨(h.live row hrow j hjrow hja).2 hlive, hja, ?_, List.mem_flatten.2 ⟨row, hrow, hjrow⟩⟩
  rw [← hrc]; exact hne j hjr

theorem Static.same_row_col {rows : Layout} {s : DLXSolver} (hs : Static rows s)
    {row : List Nat} (hrow : row ∈ rows) {x y : Nat} (hx : x ∈ row) (hy : y ∈ row)
    (e : s.colN x = s.colN y) : x = y :=
  List.inj_on_of_nodup_map (hs.rcols row hrow) hx hy e

theorem Rep.coverNodes_nodup {rows : Layout} {a : Abs} {s : DLXSolver} (hs : Static rows s)
    (h : Rep rows a s) (c : Nat) : (coverNodes rows a c).Nodup := by
  unfold coverNodes
  rw [List.nodup_flatMap]
  refine ⟨?_, ?_⟩
  · intro r hr
    obtain ⟨_, _, _, _, _, _, hnd, _⟩ := hs.row_facts (h.vinv.vr_mem c r hr).1
    exact hnd
  · refine List.Pairwise.imp_of_mem ?_ (h.vinv.vr_nodup c)
    intro r r' hr hr' hne
    show List.Disjoint (rowRest rows r) (rowRest rows r')
    intro j hj hj'
    obtain ⟨hrn, hrc⟩ := h.vinv.vr_mem c r hr
    obtain ⟨hrn', hrc'⟩ := h.vinv.vr_mem c r' hr'
    obtain ⟨row, hrow, hrr, hmem, _⟩ := hs.row_facts hrn
    obtain ⟨row', hrow', hrr', hmem', _⟩ := hs.row_facts hrn'
    have e : row = row' := flatten_nodup_unique hs.flatten_nodup hrow hrow'
      ((hmem j).2 (Or.inr hj)) ((hmem' j).2 (Or.inr hj'))
    subst e
    exact hne (hs.same_row_col hrow hrr hrr' (hrc.trans hrc'.symm))

/-- `cover` of an active column computes: the header is unlinked, then the nodes of
`coverNodes` are unlinked in order. -/
theorem Rep.cover_eq {rows : Layout} {a : Abs} {s : DLXSolver} (hs : Static rows s)
    (h : Rep rows a s) {c : Nat} (hc : c ∈ a.active) {fuel : Nat}
    (hf : rows.flatten.length < fuel) :
    cover fuel s (s.colHead.get c) =
      some ((coverNodes rows a c).foldl DLXSolver.unlinkNode
        (s.unlinkHeader (s.colHead.get c))) := by
  have hcl := h.act_lt c hc
  rw [cover_def]
  refine coverCol_eq (rowRest rows) (a.vring c) fuel _ _ h.vinv.closed (h.vinv.vr c hcl)
    ?_ ?_ ?_ ?_ (by omega)
  · intro hm; exact hs.hdr_not_node hcl (h.vinv.vr_mem _ _ hm).1
  · intro x hx
    show s.colN x = s.colN (s.colHead.get c)
    rw [hs.hcol c hcl]
    rcases List.mem_append.1 hx with hx | hx
    · exact (h.vinv.vr_mem _ _ hx).2
    · rw [List.mem_singleton.1 hx]; exact hs.hcol c hcl
  · intro r hr
    obtain ⟨hrn, hrc⟩ := h.vinv.vr_mem c r hr
    obtain ⟨row, hrow, hrr, hmem, hseg, hnr, _, hne, _⟩ := (hs.unlinkHeader_static h hc).row_facts hrn
    refine ⟨hseg, hnr, ?_⟩
    intro j hj
    show s.colN j ≠ s.colN (s.colHead.get c)
    rw [hs.hcol c hcl, ← hrc]
    exact hne j hj
  · intro r hr
    obtain ⟨hrn, hrc⟩ := h.vinv.vr_mem c r hr
    obtain ⟨row, hrow, hrr, hmem, _, hnr, hnd, hne, _⟩ := hs.row_facts hrn
    have hnd2 : (rowRest rows r ++ a.vring c).Nodup := by
      rw [List.nodup_append]
      refine ⟨hnd, h.vinv.vr_nodup c, ?_⟩
      intro x hx hx'
      exact hne x hx ((h.vinv.vr_mem c x hx').2.trans hrc.symm)
    have := length_le_of_nodup_subset hnd2 (m := rows.flatten) (by
      intro x hx
      rcases List.mem_append.1 hx with hx | hx
      · exact List.mem_flatten.2 ⟨row, hrow, (hmem x).2 (Or.inr hx)⟩
      · exact (h.vinv.vr_mem _ _ hx).1)
    rw [List.length_append] at this
    omega

theorem map_erase_of_injOn (f : Nat → Nat) (l : List Nat) (c : Nat)
    (hinj : ∀ x, x ∈ l → f x = f c → x = c) :
    (l.map f).erase (f c) = (l.erase c).map f := by
  induction l with
  | nil => rfl
  | cons x xs ih =>
    by_cases hx : x = c
    · subst hx; simp
    · have hfx : f x ≠ f c := fun e => hx (hinj x (List.mem_cons_self _ _) e)
      rw [List.map_cons, List.erase_cons_tail (by simpa using hfx),
        List.erase_cons_tail (by simpa using hx), List.map_cons,
        ih (fun y hy => hinj y (List.mem_cons_of_mem _ hy))]

theorem coverState_frame (rows : Layout) (a : Abs) (s : DLXSolver) (c : Nat) :
    Frame s (coverState rows a s c) :=
  (unlinkHeader_frame s _).trans (foldl_unlinkNode_frame _ _).1

theorem Rep.hdr_list_nodup {rows : Layout} {a : Abs} {s : DLXSolver} (hs : Static rows s)
    (h : Rep rows a s) : (head :: a.active.map s.colHead.get).Nodup := by
  rw [List.nodup_cons]
  refine ⟨?_, ?_⟩
  · intro hm
    obtain ⟨d, hd, e⟩ := List.mem_map.1 hm
    exact (hs.hdr_ne (h.act_lt d hd)).1 e
  · refine (List.nodup_map_iff_inj_on h.act_nodup).2 ?_
    intro x hx y hy e
    exact hs.hdr_inj (h.act_lt x hx) (h.act_lt y hy) e

/-- Covering an active column keeps the representation invariant and has the abstract
effect `coverAbs`. -/
theorem Rep.cover_rep {rows : Layout} {a : Abs} {s : DLXSolver} (hs : Static rows s)
    (h : Rep rows a s) {c : Nat} (hc : c ∈ a.active) :
    Static rows (coverState rows a s c) ∧ Rep rows (coverAbs rows a c) (coverState rows a s c) := by
  have hcl := h.act_lt c hc
  have hs1 := hs.unlinkHeader_static h hc
  obtain ⟨hfr, hL, hR⟩ := foldl_unlinkNode_frame (coverNodes rows a c)
    (s.unlinkHeader (s.colHead.get c))
  have hfr' := coverState_frame rows a s c
  have hs2 : Static rows (coverState rows a s c) :=
    hs1.congr hfr.nCols hfr.colHead hfr.col (fun j _ => by rw [coverState, hR])
      (fun j _ => by rw [coverState, hL])
  refine ⟨hs2, ?_⟩
  have hcn : (coverState rows a s c).colN = s.colN := hfr'.colN
  have hnd := h.hdr_list_nodup hs
  have hmc : s.colHead.get c ∈ a.active.map s.colHead.get := List.mem_map_of_mem _ hc
  refine ⟨?_, h.act_nodup.erase c,
    fun d hd => hfr'.nCols ▸ h.act_lt d (List.mem_of_mem_erase hd), ?_, ?_⟩
  · show Seg (coverState rows a s c).R.get (coverState rows a s c).L.get head
      ((a.active.erase c).map (coverState rows a s c).colHead.get) head
    rw [coverState, hL, hR, ← coverState, hfr'.colHead, unlinkHeader_L, unlinkHeader_R,
      ← map_erase_of_injOn s.colHead.get a.active c
        (fun x hx e => hs.hdr_inj (h.act_lt x hx) hcl e)]
    exact seg_unlink h.hring hmc hnd (List.nodup_cons.1 hnd).1
  · exact VInv.unlinkFold _ _ _ hs1 (h.vinv.unlinkHeader_vinv _) (h.coverNodes_nodup hs c)
      (fun j hj => (h.coverNodes_linked hs hc hj).1)
  · intro row hrow j hj hja
    rw [hcn] at hja ⊢
    have hja' : s.colN j ≠ c ∧ s.colN j ∈ a.active := (h.act_nodup.mem_erase_iff).1 hja
    show j ∈ (a.vring (s.colN j)).filter (fun x => decide (x ∉ coverNodes rows a c)) ↔
      ∀ j', j' ∈ row → s.colN j' ∈ a.active.erase c
    rw [List.mem_filter]
    constructor
    · rintro ⟨hjv, hjn⟩
      have hjn' : j ∉ coverNodes rows a c := by simpa using hjn
      have hlive := (h.live row hrow j hj hja'.2).1 hjv
      intro j' hj'
      refine (h.act_nodup.mem_erase_iff).2 ⟨?_, hlive j' hj'⟩
      intro e
      have hj'v : j' ∈ a.vring c := by
        have := (h.live row hrow j' hj' (hlive j' hj')).2 hlive
        rwa [e] at this
      obtain ⟨row', hrow', hrr', hmem', _⟩ :=
        hs.row_facts (List.mem_flatten.2 ⟨row, hrow, hj'⟩)
      have erow : row' = row := flatten_nodup_unique hs.flatten_nodup hrow' hrow hrr' hj'
      subst erow
      rcases (hmem' j).1 hj with e' | e'
      · exact hja'.1 (e' ▸ e)
      · exact hjn' (List.mem_flatMap.2 ⟨j', hj'v, e'⟩)
    · intro hall
      have hall' : ∀ j', j' ∈ row → s.colN j' ∈ a.active := fun j' hj' =>
        List.mem_of_mem_erase (hall j' hj')
      refine ⟨(h.live row hrow j hj hja'.2).2 hall', ?_⟩
      simp only [decide_eq_true_eq]
      intro hjc
      obtain ⟨r, hr, hjr⟩ := List.mem_flatMap.1 hjc
      obtain ⟨hrn, hrc⟩ := h.vinv.vr_mem c r hr
      obtain ⟨row', hrow', hrr', hmem', _⟩ := hs.row_facts hrn
      have erow : row' = row := flatten_nodup_unique hs.flatten_nodup hrow' hrow
        ((hmem' j).2 (Or.inr hjr)) hj
      subst erow
      have := (h.act_nodup.mem_erase_iff).1 (hall r hrr')
      exact this.1 hrc

namespace DLXSolver

theorem relinkNode_U (s : DLXSolver) (j : Nat) :
    (s.relinkNode j).U.get = Function.update s.U.get (s.D.get j) j := by
  simp [relinkNode, setColSize, setD, setU, Mem.get_set_fn]

theorem relinkNode_D (s : DLXSolver) (j : Nat) :
    (s.relinkNode j).D.get =
      Function.update s.D.get (Function.update s.U.get (s.D.get j) j j) j := by
  simp [relinkNode, setColSize, setD, setU, Mem.get_set_fn]

theorem relinkNode_colSize (s : DLXSolver) (j : Nat) :
    (s.relinkNode j).colSize.get =
      Function.update s.colSize.get (s.colN j) (s.colSize.get (s.colN j) + 1) := by
  simp [relinkNode, setColSize, setD, setU, Mem.get_set_fn, colN]

@[simp] theorem relinkNode_L (s : DLXSolver) (j : Nat) : (s.relinkNode j).L = s.L := rfl
@[simp] theorem relinkNode_R (s : DLXSolver) (j : Nat) : (s.relinkNode j).R = s.R := rfl
@[simp] theorem relinkNode_colN (s : DLXSolver) (j x : Nat) :
    (s.relinkNode j).colN x = s.colN x := rfl

theorem relinkNode_frame (s : DLXSolver) (j : Nat) : Frame s (s.relinkNode j) :=
  ⟨rfl, rfl, rfl, rfl, rfl, rfl, rfl⟩

theorem update_eq_of_eq {β : Type} {f : Nat → β} {a : Nat} {v : β} (h : f a = v) :
    Function.update f a v = f := by
  rw [← h]; exact Function.update_eq_self _ _

/-- Two solver states with the same contents are equal. -/
theorem ext_get {s t : DLXSolver} (h1 : s.nCols = t.nCols)
    (h2 : s.colSize.get = t.colSize.get) (h3 : s.colHead.get = t.colHead.get)
    (h4 : s.row.get = t.row.get) (h5 : s.col.get = t.col.get) (h6 : s.L.get = t.L.get)
    (h7 : s.R.get = t.R.get) (h8 : s.U.get = t.U.get) (h9 : s.D.get = t.D.get)
    (h10 : s.next = t.next) (h11 : s.solution = t.solution) (h12 : s.outRows = t.outRows) :
    s = t := by
  cases s; cases t
  simp only at h1 h10 h11 h12
  simp only [mk.injEq]
  exact ⟨h1, Mem.ext_fn h2, Mem.ext_fn h3, Mem.ext_fn h4, Mem.ext_fn h5, Mem.ext_fn h6,
    Mem.ext_fn h7, Mem.ext_fn h8, Mem.ext_fn h9, h10, h11, h12⟩

/-- Linking back a node that was just unlinked restores the state, provided the node was
linked in: its neighbours pointed at it. -/
theorem relinkNode_unlinkNode (s : DLXSolver) (j : Nat) (hU : s.U.get (s.D.get j) = j)
    (hD : s.D.get (s.U.get j) = j) : (s.unlinkNode j).relinkNode j = s := by
  have hu : Function.update s.U.get (s.D.get j) (s.U.get j) j = s.U.get j := by
    rw [Function.update_apply]; split <;> rfl
  have hd : Function.update s.D.get (s.U.get j) (s.D.get j) j = s.D.get j := by
    rw [Function.update_apply]; split <;> rfl
  apply ext_get <;> try rfl
  · rw [relinkNode_colSize, unlinkNode_colSize, unlinkNode_colN, Function.update_same,
      Function.update_idem]
    exact update_eq_of_eq (by omega)
  · rw [relinkNode_U, unlinkNode_U, unlinkNode_D, hd, Function.update_idem]
    exact update_eq_of_eq hU
  · rw [relinkNode_D, unlinkNode_U, unlinkNode_D, hd, Function.update_idem]
    have : Function.update s.U.get (s.D.get j) j j = s.U.get j := by
      rw [Function.update_apply]
      split
      · rename_i e; rw [← e] at hU; exact hU.symm
      · rfl
    rw [this, Function.update_idem]
    exact update_eq_of_eq hD

theorem foldl_relinkNode_frame (js : List Nat) (s : DLXSolver) :
    Frame s (js.foldl relinkNode s) ∧ (js.foldl relinkNode s).L = s.L ∧
      (js.foldl relinkNode s).R = s.R := by
  induction js generalizing s with
  | nil => exact ⟨Frame.refl s, rfl, rfl⟩
  | cons j js ih =>
    obtain ⟨h1, h2, h3⟩ := ih (s.relinkNode j)
    simp only [List.foldl_cons]
    exact ⟨Frame.trans (relinkNode_frame s j) h1, h2, h3⟩

/-- Linking back nodes of other columns leaves the vertical links of column `cN` alone. -/
theorem foldl_relinkNode_other (cN : Nat) (js : List Nat) (s : DLXSolver) (hc : s.Closed)
    (hjs : ∀ j, j ∈ js → s.colN j ≠ cN) :
    (js.foldl relinkNode s).Closed ∧ ∀ x, s.colN x = cN →
      (js.foldl relinkNode s).U.get x = s.U.get x ∧
      (js.foldl relinkNode s).D.get x = s.D.get x := by
  induction js generalizing s with
  | nil => exact ⟨hc, fun _ _ => ⟨rfl, rfl⟩⟩
  | cons j js ih =>
    have hj : s.colN j ≠ cN := hjs j (List.mem_cons_self _ _)
    have hUj : s.colN (Function.update s.U.get (s.D.get j) j j) = s.colN j := by
      rw [Function.update_apply]
      split
      · rfl
      · exact (hc j).1
    have hc1 : (s.relinkNode j).Closed := by
      intro x
      show s.colN ((s.relinkNode j).U.get x) = s.colN x ∧
        s.colN ((s.relinkNode j).D.get x) = s.colN x
      rw [relinkNode_U, relinkNode_D]
      refine ⟨?_, ?_⟩
      · rw [Function.update_apply]
        split
        · rename_i e; rw [e, (hc j).2]
        · exact (hc x).1
      · rw [Function.update_apply]
        split
        · rename_i e; rw [e, hUj]
        · exact (hc x).2
    obtain ⟨h1, h2⟩ := ih (s.relinkNode j) hc1 (fun j' hj' => hjs j' (List.mem_cons_of_mem _ hj'))
    refine ⟨h1, ?_⟩
    intro x hx
    obtain ⟨h3, h4⟩ := h2 x hx
    rw [List.foldl_cons, h3, h4, relinkNode_U, relinkNode_D]
    refine ⟨?_, ?_⟩
    · rw [Function.update_noteq]
      rintro rfl
      exact hj (((hc j).2).symm.trans hx)
    · rw [Function.update_noteq]
      rintro rfl
      exact hj (hUj.symm.trans hx)

/-- The inner loop of `uncover` links back the nodes of the row ring before `r`, walking
left. -/
theorem uncoverRow_eq {r : Nat} (rest : List Nat) (fuel p : Nat) (s : DLXSolver)
    (hseg : Seg s.L.get s.R.get p rest r) (hr : r ∉ rest) (hf : rest.length < fuel) :
    uncoverRow r fuel (s.L.get p) s = some (rest.foldl relinkNode s) := by
  induction rest generalizing fuel p s with
  | nil =>
    obtain ⟨h1, _⟩ := hseg
    cases fuel with
    | zero => simp at hf
    | succ f => simp [uncoverRow, h1]
  | cons x xs ih =>
    obtain ⟨h1, _, h3⟩ := hseg
    cases fuel with
    | zero => simp at hf
    | succ f =>
      have hxr : x ≠ r := fun e => hr (e ▸ List.mem_cons_self _ _)
      rw [h1, uncoverRow, if_neg hxr]
      exact ih f x (s.relinkNode x) h3 (fun e => hr (List.mem_cons_of_mem _ e))
        (by simpa using hf)

/-- The outer loop of `uncover` walks up the ring of column `c` and, row by row, links
back the other nodes of each row. -/
theorem uncoverCol_eq {c : Nat} (rest : Nat → List Nat) (rs : List Nat) (fuel p : Nat)
    (s : DLXSolver) (hc : s.Closed) (hseg : Seg s.U.get s.D.get p rs c) (hcr : c ∉ rs)
    (hcol : ∀ x, x ∈ rs ++ [c] → s.colN x = s.colN c)
    (hrow : ∀ r, r ∈ rs → Seg s.L.get s.R.get r (rest r) r ∧ r ∉ rest r ∧
      ∀ j, j ∈ rest r → s.colN j ≠ s.colN c)
    (hf : ∀ r, r ∈ rs → (rest r).length + rs.length < fuel) (hf0 : 0 < fuel) :
    uncoverCol c fuel (s.U.get p) s = some ((rs.flatMap rest).foldl relinkNode s) := by
  induction rs generalizing fuel p s with
  | nil =>
    obtain ⟨h1, _⟩ := hseg
    cases fuel with
    | zero => simp at hf0
    | succ f => simp [uncoverCol, h1]
  | cons r rs ih =>
    obtain ⟨h1, _, h3⟩ := hseg
    cases fuel with
    | zero => simp at hf0
    | succ f =>
      have hrc : r ≠ c := fun e => hcr (e ▸ List.mem_cons_self _ _)
      obtain ⟨hr1, hr2, hr3⟩ := hrow r (List.mem_cons_self _ _)
      have hfr := hf r (List.mem_cons_self _ _)
      simp only [List.length_cons] at hfr
      rw [h1, uncoverCol, if_neg hrc, uncoverRow_eq (rest r) f r s hr1 hr2 (by omega)]
      obtain ⟨hfr1, hfr2, hfr3⟩ := foldl_relinkNode_frame (rest r) s
      obtain ⟨hcl, hud⟩ := foldl_relinkNode_other (s.colN c) (rest r) s hc hr3
      have hcn := hfr1.colN
      simp only [List.flatMap_cons, List.foldl_append]
      refine ih f r _ hcl ?_ (fun e => hcr (List.mem_cons_of_mem _ e)) ?_ ?_ ?_ ?_
      · refine seg_congr ?_ ?_ h3
        · intro x hx
          refine (hud x (hcol x ?_)).1
          simp at hx ⊢; tauto
        · intro x hx
          refine (hud x (hcol x ?_)).2
          simp at hx ⊢; tauto
      · intro x hx
        rw [hcn]
        exact hcol x (by simp at hx ⊢; tauto)
      · intro r' hr'
        obtain ⟨a1, a2, a3⟩ := hrow r' (List.mem_cons_of_mem _ hr')
        rw [hfr2, hfr3, hcn]
        exact ⟨a1, a2, a3⟩
      · intro r' hr'
        have := hf r' (List.mem_cons_of_mem _ hr')
        simp only [List.length_cons] at this
        omega
      · have := hf r (List.mem_cons_self _ _)
        simp only [List.length_cons] at this
        omega

end DLXSolver

theorem flatMap_reverse_reverse (f : Nat → List Nat) (l : List Nat) :
    l.reverse.flatMap (fun r => (f r).reverse) = (l.flatMap f).reverse := by
  induction l with
  | nil => rfl
  | cons x xs ih =>
    simp only [List.reverse_cons, List.flatMap_append, List.flatMap_cons, List.flatMap_nil,
      List.append_nil, List.reverse_append, ih]

/-- Linking back, in reverse order, a list of nodes that was just unlinked restores the
state. -/
theorem VInv.relink_unlink_fold {rows : Layout} (js : List Nat) (V : Nat → List Nat)
    (s : DLXSolver) (hs : Static rows s) (h : VInv rows V s) (hnd : js.Nodup)
    (hjs : ∀ j, j ∈ js → j ∈ V (s.colN j)) :
    js.reverse.foldl DLXSolver.relinkNode (js.foldl DLXSolver.unlinkNode s) = s := by
  induction js generalizing V s with
  | nil => rfl
  | cons j js ih =>
    have hj := hjs j (List.mem_cons_self _ _)
    have hjnd := List.nodup_cons.1 hnd
    have h1 := h.unlinkNode_vinv hs hj
    have hlt := hs.ncol j (h.vr_mem _ _ hj).1
    have hlink := seg_linked (h.vr _ hlt) hj
    have key := ih (Function.update V (s.colN j) ((V (s.colN j)).erase j)) (s.unlinkNode j)
      (hs.unlinkNode_static j) h1 hjnd.2 (by
        intro j' hj'
        have hne : j' ≠ j := fun e => hjnd.1 (e ▸ hj')
        have hm := hjs j' (List.mem_cons_of_mem _ hj')
        show j' ∈ Function.update V (s.colN j) ((V (s.colN j)).erase j) (s.colN j')
        by_cases hc : s.colN j' = s.colN j
        · rw [hc, Function.update_same]
          rw [hc] at hm
          exact (List.mem_erase_of_ne hne).2 hm
        · rw [Function.update_noteq hc]; exact hm)
    simp only [List.reverse_cons, List.foldl_append, List.foldl_cons, List.foldl_nil]
    rw [key]
    exact relinkNode_unlinkNode s j hlink.2 hlink.1

namespace DLXSolver

theorem uncover_def (fuel : Nat) (s : DLXSolver) (c : Nat) :
    uncover fuel s c = (uncoverCol c fuel (s.U.get c) s).map (fun t => t.relinkHeader c) := by
  unfold uncover
  cases uncoverCol c fuel (s.U.get c) s <;> rfl

/-- Putting a header back right after taking it off the header ring restores the state,
provided its neighbours pointed at it. -/
theorem relinkHeader_unlinkHeader (s : DLXSolver) (c : Nat) (hL : s.L.get (s.R.get c) = c)
    (hR : s.R.get (s.L.get c) = c) : (s.unlinkHeader c).relinkHeader c = s := by
  have hr : Function.update s.R.get (s.L.get c) (s.R.get c) c = s.R.get c := by
    rw [Function.update_apply]; split <;> rfl
  have hl : (((s.unlinkHeader c).setL ((s.unlinkHeader c).R.get c) c).L.get) = s.L.get := by
    rw [setL_L, unlinkHeader_L, unlinkHeader_R, hr, Function.update_idem]
    exact update_eq_of_eq hL
  apply ext_get <;> try rfl
  · exact hl
  · show (((s.unlinkHeader c).setL ((s.unlinkHeader c).R.get c) c).setR _ c).R.get = _
    rw [setR_R, hl]
    show Function.update (s.unlinkHeader c).R.get _ _ = _
    rw [unlinkHeader_R, Function.update_idem]
    exact update_eq_of_eq hR

end DLXSolver

/-- `uncover` right after `cover` of an active column restores the state exactly. -/
theorem Rep.uncover_eq {rows : Layout} {a : Abs} {s : DLXSolver} (hs : Static rows s)
    (h : Rep rows a s) {c : Nat} (hc : c ∈ a.active) {fuel : Nat}
    (hf : rows.flatten.length < fuel) :
    uncover fuel (coverState rows a s c) (s.colHead.get c) = some s := by
  have hcl := h.act_lt c hc
  have hs1 := hs.unlinkHeader_static h hc
  obtain ⟨hs2, hrep2⟩ := h.cover_rep hs hc
  obtain ⟨hfr, hL, hR⟩ := foldl_unlinkNode_frame (coverNodes rows a c)
    (s.unlinkHeader (s.colHead.get c))
  have hfr' := coverState_frame rows a s c
  have hcn : (coverState rows a s c).colN = s.colN := hfr'.colN
  have hoth : (coverState rows a s c).Closed ∧ ∀ x, s.colN x = c →
      (coverState rows a s c).U.get x = s.U.get x ∧
      (coverState rows a s c).D.get x = s.D.get x :=
    foldl_unlinkNode_other c (coverNodes rows a c)
      (s.unlinkHeader (s.colHead.get c)) h.vinv.closed
      (fun j hj => (h.coverNodes_linked hs hc hj).2.2.1)
  obtain ⟨hcl2, hud⟩ := hoth
  have hmemc : ∀ x, x ∈ a.vring c ++ [s.colHead.get c] → s.colN x = c := by
    intro x hx
    rcases List.mem_append.1 hx with hx | hx
    · exact (h.vinv.vr_mem _ _ hx).2
    · rw [List.mem_singleton.1 hx]; exact hs.hcol c hcl
  have hseg : Seg (coverState rows a s c).D.get (coverState rows a s c).U.get
      (s.colHead.get c) (a.vring c) (s.colHead.get c) := by
    refine seg_congr ?_ ?_ (h.vinv.vr c hcl)
    · intro x hx
      exact (hud x (hmemc x (by simp at hx ⊢; tauto))).2
    · intro x hx
      exact (hud x (hmemc x hx)).1
  rw [uncover_def, uncoverCol_eq (fun r => (rowRest rows r).reverse) (a.vring c).reverse fuel
    _ _ hcl2 (seg_reverse hseg)]
  · rw [flatMap_reverse_reverse]
    show Option.map _ (some (List.foldl DLXSolver.relinkNode _ (coverNodes rows a c).reverse)) = _
    rw [coverState, VInv.relink_unlink_fold _ _ _ hs1 (h.vinv.unlinkHeader_vinv _)
      (h.coverNodes_nodup hs c) (fun j hj => (h.coverNodes_linked hs hc hj).1)]
    have hlink := seg_linked h.hring (List.mem_map_of_mem s.colHead.get hc)
    show some ((s.unlinkHeader (s.colHead.get c)).relinkHeader (s.colHead.get c)) = some s
    rw [relinkHeader_unlinkHeader s _ hlink.2 hlink.1]
  · intro hm
    exact hs.hdr_not_node hcl (h.vinv.vr_mem _ _ (List.mem_reverse.1 hm)).1
  · intro x hx
    rw [hcn, hmemc x (by simp at hx ⊢; tauto), hs.hcol c hcl]
  · intro r hr
    have hr' := List.mem_reverse.1 hr
    obtain ⟨hrn, hrc⟩ := h.vinv.vr_mem c r hr'
    obtain ⟨row, hrow, hrr, hmem, hsg, hnr, _, hne, _⟩ := hs2.row_facts hrn
    refine ⟨seg_reverse hsg, fun hm => hnr (List.mem_reverse.1 hm), ?_⟩
    intro j hj
    rw [hcn] at hne ⊢
    rw [hs.hcol c hcl, ← hrc]
    exact hne j (List.mem_reverse.1 hj)
  · intro r hr
    have hr' := List.mem_reverse.1 hr
    obtain ⟨hrn, hrc⟩ := h.vinv.vr_mem c r hr'
    obtain ⟨row, hrow, hrr, hmem, _, hnr, hnd, hne, _⟩ := hs.row_facts hrn
    have hnd2 : (rowRest rows r ++ a.vring c).Nodup := by
      rw [List.nodup_append]
      refine ⟨hnd, h.vinv.vr_nodup c, ?_⟩
      intro x hx hx'
      exact hne x hx ((h.vinv.vr_mem c x hx').2.trans hrc.symm)
    have := length_le_of_nodup_subset hnd2 (m := rows.flatten) (by
      intro x hx
      rcases List.mem_append.1 hx with hx | hx
      · exact List.mem_flatten.2 ⟨row, hrow, (hmem x).2 (Or.inr hx)⟩
      · exact (h.vinv.vr_mem _ _ hx).1)
    rw [List.length_append] at this
    simp only [List.length_reverse]
    omega
  · omega

theorem coverAll_nil (rows : Layout) (z : Abs × DLXSolver) : coverAll rows [] z = z := rfl

theorem coverAll_cons (rows : Layout) (d : Nat) (ds : List Nat) (z : Abs × DLXSolver) :
    coverAll rows (d :: ds) z =
      coverAll rows ds (coverAbs rows z.1 d, coverState rows z.1 z.2 d) := rfl

theorem coverAll_snoc (rows : Layout) (d : Nat) (ds : List Nat) (z : Abs × DLXSolver) :
    coverAll rows (ds ++ [d]) z =
      (coverAbs rows (coverAll rows ds z).1 d,
        coverState rows (coverAll rows ds z).1 (coverAll rows ds z).2 d) := by
  simp [coverAll, List.foldl_append]

/-- `cover` leaves the horizontal links of nodes alone. -/
theorem Rep.coverState_nodeLR {rows : Layout} {a : Abs} {s : DLXSolver} (hs : Static rows s)
    (h : Rep rows a s) {c : Nat} (hc : c ∈ a.active) {x : Nat} (hx : x ∈ rows.flatten) :
    (coverState rows a s c).R.get x = s.R.get x ∧
      (coverState rows a s c).L.get x = s.L.get x := by
  obtain ⟨hfr, hL, hR⟩ := foldl_unlinkNode_frame (coverNodes rows a c)
    (s.unlinkHeader (s.colHead.get c))
  obtain ⟨h1, h2⟩ := h.hdr_neighbours hs hc
  rw [coverState, hL, hR, unlinkHeader_L, unlinkHeader_R]
  refine ⟨?_, ?_⟩
  · rw [Function.update_noteq]; rintro rfl; exact h2 hx
  · rw [Function.update_noteq]; rintro rfl; exact h1 hx

/-- Covering distinct active columns one after the other keeps the invariants. -/
theorem Rep.coverAll_inv {rows : Layout} (ds : List Nat) (a : Abs) (s : DLXSolver)
    (hs : Static rows s) (h : Rep rows a s) (hnd : ds.Nodup)
    (hds : ∀ d, d ∈ ds → d ∈ a.active) :
    Static rows (coverAll rows ds (a, s)).2 ∧
      Rep rows (coverAll rows ds (a, s)).1 (coverAll rows ds (a, s)).2 ∧
      Frame s (coverAll rows ds (a, s)).2 ∧
      (coverAll rows ds (a, s)).1.active = ds.foldl List.erase a.active ∧
      ∀ x, x ∈ rows.flatten → (coverAll rows ds (a, s)).2.R.get x = s.R.get x ∧
        (coverAll rows ds (a, s)).2.L.get x = s.L.get x := by
  induction ds generalizing a s with
  | nil => exact ⟨hs, h, Frame.refl s, rfl, fun _ _ => ⟨rfl, rfl⟩⟩
  | cons d ds ih =>
    have hd := hds d (List.mem_cons_self _ _)
    have hdnd := List.nodup_cons.1 hnd
    obtain ⟨hs1, h1⟩ := h.cover_rep hs hd
    obtain ⟨k1, k2, k3, k4, k5⟩ := ih (coverAbs rows a d) (coverState rows a s d) hs1 h1 hdnd.2
      (by
        intro d' hd'
        show d' ∈ a.active.erase d
        refine (h.act_nodup.mem_erase_iff).2 ⟨?_, hds d' (List.mem_cons_of_mem _ hd')⟩
        rintro rfl; exact hdnd.1 hd')
    rw [coverAll_cons]
    refine ⟨k1, k2, (coverState_frame rows a s d).trans k3, k4, ?_⟩
    intro x hx
    obtain ⟨e1, e2⟩ := k5 x hx
    obtain ⟨e3, e4⟩ := h.coverState_nodeLR hs hd hx
    exact ⟨e1.trans e3, e2.trans e4⟩

/-- The loop `for (j = r->R; j != r; j = j->R) cover(colHead[j->col])` covers the columns
of the nodes after `r` on its row ring, in order. -/
theorem Rep.coverRowCols_eq {rows : Layout} {r : Nat} (js : List Nat) (a : Abs)
    (s : DLXSolver) (p fuel : Nat) (hs : Static rows s) (h : Rep rows a s)
    (hseg : Seg s.R.get s.L.get p js r) (hr : r ∉ js)
    (hnode : ∀ x, x ∈ js ++ [r] → x ∈ rows.flatten)
    (hnd : (js.map s.colN).Nodup) (hact : ∀ j, j ∈ js → s.colN j ∈ a.active)
    (hf : rows.flatten.length + js.length + 1 < fuel) :
    coverRowCols r fuel (s.R.get p) s = some (coverAll rows (js.map s.colN) (a, s)).2 := by
  induction js generalizing a s p fuel with
  | nil =>
    obtain ⟨h1, _⟩ := hseg
    cases fuel with
    | zero => simp at hf
    | succ f => simp [coverRowCols, h1, coverAll_nil]
  | cons j js ih =>
    obtain ⟨h1, _, h3⟩ := hseg
    cases fuel with
    | zero => simp at hf
    | succ f =>
      have hjr : j ≠ r := fun e => hr (e ▸ List.mem_cons_self _ _)
      have hja := hact j (List.mem_cons_self _ _)
      simp only [List.length_cons] at hf
      rw [List.map_cons] at hnd
      have hjnd := List.nodup_cons.1 hnd
      have hcov : cover f s (s.colHead.get (s.col.get j).toNat) =
          some (coverState rows a s (s.colN j)) := h.cover_eq hs hja (by omega)
      rw [h1, coverRowCols, if_neg hjr, hcov]
      obtain ⟨hs1, hrep1⟩ := h.cover_rep hs hja
      have hfr := coverState_frame rows a s (s.colN j)
      have hcn := hfr.colN
      have hR : (coverState rows a s (s.colN j)).R.get j = s.R.get j :=
        (h.coverState_nodeLR hs hja (hnode j (by simp))).1
      have key := ih (coverAbs rows a (s.colN j)) (coverState rows a s (s.colN j)) j f hs1 hrep1
        (by
          refine seg_congr ?_ ?_ h3
          · intro x hx
            exact (h.coverState_nodeLR hs hja (hnode x (by simp at hx ⊢; tauto))).1
          · intro x hx
            exact (h.coverState_nodeLR hs hja (hnode x (by simp at hx ⊢; tauto))).2)
        (fun e => hr (List.mem_cons_of_mem _ e))
        (fun x hx => hnode x (by simp at hx ⊢; tauto))
        (by rw [hcn]; exact hjnd.2)
        (by
          intro j' hj'
          rw [hcn]
          show s.colN j' ∈ a.active.erase (s.colN j)
          refine (h.act_nodup.mem_erase_iff).2 ⟨?_, hact j' (List.mem_cons_of_mem _ hj')⟩
          intro e
          exact hjnd.1 (e ▸ List.mem_map_of_mem _ hj'))
        (by omega)
      rw [hcn] at key
      simp only [List.map_cons, coverAll_cons]
      exact key

/-- The loop `for (j = r->L; j != r; j = j->L) uncover(colHead[j->col])`, run on the state
that the covering loop produced for the same row, restores the state from before the
covering loop. -/
theorem Rep.uncoverRowCols_eq {rows : Layout} {r : Nat} (a : Abs) (s : DLXSolver)
    (hs : Static rows s) (h : Rep rows a s) (jsr : List Nat) (p fuel : Nat)
    (hseg : Seg s.L.get s.R.get p jsr r) (hr : r ∉ jsr)
    (hnode : ∀ x, x ∈ p :: jsr → x ∈ rows.flatten)
    (hnd : (jsr.map s.colN).Nodup) (hact : ∀ j, j ∈ jsr → s.colN j ∈ a.active)
    (hf : rows.flatten.length + jsr.length + 1 < fuel) :
    uncoverRowCols r fuel (s.L.get p) (coverAll rows (jsr.reverse.map s.colN) (a, s)).2 =
      some s := by
  induction jsr generalizing p fuel with
  | nil =>
    obtain ⟨h1, _⟩ := hseg
    cases fuel with
    | zero => simp at hf
    | succ f => simp [uncoverRowCols, h1, coverAll_nil]
  | cons j jsr ih =>
    obtain ⟨h1, _, h3⟩ := hseg
    cases fuel with
    | zero => simp at hf
    | succ f =>
      have hjr : j ≠ r := fun e => hr (e ▸ List.mem_cons_self _ _)
      simp only [List.length_cons] at hf
      rw [List.map_cons] at hnd
      have hjnd := List.nodup_cons.1 hnd
      have hnd' : (jsr.reverse.map s.colN).Nodup := by
        rw [List.map_reverse]; exact List.nodup_reverse.2 hjnd.2
      obtain ⟨k1, k2, k3, k4, k5⟩ := Rep.coverAll_inv (jsr.reverse.map s.colN) a s hs h hnd'
        (by
          intro d hd
          obtain ⟨j', hj', rfl⟩ := List.mem_map.1 hd
          exact hact j' (List.mem_cons_of_mem _ (List.mem_reverse.1 hj')))
      have hja : s.colN j ∈ (coverAll rows (jsr.reverse.map s.colN) (a, s)).1.active := by
        rw [k4]
        have : ∀ (l : List Nat) (A : List Nat), s.colN j ∈ A → s.colN j ∉ l →
            s.colN j ∈ l.foldl List.erase A := by
          intro l
          induction l with
          | nil => intro A hA _; exact hA
          | cons x xs ihx =>
            intro A hA hn
            rw [List.foldl_cons]
            refine ihx _ ?_ (fun e => hn (List.mem_cons_of_mem _ e))
            have hne : s.colN j ≠ x := fun e => hn (by rw [e]; exact List.mem_cons_self _ _)
            exact (List.mem_erase_of_ne hne).2 hA
        refine this _ _ (hact j (List.mem_cons_self _ _)) ?_
        rw [List.map_reverse, List.mem_reverse]
        exact hjnd.1
      have hcn := k3.colN
      rw [h1, List.reverse_cons, List.map_append, List.map_cons, List.map_nil, coverAll_snoc,
        uncoverRowCols, if_neg hjr]
      have hunc : uncover f (coverState rows (coverAll rows (jsr.reverse.map s.colN) (a, s)).1
          (coverAll rows (jsr.reverse.map s.colN) (a, s)).2 (s.colN j))
          ((coverAll rows (jsr.reverse.map s.colN) (a, s)).2.colHead.get (s.colN j)) =
          some (coverAll rows (jsr.reverse.map s.colN) (a, s)).2 :=
        k2.uncover_eq k1 hja (by omega)
      have hcol : ((coverState rows (coverAll rows (jsr.reverse.map s.colN) (a, s)).1
          (coverAll rows (jsr.reverse.map s.colN) (a, s)).2 (s.colN j)).col.get j).toNat =
          s.colN j := by
        have := (coverState_frame rows (coverAll rows (jsr.reverse.map s.colN) (a, s)).1
          (coverAll rows (jsr.reverse.map s.colN) (a, s)).2 (s.colN j)).colN
        have e := congrFun this j
        rw [hcn] at e
        exact e
      have hch : (coverState rows (coverAll rows (jsr.reverse.map s.colN) (a, s)).1
          (coverAll rows (jsr.reverse.map s.colN) (a, s)).2 (s.colN j)).colHead =
          (coverAll rows (jsr.reverse.map s.colN) (a, s)).2.colHead :=
        (coverState_frame rows _ _ _).colHead
      show (match uncover f _ ((coverState rows _ _ _).colHead.get
        ((coverState rows _ _ _).col.get j).toNat) with
        | none => none
        | some s => uncoverRowCols r f (s.L.get j) s) = _
      rw [hcol, hch, hunc]
      show uncoverRowCols r f ((coverAll rows (jsr.reverse.map s.colN) (a, s)).2.L.get j) _ = _
      rw [(k5 j (hnode j (by simp))).2]
      exact ih j f h3 (fun e => hr (List.mem_cons_of_mem _ e))
        (fun x hx => hnode x (by simp at hx ⊢; tauto)) hjnd.2
        (fun j' hj' => hact j' (List.mem_cons_of_mem _ hj')) (by omega)

/-- The column-choosing loop returns a column of the header ring of least size, unless no
column of the ring is smaller than the initial `best`. -/
theorem chooseCol_spec (s : DLXSolver) (hs : List Nat) (fuel p c : Nat) (best : Int)
    (hseg : Seg s.R.get s.L.get p hs head) (hh : head ∉ hs) (hf : hs.length < fuel) :
    ∃ c' best', chooseCol s fuel (s.R.get p) c best = some (c', best') ∧
      best' ≤ best ∧ (∀ h, h ∈ hs → best' ≤ s.colSize.get (s.colN h)) ∧
      ((c' = c ∧ best' = best) ∨ (c' ∈ hs ∧ best' = s.colSize.get (s.colN c'))) := by
  induction hs generalizing fuel p c best with
  | nil =>
    obtain ⟨h1, _⟩ := hseg
    cases fuel with
    | zero => simp at hf
    | succ f =>
      refine ⟨c, best, by simp [chooseCol, h1], le_refl _, fun _ hx => by simp at hx, Or.inl ⟨rfl, rfl⟩⟩
  | cons x xs ih =>
    obtain ⟨h1, _, h3⟩ := hseg
    cases fuel with
    | zero => simp at hf
    | succ f =>
      have hxh : x ≠ head := fun e => hh (e ▸ List.mem_cons_self _ _)
      have hh' : head ∉ xs := fun e => hh (List.mem_cons_of_mem _ e)
      have hf' : xs.length < f := by simpa using hf
      rw [h1, chooseCol, if_neg hxh]
      by_cases hlt : s.colSize.get (s.col.get x).toNat < best
      · rw [if_pos hlt]
        obtain ⟨c', best', e, h4, h5, h6⟩ := ih f x x (s.colSize.get (s.col.get x).toNat) h3 hh' hf'
        refine ⟨c', best', e, le_trans h4 (le_of_lt hlt), ?_, ?_⟩
        · intro h hm
          rcases List.mem_cons.1 hm with rfl | hm
          · exact h4
          · exact h5 h hm
        · rcases h6 with ⟨rfl, rfl⟩ | ⟨h6, h7⟩
          · exact Or.inr ⟨List.mem_cons_self _ _, rfl⟩
          · exact Or.inr ⟨List.mem_cons_of_mem _ h6, h7⟩
      · rw [if_neg hlt]
        obtain ⟨c', best', e, h4, h5, h6⟩ := ih f x c best h3 hh' hf'
        refine ⟨c', best', e, h4, ?_, ?_⟩
        · intro h hm
          rcases List.mem_cons.1 hm with rfl | hm
          · exact le_trans h4 (not_lt.1 hlt)
          · exact h5 h hm
        · rcases h6 with h6 | ⟨h6, h7⟩
          · exact Or.inl h6
          · exact Or.inr ⟨List.mem_cons_of_mem _ h6, h7⟩

theorem perm_append_foldl_erase (l A : List Nat) (hsub : ∀ x, x ∈ l → x ∈ A) (hnd : l.Nodup) :
    (l ++ l.foldl List.erase A).Perm A := by
  induction l generalizing A with
  | nil => exact List.Perm.refl _
  | cons x xs ih =>
    have hx := hsub x (List.mem_cons_self _ _)
    have hxnd := List.nodup_cons.1 hnd
    have h1 := ih (A.erase x) (fun y hy => by
      have hne : y ≠ x := fun e => hxnd.1 (e ▸ hy)
      exact (List.mem_erase_of_ne hne).2 (hsub y (List.mem_cons_of_mem _ hy))) hxnd.2
    rw [List.cons_append, List.foldl_cons]
    exact (List.Perm.cons x h1).trans (List.perm_cons_erase hx).symm

theorem perm_foldl_erase_of_append (l Q A : List Nat) (h : (l ++ Q).Perm A) :
    Q.Perm (l.foldl List.erase A) := by
  induction l generalizing A with
  | nil => exact h
  | cons x xs ih =>
    rw [List.cons_append] at h
    have := (List.cons_perm_iff_perm_erase.1 h).2
    exact ih _ this

theorem length_foldl_erase_le (l A : List Nat) : (l.foldl List.erase A).length ≤ A.length := by
  induction l generalizing A with
  | nil => exact le_refl _
  | cons x xs ih =>
    rw [List.foldl_cons]
    exact le_trans (ih _) (by rw [List.length_erase]; split <;> omega)

/-- Adding the chosen row to a cover of the remaining columns gives a cover. -/
theorem IsCover.cons {rows : Layout} {cn : Nat → Nat} {A : List Nat} {P : List (List Nat)}
    {row : List Nat} {r : Nat} (hrow : row ∈ rows) (hperm : row.Perm (r :: rowRest rows r))
    (hsub : ∀ x, x ∈ row → cn x ∈ A) (hnd : (row.map cn).Nodup)
    (h : IsCover rows cn (afterRow rows cn A r) P) : IsCover rows cn A (row :: P) := by
  refine ⟨?_, ?_⟩
  · intro p hp
    rcases List.mem_cons.1 hp with rfl | hp
    · exact hrow
    · exact h.1 p hp
  · rw [List.flatMap_cons]
    have hp2 := hperm.map cn
    have h1 : ((r :: rowRest rows r).map cn ++ afterRow rows cn A r).Perm A := by
      refine perm_append_foldl_erase _ A ?_ (hp2.nodup_iff.1 hnd)
      intro x hx
      obtain ⟨y, hy, rfl⟩ := List.mem_map.1 (hp2.mem_iff.2 hx)
      exact hsub y hy
    exact ((hp2.append h.2)).trans h1

/-- A cover contains a row through any given column; the rest of the cover covers the
columns that remain once that row is chosen. -/
theorem IsCover.split {rows : Layout} {cn : Nat → Nat} {A : List Nat} {P : List (List Nat)}
    (h : IsCover rows cn A P) {c : Nat} (hc : c ∈ A) :
    ∃ p x P', p ∈ rows ∧ x ∈ p ∧ cn x = c ∧ (∀ y, y ∈ p → cn y ∈ A) ∧
      ∀ Q : List Nat, p.Perm Q → IsCover rows cn ((Q.map cn).foldl List.erase A) P' := by
  have hc' := h.2.mem_iff.2 hc
  obtain ⟨p, hp, hcp⟩ := List.mem_flatMap.1 hc'
  obtain ⟨x, hx, hxc⟩ := List.mem_map.1 hcp
  obtain ⟨P1, P2, e⟩ := List.append_of_mem hp
  refine ⟨p, x, P1 ++ P2, h.1 p hp, hx, hxc, ?_, ?_⟩
  · intro y hy
    exact h.2.mem_iff.1 (List.mem_flatMap.2 ⟨p, hp, List.mem_map_of_mem _ hy⟩)
  · intro Q hQ
    have h1 : (p :: (P1 ++ P2)).Perm P := by rw [e]; exact List.perm_middle.symm
    have h2 := (h1.flatMap_right (fun p => p.map cn)).trans h.2
    rw [List.flatMap_cons] at h2
    have h3 := ((hQ.map cn).symm.append_right _).trans h2
    have h4 := perm_foldl_erase_of_append _ _ _ h3
    refine ⟨fun q hq => h.1 q ?_, h4⟩
    rw [e]
    simp at hq ⊢
    tauto

/-- The invariants do not read the solution stack or `outRows`. -/
theorem Static.congr_links {rows : Layout} {s t : DLXSolver} (h : Static rows s)
    (e1 : t.nCols = s.nCols) (e2 : t.colHead = s.colHead) (e3 : t.col = s.col)
    (e4 : t.L = s.L) (e5 : t.R = s.R) : Static rows t :=
  h.congr e1 e2 e3 (fun _ _ => by rw [e5]) (fun _ _ => by rw [e4])

theorem Rep.of_links_eq {rows : Layout} {a : Abs} {s t : DLXSolver} (h : Rep rows a s)
    (e1 : t.nCols = s.nCols) (e2 : t.colHead = s.colHead) (e3 : t.col = s.col)
    (e4 : t.L = s.L) (e5 : t.R = s.R) (e6 : t.U = s.U) (e7 : t.D = s.D)
    (e8 : t.colSize = s.colSize) : Rep rows a t := by
  have hc : t.colN = s.colN := by funext x; simp only [DLXSolver.colN, e3]
  refine ⟨?_, h.act_nodup, ?_, ⟨?_, h.vinv.vr_nodup, ?_, ?_, ?_⟩, ?_⟩
  · rw [e4, e5, e2]; exact h.hring
  · rw [e1]; exact h.act_lt
  · rw [e1, e2, e6, e7]; exact h.vinv.vr
  · rw [hc]; exact h.vinv.vr_mem
  · rw [e1, e8]; exact h.vinv.size
  · unfold DLXSolver.Closed; rw [hc, e6, e7]; exact h.vinv.closed
  · rw [hc]; exact h.live

/-- After `cover` the ring of the covered column is still intact. -/
theorem Rep.coverState_vring {rows : Layout} {a : Abs} {s : DLXSolver} (hs : Static rows s)
    (h : Rep rows a s) {c : Nat} (hc : c ∈ a.active) :
    Seg (coverState rows a s c).D.get (coverState rows a s c).U.get
      (s.colHead.get c) (a.vring c) (s.colHead.get c) := by
  have hcl := h.act_lt c hc
  have hoth : (coverState rows a s c).Closed ∧ ∀ x, s.colN x = c →
      (coverState rows a s c).U.get x = s.U.get x ∧
      (coverState rows a s c).D.get x = s.D.get x :=
    foldl_unlinkNode_other c (coverNodes rows a c)
      (s.unlinkHeader (s.colHead.get c)) h.vinv.closed
      (fun j hj => (h.coverNodes_linked hs hc hj).2.2.1)
  obtain ⟨_, hud⟩ := hoth
  have hmemc : ∀ x, x ∈ a.vring c ++ [s.colHead.get c] → s.colN x = c := by
    intro x hx
    rcases List.mem_append.1 hx with hx | hx
    · exact (h.vinv.vr_mem _ _ hx).2
    · rw [List.mem_singleton.1 hx]; exact hs.hcol c hcl
  refine seg_congr ?_ ?_ (h.vinv.vr c hcl)
  · intro x hx
    exact (hud x (hmemc x (by simp at hx ⊢; tauto))).2
  · intro x hx
    exact (hud x (hmemc x hx)).1

theorem Rep.vring_length_le {rows : Layout} {a : Abs} {s : DLXSolver} (h : Rep rows a s)
    (d : Nat) : (a.vring d).length ≤ rows.flatten.length :=
  length_le_of_nodup_subset (h.vinv.vr_nodup d) (fun x hx => (h.vinv.vr_mem d x hx).1)

theorem popSolution_pushSolution (s : DLXSolver) (r : Nat) :
    (s.pushSolution r).popSolution = s := by
  cases s
  simp [pushSolution, popSolution]

theorem search_succ (fuel : Nat) (s : DLXSolver) :
    search (fuel + 1) s =
      if s.R.get head = head then
        some (true, { s with outRows := s.solution.map s.row.get })
      else
        match chooseCol s fuel (s.R.get head) null INT_MAX with
        | none => none
        | some (c, best) =>
          if c = null ∨ best = 0 then some (false, s)
          else
            match cover fuel s c with
            | none => none
            | some s => searchRows c fuel (s.D.get c) s := by
  rw [search]

theorem searchRows_succ (c fuel r : Nat) (s : DLXSolver) :
    searchRows c (fuel + 1) r s =
      if r = c then
        match uncover fuel s c with
        | none => none
        | some s => some (false, s)
      else
        match coverRowCols r fuel ((s.pushSolution r).R.get r) (s.pushSolution r) with
        | none => none
        | some s =>
          match search fuel s with
          | none => none
          | some (true, s) => some (true, s)
          | some (false, s) =>
            match uncoverRowCols r fuel (s.L.get r) s with
            | none => none
            | some s =>
              searchRows c fuel (s.popSolution.D.get r) s.popSolution := by
  rw [searchRows]

theorem Static.row_perm {rows : Layout} {s : DLXSolver} (hs : Static rows s)
    {row : List Nat} (hrow : row ∈ rows) {x : Nat} (hx : x ∈ row) :
    row.Perm (x :: rowRest rows x) := by
  obtain ⟨row', hrow', hrr, hmem, _, hnr, hnd, _, _⟩ :=
    hs.row_facts (List.mem_flatten.2 ⟨row, hrow, hx⟩)
  have erow : row' = row := flatten_nodup_unique hs.flatten_nodup hrow' hrow hrr hx
  subst erow
  exact (List.perm_ext_iff_of_nodup (hs.row_nodup hrow) (List.nodup_cons.2 ⟨hnr, hnd⟩)).2
    (fun y => by rw [hmem y, List.mem_cons])

/-- A cover of the active columns uses, for each active column, a row whose node in that
column is on the column's ring. -/
theorem Rep.cover_row {rows : Layout} {a : Abs} {s : DLXSolver} (hs : Static rows s)
    (h : Rep rows a s) {P : List (List Nat)} (hP : IsCover rows s.colN a.active P)
    {d : Nat} (hd : d ∈ a.active) :
    ∃ x P', x ∈ a.vring d ∧ IsCover rows s.colN (afterRow rows s.colN a.active x) P' := by
  obtain ⟨p, x, P', hp, hx, hxc, hsub, hQ⟩ := hP.split hd
  have hxv : x ∈ a.vring d := by
    have := (h.live p hp x hx (by rw [hxc]; exact hd)).2 hsub
    rwa [hxc] at this
  exact ⟨x, P', hxv, hQ _ (hs.row_perm hp hx)⟩

theorem search_step (rows : Layout) (hN : (rows.flatten.length : Int) < INT_MAX) (f : Nat)
    (ih : RowsSpecAt rows f) : SearchSpecAt rows (f + 1) := by
  intro a s hs h hf
  have hf1 : a.active.length * (3 * rows.flatten.length + 4) + 3 * rows.flatten.length + 4
      ≤ f + 1 := by
    unfold fuelBound at hf
    rw [Nat.add_mul, Nat.one_mul] at hf
    omega
  have hk : a.active.length ≤ a.active.length * (3 * rows.flatten.length + 4) :=
    Nat.le_mul_of_pos_right _ (by omega)
  rw [search_succ]
  by_cases hR : s.R.get head = head
  · rw [if_pos hR]
    have hact : a.active = [] := by
      cases hA : a.active with
      | nil => rfl
      | cons d ds =>
        exfalso
        have h1 := h.hring
        rw [hA] at h1
        exact (hs.hdr_ne (h.act_lt d (by rw [hA]; simp))).1 (h1.1.symm.trans hR)
    refine ⟨_, rfl, ?_, ?_⟩
    · intro _
      refine ⟨[], [], by simp, rfl, List.Forall₂.nil, ⟨by simp, ?_⟩⟩
      rw [hact]; exact List.Perm.refl _
    · intro e; cases e
  · rw [if_neg hR]
    obtain ⟨c', best', e, h4, h5, h6⟩ := chooseCol_spec s (a.active.map s.colHead.get) f head
      null INT_MAX h.hring (List.nodup_cons.1 (h.hdr_list_nodup hs)).1
      (by rw [List.length_map]; omega)
    rw [e]
    simp only []
    obtain ⟨d0, hd0⟩ : ∃ d0, d0 ∈ a.active := by
      cases hA : a.active with
      | nil =>
        exfalso
        have h1 := h.hring
        rw [hA] at h1
        exact hR h1.1
      | cons d ds => exact ⟨d, by simp⟩
    have hsz : ∀ d, d ∈ a.active →
        s.colSize.get (s.colN (s.colHead.get d)) = ((a.vring d).length : Int) := by
      intro d hd
      rw [hs.hcol d (h.act_lt d hd)]
      exact h.vinv.size d (h.act_lt d hd)
    have hb : best' < INT_MAX := by
      have h8 := h5 _ (List.mem_map_of_mem _ hd0)
      rw [hsz d0 hd0] at h8
      have h9 := h.vring_length_le d0
      omega
    rcases h6 with ⟨_, h7⟩ | ⟨h6, h7⟩
    · exfalso; omega
    obtain ⟨d, hd, rfl⟩ := List.mem_map.1 h6
    rw [hsz d hd] at h7
    have hdl := h.act_lt d hd
    by_cases hz : s.colHead.get d = null ∨ best' = 0
    · rw [if_pos hz]
      have hv : a.vring d = [] := by
        rcases hz with hz | hz
        · exact absurd hz (hs.hdr_ne hdl).2
        · rw [hz] at h7
          exact List.length_eq_zero.1 (by exact_mod_cast h7.symm)
      refine ⟨_, rfl, ?_, ?_⟩
      · intro e; cases e
      · intro _
        refine ⟨rfl, ?_⟩
        intro P hP
        obtain ⟨x, P', hxv, _⟩ := h.cover_row hs hP hd
        rw [hv] at hxv
        simp at hxv
    · rw [if_neg hz, h.cover_eq hs hd (by omega)]
      simp only []
      have hvl := h.vring_length_le d
      obtain ⟨res, e2, hres⟩ := ih a s d (a.vring d) (s.colHead.get d) hs h hd
        (h.coverState_vring hs hd) (fun r hr => hr) (by omega)
      refine ⟨res, e2, hres.1, ?_⟩
      intro hfalse
      obtain ⟨e3, hno⟩ := hres.2 hfalse
      refine ⟨e3, ?_⟩
      intro P hP
      obtain ⟨x, P', hxv, hP'⟩ := h.cover_row hs hP hd
      exact hno x hxv P' hP'

theorem rows_step (rows : Layout) (f : Nat) (ih1 : SearchSpecAt rows f)
    (ih2 : RowsSpecAt rows f) : RowsSpecAt rows (f + 1) := by
  intro a s c rest p hs h hc hseg hrest hf
  have hcl := h.act_lt c hc
  obtain ⟨hs1, h1⟩ := h.cover_rep hs hc
  have hfr := coverState_frame rows a s c
  have hcn : (coverState rows a s c).colN = s.colN := hfr.colN
  have hkpos : 0 < a.active.length := List.length_pos_of_mem hc
  have hM : 3 * rows.flatten.length + 4 ≤ a.active.length * (3 * rows.flatten.length + 4) :=
    Nat.le_mul_of_pos_left _ hkpos
  rw [searchRows_succ]
  cases rest with
  | nil =>
    rw [hseg.1, if_pos rfl, h.uncover_eq hs hc (by omega)]
    refine ⟨_, rfl, ?_, ?_⟩
    · intro e; cases e
    · intro _; exact ⟨rfl, fun r hr => by simp at hr⟩
  | cons r rest' =>
    obtain ⟨hD, _, hseg'⟩ := hseg
    have hrv := hrest r (List.mem_cons_self _ _)
    obtain ⟨hrn, hrc⟩ := h.vinv.vr_mem c r hrv
    have hne : r ≠ s.colHead.get c := by rintro rfl; exact hs.hdr_not_node hcl hrn
    rw [hD, if_neg hne]
    have hs1' : Static rows ((coverState rows a s c).pushSolution r) :=
      hs1.congr_links rfl rfl rfl rfl rfl
    have h1' : Rep rows (coverAbs rows a c) ((coverState rows a s c).pushSolution r) :=
      h1.of_links_eq rfl rfl rfl rfl rfl rfl rfl rfl
    have hcn' : ((coverState rows a s c).pushSolution r).colN = s.colN := hcn
    obtain ⟨row, hrow, hrr, hmem, hsg, hnr, hnd, hne', hcnd⟩ := hs1'.row_facts hrn
    have hnodes : ∀ x, x ∈ rowRest rows r → x ∈ rows.flatten := fun x hx =>
      List.mem_flatten.2 ⟨row, hrow, (hmem x).2 (Or.inr hx)⟩
    have hlen : (r :: rowRest rows r).length ≤ rows.flatten.length :=
      length_le_of_nodup_subset (List.nodup_cons.2 ⟨hnr, hnd⟩) (by
        intro x hx
        rcases List.mem_cons.1 hx with rfl | hx
        · exact hrn
        · exact hnodes x hx)
    rw [List.length_cons] at hlen
    rw [List.length_cons] at hf
    have hact : ∀ j, j ∈ rowRest rows r →
        ((coverState rows a s c).pushSolution r).colN j ∈ (coverAbs rows a c).active := by
      intro j hj
      have hjc : j ∈ coverNodes rows a c := List.mem_flatMap.2 ⟨r, hrv, hj⟩
      obtain ⟨_, k2, k3, _⟩ := h.coverNodes_linked hs hc hjc
      rw [hcn']
      exact (h.act_nodup.mem_erase_iff).2 ⟨k3, k2⟩
    have hcov := Rep.coverRowCols_eq (rowRest rows r) (coverAbs rows a c) _ r f hs1' h1' hsg hnr
      (by
        intro x hx
        rcases List.mem_append.1 hx with hx | hx
        · exact hnodes x hx
        · rw [List.mem_singleton.1 hx]; exact hrn)
      hcnd hact (by omega)
    rw [hcov]
    simp only []
    obtain ⟨k1, k2, k3, k4, k5⟩ := Rep.coverAll_inv
      ((rowRest rows r).map ((coverState rows a s c).pushSolution r).colN) (coverAbs rows a c) _
      hs1' h1' hcnd (by
        intro d hd
        obtain ⟨j, hj, rfl⟩ := List.mem_map.1 hd
        exact hact j hj)
    have hafter : (coverAll rows
        ((rowRest rows r).map ((coverState rows a s c).pushSolution r).colN)
        (coverAbs rows a c, (coverState rows a s c).pushSolution r)).1.active =
        afterRow rows s.colN a.active r := by
      rw [k4, hcn']
      unfold afterRow
      rw [List.map_cons, List.foldl_cons, hrc]
      rfl
    have hcolN : (coverAll rows
        ((rowRest rows r).map ((coverState rows a s c).pushSolution r).colN)
        (coverAbs rows a c, (coverState rows a s c).pushSolution r)).2.colN = s.colN := by
      rw [k3.colN]; exact hcn'
    have hlen2 : (afterRow rows s.colN a.active r).length + 1 ≤ a.active.length := by
      rw [← hafter, k4]
      refine le_trans (Nat.succ_le_succ (length_foldl_erase_le _ _)) ?_
      show (a.active.erase c).length + 1 ≤ _
      rw [List.length_erase_of_mem hc]
      omega
    obtain ⟨res3, e3, hres3⟩ := ih1 _ _ k1 k2 (by
      rw [hafter]
      unfold fuelBound
      have := Nat.mul_le_mul_right (3 * rows.flatten.length + 4) hlen2
      omega)
    rw [e3]
    rcases res3 with ⟨b, s3⟩
    cases b
    · simp only []
      obtain ⟨e4, hno⟩ := hres3.2 rfl
      simp only at e4
      subst e4
      have hunc := Rep.uncoverRowCols_eq (coverAbs rows a c) _ hs1' h1'
        (rowRest rows r).reverse r f (seg_reverse hsg)
        (fun hm => hnr (List.mem_reverse.1 hm))
        (by
          intro x hx
          rcases List.mem_cons.1 hx with rfl | hx
          · exact hrn
          · exact hnodes x (List.mem_reverse.1 hx))
        (by rw [List.map_reverse]; exact List.nodup_reverse.2 hcnd)
        (fun j hj => hact j (List.mem_reverse.1 hj))
        (by rw [List.length_reverse]; omega)
      rw [List.reverse_reverse] at hunc
      rw [(k5 r hrn).2, hunc]
      simp only []
      rw [popSolution_pushSolution]
      obtain ⟨res, e5, hres⟩ := ih2 a s c rest' r hs h hc hseg'
        (fun x hx => hrest x (List.mem_cons_of_mem _ hx)) (by omega)
      refine ⟨res, e5, hres.1, ?_⟩
      intro hfalse
      obtain ⟨e6, hno2⟩ := hres.2 hfalse
      refine ⟨e6, ?_⟩
      intro x hx P hP
      rcases List.mem_cons.1 hx with rfl | hx
      · refine hno P ?_
        rw [hcolN, hafter]
        exact hP
      · exact hno2 x hx P hP
    · simp only []
      refine ⟨(true, s3), rfl, ?_, fun e => by cases e⟩
      intro _
      obtain ⟨picks, P, q1, q2, q3, q4⟩ := hres3.1 rfl
      rw [hcolN, hafter] at q4
      have hlive := (h.live row hrow r hrr (by rw [hrc]; exact hc)).1 (by rw [hrc]; exact hrv)
      refine ⟨r :: picks, row :: P, ?_, ?_, List.Forall₂.cons hrr q3, ?_⟩
      · show s3.solution = s.solution ++ r :: picks
        rw [q1, k3.solution]
        show (coverState rows a s c).solution ++ [r] ++ picks = _
        rw [hfr.solution]
        simp
      · show s3.outRows = s3.solution.map s.row.get
        rw [q2, k3.row]
        show s3.solution.map (coverState rows a s c).row.get = _
        rw [hfr.row]
      · exact IsCover.cons hrow (hs.row_perm hrow hrr) hlive (hs.rcols row hrow) q4

/-- `search` and its row loop meet their contracts whenever the fuel suffices. -/
theorem search_spec_aux (rows : Layout) (hN : (rows.flatten.length : Int) < INT_MAX)
    (fuel : Nat) : SearchSpecAt rows fuel ∧ RowsSpecAt rows fuel := by
  induction fuel with
  | zero =>
    refine ⟨?_, ?_⟩
    · intro a s _ _ hf
      unfold fuelBound at hf
      rw [Nat.add_mul, Nat.one_mul] at hf
      omega
    · intro a s c rest p _ _ _ _ _ hf
      omega
  | succ f ih => exact ⟨search_step rows hN f ih.2, rows_step rows f ih.1 ih.2⟩

namespace DLXSolver

/-! ### More fuel never changes a result -/

theorem coverRow_mono {r : Nat} (f : Nat) : ∀ (f' j : Nat) (s t : DLXSolver), f ≤ f' →
    coverRow r f j s = some t → coverRow r f' j s = some t := by
  induction f with
  | zero => intro f' j s t _ h; simp [coverRow] at h
  | succ n ih =>
    intro f' j s t hle h
    cases f' with
    | zero => omega
    | succ m =>
      rw [coverRow] at h ⊢
      by_cases hj : j = r
      · rw [if_pos hj] at h ⊢; exact h
      · rw [if_neg hj] at h ⊢
        exact ih m _ _ _ (by omega) h

theorem coverCol_mono {c : Nat} (f : Nat) : ∀ (f' r : Nat) (s t : DLXSolver), f ≤ f' →
    coverCol c f r s = some t → coverCol c f' r s = some t := by
  induction f with
  | zero => intro f' r s t _ h; simp [coverCol] at h
  | succ n ih =>
    intro f' r s t hle h
    cases f' with
    | zero => omega
    | succ m =>
      rw [coverCol] at h ⊢
      by_cases hr : r = c
      · rw [if_pos hr] at h ⊢; exact h
      · rw [if_neg hr] at h ⊢
        cases h1 : coverRow r n (s.R.get r) s with
        | none => rw [h1] at h; simp at h
        | some s1 =>
          rw [h1] at h
          rw [coverRow_mono n m _ _ _ (by omega) h1]
          exact ih m _ _ _ (by omega) h

theorem cover_mono {f f' : Nat} {s t : DLXSolver} {c : Nat} (hle : f ≤ f')
    (h : cover f s c = some t) : cover f' s c = some t :=
  coverCol_mono f f' _ _ _ hle h

theorem uncoverRow_mono {r : Nat} (f : Nat) : ∀ (f' j : Nat) (s t : DLXSolver), f ≤ f' →
    uncoverRow r f j s = some t → uncoverRow r f' j s = some t := by
  induction f with
  | zero => intro f' j s t _ h; simp [uncoverRow] at h
  | succ n ih =>
    intro f' j s t hle h
    cases f' with
    | zero => omega
    | succ m =>
      rw [uncoverRow] at h ⊢
      by_cases hj : j = r
      · rw [if_pos hj] at h ⊢; exact h
      · rw [if_neg hj] at h ⊢
        exact ih m _ _ _ (by omega) h

theorem uncoverCol_mono {c : Nat} (f : Nat) : ∀ (f' r : Nat) (s t : DLXSolver), f ≤ f' →
    uncoverCol c f r s = some t → uncoverCol c f' r s = some t := by
  induction f with
  | zero => intro f' r s t _ h; simp [uncoverCol] at h
  | succ n ih =>
    intro f' r s t hle h
    cases f' with
    | zero => omega
    | succ m =>
      rw [uncoverCol] at h ⊢
      by_cases hr : r = c
      · rw [if_pos hr] at h ⊢; exact h
      · rw [if_neg hr] at h ⊢
        cases h1 : uncoverRow r n (s.L.get r) s with
        | none => rw [h1] at h; simp at h
        | some s1 =>
          rw [h1] at h
          rw [uncoverRow_mono n m _ _ _ (by omega) h1]
          exact ih m _ _ _ (by omega) h

theorem uncover_mono {f f' : Nat} {s t : DLXSolver} {c : Nat} (hle : f ≤ f')
    (h : uncover f s c = some t) : uncover f' s c = some t := by
  rw [uncover_def] at h ⊢
  cases h1 : uncoverCol c f (s.U.get c) s with
  | none => rw [h1] at h; simp at h
  | some s1 =>
    rw [h1] at h
    rw [uncoverCol_mono f f' _ _ _ hle h1]
    exact h

theorem chooseCol_mono (s : DLXSolver) (f : Nat) : ∀ (f' j c : Nat) (best : Int)
    (res : Nat × Int), f ≤ f' →
    chooseCol s f j c best = some res → chooseCol s f' j c best = some res := by
  induction f with
  | zero => intro f' j c best res _ h; simp [chooseCol] at h
  | succ n ih =>
    intro f' j c best res hle h
    cases f' with
    | zero => omega
    | succ m =>
      rw [chooseCol] at h ⊢
      by_cases hj : j = head
      · rw [if_pos hj] at h ⊢; exact h
      · rw [if_neg hj] at h ⊢
        by_cases hlt : s.colSize.get (s.col.get j).toNat < best
        · rw [if_pos hlt] at h ⊢; exact ih m _ _ _ _ (by omega) h
        · rw [if_neg hlt] at h ⊢; exact ih m _ _ _ _ (by omega) h

theorem coverRowCols_mono {r : Nat} (f : Nat) : ∀ (f' j : Nat) (s t : DLXSolver), f ≤ f' →
    coverRowCols r f j s = some t → coverRowCols r f' j s = some t := by
  induction f with
  | zero => intro f' j s t _ h; simp [coverRowCols] at h
  | succ n ih =>
    intro f' j s t hle h
    cases f' with
    | zero => omega
    | succ m =>
      rw [coverRowCols] at h ⊢
      by_cases hj : j = r
      · rw [if_pos hj] at h ⊢; exact h
      · rw [if_neg hj] at h ⊢
        cases h1 : cover n s (s.colHead.get (s.col.get j).toNat) with
        | none => rw [h1] at h; simp at h
        | some s1 =>
          rw [h1] at h
          rw [cover_mono (by omega) h1]
          exact ih m _ _ _ (by omega) h

theorem uncoverRowCols_mono {r : Nat} (f : Nat) : ∀ (f' j : Nat) (s t : DLXSolver), f ≤ f' →
    uncoverRowCols r f j s = some t → uncoverRowCols r f' j s = some t := by
  induction f with
  | zero => intro f' j s t _ h; simp [uncoverRowCols] at h
  | succ n ih =>
    intro f' j s t hle h
    cases f' with
    | zero => omega
    | succ m =>
      rw [uncoverRowCols] at h ⊢
      by_cases hj : j = r
      · rw [if_pos hj] at h ⊢; exact h
      · rw [if_neg hj] at h ⊢
        cases h1 : uncover n s (s.colHead.get (s.col.get j).toNat) with
        | none => rw [h1] at h; simp at h
        | some s1 =>
          rw [h1] at h
          rw [uncover_mono (by omega) h1]
          exact ih m _ _ _ (by omega) h

theorem search_mono_aux (f : Nat) :
    (∀ (f' : Nat) (s : DLXSolver) (res : Bool × DLXSolver), f ≤ f' →
      search f s = some res → search f' s = some res) ∧
    (∀ (f' c r : Nat) (s : DLXSolver) (res : Bool × DLXSolver), f ≤ f' →
      searchRows c f r s = some res → searchRows c f' r s = some res) := by
  induction f with
  | zero =>
    refine ⟨?_, ?_⟩
    · intro f' s res _ h; simp [search] at h
    · intro f' c r s res _ h; simp [searchRows] at h
  | succ n ih =>
    obtain ⟨ih1, ih2⟩ := ih
    refine ⟨?_, ?_⟩
    · intro f' s res hle h
      cases f' with
      | zero => omega
      | succ m =>
        rw [search_succ] at h ⊢
        by_cases hR : s.R.get head = head
        · rw [if_pos hR] at h ⊢; exact h
        · rw [if_neg hR] at h ⊢
          cases h1 : chooseCol s n (s.R.get head) null INT_MAX with
          | none => rw [h1] at h; simp at h
          | some cb =>
            obtain ⟨c, best⟩ := cb
            rw [h1] at h
            rw [chooseCol_mono s n m _ _ _ _ (by omega) h1]
            simp only [] at h ⊢
            by_cases hz : c = null ∨ best = 0
            · rw [if_pos hz] at h ⊢; exact h
            · rw [if_neg hz] at h ⊢
              cases h2 : cover n s c with
              | none => rw [h2] at h; simp at h
              | some s1 =>
                rw [h2] at h
                rw [cover_mono (by omega) h2]
                exact ih2 m _ _ _ _ (by omega) h
    · intro f' c r s res hle h
      cases f' with
      | zero => omega
      | succ m =>
        rw [searchRows_succ] at h ⊢
        by_cases hr : r = c
        · rw [if_pos hr] at h ⊢
          cases h1 : uncover n s c with
          | none => rw [h1] at h; simp at h
          | some s1 =>
            rw [h1] at h
            rw [uncover_mono (by omega) h1]
            exact h
        · rw [if_neg hr] at h ⊢
          cases h1 : coverRowCols r n ((s.pushSolution r).R.get r) (s.pushSolution r) with
          | none => rw [h1] at h; simp at h
          | some s1 =>
            rw [h1] at h
            rw [coverRowCols_mono n m _ _ _ (by omega) h1]
            simp only [] at h ⊢
            cases h2 : search n s1 with
            | none => rw [h2] at h; simp at h
            | some res2 =>
              obtain ⟨b, s2⟩ := res2
              rw [h2] at h
              rw [ih1 m _ _ (by omega) h2]
              cases b with
              | true => exact h
              | false =>
                simp only [] at h ⊢
                cases h3 : uncoverRowCols r n (s2.L.get r) s2 with
                | none => rw [h3] at h; simp at h
                | some s3 =>
                  rw [h3] at h
                  rw [uncoverRowCols_mono n m _ _ _ (by omega) h3]
                  exact ih2 m _ _ _ _ (by omega) h

theorem search_mono {f f' : Nat} {s : DLXSolver} {res : Bool × DLXSolver} (hle : f ≤ f')
    (h : search f s = some res) : search f' s = some res :=
  (search_mono_aux f).1 f' s res hle h

/-! ### Field projections of the setters -/

@[simp] theorem setL_nCols (s : DLXSolver) (p : Nat) (v : Nat) :
    (s.setL p v).nCols = s.nCols := rfl
@[simp] theorem setL_colSize (s : DLXSolver) (p : Nat) (v : Nat) :
    (s.setL p v).colSize = s.colSize := rfl
@[simp] theorem setL_colHead (s : DLXSolver) (p : Nat) (v : Nat) :
    (s.setL p v).colHead = s.colHead := rfl
@[simp] theorem setL_row (s : DLXSolver) (p : Nat) (v : Nat) :
    (s.setL p v).row = s.row := rfl
@[simp] theorem setL_col (s : DLXSolver) (p : Nat) (v : Nat) :
    (s.setL p v).col = s.col := rfl
@[simp] theorem setL_L_eq (s : DLXSolver) (p : Nat) (v : Nat) :
    (s.setL p v).L = s.L.set p v := rfl
@[simp] theorem setL_R (s : DLXSolver) (p : Nat) (v : Nat) :
    (s.setL p v).R = s.R := rfl
@[simp] theorem setL_U (s : DLXSolver) (p : Nat) (v : Nat) :
    (s.setL p v).U = s.U := rfl
@[simp] theorem setL_D (s : DLXSolver) (p : Nat) (v : Nat) :
    (s.setL p v).D = s.D := rfl
@[simp] theorem setL_next (s : DLXSolver) (p : Nat) (v : Nat) :
    (s.setL p v).next = s.next := rfl
@[simp] theorem setL_solution (s : DLXSolver) (p : Nat) (v : Nat) :
    (s.setL p v).solution = s.solution := rfl
@[simp] theorem setL_outRows (s : DLXSolver) (p : Nat) (v : Nat) :
    (s.setL p v).outRows = s.outRows := rfl
@[simp] theorem setR_nCols (s : DLXSolver) (p : Nat) (v : Nat) :
    (s.setR p v).nCols = s.nCols := rfl
@[simp] theorem setR_colSize (s : DLXSolver) (p : Nat) (v : Nat) :
    (s.setR p v).colSize = s.colSize := rfl
@[simp] theorem setR_colHead (s : DLXSolver) (p : Nat) (v : Nat) :
    (s.setR p v).colHead = s.colHead := rfl
@[simp] theorem setR_row (s : DLXSolver) (p : Nat) (v : Nat) :
    (s.setR p v).row = s.row := rfl
@[simp] theorem setR_col (s : DLXSolver) (p : Nat) (v : Nat) :
    (s.setR p v).col = s.col := rfl
@[simp] theorem setR_L (s : DLXSolver) (p : Nat) (v : Nat) :
    (s.setR p v).L = s.L := rfl
@[simp] theorem setR_R_eq (s : DLXSolver) (p : Nat) (v : Nat) :
    (s.setR p v).R = s.R.set p v := rfl
@[simp] theorem setR_U (s : DLXSolver) (p : Nat) (v : Nat) :
    (s.setR p v).U = s.U := rfl
@[simp] theorem setR_D (s : DLXSolver) (p : Nat) (v : Nat) :
    (s.setR p v).D = s.D := rfl
@[simp] theorem setR_next (s : DLXSolver) (p : Nat) (v : Nat) :
    (s.setR p v).next = s.next := rfl
@[simp] theorem setR_solution (s : DLXSolver) (p : Nat) (v : Nat) :
    (s.setR p v).solution = s.solution := rfl
@[simp] theorem setR_outRows (s : DLXSolver) (p : Nat) (v : Nat) :
    (s.setR p v).outRows = s.outRows := rfl
@[simp] theorem setU_nCols (s : DLXSolver) (p : Nat) (v : Nat) :
    (s.setU p v).nCols = s.nCols := rfl
@[simp] theorem setU_colSize (s : DLXSolver) (p : Nat) (v : Nat) :
    (s.setU p v).colSize = s.colSize := rfl
@[simp] theorem setU_colHead (s : DLXSolver) (p : Nat) (v : Nat) :
    (s.setU p v).colHead = s.colHead := rfl
@[simp] theorem setU_row (s : DLXSolver) (p : Nat) (v : Nat) :
    (s.setU p v).row = s.row := rfl
@[simp] theorem setU_col (s : DLXSolver) (p : Nat) (v : Nat) :
    (s.setU p v).col = s.col := rfl
@[simp] theorem setU_L (s : DLXSolver) (p : Nat) (v : Nat) :
    (s.setU p v).L = s.L := rfl
@[simp] theorem setU_R (s : DLXSolver) (p : Nat) (v : Nat) :
    (s.setU p v).R = s.R := rfl
@[simp] theorem setU_U_eq (s : DLXSolver) (p : Nat) (v : Nat) :
    (s.setU p v).U = s.U.set p v := rfl
@[simp] theorem setU_D (s : DLXSolver) (p : Nat) (v : Nat) :
    (s.setU p v).D = s.D := rfl
@[simp] theorem setU_next (s : DLXSolver) (p : Nat) (v : Nat) :
    (s.setU p v).next = s.next := rfl
@[simp] theorem setU_solution (s : DLXSolver) (p : Nat) (v : Nat) :
    (s.setU p v).solution = s.solution := rfl
@[simp] theorem setU_outRows (s : DLXSolver) (p : Nat) (v : Nat) :
    (s.setU p v).outRows = s.outRows := rfl
@[simp] theorem setD_nCols (s : DLXSolver) (p : Nat) (v : Nat) :
    (s.setD p v).nCols = s.nCols := rfl
@[simp] theorem setD_colSize (s : DLXSolver) (p : Nat) (v : Nat) :
    (s.setD p v).colSize = s.colSize := rfl
@[simp] theorem setD_colHead (s : DLXSolver) (p : Nat) (v : Nat) :
    (s.setD p v).colHead = s.colHead := rfl
@[simp] theorem setD_row (s : DLXSolver) (p : Nat) (v : Nat) :
    (s.setD p v).row = s.row := rfl
@[simp] theorem setD_col (s : DLXSolver) (p : Nat) (v : Nat) :
    (s.setD p v).col = s.col := rfl
@[simp] theorem setD_L (s : DLXSolver) (p : Nat) (v : Nat) :
    (s.setD p v).L = s.L := rfl
@[simp] theorem setD_R (s : DLXSolver) (p : Nat) (v : Nat) :
    (s.setD p v).R = s.R := rfl
@[simp] theorem setD_U (s : DLXSolver) (p : Nat) (v : Nat) :
    (s.setD p v).U = s.U := rfl
@[simp] theorem setD_D_eq (s : DLXSolver) (p : Nat) (v : Nat) :
    (s.setD p v).D = s.D.set p v := rfl
@[simp] theorem setD_next (s : DLXSolver) (p : Nat) (v : Nat) :
    (s.setD p v).next = s.next := rfl
@[simp] theorem setD_solution (s : DLXSolver) (p : Nat) (v : Nat) :
    (s.setD p v).solution = s.solution := rfl
@[simp] theorem setD_outRows (s : DLXSolver) (p : Nat) (v : Nat) :
    (s.setD p v).outRows = s.outRows := rfl
@[simp] theorem setRow_nCols (s : DLXSolver) (p : Nat) (v : Int) :
    (s.setRow p v).nCols = s.nCols := rfl
@[simp] theorem setRow_colSize (s : DLXSolver) (p : Nat) (v : Int) :
    (s.setRow p v).colSize = s.colSize := rfl
@[simp] theorem setRow_colHead (s : DLXSolver) (p : Nat) (v : Int) :
    (s.setRow p v).colHead = s.colHead := rfl
@[simp] theorem setRow_row_eq (s : DLXSolver) (p : Nat) (v : Int) :
    (s.setRow p v).row = s.row.set p v := rfl
@[simp] theorem setRow_col (s : DLXSolver) (p : Nat) (v : Int) :
    (s.setRow p v).col = s.col := rfl
@[simp] theorem setRow_L (s : DLXSolver) (p : Nat) (v : Int) :
    (s.setRow p v).L = s.L := rfl
@[simp] theorem setRow_R (s : DLXSolver) (p : Nat) (v : Int) :
    (s.setRow p v).R = s.R := rfl
@[simp] theorem setRow_U (s : DLXSolver) (p : Nat) (v : Int) :
    (s.setRow p v).U = s.U := rfl
@[simp] theorem setRow_D (s : DLXSolver) (p : Nat) (v : Int) :
    (s.setRow p v).D = s.D := rfl
@[simp] theorem setRow_next (s : DLXSolver) (p : Nat) (v : Int) :
    (s.setRow p v).next = s.next := rfl
@[simp] theorem setRow_solution (s : DLXSolver) (p : Nat) (v : Int) :
    (s.setRow p v).solution = s.solution := rfl
@[simp] theorem setRow_outRows (s : DLXSolver) (p : Nat) (v : Int) :
    (s.setRow p v).outRows = s.outRows := rfl
@[simp] theorem setCol_nCols (s : DLXSolver) (p : Nat) (v : Int) :
    (s.setCol p v).nCols = s.nCols := rfl
@[simp] theorem setCol_colSize (s : DLXSolver) (p : Nat) (v : Int) :
    (s.setCol p v).colSize = s.colSize := rfl
@[simp] theorem setCol_colHead (s : DLXSolver) (p : Nat) (v : Int) :
    (s.setCol p v).colHead = s.colHead := rfl
@[simp] theorem setCol_row (s : DLXSolver) (p : Nat) (v : Int) :
    (s.setCol p v).row = s.row := rfl
@[simp] theorem setCol_col_eq (s : DLXSolver) (p : Nat) (v : Int) :
    (s.setCol p v).col = s.col.set p v := rfl
@[simp] theorem setCol_L (s : DLXSolver) (p : Nat) (v : Int) :
    (s.setCol p v).L = s.L := rfl
@[simp] theorem setCol_R (s : DLXSolver) (p : Nat) (v : Int) :
    (s.setCol p v).R = s.R := rfl
@[simp] theorem setCol_U (s : DLXSolver) (p : Nat) (v : Int) :
    (s.setCol p v).U = s.U := rfl
@[simp] theorem setCol_D (s : DLXSolver) (p : Nat) (v : Int) :
    (s.setCol p v).D = s.D := rfl
@[simp] theorem setCol_next (s : DLXSolver) (p : Nat) (v : Int) :
    (s.setCol p v).next = s.next := rfl
@[simp] theorem setCol_solution (s : DLXSolver) (p : Nat) (v : Int) :
    (s.setCol p v).solution = s.solution := rfl
@[simp] theorem setCol_outRows (s : DLXSolver) (p : Nat) (v : Int) :
    (s.setCol p v).outRows = s.outRows := rfl
@[simp] theorem setColSize_nCols (s : DLXSolver) (p : Nat) (v : Int) :
    (s.setColSize p v).nCols = s.nCols := rfl
@[simp] theorem setColSize_colSize_eq (s : DLXSolver) (p : Nat) (v : Int) :
    (s.setColSize p v).colSize = s.colSize.set p v := rfl
@[simp] theorem setColSize_colHead (s : DLXSolver) (p : Nat) (v : Int) :
    (s.setColSize p v).colHead = s.colHead := rfl
@[simp] theorem setColSize_row (s : DLXSolver) (p : Nat) (v : Int) :
    (s.setColSize p v).row = s.row := rfl
@[simp] theorem setColSize_col (s : DLXSolver) (p : Nat) (v : Int) :
    (s.setColSize p v).col = s.col := rfl
@[simp] theorem setColSize_L (s : DLXSolver) (p : Nat) (v : Int) :
    (s.setColSize p v).L = s.L := rfl
@[simp] theorem setColSize_R (s : DLXSolver) (p : Nat) (v : Int) :
    (s.setColSize p v).R = s.R := rfl
@[simp] theorem setColSize_U (s : DLXSolver) (p : Nat) (v : Int) :
    (s.setColSize p v).U = s.U := rfl
@[simp] theorem setColSize_D (s : DLXSolver) (p : Nat) (v : Int) :
    (s.setColSize p v).D = s.D := rfl
@[simp] theorem setColSize_next (s : DLXSolver) (p : Nat) (v : Int) :
    (s.setColSize p v).next = s.next := rfl
@[simp] theorem setColSize_solution (s : DLXSolver) (p : Nat) (v : Int) :
    (s.setColSize p v).solution = s.solution := rfl
@[simp] theorem setColSize_outRows (s : DLXSolver) (p : Nat) (v : Int) :
    (s.setColSize p v).outRows = s.outRows := rfl
@[simp] theorem setColHead_nCols (s : DLXSolver) (p : Nat) (v : Nat) :
    (s.setColHead p v).nCols = s.nCols := rfl
@[simp] theorem setColHead_colSize (s : DLXSolver) (p : Nat) (v : Nat) :
    (s.setColHead p v).colSize = s.colSize := rfl
@[simp] theorem setColHead_colHead_eq (s : DLXSolver) (p : Nat) (v : Nat) :
    (s.setColHead p v).colHead = s.colHead.set p v := rfl
@[simp] theorem setColHead_row (s : DLXSolver) (p : Nat) (v : Nat) :
    (s.setColHead p v).row = s.row := rfl
@[simp] theorem setColHead_col (s : DLXSolver) (p : Nat) (v : Nat) :
    (s.setColHead p v).col = s.col := rfl
@[simp] theorem setColHead_L (s : DLXSolver) (p : Nat) (v : Nat) :
    (s.setColHead p v).L = s.L := rfl
@[simp] theorem setColHead_R (s : DLXSolver) (p : Nat) (v : Nat) :
    (s.setColHead p v).R = s.R := rfl
@[simp] theorem setColHead_U (s : DLXSolver) (p : Nat) (v : Nat) :
    (s.setColHead p v).U = s.U := rfl
@[simp] theorem setColHead_D (s : DLXSolver) (p : Nat) (v : Nat) :
    (s.setColHead p v).D = s.D := rfl
@[simp] theorem setColHead_next (s : DLXSolver) (p : Nat) (v : Nat) :
    (s.setColHead p v).next = s.next := rfl
@[simp] theorem setColHead_solution (s : DLXSolver) (p : Nat) (v : Nat) :
    (s.setColHead p v).solution = s.solution := rfl
@[simp] theorem setColHead_outRows (s : DLXSolver) (p : Nat) (v : Nat) :
    (s.setColHead p v).outRows = s.outRows := rfl

@[simp] theorem newNode_nCols (s : DLXSolver) : s.newNode.2.nCols = s.nCols := rfl
@[simp] theorem newNode_colSize (s : DLXSolver) : s.newNode.2.colSize = s.colSize := rfl
@[simp] theorem newNode_colHead (s : DLXSolver) : s.newNode.2.colHead = s.colHead := rfl
@[simp] theorem newNode_row (s : DLXSolver) : s.newNode.2.row = s.row.set s.next (-1) := rfl
@[simp] theorem newNode_col (s : DLXSolver) : s.newNode.2.col = s.col.set s.next (-1) := rfl
@[simp] theorem newNode_L (s : DLXSolver) : s.newNode.2.L = s.L.set s.next s.next := rfl
@[simp] theorem newNode_R (s : DLXSolver) : s.newNode.2.R = s.R.set s.next s.next := rfl
@[simp] theorem newNode_U (s : DLXSolver) : s.newNode.2.U = s.U.set s.next s.next := rfl
@[simp] theorem newNode_D (s : DLXSolver) : s.newNode.2.D = s.D.set s.next s.next := rfl
@[simp] theorem newNode_next (s : DLXSolver) : s.newNode.2.next = s.next + 1 := rfl
@[simp] theorem newNode_solution (s : DLXSolver) : s.newNode.2.solution = s.solution := rfl
@[simp] theorem newNode_outRows (s : DLXSolver) : s.newNode.2.outRows = s.outRows := rfl
@[simp] theorem newNode_fst (s : DLXSolver) : s.newNode.1 = s.next := rfl

end DLXSolver

section SegBuild

variable {nx pv : Nat → Nat}

/-- The predecessor of the end of a segment is its last node, or its start. -/
theorem seg_pv_end {a b : Nat} {l : List Nat} (h : Seg nx pv a l b) :
    pv b = (a :: l).getLast (List.cons_ne_nil _ _) := by
  induction l generalizing a with
  | nil => exact h.2
  | cons x xs ih =>
    obtain ⟨_, _, h3⟩ := h
    rw [ih h3]
    simp [List.getLast_cons]

theorem seg_pv_end_mem {a b : Nat} {l : List Nat} (h : Seg nx pv a l b) : pv b ∈ a :: l := by
  rw [seg_pv_end h]; exact List.getLast_mem _

theorem seg_retarget {a x p : Nat} {l : List Nat} (h : Seg nx pv x l a)
    (hnd : (x :: l).Nodup) (hp : p ∉ x :: l) (ha : a ∉ l) (hpa : p ≠ a) :
    Seg (Function.update (Function.update nx p a) (pv a) p)
      (Function.update (Function.update pv p (pv a)) a p) x l p := by
  induction l generalizing x with
  | nil =>
    obtain ⟨h1, h2⟩ := h
    refine ⟨?_, ?_⟩
    · rw [h2, Function.update_same]
    · rw [Function.update_noteq hpa, Function.update_same, h2]
  | cons y ys ih =>
    obtain ⟨h1, h2, h3⟩ := h
    have hnd' := (List.nodup_cons.1 hnd).2
    have hx : x ∉ y :: ys := (List.nodup_cons.1 hnd).1
    have hpx : x ≠ p := fun e => hp (e ▸ List.mem_cons_self _ _)
    have hpy : y ≠ p := fun e => hp (e ▸ List.mem_cons_of_mem _ (List.mem_cons_self _ _))
    have hya : y ≠ a := fun e => ha (e ▸ List.mem_cons_self _ _)
    refine ⟨?_, ?_, ih h3 hnd' (fun e => hp (List.mem_cons_of_mem _ e))
      (fun e => ha (List.mem_cons_of_mem _ e))⟩
    · rw [Function.update_noteq, Function.update_noteq hpx, h1]
      intro e
      exact hx (e ▸ seg_pv_end_mem h3)
    · rw [Function.update_noteq hya, Function.update_noteq hpy, h2]

/-- Inserting a fresh node `p` at the tail of a ring through `a`
(`p.nx = a; p.pv = a.pv; a.pv.nx = p; a.pv = p`) appends it to the ring. -/
theorem seg_insert_tail {a p : Nat} {l : List Nat} (h : Seg nx pv a l a)
    (hnd : (a :: l).Nodup) (hp : p ∉ a :: l) :
    Seg (Function.update (Function.update nx p a) (pv a) p)
      (Function.update (Function.update pv p (pv a)) a p) a (l ++ [p]) a := by
  have hpa : p ≠ a := fun e => hp (e ▸ List.mem_cons_self _ _)
  rw [seg_snoc]
  refine ⟨seg_retarget h hnd hp (List.nodup_cons.1 hnd).1 hpa, ?_, ?_⟩
  · rw [Function.update_noteq, Function.update_same]
    intro e
    exact hp (e ▸ seg_pv_end_mem h)
  · rw [Function.update_same]

/-- A ring read from its first node can be read from any of its nodes. -/
theorem seg_rotations {x : Nat} {t : List Nat} (h : Seg nx pv x t x) {l1 l2 : List Nat}
    {r : Nat} (e : x :: t = l1 ++ r :: l2) : Seg nx pv r (l2 ++ l1) r := by
  cases l1 with
  | nil =>
    simp only [List.nil_append, List.cons.injEq] at e
    obtain ⟨rfl, rfl⟩ := e
    simpa using h
  | cons y ys =>
    simp only [List.cons_append, List.cons.injEq] at e
    obtain ⟨rfl, rfl⟩ := e
    exact seg_rotate h

end SegBuild

namespace DLXSolver

theorem addRowStep_nCols (rowID : Int) (s : DLXSolver) (first prev c : Nat) :
    (addRowStep rowID (s, first, prev) c).1.nCols =
      s.nCols := by
  by_cases hf : first = null
  · simp only [addRowStep, hf, if_true]
    simp only [setL_nCols, setR_nCols, setU_nCols, setD_nCols, setRow_nCols, setCol_nCols,
      setColSize_nCols, newNode_nCols, newNode_fst]
  · simp only [addRowStep, hf, if_false]
    simp only [setL_nCols, setR_nCols, setU_nCols, setD_nCols, setRow_nCols, setCol_nCols,
      setColSize_nCols, newNode_nCols, newNode_fst]

theorem addRowStep_colHead (rowID : Int) (s : DLXSolver) (first prev c : Nat) :
    (addRowStep rowID (s, first, prev) c).1.colHead =
      s.colHead := by
  by_cases hf : first = null
  · simp only [addRowStep, hf, if_true]
    simp only [setL_colHead, setR_colHead, setU_colHead, setD_colHead, setRow_colHead, setCol_colHead,
      setColSize_colHead, newNode_colHead, newNode_fst]
  · simp only [addRowStep, hf, if_false]
    simp only [setL_colHead, setR_colHead, setU_colHead, setD_colHead, setRow_colHead, setCol_colHead,
      setColSize_colHead, newNode_colHead, newNode_fst]

theorem addRowStep_next (rowID : Int) (s : DLXSolver) (first prev c : Nat) :
    (addRowStep rowID (s, first, prev) c).1.next =
      s.next + 1 := by
  by_cases hf : first = null
  · simp only [addRowStep, hf, if_true]
    simp only [setL_next, setR_next, setU_next, setD_next, setRow_next, setCol_next, setColSize_next,
      newNode_next, newNode_fst]
  · simp only [addRowStep, hf, if_false]
    simp only [setL_next, setR_next, setU_next, setD_next, setRow_next, setCol_next, setColSize_next,
      newNode_next, newNode_fst]

theorem addRowStep_solution (rowID : Int) (s : DLXSolver) (first prev c : Nat) :
    (addRowStep rowID (s, first, prev) c).1.solution =
      s.solution := by
  by_cases hf : first = null
  · simp only [addRowStep, hf, if_true]
    simp only [setL_solution, setR_solution, setU_solution, setD_solution, setRow_solution,
      setCol_solution, setColSize_solution, newNode_solution, newNode_fst]
  · simp only [addRowStep, hf, if_false]
    simp only [setL_solution, setR_solution, setU_solution, setD_solution, setRow_solution,
      setCol_solution, setColSize_solution, newNode_solution, newNode_fst]

theorem addRowStep_outRows (rowID : Int) (s : DLXSolver) (first prev c : Nat) :
    (addRowStep rowID (s, first, prev) c).1.outRows =
      s.outRows := by
  by_cases hf : first = null
  · simp only [addRowStep, hf, if_true]
    simp only [setL_outRows, setR_outRows, setU_outRows, setD_outRows, setRow_outRows, setCol_outRows,
      setColSize_outRows, newNode_outRows, newNode_fst]
  · simp only [addRowStep, hf, if_false]
    simp only [setL_outRows, setR_outRows, setU_outRows, setD_outRows, setRow_outRows, setCol_outRows,
      setColSize_outRows, newNode_outRows, newNode_fst]

theorem addRowStep_row (rowID : Int) (s : DLXSolver) (first prev c : Nat) :
    (addRowStep rowID (s, first, prev) c).1.row.get =
      Function.update s.row.get s.next rowID := by
  by_cases hf : first = null
  · simp only [addRowStep, hf, if_true]
    simp only [setL_row, setR_row, setU_row, setD_row, setRow_row_eq, setCol_row, setColSize_row,
      newNode_row, newNode_fst]
    rw [Mem.get_set_fn, Mem.get_set_fn, Function.update_idem]
  · simp only [addRowStep, hf, if_false]
    simp only [setL_row, setR_row, setU_row, setD_row, setRow_row_eq, setCol_row, setColSize_row,
      newNode_row, newNode_fst]
    rw [Mem.get_set_fn, Mem.get_set_fn, Function.update_idem]

theorem addRowStep_col (rowID : Int) (s : DLXSolver) (first prev c : Nat) :
    (addRowStep rowID (s, first, prev) c).1.col.get =
      Function.update s.col.get s.next (c : Int) := by
  by_cases hf : first = null
  · simp only [addRowStep, hf, if_true]
    simp only [setL_col, setR_col, setU_col, setD_col, setRow_col, setCol_col_eq, setColSize_col,
      newNode_col, newNode_fst]
    rw [Mem.get_set_fn, Mem.get_set_fn, Function.update_idem]
  · simp only [addRowStep, hf, if_false]
    simp only [setL_col, setR_col, setU_col, setD_col, setRow_col, setCol_col_eq, setColSize_col,
      newNode_col, newNode_fst]
    rw [Mem.get_set_fn, Mem.get_set_fn, Function.update_idem]

theorem addRowStep_colSize (rowID : Int) (s : DLXSolver) (first prev c : Nat) :
    (addRowStep rowID (s, first, prev) c).1.colSize.get =
      Function.update s.colSize.get c (s.colSize.get c + 1) := by
  by_cases hf : first = null
  · simp only [addRowStep, hf, if_true]
    simp only [setL_colSize, setR_colSize, setU_colSize, setD_colSize, setRow_colSize, setCol_colSize,
      setColSize_colSize_eq, newNode_colSize, newNode_fst]
    rw [Mem.get_set_fn]
  · simp only [addRowStep, hf, if_false]
    simp only [setL_colSize, setR_colSize, setU_colSize, setD_colSize, setRow_colSize, setCol_colSize,
      setColSize_colSize_eq, newNode_colSize, newNode_fst]
    rw [Mem.get_set_fn]

theorem addRowStep_U (rowID : Int) (s : DLXSolver) (first prev c : Nat)
    (hh : s.colHead.get c ≠ s.next) :
    (addRowStep rowID (s, first, prev) c).1.U.get =
      Function.update (Function.update s.U.get s.next (s.U.get (s.colHead.get c)))
        (s.colHead.get c) s.next := by
  by_cases hf : first = null
  · simp only [addRowStep, hf, if_true]
    simp only [setL_U, setR_U, setU_U_eq, setD_U, setRow_U, setCol_U, setColSize_U, newNode_U,
      setL_colHead, setR_colHead, setU_colHead, setD_colHead, setRow_colHead, setCol_colHead,
      setColSize_colHead, newNode_colHead, newNode_fst]
    simp only [Mem.get_set_fn, Function.update_idem, Function.update_noteq hh]
  · simp only [addRowStep, hf, if_false]
    simp only [setL_U, setR_U, setU_U_eq, setD_U, setRow_U, setCol_U, setColSize_U, newNode_U,
      setL_colHead, setR_colHead, setU_colHead, setD_colHead, setRow_colHead, setCol_colHead,
      setColSize_colHead, newNode_colHead, newNode_fst]
    simp only [Mem.get_set_fn, Function.update_idem, Function.update_noteq hh]

theorem addRowStep_D (rowID : Int) (s : DLXSolver) (first prev c : Nat)
    (hh : s.colHead.get c ≠ s.next) :
    (addRowStep rowID (s, first, prev) c).1.D.get =
      Function.update (Function.update s.D.get s.next (s.colHead.get c))
        (s.U.get (s.colHead.get c)) s.next := by
  by_cases hf : first = null
  · simp only [addRowStep, hf, if_true]
    simp only [setL_D, setR_D, setU_D, setD_D_eq, setRow_D, setCol_D, setColSize_D, newNode_D, setL_U,
      setR_U, setU_U_eq, setD_U, setRow_U, setCol_U, setColSize_U, newNode_U, setL_colHead,
      setR_colHead, setU_colHead, setD_colHead, setRow_colHead, setCol_colHead,
      setColSize_colHead, newNode_colHead, newNode_fst]
    simp only [Mem.get_set_fn, Function.update_idem, Function.update_noteq hh]
  · simp only [addRowStep, hf, if_false]
    simp only [setL_D, setR_D, setU_D, setD_D_eq, setRow_D, setCol_D, setColSize_D, newNode_D, setL_U,
      setR_U, setU_U_eq, setD_U, setRow_U, setCol_U, setColSize_U, newNode_U, setL_colHead,
      setR_colHead, setU_colHead, setD_colHead, setRow_colHead, setCol_colHead,
      setColSize_colHead, newNode_colHead, newNode_fst]
    simp only [Mem.get_set_fn, Function.update_idem, Function.update_noteq hh]

/-- The horizontal links after one step of the `addRow` loop. -/
theorem addRowStep_LR (rowID : Int) (s : DLXSolver) (first prev c : Nat) :
    (first = null →
      (addRowStep rowID (s, first, prev) c).1.R.get = Function.update s.R.get s.next s.next ∧
      (addRowStep rowID (s, first, prev) c).1.L.get = Function.update s.L.get s.next s.next) ∧
    (first ≠ null →
      (addRowStep rowID (s, first, prev) c).1.R.get =
        Function.update (Function.update s.R.get s.next first) prev s.next ∧
      (addRowStep rowID (s, first, prev) c).1.L.get =
        Function.update (Function.update s.L.get s.next prev) first s.next) := by
  refine ⟨?_, ?_⟩
  · intro hf
    simp only [addRowStep, hf, if_true, setL_R, setR_R_eq, setU_R, setD_R, setRow_R, setCol_R,
      setColSize_R, newNode_R, setL_L_eq, setR_L, setU_L, setD_L, setRow_L, setCol_L,
      setColSize_L, newNode_L, newNode_fst, Mem.get_set_fn, Function.update_idem, and_self]
  · intro hf
    simp only [addRowStep, hf, if_false, setL_R, setR_R_eq, setU_R, setD_R, setRow_R, setCol_R,
      setColSize_R, newNode_R, setL_L_eq, setR_L, setU_L, setD_L, setRow_L, setCol_L,
      setColSize_L, newNode_L, newNode_fst, Mem.get_set_fn, Function.update_idem, and_self]

theorem addRowStep_snd (rowID : Int) (s : DLXSolver) (first prev c : Nat) :
    (addRowStep rowID (s, first, prev) c).2 =
      (if first = null then s.next else first, s.next) := by
  by_cases hf : first = null
  · simp only [addRowStep, hf, if_true, newNode_fst]
  · simp only [addRowStep, hf, if_false, newNode_fst]

end DLXSolver

theorem Built.hdr_lt {rows : Layout} {s : DLXSolver} (h : Built rows s) {d : Nat}
    (hd : d < s.nCols) : s.colHead.get d < s.next :=
  h.alloc _ (List.mem_append_left _ (List.mem_map.2 ⟨d, List.mem_range.2 hd, rfl⟩))

theorem Built.node_lt {rows : Layout} {s : DLXSolver} (h : Built rows s) {j : Nat}
    (hj : j ∈ rows.flatten) : j < s.next :=
  h.alloc _ (List.mem_append_right _ hj)

theorem flatten_snoc (rows : Layout) (row : List Nat) :
    (rows ++ [row]).flatten = rows.flatten ++ row := by
  simp

theorem addRowStep_colN (rowID : Int) (s : DLXSolver) (first prev c x : Nat) :
    (addRowStep rowID (s, first, prev) c).1.colN x = if x = s.next then c else s.colN x := by
  unfold DLXSolver.colN
  rw [addRowStep_col, Function.update_apply]
  split
  · simp
  · rfl

/-- The vertical part of one step of `addRow`: the fresh node is appended to the ring of
its column, all other rings stay as they are. -/
theorem Built.addRowStep_vinv {rows : Layout} {s : DLXSolver} (rowID : Int)
    (h : Built rows s) {c : Nat} (hc : c < s.nCols) (first prev : Nat) (F' : List Nat)
    (hF : F' = rows.flatten ++ [s.next]) :
    (∀ d, d < s.nCols →
      Seg (addRowStep rowID (s, first, prev) c).1.D.get
        (addRowStep rowID (s, first, prev) c).1.U.get (s.colHead.get d)
        (F'.filter (fun j => decide ((addRowStep rowID (s, first, prev) c).1.colN j = d)))
        (s.colHead.get d)) ∧
    (∀ d, d < s.nCols → (addRowStep rowID (s, first, prev) c).1.colSize.get d =
      ((F'.filter (fun j =>
        decide ((addRowStep rowID (s, first, prev) c).1.colN j = d))).length : Int)) ∧
    (addRowStep rowID (s, first, prev) c).1.Closed ∧
    (∀ x, (addRowStep rowID (s, first, prev) c).1.U.get x < s.next + 1 ∧
      (addRowStep rowID (s, first, prev) c).1.D.get x < s.next + 1) := by
  have hs := h.static
  have hr := h.rep
  have hh : s.colHead.get c ≠ s.next := Nat.ne_of_lt (h.hdr_lt hc)
  have hu : s.U.get (s.colHead.get c) ≠ s.next := Nat.ne_of_lt (h.bounded _).1
  have hfilter : ∀ d, F'.filter (fun j =>
      decide ((addRowStep rowID (s, first, prev) c).1.colN j = d)) =
      (builtAbs rows s).vring d ++ (if c = d then [s.next] else []) := by
    intro d
    rw [hF, List.filter_append]
    congr 1
    · apply List.filter_congr
      intro x hx
      rw [addRowStep_colN, if_neg (Nat.ne_of_lt (h.node_lt hx))]
    · simp only [List.filter_cons, List.filter_nil, addRowStep_colN, if_true]
      by_cases hcd : c = d <;> simp [hcd]
  have hucol : s.colN (s.U.get (s.colHead.get c)) = c := by
    rw [(hr.vinv.closed _).1, hs.hcol c hc]
  have hmem : ∀ d, d < s.nCols → ∀ x, x ∈ s.colHead.get d :: (builtAbs rows s).vring d →
      s.colN x = d ∧ x ≠ s.next := by
    intro d hd x hx
    rcases List.mem_cons.1 hx with rfl | hx
    · exact ⟨hs.hcol d hd, Nat.ne_of_lt (h.hdr_lt hd)⟩
    · exact ⟨(hr.vinv.vr_mem d x hx).2, Nat.ne_of_lt (h.node_lt (hr.vinv.vr_mem d x hx).1)⟩
  refine ⟨?_, ?_, ?_, ?_⟩
  · intro d hd
    rw [hfilter, addRowStep_D _ _ _ _ _ hh, addRowStep_U _ _ _ _ _ hh]
    by_cases hcd : c = d
    · subst hcd
      rw [if_pos rfl]
      have hnd : (s.colHead.get c :: (builtAbs rows s).vring c).Nodup :=
        List.nodup_cons.2 ⟨fun hm => hs.hdr_not_node hc (hr.vinv.vr_mem _ _ hm).1,
          hr.vinv.vr_nodup c⟩
      exact seg_insert_tail (hr.vinv.vr c hc) hnd (fun hm => (hmem c hc _ hm).2 rfl)
    · rw [if_neg hcd, List.append_nil]
      refine seg_congr ?_ ?_ (hr.vinv.vr d hd)
      · intro x hx
        obtain ⟨h1, h2⟩ := hmem d hd x hx
        rw [Function.update_noteq, Function.update_noteq h2]
        rintro rfl
        exact hcd (hucol.symm.trans h1)
      · intro x hx
        obtain ⟨h1, h2⟩ := hmem d hd x (by simp at hx ⊢; tauto)
        rw [Function.update_noteq, Function.update_noteq h2]
        rintro rfl
        exact hcd ((hs.hcol c hc).symm.trans h1)
  · intro d hd
    rw [hfilter, addRowStep_colSize, List.length_append, Function.update_apply]
    have := hr.vinv.size d hd
    by_cases hcd : c = d
    · subst hcd
      rw [if_pos rfl, if_pos rfl, this]
      simp
    · rw [if_neg (fun e => hcd e.symm), if_neg hcd, this]
      simp
  · intro x
    rw [addRowStep_D _ _ _ _ _ hh, addRowStep_U _ _ _ _ _ hh]
    simp only [addRowStep_colN]
    refine ⟨?_, ?_⟩
    · by_cases hx1 : x = s.colHead.get c
      · subst hx1
        rw [Function.update_same, if_pos rfl, if_neg hh, hs.hcol c hc]
      · rw [Function.update_noteq hx1]
        by_cases hx2 : x = s.next
        · subst hx2
          rw [Function.update_same, if_neg hu, if_pos rfl, hucol]
        · rw [Function.update_noteq hx2, if_neg (Nat.ne_of_lt (h.bounded x).1), if_neg hx2]
          exact (hr.vinv.closed x).1
    · by_cases hx1 : x = s.U.get (s.colHead.get c)
      · subst hx1
        rw [Function.update_same, if_pos rfl, if_neg hu, hucol]
      · rw [Function.update_noteq hx1]
        by_cases hx2 : x = s.next
        · subst hx2
          rw [Function.update_same, if_neg hh, if_pos rfl, hs.hcol c hc]
        · rw [Function.update_noteq hx2, if_neg (Nat.ne_of_lt (h.bounded x).2), if_neg hx2]
          exact (hr.vinv.closed x).2
  · intro x
    rw [addRowStep_D _ _ _ _ _ hh, addRowStep_U _ _ _ _ _ hh]
    have hb := h.bounded x
    have hb2 := h.bounded (s.colHead.get c)
    have hhl := h.hdr_lt hc
    refine ⟨?_, ?_⟩
    · rw [Function.update_apply]
      split
      · omega
      · rw [Function.update_apply]
        split <;> omega
    · rw [Function.update_apply]
      split
      · omega
      · rw [Function.update_apply]
        split <;> omega

theorem Static.rows_disjoint {rows : Layout} {row : List Nat} {s : DLXSolver}
    (hs : Static (rows ++ [row]) s) {row' : List Nat} (hrow' : row' ∈ rows) {x : Nat}
    (hx : x ∈ row') : x ∉ row := by
  have hnd := hs.flatten_nodup
  rw [flatten_snoc, List.nodup_append] at hnd
  exact fun hm => hnd.2.2 (List.mem_flatten.2 ⟨row', hrow', hx⟩) hm

theorem getLastD_cons_mem (y : Nat) (ys : List Nat) (d : Nat) :
    (y :: ys).getLastD d ∈ y :: ys := by
  induction ys generalizing y with
  | nil => simp
  | cons z zs ih =>
    rw [List.getLastD_cons]
    exact List.mem_cons_of_mem _ (ih z)

theorem getLast_eq_getLastD_cons (y : Nat) (ys : List Nat) (d : Nat) :
    (y :: ys).getLast (List.cons_ne_nil _ _) = (y :: ys).getLastD d := by
  induction ys generalizing y with
  | nil => rfl
  | cons z zs ih =>
    rw [List.getLast_cons (List.cons_ne_nil _ _), ih z, List.getLastD_cons, List.getLastD_cons,
      List.getLastD_cons]

theorem headD_getLastD_snoc (row : List Nat) (p d : Nat) :
    (row ++ [p]).headD d = (if row.headD d = d then (if row = [] then p else d) else row.headD d) ∧
      (row ++ [p]).getLastD d = p := by
  refine ⟨?_, ?_⟩
  · cases row with
    | nil => simp
    | cons y ys =>
      simp only [List.cons_append, List.headD_cons]
      split
      · rename_i e; simp [e]
      · rfl
  · cases row with
    | nil => rfl
    | cons y ys =>
      rw [List.cons_append, ← getLast_eq_getLastD_cons]
      simp

/-- One step of the `addRow` loop keeps the construction invariant: the fresh node is
appended to the row under construction. -/
theorem Built.addRowStep {rows : Layout} {row : List Nat} {s : DLXSolver} (rowID : Int)
    (h : Built (rows ++ [row]) s) {c : Nat} (hc : c < s.nCols) (hcr : c ∉ row.map s.colN) :
    Built (rows ++ [row ++ [s.next]])
      (DLXSolver.addRowStep rowID (s, row.headD null, row.getLastD null) c).1 := by
  have hs := h.static
  have hr := h.rep
  have hF : (rows ++ [row ++ [s.next]]).flatten = (rows ++ [row]).flatten ++ [s.next] := by
    simp
  obtain ⟨v1, v2, v3, v4⟩ := h.addRowStep_vinv rowID hc (row.headD null) (row.getLastD null) _ hF
  obtain ⟨lr1, lr2⟩ := addRowStep_LR rowID s (row.headD null) (row.getLastD null) c
  have tn := addRowStep_nCols rowID s (row.headD null) (row.getLastD null) c
  have tch := addRowStep_colHead rowID s (row.headD null) (row.getLastD null) c
  have tnext := addRowStep_next rowID s (row.headD null) (row.getLastD null) c
  have hnode : ∀ x, x ∈ (rows ++ [row]).flatten → x ≠ s.next := fun x hx =>
    Nat.ne_of_lt (h.node_lt hx)
  have hhdr : ∀ d, d < s.nCols → s.colHead.get d ≠ s.next := fun d hd =>
    Nat.ne_of_lt (h.hdr_lt hd)
  have hhead : head ≠ s.next := by have := h.next_ge; unfold head; omega
  have hnull : null ≠ s.next := by have := h.next_ge; unfold null; omega
  have hcolN : ∀ x, x ≠ s.next →
      (DLXSolver.addRowStep rowID (s, row.headD null, row.getLastD null) c).1.colN x =
        s.colN x := fun x hx => by rw [addRowStep_colN, if_neg hx]
  have hcolNp : (DLXSolver.addRowStep rowID (s, row.headD null, row.getLastD null) c).1.colN
      s.next = c := by rw [addRowStep_colN, if_pos rfl]
  have hrowsub : ∀ x, x ∈ row → x ∈ (rows ++ [row]).flatten := fun x hx => by
    rw [flatten_snoc]; exact List.mem_append_right _ hx
  -- horizontal links away from the row under construction
  have hLR : ∀ x, x ≠ s.next → x ∉ row →
      (DLXSolver.addRowStep rowID (s, row.headD null, row.getLastD null) c).1.R.get x =
        s.R.get x ∧
      (DLXSolver.addRowStep rowID (s, row.headD null, row.getLastD null) c).1.L.get x =
        s.L.get x := by
    intro x hxp hxr
    by_cases hrow : row = []
    · obtain ⟨e1, e2⟩ := lr1 (by rw [hrow]; rfl)
      rw [e1, e2, Function.update_noteq hxp, Function.update_noteq hxp]
      exact ⟨rfl, rfl⟩
    · obtain ⟨y, ys, hrow⟩ := List.exists_cons_of_ne_nil hrow
      have hy : y ≠ null := (hs.head_not_node (hrowsub y (by rw [hrow]; simp))).2
      obtain ⟨e1, e2⟩ := lr2 (by rw [hrow]; exact hy)
      have hx1 : x ≠ row.headD null := by
        rw [hrow]; rintro rfl; exact hxr (by rw [hrow]; simp)
      have hx2 : x ≠ row.getLastD null := by
        rintro rfl
        apply hxr
        rw [hrow]
        exact getLastD_cons_mem y ys null
      rw [e1, e2, Function.update_noteq hx2, Function.update_noteq hxp,
        Function.update_noteq hx1, Function.update_noteq hxp]
      exact ⟨rfl, rfl⟩
  have hst : Static (rows ++ [row ++ [s.next]])
      (DLXSolver.addRowStep rowID (s, row.headD null, row.getLastD null) c).1 := by
    refine ⟨?_, ?_, ?_, ?_, ?_⟩
    · rw [tn, tch, hF]
      have hold := hs.addrs
      have : (null :: head :: ((List.range s.nCols).map s.colHead.get ++
          ((rows ++ [row]).flatten ++ [s.next]))) =
          (null :: head :: ((List.range s.nCols).map s.colHead.get ++
          (rows ++ [row]).flatten)) ++ [s.next] := by simp
      rw [this, List.nodup_append]
      refine ⟨hold, List.nodup_singleton _, ?_⟩
      intro x hx hx'
      rw [List.mem_singleton] at hx'
      subst hx'
      simp only [List.mem_cons, List.mem_append, List.mem_map, List.mem_range] at hx
      rcases hx with e | e | ⟨d, hd, e⟩ | e
      · exact hnull e.symm
      · exact hhead e.symm
      · exact hhdr d hd e
      · exact hnode _ e rfl
    · intro d hd
      rw [tn] at hd
      rw [tch, hcolN _ (hhdr d hd)]
      exact hs.hcol d hd
    · intro j hj
      rw [hF] at hj
      rw [tn]
      rcases List.mem_append.1 hj with hj | hj
      · rw [hcolN j (hnode j hj)]; exact hs.ncol j hj
      · rw [List.mem_singleton.1 hj, hcolNp]; exact hc
    · intro row' hrow' l1 r l2 e
      rcases List.mem_append.1 hrow' with hrow' | hrow'
      · have hold := hs.rring row' (List.mem_append_left _ hrow') l1 r l2 e
        have hsub : ∀ x, x ∈ r :: (l2 ++ l1) → x ∈ row' := by
          intro x hx; rw [e]; simp at hx ⊢; tauto
        refine seg_congr ?_ ?_ hold
        · intro x hx
          have hx' := hsub x hx
          exact (hLR x (hnode x (List.mem_flatten.2 ⟨row', List.mem_append_left _ hrow', hx'⟩))
            (hs.rows_disjoint hrow' hx')).1
        · intro x hx
          have hx' := hsub x (by simp at hx ⊢; tauto)
          exact (hLR x (hnode x (List.mem_flatten.2 ⟨row', List.mem_append_left _ hrow', hx'⟩))
            (hs.rows_disjoint hrow' hx')).2
      · rw [List.mem_singleton] at hrow'
        subst hrow'
        by_cases hrow : row = []
        · obtain ⟨e1, e2⟩ := lr1 (by rw [hrow]; rfl)
          rw [hrow] at e
          have e' : [s.next] = l1 ++ r :: l2 := e
          have hl : l1 = [] ∧ r = s.next ∧ l2 = [] := by
            cases l1 with
            | nil => simp at e'; exact ⟨rfl, e'.1.symm, e'.2⟩
            | cons a as => simp at e'
          obtain ⟨rfl, rfl, rfl⟩ := hl
          rw [e1, e2]
          exact ⟨by simp, by simp⟩
        · obtain ⟨y, ys, hrow⟩ := List.exists_cons_of_ne_nil hrow
          have hy : y ≠ null := (hs.head_not_node (hrowsub y (by rw [hrow]; simp))).2
          obtain ⟨e1, e2⟩ := lr2 (by rw [hrow]; exact hy)
          have hbase : Seg s.R.get s.L.get y ys y := by
            have := hs.rring row (by simp) [] y ys (by rw [hrow]; rfl)
            simpa using this
          have hnd : (y :: ys).Nodup := by
            rw [← hrow]; exact hs.row_nodup (by simp)
          have hp : s.next ∉ y :: ys := by
            rw [← hrow]; intro hm; exact hnode _ (hrowsub _ hm) rfl
          have hlast : s.L.get y = row.getLastD null := by
            rw [seg_pv_end hbase, hrow]
            exact getLast_eq_getLastD_cons y ys null
          have hins := seg_insert_tail hbase hnd hp
          rw [hlast] at hins
          have hfirst : row.headD null = y := by rw [hrow]; rfl
          rw [e1, e2, hfirst]
          rw [hrow] at e
          exact seg_rotations hins e
    · intro row' hrow'
      rcases List.mem_append.1 hrow' with hrow' | hrow'
      · have hold := hs.rcols row' (List.mem_append_left _ hrow')
        have : row'.map (DLXSolver.addRowStep rowID (s, row.headD null, row.getLastD null)
            c).1.colN = row'.map s.colN := by
          apply List.map_congr_left
          intro x hx
          exact hcolN x (hnode x (List.mem_flatten.2 ⟨row', List.mem_append_left _ hrow', hx⟩))
        rw [this]; exact hold
      · rw [List.mem_singleton] at hrow'
        subst hrow'
        have hold := hs.rcols row (by simp)
        have : row.map (DLXSolver.addRowStep rowID (s, row.headD null, row.getLastD null)
            c).1.colN = row.map s.colN := by
          apply List.map_congr_left
          intro x hx
          exact hcolN x (hnode x (hrowsub x hx))
        rw [List.map_append, this, List.map_cons, List.map_nil, hcolNp, List.nodup_append]
        refine ⟨hold, List.nodup_singleton _, ?_⟩
        intro x hx hx'
        rw [List.mem_singleton] at hx'
        subst hx'
        exact hcr hx
  have hrep : Rep (rows ++ [row ++ [s.next]])
      (builtAbs (rows ++ [row ++ [s.next]])
        (DLXSolver.addRowStep rowID (s, row.headD null, row.getLastD null) c).1)
      (DLXSolver.addRowStep rowID (s, row.headD null, row.getLastD null) c).1 := by
    refine ⟨?_, List.nodup_range _, fun d hd => List.mem_range.1 hd, ⟨?_, ?_, ?_, ?_, v3⟩, ?_⟩
    · show Seg _ _ head ((List.range _).map _) head
      rw [tn, tch]
      have hold : Seg s.R.get s.L.get head ((List.range s.nCols).map s.colHead.get) head :=
        hr.hring
      have hk : ∀ x, x ∈ head :: (List.range s.nCols).map s.colHead.get →
          x ≠ s.next ∧ x ∉ row := by
        intro x hx
        rcases List.mem_cons.1 hx with rfl | hx
        · exact ⟨hhead, fun hm => (hs.head_not_node (hrowsub _ hm)).1 rfl⟩
        · obtain ⟨d, hd, rfl⟩ := List.mem_map.1 hx
          have hd' := List.mem_range.1 hd
          exact ⟨hhdr d hd', fun hm => hs.hdr_not_node hd' (hrowsub _ hm)⟩
      refine seg_congr ?_ ?_ hold
      · intro x hx
        exact (hLR x (hk x hx).1 (hk x hx).2).1
      · intro x hx
        have := hk x (by simp at hx ⊢; tauto)
        exact (hLR x this.1 this.2).2
    · intro d hd
      rw [tn] at hd
      rw [tch]
      exact v1 d hd
    · intro d
      exact hst.flatten_nodup.filter _
    · intro d j hj
      have := List.mem_filter.1 hj
      exact ⟨this.1, by simpa using this.2⟩
    · intro d hd
      rw [tn] at hd
      exact v2 d hd
    · intro row' hrow' j hj _
      have hjf : j ∈ (rows ++ [row ++ [s.next]]).flatten := List.mem_flatten.2 ⟨row', hrow', hj⟩
      constructor
      · intro _ j' hj'
        exact List.mem_range.2 (hst.ncol j' (List.mem_flatten.2 ⟨row', hrow', hj'⟩))
      · intro _
        exact List.mem_filter.2 ⟨hjf, by simp⟩
  refine ⟨hst, hrep, ?_, ?_, ?_⟩
  · intro x
    rw [tnext]
    exact v4 x
  · intro x hx
    rw [tn, tch, hF] at hx
    rw [tnext]
    rcases List.mem_append.1 hx with hx | hx
    · have := h.alloc x (List.mem_append_left _ hx); omega
    · rcases List.mem_append.1 hx with hx | hx
      · have := h.node_lt hx; omega
      · rw [List.mem_singleton.1 hx]; omega
  · rw [tnext]; have := h.next_ge; omega

theorem RowTags.transfer {rows : Layout} {tags : List (Int × List Nat)} {s t : DLXSolver}
    (h : RowTags rows tags s)
    (hc : ∀ x, x ∈ rows.flatten → t.colN x = s.colN x ∧ t.row.get x = s.row.get x) :
    RowTags rows tags t := by
  unfold RowTags at h ⊢
  induction h with
  | nil => exact List.Forall₂.nil
  | cons hrow _ ih =>
    rename_i row tg rows' tags'
    refine List.Forall₂.cons ⟨?_, ?_⟩ (ih ?_)
    · rw [← hrow.1]
      apply List.map_congr_left
      intro x hx
      exact (hc x (by simp [hx])).1
    · intro j hj
      rw [(hc j (by simp [hj])).2]
      exact hrow.2 j hj
    · intro x hx
      exact hc x (by simp at hx ⊢; tauto)

theorem addRowStep_rowget (rowID : Int) (s : DLXSolver) (first prev c x : Nat) :
    (DLXSolver.addRowStep rowID (s, first, prev) c).1.row.get x =
      if x = s.next then rowID else s.row.get x := by
  rw [addRowStep_row, Function.update_apply]

/-- The loop of `addRow` keeps the construction invariant and appends one node per column
to the row under construction. -/
theorem Built.addRow_fold {rows : Layout} (rowID : Int) (cols : List Nat) (row : List Nat)
    (s : DLXSolver) (h : Built (rows ++ [row]) s) (hnd : cols.Nodup)
    (hlt : ∀ c, c ∈ cols → c < s.nCols) (hdis : ∀ c, c ∈ cols → c ∉ row.map s.colN) :
    ∃ new : List Nat,
      Built (rows ++ [row ++ new])
        (cols.foldl (DLXSolver.addRowStep rowID) (s, row.headD null, row.getLastD null)).1 ∧
      (cols.foldl (DLXSolver.addRowStep rowID) (s, row.headD null, row.getLastD null)).1.nCols
        = s.nCols ∧
      new.map (cols.foldl (DLXSolver.addRowStep rowID)
        (s, row.headD null, row.getLastD null)).1.colN = cols ∧
      (∀ j, j ∈ new → (cols.foldl (DLXSolver.addRowStep rowID)
        (s, row.headD null, row.getLastD null)).1.row.get j = rowID) ∧
      (∀ x, x < s.next →
        (cols.foldl (DLXSolver.addRowStep rowID)
          (s, row.headD null, row.getLastD null)).1.colN x = s.colN x ∧
        (cols.foldl (DLXSolver.addRowStep rowID)
          (s, row.headD null, row.getLastD null)).1.row.get x = s.row.get x) ∧
      (∀ j, j ∈ new → s.next ≤ j) := by
  induction cols generalizing row s with
  | nil =>
    refine ⟨[], ?_, rfl, rfl, fun j hj => by simp at hj, fun x _ => ⟨rfl, rfl⟩,
      fun j hj => by simp at hj⟩
    rw [List.append_nil]
    exact h
  | cons c cs ih =>
    have hc := hlt c (List.mem_cons_self _ _)
    have hcnd := List.nodup_cons.1 hnd
    have hstep := h.addRowStep rowID hc (hdis c (List.mem_cons_self _ _))
    have hsnd := addRowStep_snd rowID s (row.headD null) (row.getLastD null) c
    have hrow0 : row.headD null = null ↔ row = [] := by
      constructor
      · intro e
        cases hrow : row with
        | nil => rfl
        | cons y ys =>
          exfalso
          rw [hrow] at e
          have hy : y ∈ (rows ++ [row]).flatten := by rw [flatten_snoc, hrow]; simp
          exact (h.static.head_not_node hy).2 e
      · intro e; rw [e]; rfl
    have hpair : DLXSolver.addRowStep rowID (s, row.headD null, row.getLastD null) c =
        ((DLXSolver.addRowStep rowID (s, row.headD null, row.getLastD null) c).1,
          (row ++ [s.next]).headD null, (row ++ [s.next]).getLastD null) := by
      apply Prod.ext
      · rfl
      · rw [hsnd]
        obtain ⟨e1, e2⟩ := headD_getLastD_snoc row s.next null
        show _ = ((row ++ [s.next]).headD null, (row ++ [s.next]).getLastD null)
        rw [e2]
        by_cases hr : row = []
        · subst hr; rfl
        · have hne : ¬ row.headD null = null := fun e => hr (hrow0.1 e)
          rw [if_neg hne]
          obtain ⟨y, ys, rfl⟩ := List.exists_cons_of_ne_nil hr
          rfl
    rw [List.foldl_cons, hpair]
    have tn := addRowStep_nCols rowID s (row.headD null) (row.getLastD null) c
    have tnext := addRowStep_next rowID s (row.headD null) (row.getLastD null) c
    have hcolN : ∀ x, (DLXSolver.addRowStep rowID (s, row.headD null, row.getLastD null) c).1.colN
        x = if x = s.next then c else s.colN x := fun x => addRowStep_colN _ _ _ _ _ _
    obtain ⟨new, k1, k2, k3, k4, k5, k6⟩ := ih (row ++ [s.next])
      (DLXSolver.addRowStep rowID (s, row.headD null, row.getLastD null) c).1 hstep hcnd.2
      (fun c' hc' => by rw [tn]; exact hlt c' (List.mem_cons_of_mem _ hc'))
      (by
        intro c' hc' hm
        rw [List.map_append, List.mem_append] at hm
        rcases hm with hm | hm
        · obtain ⟨x, hx, e⟩ := List.mem_map.1 hm
          have hxlt : x < s.next := h.node_lt (by rw [flatten_snoc]; exact List.mem_append_right _ hx)
          rw [hcolN, if_neg (Nat.ne_of_lt hxlt)] at e
          exact hdis c' (List.mem_cons_of_mem _ hc') (List.mem_map.2 ⟨x, hx, e⟩)
        · simp only [List.map_cons, List.map_nil, List.mem_singleton, hcolN, if_true] at hm
          exact hcnd.1 (hm ▸ hc'))
    refine ⟨s.next :: new, ?_, k2.trans tn, ?_, ?_, ?_, ?_⟩
    · have : row ++ s.next :: new = row ++ [s.next] ++ new := by simp
      rw [this]; exact k1
    · rw [List.map_cons, k3, (k5 s.next (by rw [tnext]; omega)).1, hcolN, if_pos rfl]
    · intro j hj
      rcases List.mem_cons.1 hj with rfl | hj
      · rw [(k5 _ (by rw [tnext]; omega)).2, addRowStep_rowget, if_pos rfl]
      · exact k4 j hj
    · intro x hx
      obtain ⟨e1, e2⟩ := k5 x (by rw [tnext]; omega)
      rw [e1, e2, hcolN, addRowStep_rowget, if_neg (Nat.ne_of_lt hx), if_neg (Nat.ne_of_lt hx)]
      exact ⟨rfl, rfl⟩
    · intro j hj
      rcases List.mem_cons.1 hj with rfl | hj
      · exact le_refl _
      · have := k6 j hj
        rw [tnext] at this
        omega

theorem Built.snoc_nil {rows : Layout} {s : DLXSolver} (h : Built rows s) :
    Built (rows ++ [[]]) s := by
  have hfl : (rows ++ [[]]).flatten = rows.flatten := by simp
  have hmem : ∀ row, row ∈ rows ++ [[]] → row ∈ rows ∨ row = [] := by
    intro row hrow
    rcases List.mem_append.1 hrow with hr | hr
    · exact Or.inl hr
    · exact Or.inr (List.mem_singleton.1 hr)
  have hs := h.static
  have hr := h.rep
  have hb : builtAbs (rows ++ [[]]) s = builtAbs rows s := by
    unfold builtAbs; rw [hfl]
  rw [← hb] at hr
  refine ⟨⟨?_, hs.hcol, ?_, ?_, ?_⟩,
    ⟨hr.hring, hr.act_nodup, hr.act_lt, ⟨hr.vinv.vr, hr.vinv.vr_nodup, ?_, hr.vinv.size,
      hr.vinv.closed⟩, ?_⟩, h.bounded, ?_, h.next_ge⟩
  · rw [hfl]; exact hs.addrs
  · rw [hfl]; exact hs.ncol
  · intro row hrow l1 r l2 e
    rcases hmem row hrow with hrow | rfl
    · exact hs.rring row hrow l1 r l2 e
    · cases l1 <;> simp at e
  · intro row hrow
    rcases hmem row hrow with hrow | rfl
    · exact hs.rcols row hrow
    · simp
  · rw [hfl]; exact hr.vinv.vr_mem
  · intro row hrow j hj hja
    rcases hmem row hrow with hrow | rfl
    · exact hr.live row hrow j hj hja
    · simp at hj
  · rw [hfl]; exact h.alloc

/-- `addRow` with distinct, in-range columns keeps the construction invariant and adds
one row with the given id and columns. -/
theorem Built.addRow {rows : Layout} {tags : List (Int × List Nat)} {s : DLXSolver}
    (h : Built rows s) (ht : RowTags rows tags s) (rowID : Int) (cols : List Nat)
    (hnd : cols.Nodup) (hlt : ∀ c, c ∈ cols → c < s.nCols) :
    ∃ row, Built (rows ++ [row]) (s.addRow rowID cols) ∧
      RowTags (rows ++ [row]) (tags ++ [(rowID, cols)]) (s.addRow rowID cols) ∧
      (s.addRow rowID cols).nCols = s.nCols := by
  obtain ⟨new, k1, k2, k3, k4, k5, k6⟩ := h.snoc_nil.addRow_fold rowID cols [] s hnd hlt
    (fun c _ hm => by simp at hm)
  refine ⟨new, ?_, ?_, k2⟩
  · simpa using k1
  · have hold : RowTags rows tags (s.addRow rowID cols) := by
      refine ht.transfer ?_
      intro x hx
      exact k5 x (h.node_lt hx)
    exact List.rel_append hold (List.Forall₂.cons ⟨k3, k4⟩ List.Forall₂.nil)

namespace DLXSolver

/-- One step of the loop of `init`, with its two tests resolved: the header ring is never
empty of `head`, and after the insertion `head.R` is not `head`. -/
theorem initStep_eq (s : DLXSolver) (i : Nat) (hp : head ≠ s.next)
    (hL : s.L.get head ≠ null) (hR : s.L.get head = head ∨ s.R.get head ≠ head) :
    initStep s i =
      ((((((((s.newNode.2.setCol s.next i).setD s.next s.next).setU s.next s.next).setR
        s.next head).setL s.next (s.L.get head)).setR (s.L.get head) s.next).setL head
        s.next).setColHead i s.next) := by
  have c1 : (((((s.newNode.2.setCol s.next i).setD s.next s.next).setU s.next s.next).setR
      s.next head).setL s.next (s.L.get head)).L.get head = s.L.get head := by
    simp only [setL_L_eq, setR_L, setU_L, setD_L, setCol_L, newNode_L, Mem.get_set, if_neg hp]
  have c0 : ((((s.newNode.2.setCol s.next i).setD s.next s.next).setU s.next s.next).setR
      s.next head).L.get head = s.L.get head := by
    simp only [setR_L, setU_L, setD_L, setCol_L, newNode_L, Mem.get_set, if_neg hp]
  unfold initStep
  simp only [newNode_fst]
  rw [c0, c1, if_pos hL]
  have c2 : ¬ ((((((((s.newNode.2.setCol s.next i).setD s.next s.next).setU s.next s.next).setR
      s.next head).setL s.next (s.L.get head)).setR (s.L.get head) s.next).setL head
      s.next).R.get head = head) := by
    simp only [setL_R, setR_R_eq, setU_R, setD_R, setCol_R, newNode_R, Mem.get_set, if_neg hp]
    split
    · exact fun e => hp e.symm
    · rename_i hne
      rcases hR with hR | hR
      · exact absurd hR.symm hne
      · exact hR
  rw [if_neg c2]

end DLXSolver

theorem hdr_addr_nodup (i : Nat) : (head :: (List.range i).map (fun d => 2 + d)).Nodup := by
  rw [List.nodup_cons]
  refine ⟨?_, ?_⟩
  · intro hm
    obtain ⟨d, _, e⟩ := List.mem_map.1 hm
    unfold head at e
    omega
  · exact (List.nodup_range i).map (fun a b e => by simpa using e)

theorem InitInv.step {n i : Nat} {s : DLXSolver} (h : InitInv n i s) :
    InitInv n (i + 1) (s.initStep i) := by
  have hp : head ≠ s.next := by rw [h.next]; unfold head; omega
  have hlast := seg_pv_end_mem h.hring
  have hL : s.L.get head ≠ null := by
    rcases List.mem_cons.1 hlast with e | e
    · rw [e]; unfold head null; omega
    · obtain ⟨d, _, e'⟩ := List.mem_map.1 e
      rw [← e']; unfold null; omega
  have hR : s.L.get head = head ∨ s.R.get head ≠ head := by
    cases i with
    | zero => exact Or.inl h.hring.2
    | succ k =>
      right
      have := h.hring
      rw [List.range_succ_eq_map, List.map_cons] at this
      rw [this.1]
      unfold head; omega
  have hfresh : s.next ∉ head :: (List.range i).map (fun d => 2 + d) := by
    intro hm
    rcases List.mem_cons.1 hm with e | e
    · exact hp e.symm
    · obtain ⟨d, hd, e'⟩ := List.mem_map.1 e
      have := List.mem_range.1 hd
      rw [h.next] at e'
      omega
  have e := initStep_eq s i hp hL hR
  have tcol : (s.initStep i).col.get = Function.update s.col.get s.next (i : Int) := by
    rw [e]
    simp only [setColHead_col, setL_col, setR_col, setU_col, setD_col, setCol_col_eq, newNode_col,
      Mem.get_set_fn, Function.update_idem]
  have tU : (s.initStep i).U.get = Function.update s.U.get s.next s.next := by
    rw [e]
    simp only [setColHead_U, setL_U, setR_U, setU_U_eq, setD_U, setCol_U, newNode_U,
      Mem.get_set_fn, Function.update_idem]
  have tD : (s.initStep i).D.get = Function.update s.D.get s.next s.next := by
    rw [e]
    simp only [setColHead_D, setL_D, setR_D, setU_D, setD_D_eq, setCol_D, newNode_D,
      Mem.get_set_fn, Function.update_idem]
  have tR : (s.initStep i).R.get =
      Function.update (Function.update s.R.get s.next head) (s.L.get head) s.next := by
    rw [e]
    simp only [setColHead_R, setL_R, setR_R_eq, setU_R, setD_R, setCol_R, newNode_R,
      Mem.get_set_fn, Function.update_idem]
  have tL : (s.initStep i).L.get =
      Function.update (Function.update s.L.get s.next (s.L.get head)) head s.next := by
    rw [e]
    simp only [setColHead_L, setL_L_eq, setR_L, setU_L, setD_L, setCol_L, newNode_L,
      Mem.get_set_fn, Function.update_idem]
  have tch : (s.initStep i).colHead.get = Function.update s.colHead.get i s.next := by
    rw [e]
    simp only [setColHead_colHead_eq, setL_colHead, setR_colHead, setU_colHead, setD_colHead,
      setCol_colHead, newNode_colHead, Mem.get_set_fn]
  have tcs : (s.initStep i).colSize = s.colSize := by
    rw [e]
    simp only [setColHead_colSize, setL_colSize, setR_colSize, setU_colSize, setD_colSize,
      setCol_colSize, newNode_colSize]
  have tn : (s.initStep i).nCols = s.nCols := by
    rw [e]
    simp only [setColHead_nCols, setL_nCols, setR_nCols, setU_nCols, setD_nCols,
      setCol_nCols, newNode_nCols]
  have tnext : (s.initStep i).next = s.next + 1 := by
    rw [e]
    simp only [setColHead_next, setL_next, setR_next, setU_next, setD_next,
      setCol_next, newNode_next]
  have tsol : (s.initStep i).solution = s.solution := by
    rw [e]
    simp only [setColHead_solution, setL_solution, setR_solution, setU_solution,
      setD_solution, setCol_solution, newNode_solution]
  have tcolN : ∀ x, (s.initStep i).colN x = if x = s.next then i else s.colN x := by
    intro x
    unfold DLXSolver.colN
    rw [tcol, Function.update_apply]
    split
    · simp
    · rfl
  refine ⟨tn.trans h.nCols, by rw [tnext, h.next]; omega, ?_, ?_, ?_, ?_, ?_, ?_, ?_,
    tsol.trans h.sol⟩
  · intro d hd
    rw [tch, Function.update_apply]
    split
    · rename_i e'; rw [e', h.next]
    · exact h.colHead d (by omega)
  · intro d hd
    rw [tcolN, h.next]
    split
    · omega
    · exact h.colN d (by omega)
  · rw [tR, tL, List.range_succ, List.map_append, List.map_cons, List.map_nil, ← h.next]
    exact seg_insert_tail h.hring (hdr_addr_nodup i) hfresh
  · intro d hd
    rw [tU, tD, Function.update_apply, Function.update_apply, h.next]
    by_cases hdi : d = i
    · subst hdi; simp
    · have : ¬ (2 + d = 2 + i) := by omega
      rw [if_neg this, if_neg this]
      exact h.self d (by omega)
  · intro d; rw [tcs]; exact h.size d
  · intro x
    rw [tU, tD]
    simp only [tcolN]
    by_cases hx : x = s.next
    · subst hx
      simp
    · rw [Function.update_noteq hx, Function.update_noteq hx, if_neg hx,
        if_neg (Nat.ne_of_lt (h.bounded x).1), if_neg (Nat.ne_of_lt (h.bounded x).2)]
      exact h.closed x
  · intro x
    rw [tU, tD, tnext]
    have := h.bounded x
    refine ⟨?_, ?_⟩
    · rw [Function.update_apply]; split <;> omega
    · rw [Function.update_apply]; split <;> omega

theorem InitInv.fold {n : Nat} (k : Nat) {s : DLXSolver} (h : InitInv n 0 s) :
    InitInv n k ((List.range k).foldl initStep s) := by
  induction k with
  | zero => exact h
  | succ k ih =>
    rw [List.range_succ, List.foldl_append]
    exact ih.step

theorem init_eq (s : DLXSolver) (cols : Nat) :
    s.init cols = (List.range cols).foldl initStep (initReset s cols) := rfl

theorem new_eq : DLXSolver.new = initReset raw 0 := rfl

theorem initReset_new_inv (n : Nat) : InitInv n 0 (initReset DLXSolver.new n) := by
  have hU : (initReset DLXSolver.new n).U.get = fun x => if x = head then head else null := by
    funext x
    show ((((Mem.empty.set head head).set head head).set head head) : Mem Nat).get x = _
    simp only [Mem.get_set, Mem.get_empty]
    split <;> rfl
  have hD : (initReset DLXSolver.new n).D.get = fun x => if x = head then head else null := by
    funext x
    show ((((Mem.empty.set head head).set head head).set head head) : Mem Nat).get x = _
    simp only [Mem.get_set, Mem.get_empty]
    split <;> rfl
  have hR : (initReset DLXSolver.new n).R.get head = head := by
    show ((((Mem.empty.set head head).set head head).set head head) : Mem Nat).get head = _
    simp only [Mem.get_set, if_true]
  have hL : (initReset DLXSolver.new n).L.get head = head := by
    show ((((Mem.empty.set head head).set head head).set head head) : Mem Nat).get head = _
    simp only [Mem.get_set, if_true]
  have hcol : ∀ x, (initReset DLXSolver.new n).colN x = 0 := by
    intro x
    show (((Mem.empty.set head (-1) : Mem Int)).get x).toNat = 0
    simp only [Mem.get_set, Mem.get_empty]
    split <;> rfl
  refine ⟨rfl, rfl, fun d hd => by omega, fun d hd => by omega, ⟨hR, hL⟩,
    fun d hd => by omega, ?_, ?_, ?_, rfl⟩
  · intro d
    show (Mem.fill n (0 : Int)).get d = 0
    rw [Mem.get_fill]
    split <;> rfl
  · intro x
    rw [hcol, hcol, hcol]
    exact ⟨rfl, rfl⟩
  · intro x
    rw [hU, hD]
    show (if x = head then head else null) < 2 ∧ (if x = head then head else null) < 2
    unfold head null
    split <;> omega

/-- `init(n)` on a freshly constructed solver builds the empty matrix with `n` columns. -/
theorem Built.init (n : Nat) :
    Built [] (DLXSolver.new.init n) ∧ (DLXSolver.new.init n).nCols = n ∧
      (DLXSolver.new.init n).solution = [] := by
  have h := (initReset_new_inv n).fold n
  rw [← init_eq] at h
  have hmap : (List.range (DLXSolver.new.init n).nCols).map (DLXSolver.new.init n).colHead.get =
      (List.range n).map (fun d => 2 + d) := by
    rw [h.nCols]
    apply List.map_congr_left
    intro d hd
    exact h.colHead d (List.mem_range.1 hd)
  refine ⟨⟨⟨?_, ?_, ?_, ?_, ?_⟩, ⟨?_, List.nodup_range _, fun d hd => List.mem_range.1 hd,
    ⟨?_, ?_, ?_, ?_, h.closed⟩, ?_⟩, h.bounded, ?_, ?_⟩, h.nCols, h.sol⟩
  · rw [hmap, List.flatten_nil, List.append_nil, List.nodup_cons]
    refine ⟨?_, hdr_addr_nodup n⟩
    intro hm
    rcases List.mem_cons.1 hm with e | e
    · unfold null head at e; omega
    · obtain ⟨d, _, e'⟩ := List.mem_map.1 e
      unfold null at e'; omega
  · intro d hd
    rw [h.nCols] at hd
    rw [h.colHead d hd]; exact h.colN d hd
  · intro j hj; simp at hj
  · intro row hrow; simp at hrow
  · intro row hrow; simp at hrow
  · show Seg _ _ head ((List.range _).map _) head
    rw [hmap]; exact h.hring
  · intro d hd
    rw [h.nCols] at hd
    have hv : (builtAbs [] (DLXSolver.new.init n)).vring d = [] := rfl
    rw [hv, h.colHead d hd]
    exact ⟨(h.self d hd).2, (h.self d hd).1⟩
  · intro d; exact List.nodup_nil
  · intro d j hj; simp [builtAbs] at hj
  · intro d _
    rw [h.size d]; rfl
  · intro row hrow; simp at hrow
  · intro x hx
    rw [hmap, List.flatten_nil, List.append_nil] at hx
    obtain ⟨d, hd, rfl⟩ := List.mem_map.1 hx
    rw [h.next]
    have := List.mem_range.1 hd
    omega
  · rw [h.next]; omega

theorem addRow_solution (s : DLXSolver) (rowID : Int) (cols : List Nat) :
    (s.addRow rowID cols).solution = s.solution := by
  unfold DLXSolver.addRow
  have : ∀ (cols : List Nat) (st : DLXSolver × Nat × Nat),
      (cols.foldl (DLXSolver.addRowStep rowID) st).1.solution = st.1.solution := by
    intro cols
    induction cols with
    | nil => intro st; rfl
    | cons c cs ih =>
      intro st
      rw [List.foldl_cons, ih]
      obtain ⟨s', f, p⟩ := st
      exact addRowStep_solution rowID s' f p c
  exact this cols _

/-- `search` meets its contract for every amount of fuel with which it returns. -/
theorem search_sound {rows : Layout} {a : Abs} {s : DLXSolver}
    (hN : (rows.flatten.length : Int) < INT_MAX) (hs : Static rows s) (h : Rep rows a s)
    {fuel : Nat} {res : Bool × DLXSolver} (e : search fuel s = some res) :
    SearchOk rows a s res := by
  obtain ⟨res', e', ok⟩ := (search_spec_aux rows hN
    (max fuel (fuelBound rows a.active.length))).1 a s hs h (le_max_right _ _)
  have := search_mono (le_max_left fuel (fuelBound rows a.active.length)) e
  rw [this] at e'
  cases e'
  exact ok

/-- `search` returns when the fuel suffices. -/
theorem search_total {rows : Layout} {a : Abs} {s : DLXSolver}
    (hN : (rows.flatten.length : Int) < INT_MAX) (hs : Static rows s) (h : Rep rows a s)
    {fuel : Nat} (hf : fuelBound rows a.active.length ≤ fuel) :
    ∃ res, search fuel s = some res ∧ SearchOk rows a s res :=
  (search_spec_aux rows hN fuel).1 a s hs h hf

theorem tagsFrom_snoc (k : Nat) (ms : List MapRow) (m : MapRow) :
    tagsFrom k (ms ++ [m]) = tagsFrom k ms ++ [(((k + ms.length : Nat) : Int), colsOf m)] := by
  induction ms generalizing k with
  | nil => rfl
  | cons x xs ih =>
    have : k + 1 + xs.length = k + (xs.length + 1) := by omega
    show ((k : Int), colsOf x) :: tagsFrom (k + 1) (xs ++ [m]) = _
    rw [ih, this]
    rfl

theorem colsOf_ok (m : MapRow) (hr : m.r < 9) (hc : m.c < 9) (hv1 : 1 ≤ m.v) (hv9 : m.v ≤ 9) :
    (colsOf m).Nodup ∧ ∀ k, k ∈ colsOf m → k < 324 := by
  have hb : BoxIndex m.r m.c < 9 := by unfold BoxIndex; omega
  unfold colsOf
  refine ⟨?_, ?_⟩
  · simp only [List.nodup_cons, List.mem_cons, List.mem_singleton, List.not_mem_nil,
      not_false_eq_true, List.nodup_nil, and_true, not_or]
    omega
  · intro k hk
    simp only [List.mem_cons, List.mem_singleton, List.not_mem_nil, or_false] at hk
    omega

theorem encodeDigit_spec (input : Grid) (r c v : Nat) (e : Enc) (h : EncInv e)
    (hr : r < 9) (hc : c < 9) (hv1 : 1 ≤ v) (hv9 : v ≤ 9) :
    EncInv (encodeDigit input r c e v) ∧
      (encodeDigit input r c e v).mapRows =
        e.mapRows ++ (if Allowed input ⟨r, c, v⟩ then [⟨r, c, v⟩] else []) := by
  unfold encodeDigit
  by_cases ha : input r c ≠ 0 ∧ input r c ≠ (v : Int)
  · rw [if_pos ha]
    have : ¬ Allowed input ⟨r, c, v⟩ := by
      unfold Allowed; simp only [not_or]; exact ha
    rw [if_neg this, List.append_nil]
    exact ⟨h, rfl⟩
  · rw [if_neg ha]
    have hal : Allowed input ⟨r, c, v⟩ := by
      unfold Allowed
      by_contra hn
      exact ha (not_or.1 hn)
    rw [if_pos hal]
    obtain ⟨rows, hb, ht⟩ := h.built
    obtain ⟨hnd, hlt⟩ := colsOf_ok ⟨r, c, v⟩ hr hc hv1 hv9
    obtain ⟨row, k1, k2, k3⟩ := hb.addRow ht e.rowID (colsOf ⟨r, c, v⟩) hnd
      (fun k hk => by rw [h.nCols]; exact hlt k hk)
    refine ⟨?_, rfl⟩
    refine EncInv.mk ⟨rows ++ [row], k1, ?_⟩ (k3.trans h.nCols) ?_ ?_
    · show RowTags (rows ++ [row]) (tagsFrom 0 (e.mapRows ++ [⟨r, c, v⟩])) _
      rw [tagsFrom_snoc, Nat.zero_add, ← h.rowID]
      exact k2
    · show e.rowID + 1 = ((e.mapRows ++ [(⟨r, c, v⟩ : MapRow)]).length : Int)
      rw [h.rowID]; simp
    · show (e.dlx.addRow e.rowID _).solution = []
      rw [addRow_solution]; exact h.sol

theorem foldl_encodeDigit (input : Grid) (r c : Nat) (hr : r < 9) (hc : c < 9)
    (vs : List Nat) (hvs : ∀ v, v ∈ vs → 1 ≤ v ∧ v ≤ 9) (e : Enc) (h : EncInv e) :
    EncInv (vs.foldl (encodeDigit input r c) e) ∧
      (vs.foldl (encodeDigit input r c) e).mapRows = e.mapRows ++
        (vs.filter (fun v => decide (Allowed input ⟨r, c, v⟩))).map (fun v => ⟨r, c, v⟩) := by
  induction vs generalizing e with
  | nil => exact ⟨h, by simp⟩
  | cons v vs ih =>
    obtain ⟨h1, e1⟩ := encodeDigit_spec input r c v e h hr hc (hvs v (by simp)).1
      (hvs v (by simp)).2
    obtain ⟨h2, e2⟩ := ih (fun v' hv' => hvs v' (List.mem_cons_of_mem _ hv')) _ h1
    refine ⟨h2, ?_⟩
    rw [List.foldl_cons, e2, e1, List.filter_cons]
    by_cases ha : Allowed input ⟨r, c, v⟩
    · simp [ha]
    · simp [ha]

theorem encodeCell_spec (input : Grid) (r c : Nat) (hr : r < 9) (hc : c < 9) (e : Enc)
    (h : EncInv e) :
    EncInv (encodeCell input r e c) ∧
      (encodeCell input r e c).mapRows = e.mapRows ++ cellTags input r c :=
  foldl_encodeDigit input r c hr hc (List.range' 1 9)
    (fun v hv => by rw [List.mem_range'_1] at hv; omega) e h

theorem foldl_encodeCell (input : Grid) (r : Nat) (hr : r < 9) (cs : List Nat)
    (hcs : ∀ c, c ∈ cs → c < 9) (e : Enc) (h : EncInv e) :
    EncInv (cs.foldl (encodeCell input r) e) ∧
      (cs.foldl (encodeCell input r) e).mapRows =
        e.mapRows ++ cs.flatMap (fun c => cellTags input r c) := by
  induction cs generalizing e with
  | nil => exact ⟨h, by simp⟩
  | cons c cs ih =>
    obtain ⟨h1, e1⟩ := encodeCell_spec input r c hr (hcs c (by simp)) e h
    obtain ⟨h2, e2⟩ := ih (fun c' hc' => hcs c' (List.mem_cons_of_mem _ hc')) _ h1
    refine ⟨h2, ?_⟩
    rw [List.foldl_cons, e2, e1, List.flatMap_cons, List.append_assoc]

theorem foldl_encodeRow (input : Grid) (rs : List Nat) (hrs : ∀ r, r ∈ rs → r < 9) (e : Enc)
    (h : EncInv e) :
    EncInv (rs.foldl (encodeRow input) e) ∧
      (rs.foldl (encodeRow input) e).mapRows = e.mapRows ++
        rs.flatMap (fun r => (List.range 9).flatMap (fun c => cellTags input r c)) := by
  induction rs generalizing e with
  | nil => exact ⟨h, by simp⟩
  | cons r rs ih =>
    obtain ⟨h1, e1⟩ := foldl_encodeCell input r (hrs r (by simp)) (List.range 9)
      (fun c hc => List.mem_range.1 hc) e h
    obtain ⟨h2, e2⟩ := ih (fun r' hr' => hrs r' (List.mem_cons_of_mem _ hr')) _ h1
    refine ⟨h2, ?_⟩
    rw [List.foldl_cons]
    show (List.foldl (encodeRow input) (List.foldl (encodeCell input r) e (List.range 9))
      rs).mapRows = _
    rw [e2, e1, List.flatMap_cons, List.append_assoc]

/-- The encoder builds a well-formed matrix whose rows carry, in order, the ids and the
columns of the tags `allTags input`. -/
theorem encode_spec (input : Grid) :
    EncInv (encode input) ∧ (encode input).mapRows = allTags input := by
  obtain ⟨hb, hn, hsol⟩ := Built.init 324
  unfold encode
  generalize DLXSolver.new.init 324 = s0 at hb hn hsol ⊢
  have h0 : EncInv ⟨s0, [], 0⟩ := EncInv.mk ⟨[], hb, List.Forall₂.nil⟩ hn rfl hsol
  obtain ⟨h1, e1⟩ := foldl_encodeRow input (List.range 9) (fun r hr => List.mem_range.1 hr) _ h0
  exact ⟨h1, by rw [e1]; rfl⟩

theorem mem_allTags (input : Grid) (m : MapRow) :
    m ∈ allTags input ↔ m.r < 9 ∧ m.c < 9 ∧ 1 ≤ m.v ∧ m.v ≤ 9 ∧ Allowed input m := by
  unfold allTags cellTags
  simp only [List.mem_flatMap, List.mem_range, List.mem_map, List.mem_filter, List.mem_range'_1,
    decide_eq_true_eq]
  constructor
  · rintro ⟨r, hr, c, hc, v, ⟨hv, ha⟩, rfl⟩
    refine ⟨hr, hc, hv.1, ?_, ha⟩
    show v ≤ 9
    omega
  · rintro ⟨hr, hc, hv1, hv9, ha⟩
    exact ⟨m.r, hr, m.c, hc, m.v, ⟨⟨hv1, by omega⟩, ha⟩, rfl⟩

theorem filter_length_eq_one {l : List Nat} (hnd : l.Nodup) (p : Nat → Bool) :
    (l.filter p).length = 1 ↔
      ∃ x, x ∈ l ∧ p x = true ∧ ∀ y, y ∈ l → p y = true → y = x := by
  constructor
  · intro h
    obtain ⟨x, hx⟩ := List.length_eq_one.1 h
    have hxm : x ∈ l.filter p := by rw [hx]; simp
    obtain ⟨h1, h2⟩ := List.mem_filter.1 hxm
    refine ⟨x, h1, h2, ?_⟩
    intro y hy hpy
    have : y ∈ l.filter p := List.mem_filter.2 ⟨hy, hpy⟩
    rw [hx] at this
    simpa using this
  · rintro ⟨x, hx, hpx, huniq⟩
    have hnd' : (l.filter p).Nodup := hnd.filter p
    have hxm : x ∈ l.filter p := List.mem_filter.2 ⟨hx, hpx⟩
    have hall : ∀ y, y ∈ l.filter p → y = x := fun y hy =>
      huniq y (List.mem_filter.1 hy).1 (List.mem_filter.1 hy).2
    cases hf : l.filter p with
    | nil => rw [hf] at hxm; simp at hxm
    | cons a t =>
      cases t with
      | nil => rfl
      | cons b t' =>
        exfalso
        rw [hf] at hnd' hall
        have ha := hall a (by simp)
        have hb := hall b (by simp)
        have := (List.nodup_cons.1 hnd').1
        apply this
        rw [ha, ← hb]; simp

theorem nodup_flatMap_inj {α β : Type} {f : α → List β} {l : List α}
    (h : (l.flatMap f).Nodup) {a b : α} (ha : a ∈ l) (hb : b ∈ l) {k : β}
    (hka : k ∈ f a) (hkb : k ∈ f b) : a = b := by
  induction l with
  | nil => simp at ha
  | cons x xs ih =>
    rw [List.flatMap_cons, List.nodup_append] at h
    obtain ⟨_, h2, h3⟩ := h
    rcases List.mem_cons.1 ha with rfl | ha'
    · rcases List.mem_cons.1 hb with rfl | hb'
      · rfl
      · exact absurd (List.mem_flatMap.2 ⟨b, hb', hkb⟩) (fun hm => h3 hka hm)
    · rcases List.mem_cons.1 hb with rfl | hb'
      · exact absurd (List.mem_flatMap.2 ⟨a, ha', hka⟩) (fun hm => h3 hkb hm)
      · exact ih h2 ha' hb'

theorem decodeTags_get (M : List MapRow) (r c : Nat) (v : Int) (tmp : Grid)
    (huniq : ∀ m, m ∈ M → m.r = r → m.c = c → (m.v : Int) = v) :
    decodeTags M tmp r c = if ∃ m, m ∈ M ∧ m.r = r ∧ m.c = c then v else tmp r c := by
  induction M generalizing tmp with
  | nil => simp [decodeTags]
  | cons m ms ih =>
    have ih' := ih (Function.update tmp m.r (Function.update (tmp m.r) m.c (m.v : Int)))
      (fun m' hm' => huniq m' (List.mem_cons_of_mem _ hm'))
    show decodeTags ms _ r c = _
    rw [ih']
    by_cases hex : ∃ m', m' ∈ ms ∧ m'.r = r ∧ m'.c = c
    · obtain ⟨m', h1, h2⟩ := hex
      rw [if_pos ⟨m', h1, h2⟩, if_pos ⟨m', List.mem_cons_of_mem _ h1, h2⟩]
    · rw [if_neg hex]
      by_cases hm : m.r = r ∧ m.c = c
      · rw [if_pos ⟨m, List.mem_cons_self _ _, hm⟩, ← hm.1, ← hm.2]
        simp only [Function.update_same]
        exact huniq m (List.mem_cons_self _ _) hm.1 hm.2
      · have hne : ¬ ∃ m', m' ∈ m :: ms ∧ m'.r = r ∧ m'.c = c := by
          rintro ⟨m', h1, h2⟩
          rcases List.mem_cons.1 h1 with rfl | h1
          · exact hm h2
          · exact hex ⟨m', h1, h2⟩
        rw [if_neg hne]
        by_cases hr : m.r = r
        · subst hr
          rw [Function.update_same, Function.update_noteq]
          intro e; exact hm ⟨rfl, e.symm⟩
        · rw [Function.update_noteq (fun e => hr e.symm)]

theorem CoverTags.inj {M : List MapRow} (h : CoverTags M) {m m' : MapRow} (hm : m ∈ M)
    (hm' : m' ∈ M) {k : Nat} (hk : k ∈ colsOf m) (hk' : k ∈ colsOf m') : m = m' :=
  nodup_flatMap_inj (h.perm.nodup_iff.2 (List.nodup_range 324)) hm hm' hk hk'

theorem CoverTags.ex {M : List MapRow} (h : CoverTags M) {k : Nat} (hk : k < 324) :
    ∃ m, m ∈ M ∧ k ∈ colsOf m := by
  have := h.perm.mem_iff.2 (List.mem_range.2 hk)
  obtain ⟨m, hm, hkm⟩ := List.mem_flatMap.1 this
  exact ⟨m, hm, hkm⟩

theorem mem_colsOf (m : MapRow) (k : Nat) :
    k ∈ colsOf m ↔ k = m.r * 9 + m.c ∨ k = 81 + m.r * 9 + (m.v - 1) ∨
      k = 162 + m.c * 9 + (m.v - 1) ∨ k = 243 + BoxIndex m.r m.c * 9 + (m.v - 1) := by
  unfold colsOf
  simp only [List.mem_cons, List.mem_singleton, List.not_mem_nil, or_false]

theorem CoverTags.cell {M : List MapRow} (h : CoverTags M) {r c : Nat} (hr : r < 9)
    (hc : c < 9) : ∃ m, m ∈ M ∧ m.r = r ∧ m.c = c := by
  obtain ⟨m, hm, hk⟩ := h.ex (k := r * 9 + c) (by omega)
  obtain ⟨h1, h2, h3, h4⟩ := h.ok m hm
  have hb : BoxIndex m.r m.c < 9 := by unfold BoxIndex; omega
  rw [mem_colsOf] at hk
  exact ⟨m, hm, by omega, by omega⟩

theorem CoverTags.rowDigit {M : List MapRow} (h : CoverTags M) {r v : Nat} (hr : r < 9)
    (hv1 : 1 ≤ v) (hv9 : v ≤ 9) : ∃ m, m ∈ M ∧ m.r = r ∧ m.v = v := by
  obtain ⟨m, hm, hk⟩ := h.ex (k := 81 + r * 9 + (v - 1)) (by omega)
  obtain ⟨h1, h2, h3, h4⟩ := h.ok m hm
  have hb : BoxIndex m.r m.c < 9 := by unfold BoxIndex; omega
  rw [mem_colsOf] at hk
  exact ⟨m, hm, by omega, by omega⟩

theorem CoverTags.colDigit {M : List MapRow} (h : CoverTags M) {c v : Nat} (hc : c < 9)
    (hv1 : 1 ≤ v) (hv9 : v ≤ 9) : ∃ m, m ∈ M ∧ m.c = c ∧ m.v = v := by
  obtain ⟨m, hm, hk⟩ := h.ex (k := 162 + c * 9 + (v - 1)) (by omega)
  obtain ⟨h1, h2, h3, h4⟩ := h.ok m hm
  have hb : BoxIndex m.r m.c < 9 := by unfold BoxIndex; omega
  rw [mem_colsOf] at hk
  exact ⟨m, hm, by omega, by omega⟩

theorem CoverTags.boxDigit {M : List MapRow} (h : CoverTags M) {b v : Nat} (hb : b < 9)
    (hv1 : 1 ≤ v) (hv9 : v ≤ 9) : ∃ m, m ∈ M ∧ BoxIndex m.r m.c = b ∧ m.v = v := by
  obtain ⟨m, hm, hk⟩ := h.ex (k := 243 + b * 9 + (v - 1)) (by omega)
  obtain ⟨h1, h2, h3, h4⟩ := h.ok m hm
  have hb' : BoxIndex m.r m.c < 9 := by unfold BoxIndex; omega
  rw [mem_colsOf] at hk
  exact ⟨m, hm, by omega, by omega⟩

/-- Two tags of the cover with the same cell are the same tag. -/
theorem CoverTags.cell_inj {M : List MapRow} (h : CoverTags M) {m m' : MapRow} (hm : m ∈ M)
    (hm' : m' ∈ M) (hr : m.r = m'.r) (hc : m.c = m'.c) : m = m' :=
  h.inj hm hm' (k := m.r * 9 + m.c) ((mem_colsOf _ _).2 (Or.inl rfl))
    ((mem_colsOf _ _).2 (Or.inl (by rw [hr, hc])))

theorem CoverTags.row_inj {M : List MapRow} (h : CoverTags M) {m m' : MapRow} (hm : m ∈ M)
    (hm' : m' ∈ M) (hr : m.r = m'.r) (hv : m.v = m'.v) : m = m' :=
  h.inj hm hm' (k := 81 + m.r * 9 + (m.v - 1)) ((mem_colsOf _ _).2 (Or.inr (Or.inl rfl)))
    ((mem_colsOf _ _).2 (Or.inr (Or.inl (by rw [hr, hv]))))

theorem CoverTags.col_inj {M : List MapRow} (h : CoverTags M) {m m' : MapRow} (hm : m ∈ M)
    (hm' : m' ∈ M) (hc : m.c = m'.c) (hv : m.v = m'.v) : m = m' :=
  h.inj hm hm' (k := 162 + m.c * 9 + (m.v - 1))
    ((mem_colsOf _ _).2 (Or.inr (Or.inr (Or.inl rfl))))
    ((mem_colsOf _ _).2 (Or.inr (Or.inr (Or.inl (by rw [hc, hv])))))

theorem CoverTags.box_inj {M : List MapRow} (h : CoverTags M) {m m' : MapRow} (hm : m ∈ M)
    (hm' : m' ∈ M) (hb : BoxIndex m.r m.c = BoxIndex m'.r m'.c) (hv : m.v = m'.v) : m = m' :=
  h.inj hm hm' (k := 243 + BoxIndex m.r m.c * 9 + (m.v - 1))
    ((mem_colsOf _ _).2 (Or.inr (Or.inr (Or.inr rfl))))
    ((mem_colsOf _ _).2 (Or.inr (Or.inr (Or.inr (by rw [hb, hv])))))

/-- The decoded grid holds, at the cell of a tag of the cover, the digit of that tag. -/
theorem CoverTags.decode_at {M : List MapRow} (h : CoverTags M) (tmp : Grid) {m : MapRow}
    (hm : m ∈ M) : decodeTags M tmp m.r m.c = (m.v : Int) := by
  rw [decodeTags_get M m.r m.c (m.v : Int) tmp, if_pos ⟨m, hm, rfl, rfl⟩]
  intro m' hm' hr hc
  rw [h.cell_inj hm' hm hr hc]

/-- An exact cover of the 324 columns decodes to a rule-valid grid. -/
theorem CoverTags.valid {M : List MapRow} (h : CoverTags M) (tmp : Grid) :
    ValidGrid (decodeTags M tmp) := by
  refine ⟨?_, ?_⟩
  · intro r c hr hc
    obtain ⟨m, hm, rfl, rfl⟩ := h.cell hr hc
    rw [h.decode_at tmp hm]
    obtain ⟨_, _, h3, h4⟩ := h.ok m hm
    omega
  · intro v hv1 hv9 k hk
    refine ⟨?_, ?_, ?_⟩
    · unfold countRow
      rw [filter_length_eq_one (List.nodup_range 9)]
      obtain ⟨m, hm, hmr, hmv⟩ := h.rowDigit hk hv1 hv9
      obtain ⟨_, hc, _, _⟩ := h.ok m hm
      refine ⟨m.c, List.mem_range.2 hc, ?_, ?_⟩
      · rw [decide_eq_true_eq, ← hmr, h.decode_at tmp hm, hmv]
      · intro c' hc' hp
        rw [decide_eq_true_eq] at hp
        obtain ⟨m', hm', hr', rfl⟩ := h.cell hk (List.mem_range.1 hc')
        rw [← hr', h.decode_at tmp hm'] at hp
        have hv' : m'.v = v := by exact_mod_cast hp
        rw [h.row_inj hm' hm (hr'.trans hmr.symm) (hv'.trans hmv.symm)]
    · unfold countCol
      rw [filter_length_eq_one (List.nodup_range 9)]
      obtain ⟨m, hm, hmc, hmv⟩ := h.colDigit hk hv1 hv9
      obtain ⟨hr, _, _, _⟩ := h.ok m hm
      refine ⟨m.r, List.mem_range.2 hr, ?_, ?_⟩
      · rw [decide_eq_true_eq, ← hmc, h.decode_at tmp hm, hmv]
      · intro r' hr' hp
        rw [decide_eq_true_eq] at hp
        obtain ⟨m', hm', rfl, hc'⟩ := h.cell (List.mem_range.1 hr') hk
        rw [← hc', h.decode_at tmp hm'] at hp
        have hv' : m'.v = v := by exact_mod_cast hp
        rw [h.col_inj hm' hm (hc'.trans hmc.symm) (hv'.trans hmv.symm)]
    · unfold countBox
      rw [filter_length_eq_one (List.nodup_range 9)]
      obtain ⟨m, hm, hmb, hmv⟩ := h.boxDigit hk hv1 hv9
      obtain ⟨hr, hc, _, _⟩ := h.ok m hm
      unfold BoxIndex at hmb
      have e1 : k / 3 * 3 + (m.r % 3 * 3 + m.c % 3) / 3 = m.r := by omega
      have e2 : k % 3 * 3 + (m.r % 3 * 3 + m.c % 3) % 3 = m.c := by omega
      refine ⟨m.r % 3 * 3 + m.c % 3, List.mem_range.2 (by omega), ?_, ?_⟩
      · rw [decide_eq_true_eq, e1, e2, h.decode_at tmp hm, hmv]
      · intro i hi hp
        rw [decide_eq_true_eq] at hp
        have hi' := List.mem_range.1 hi
        obtain ⟨m', hm', hr', hc'⟩ := h.cell (r := k / 3 * 3 + i / 3) (c := k % 3 * 3 + i % 3)
          (by omega) (by omega)
        rw [← hr', ← hc', h.decode_at tmp hm'] at hp
        have hv' : m'.v = v := by exact_mod_cast hp
        have hb' : BoxIndex m'.r m'.c = BoxIndex m.r m.c := by
          unfold BoxIndex; omega
        have := h.box_inj hm' hm hb' (hv'.trans hmv.symm)
        subst this
        omega

theorem ValidGrid.digit {g : Grid} (h : ValidGrid g) {r c : Nat} (hr : r < 9) (hc : c < 9) :
    1 ≤ (g r c).toNat ∧ (g r c).toNat ≤ 9 ∧ ((g r c).toNat : Int) = g r c := by
  have := h.1 r c hr hc
  omega

theorem ValidGrid.row_unique {g : Grid} (h : ValidGrid g) {r c c' : Nat} (hr : r < 9)
    (hc : c < 9) (hc' : c' < 9) (e : g r c = g r c') : c = c' := by
  obtain ⟨h1, h2, h3⟩ := h.digit hr hc
  have := (h.2 _ h1 h2 r hr).1
  unfold countRow at this
  rw [filter_length_eq_one (List.nodup_range 9)] at this
  obtain ⟨x, _, _, huniq⟩ := this
  rw [huniq c (List.mem_range.2 hc) (by rw [decide_eq_true_eq, h3]),
    huniq c' (List.mem_range.2 hc') (by rw [decide_eq_true_eq, h3, e])]

theorem ValidGrid.col_unique {g : Grid} (h : ValidGrid g) {c r r' : Nat} (hc : c < 9)
    (hr : r < 9) (hr' : r' < 9) (e : g r c = g r' c) : r = r' := by
  obtain ⟨h1, h2, h3⟩ := h.digit hr hc
  have := (h.2 _ h1 h2 c hc).2.1
  unfold countCol at this
  rw [filter_length_eq_one (List.nodup_range 9)] at this
  obtain ⟨x, _, _, huniq⟩ := this
  rw [huniq r (List.mem_range.2 hr) (by rw [decide_eq_true_eq, h3]),
    huniq r' (List.mem_range.2 hr') (by rw [decide_eq_true_eq, h3, e])]

theorem ValidGrid.box_unique {g : Grid} (h : ValidGrid g) {r c r' c' : Nat} (hr : r < 9)
    (hc : c < 9) (_ : r' < 9) (hc' : c' < 9) (hb : BoxIndex r c = BoxIndex r' c')
    (e : g r c = g r' c') : r = r' ∧ c = c' := by
  obtain ⟨h1, h2, h3⟩ := h.digit hr hc
  unfold BoxIndex at hb
  have := (h.2 _ h1 h2 (r / 3 * 3 + c / 3) (by omega)).2.2
  unfold countBox at this
  rw [filter_length_eq_one (List.nodup_range 9)] at this
  obtain ⟨x, _, _, huniq⟩ := this
  have e1 : (r / 3 * 3 + c / 3) / 3 * 3 + (r % 3 * 3 + c % 3) / 3 = r := by omega
  have e2 : (r / 3 * 3 + c / 3) % 3 * 3 + (r % 3 * 3 + c % 3) % 3 = c := by omega
  have e3 : (r / 3 * 3 + c / 3) / 3 * 3 + (r' % 3 * 3 + c' % 3) / 3 = r' := by omega
  have e4 : (r / 3 * 3 + c / 3) % 3 * 3 + (r' % 3 * 3 + c' % 3) % 3 = c' := by omega
  have a1 := huniq (r % 3 * 3 + c % 3) (List.mem_range.2 (by omega))
    (by rw [decide_eq_true_eq, e1, e2, h3])
  have a2 := huniq (r' % 3 * 3 + c' % 3) (List.mem_range.2 (by omega))
    (by rw [decide_eq_true_eq, e3, e4, h3, e])
  omega

theorem length_flatMap_colsOf (M : List MapRow) : (M.flatMap colsOf).length = 4 * M.length := by
  induction M with
  | nil => rfl
  | cons m ms ih =>
    rw [List.flatMap_cons, List.length_append, ih, List.length_cons]
    show 4 + _ = _
    omega

/-- The tags of a rule-valid completed grid form an exact cover of the 324 columns. -/
theorem ValidGrid.coverTags {g : Grid} (h : ValidGrid g) : CoverTags (gridTags g) := by
  have hok : ∀ m, m ∈ gridTags g → m.r < 9 ∧ m.c < 9 ∧ 1 ≤ m.v ∧ m.v ≤ 9 := by
    intro m hm
    obtain ⟨k, hk, rfl⟩ := List.mem_map.1 hm
    have hk' := List.mem_range.1 hk
    have hr : k / 9 < 9 := by omega
    have hc : k % 9 < 9 := by omega
    obtain ⟨h1, h2, _⟩ := h.digit hr hc
    exact ⟨hr, hc, h1, h2⟩
  refine ⟨hok, ?_⟩
  have hnd : ((gridTags g).flatMap colsOf).Nodup := by
    rw [List.nodup_flatMap]
    refine ⟨?_, ?_⟩
    · intro m hm
      obtain ⟨h1, h2, h3, h4⟩ := hok m hm
      exact (colsOf_ok m h1 h2 h3 h4).1
    · unfold gridTags
      rw [List.pairwise_map]
      refine List.Pairwise.imp_of_mem ?_ (List.nodup_range 81)
      intro k k' hk hk' hne
      show List.Disjoint (colsOf _) (colsOf _)
      intro x hx hx'
      have hk1 := List.mem_range.1 hk
      have hk1' := List.mem_range.1 hk'
      have hr : k / 9 < 9 := by omega
      have hc : k % 9 < 9 := by omega
      have hr' : k' / 9 < 9 := by omega
      have hc' : k' % 9 < 9 := by omega
      obtain ⟨d1, d2, d3⟩ := h.digit hr hc
      obtain ⟨d1', d2', d3'⟩ := h.digit hr' hc'
      have hb : BoxIndex (k / 9) (k % 9) < 9 := by unfold BoxIndex; omega
      have hb' : BoxIndex (k' / 9) (k' % 9) < 9 := by unfold BoxIndex; omega
      rw [mem_colsOf] at hx hx'
      simp only at hx hx'
      have hveq : (g (k / 9) (k % 9)).toNat = (g (k' / 9) (k' % 9)).toNat →
          g (k / 9) (k % 9) = g (k' / 9) (k' % 9) := fun e => by rw [← d3, ← d3', e]
      rcases hx with hx | hx | hx | hx <;> rcases hx' with hx' | hx' | hx' | hx' <;>
        try omega
      · have e1 : k / 9 = k' / 9 := by omega
        have e2 := hveq (by omega)
        rw [e1] at e2
        have := h.row_unique hr' hc hc' e2
        omega
      · have e1 : k % 9 = k' % 9 := by omega
        have e2 := hveq (by omega)
        rw [e1] at e2
        have := h.col_unique hc' hr hr' e2
        omega
      · have e1 : BoxIndex (k / 9) (k % 9) = BoxIndex (k' / 9) (k' % 9) := by omega
        have e2 := hveq (by omega)
        have := h.box_unique hr hc hr' hc' e1 e2
        omega
  have hsub : ∀ x, x ∈ (gridTags g).flatMap colsOf → x ∈ List.range 324 := by
    intro x hx
    obtain ⟨m, hm, hxm⟩ := List.mem_flatMap.1 hx
    obtain ⟨h1, h2, h3, h4⟩ := hok m hm
    exact List.mem_range.2 ((colsOf_ok m h1 h2 h3 h4).2 x hxm)
  refine (List.subperm_of_subset hnd hsub).perm_of_length_le ?_
  rw [length_flatMap_colsOf, List.length_range]
  unfold gridTags
  rw [List.length_map, List.length_range]

theorem length_flatMap_le {α β : Type} (f : α → List β) (k : Nat) (l : List α)
    (h : ∀ x, x ∈ l → (f x).length ≤ k) : (l.flatMap f).length ≤ k * l.length := by
  induction l with
  | nil => simp
  | cons x xs ih =>
    rw [List.flatMap_cons, List.length_append, List.length_cons]
    have h1 := h x (List.mem_cons_self _ _)
    have h2 := ih (fun y hy => h y (List.mem_cons_of_mem _ hy))
    rw [Nat.mul_succ]
    omega

theorem length_allTags_le (input : Grid) : (allTags input).length ≤ 729 := by
  unfold allTags
  have h1 : ∀ r c, (cellTags input r c).length ≤ 9 := by
    intro r c
    unfold cellTags
    rw [List.length_map]
    exact le_trans (List.length_filter_le _ _) (by rw [List.length_range'])
  have h2 : ∀ r, r ∈ List.range 9 →
      ((List.range 9).flatMap (fun c => cellTags input r c)).length ≤ 81 := by
    intro r _
    have := length_flatMap_le (fun c => cellTags input r c) 9 (List.range 9) (fun c _ => h1 r c)
    rw [List.length_range] at this
    exact this
  have := length_flatMap_le
    (fun r => (List.range 9).flatMap (fun c => cellTags input r c)) 81 (List.range 9) h2
  rw [List.length_range] at this
  exact this

theorem RowTags.cons_inv {rows : Layout} {k : Nat} {m : MapRow} {ms : List MapRow}
    {s : DLXSolver} (h : RowTags rows (tagsFrom k (m :: ms)) s) :
    ∃ p rows', rows = p :: rows' ∧ p.map s.colN = colsOf m ∧
      (∀ j, j ∈ p → s.row.get j = (k : Int)) ∧ RowTags rows' (tagsFrom (k + 1) ms) s := by
  have h' : List.Forall₂ (fun row t => row.map s.colN = t.2 ∧ ∀ j, j ∈ row → s.row.get j = t.1)
      rows (((k : Int), colsOf m) :: tagsFrom (k + 1) ms) := h
  obtain ⟨p, rows', hp, hrest, rfl⟩ := List.forall₂_cons_right_iff.1 h'
  exact ⟨p, rows', rfl, hp.1, hp.2, hrest⟩

theorem RowTags.nil_inv {rows : Layout} {k : Nat} {s : DLXSolver}
    (h : RowTags rows (tagsFrom k []) s) : rows = [] := by
  have h' : List.Forall₂ (fun (row : List Nat) (t : Int × List Nat) =>
      row.map s.colN = t.2 ∧ ∀ j, j ∈ row → s.row.get j = t.1) rows [] := h
  exact List.forall₂_nil_right_iff.1 h'

/-- Every row of the encoded matrix has four nodes. -/
theorem RowTags.length_flatten {rows : Layout} {k : Nat} {ms : List MapRow} {s : DLXSolver}
    (h : RowTags rows (tagsFrom k ms) s) : rows.flatten.length = 4 * ms.length := by
  induction ms generalizing rows k with
  | nil => rw [h.nil_inv]; rfl
  | cons m ms ih =>
    obtain ⟨p, rows', rfl, hp, _, hrest⟩ := h.cons_inv
    rw [List.flatten_cons, List.length_append, ih hrest, List.length_cons]
    have : (p.map s.colN).length = 4 := by rw [hp]; rfl
    rw [List.length_map] at this
    omega

/-- Every row of the encoded matrix carries the id and the columns of a tag. -/
theorem RowTags.tag_of_row {rows : Layout} {k : Nat} {ms : List MapRow} {s : DLXSolver}
    (h : RowTags rows (tagsFrom k ms) s) {p : List Nat} (hp : p ∈ rows) :
    ∃ i, i < ms.length ∧ ms.getD i default ∈ ms ∧ p.map s.colN = colsOf (ms.getD i default) ∧
      ∀ j, j ∈ p → s.row.get j = ((k + i : Nat) : Int) := by
  induction ms generalizing rows k with
  | nil => rw [h.nil_inv] at hp; cases hp
  | cons m ms ih =>
    obtain ⟨q, rows', rfl, hq, hid, hrest⟩ := h.cons_inv
    rcases List.mem_cons.1 hp with rfl | hp'
    · exact ⟨0, Nat.succ_pos _, List.mem_cons_self _ _, hq, hid⟩
    · obtain ⟨i, hi, hmem, hc, hr⟩ := ih hrest hp'
      refine ⟨i + 1, Nat.succ_lt_succ hi, List.mem_cons_of_mem _ hmem, hc, ?_⟩
      intro j hj
      rw [hr j hj]
      congr 1
      omega

/-- Every tag has its row in the encoded matrix. -/
theorem RowTags.row_of_tag {rows : Layout} {k : Nat} {ms : List MapRow} {s : DLXSolver}
    (h : RowTags rows (tagsFrom k ms) s) {m : MapRow} (hm : m ∈ ms) :
    ∃ p, p ∈ rows ∧ p.map s.colN = colsOf m := by
  induction ms generalizing rows k with
  | nil => cases hm
  | cons x ms ih =>
    obtain ⟨q, rows', rfl, hq, _, hrest⟩ := h.cons_inv
    rcases List.mem_cons.1 hm with rfl | hm'
    · exact ⟨q, List.mem_cons_self _ _, hq⟩
    · obtain ⟨p, hp, hc⟩ := ih hrest hm'
      exact ⟨p, List.mem_cons_of_mem _ hp, hc⟩

/-- Rows of the matrix for a list of tags. -/
theorem RowTags.rows_of_tags {rows : Layout} {k : Nat} {ms : List MapRow} {s : DLXSolver}
    (h : RowTags rows (tagsFrom k ms) s) (M : List MapRow) (hM : ∀ m, m ∈ M → m ∈ ms) :
    ∃ P : List (List Nat), (∀ p, p ∈ P → p ∈ rows) ∧
      P.flatMap (fun p => p.map s.colN) = M.flatMap colsOf := by
  induction M with
  | nil => exact ⟨[], fun _ hp => absurd hp (List.not_mem_nil _), rfl⟩
  | cons m M ih =>
    obtain ⟨P, hP, e⟩ := ih (fun x hx => hM x (List.mem_cons_of_mem _ hx))
    obtain ⟨p, hp, hc⟩ := h.row_of_tag (hM m (List.mem_cons_self _ _))
    refine ⟨p :: P, ?_, ?_⟩
    · intro q hq
      rcases List.mem_cons.1 hq with rfl | hq
      · exact hp
      · exact hP q hq
    · rw [List.flatMap_cons, List.flatMap_cons, e, hc]

/-- The tags of the rows picked by the search, read off the row ids of the picked nodes. -/
theorem RowTags.tags_of_picks {rows : Layout} {ms : List MapRow} {s : DLXSolver}
    (h : RowTags rows (tagsFrom 0 ms) s) {picks : List Nat} {P : List (List Nat)}
    (hf : List.Forall₂ (fun r p => r ∈ p) picks P) (hP : ∀ p, p ∈ P → p ∈ rows) :
    ((picks.map s.row.get).map (fun id => ms.getD id.toNat default)).flatMap colsOf =
        P.flatMap (fun p => p.map s.colN) ∧
      (∀ m, m ∈ (picks.map s.row.get).map (fun id => ms.getD id.toNat default) → m ∈ ms) ∧
      ∀ id, id ∈ picks.map s.row.get → 0 ≤ id ∧ id < (ms.length : Int) := by
  induction hf with
  | nil =>
    refine ⟨rfl, ?_, ?_⟩ <;> intro _ hm <;> cases hm
  | @cons r p picks P hr _ ih =>
    obtain ⟨e, hmem, hid⟩ := ih (fun q hq => hP q (List.mem_cons_of_mem _ hq))
    obtain ⟨i, hi, him, hc, hrow⟩ := h.tag_of_row (hP p (List.mem_cons_self _ _))
    have hri : s.row.get r = (i : Int) := by rw [hrow r hr, Nat.zero_add]
    have hget : ms.getD (s.row.get r).toNat default = ms.getD i default := by
      rw [hri, Int.toNat_ofNat]
    simp only [List.map_cons, List.flatMap_cons, hget]
    refine ⟨by rw [hc]; exact congrArg _ e, ?_, ?_⟩
    · intro m hm
      rcases List.mem_cons.1 hm with rfl | hm
      · exact him
      · exact hmem m hm
    · intro id hidm
      rcases List.mem_cons.1 hidm with rfl | hidm
      · rw [hri]; omega
      · exact hid id hidm

theorem foldl_decodeStep (mapRows : List MapRow) (ids : List Int) (tmp : Grid) :
    ids.foldl (decodeStep mapRows) tmp =
      decodeTags (ids.map (fun id => mapRows.getD id.toNat default)) tmp := by
  unfold decodeTags
  rw [List.foldl_map]
  rfl

theorem encoded (input : Grid) : ∃ rows, Encoded input rows := by
  obtain ⟨⟨⟨rows, hb, ht⟩, hn, hid, hsol⟩, hm⟩ := encode_spec input
  rw [hm] at ht hid
  refine ⟨rows, hb, ht, hn, hsol, hm, hid, ?_⟩
  rw [ht.length_flatten]
  have := length_allTags_le input
  omega

theorem Encoded.hN {input : Grid} {rows : Layout} (h : Encoded input rows) :
    (rows.flatten.length : Int) < INT_MAX := by
  have := h.size
  unfold INT_MAX
  omega

theorem Encoded.active {input : Grid} {rows : Layout} (h : Encoded input rows) :
    (builtAbs rows (encode input).dlx).active = List.range 324 := by
  show List.range _ = _
  rw [h.nCols]

theorem Encoded.fuel {input : Grid} {rows : Layout} (h : Encoded input rows) :
    fuelBound rows (builtAbs rows (encode input).dlx).active.length ≤ solveFuel := by
  rw [h.active, List.length_range]
  have := h.size
  unfold fuelBound solveFuel
  omega

/-- A successful search on the encoded matrix has picked an exact cover by tags of the
encoder, and `outRows` holds valid row ids. -/
theorem Encoded.search_true {input : Grid} {rows : Layout} (h : Encoded input rows)
    {fuel : Nat} {d : DLXSolver} (e : (encode input).dlx.search fuel = some (true, d)) :
    CoverTags (pickedTags (encode input).mapRows d) ∧
      (∀ m, m ∈ pickedTags (encode input).mapRows d → m ∈ allTags input) ∧
      ∀ id, id ∈ d.outRows → 0 ≤ id ∧ id < (encode input).rowID := by
  obtain ⟨picks, P, hsol, hout, hf, hcov⟩ :=
    (search_sound h.hN h.built.static h.built.rep e).1 rfl
  rw [h.sol, List.nil_append] at hsol
  have hout' : d.outRows = picks.map (encode input).dlx.row.get := by
    rw [← hsol]; exact hout
  obtain ⟨e1, hmem, hid⟩ := h.tags.tags_of_picks hf hcov.1
  rw [h.active] at hcov
  have hmem' : ∀ m, m ∈ pickedTags (encode input).mapRows d → m ∈ allTags input := by
    unfold pickedTags
    rw [h.mapRows, hout']
    exact hmem
  refine ⟨⟨?_, ?_⟩, hmem', ?_⟩
  · intro m hm
    have := (mem_allTags input m).1 (hmem' m hm)
    exact ⟨this.1, this.2.1, this.2.2.1, this.2.2.2.1⟩
  · unfold pickedTags
    rw [h.mapRows, hout', e1]
    exact hcov.2
  · rw [h.rowID, hout']
    exact hid

/-- A failed search on the encoded matrix shows that no exact cover by tags of the encoder
exists, and hands the matrix back as it was. -/
theorem Encoded.search_false {input : Grid} {rows : Layout} (h : Encoded input rows)
    {fuel : Nat} {d : DLXSolver} (e : (encode input).dlx.search fuel = some (false, d)) :
    d = (encode input).dlx ∧
      ∀ M, CoverTags M → ¬ ∀ m, m ∈ M → m ∈ allTags input := by
  obtain ⟨hd, hno⟩ := (search_sound h.hN h.built.static h.built.rep e).2 rfl
  refine ⟨hd, ?_⟩
  intro M hc hM
  obtain ⟨P, hP, eP⟩ := h.tags.rows_of_tags M hM
  refine hno P ⟨hP, ?_⟩
  rw [h.active, eP]
  exact hc.perm

/-- The search on the encoded matrix returns when given `solveFuel`. -/
theorem Encoded.search_returns {input : Grid} {rows : Layout} (h : Encoded input rows)
    {fuel : Nat} (hf : solveFuel ≤ fuel) :
    ∃ res, (encode input).dlx.search fuel = some res := by
  obtain ⟨res, e, _⟩ := Sudoku.search_total h.hN h.built.static h.built.rep (le_trans h.fuel hf)
  exact ⟨res, e⟩

theorem SolveSudokuDLX_true {fuel : Nat} {input : Grid} (result : Grid) {d : DLXSolver}
    (e : (encode input).dlx.search fuel = some (true, d)) :
    SolveSudokuDLX fuel input result = some (true, fun r c =>
      if r < 9 ∧ c < 9 then decodeTags (pickedTags (encode input).mapRows d) (fun _ _ => 0) r c
      else result r c) := by
  unfold SolveSudokuDLX
  simp only [e, foldl_decodeStep]
  rfl

theorem SolveSudokuDLX_false {fuel : Nat} {input : Grid} (result : Grid) {d : DLXSolver}
    (e : (encode input).dlx.search fuel = some (false, d)) :
    SolveSudokuDLX fuel input result = some (false, result) := by
  unfold SolveSudokuDLX
  simp only [e]

theorem SolveSudokuDLX_none {fuel : Nat} {input : Grid} (result : Grid)
    (e : (encode input).dlx.search fuel = none) :
    SolveSudokuDLX fuel input result = none := by
  unfold SolveSudokuDLX
  simp only [e]

theorem SolveSudokuDLX_inv_true {fuel : Nat} {input result res : Grid}
    (h : SolveSudokuDLX fuel input result = some (true, res)) :
    ∃ d, (encode input).dlx.search fuel = some (true, d) ∧ res = fun r c =>
      if r < 9 ∧ c < 9 then decodeTags (pickedTags (encode input).mapRows d) (fun _ _ => 0) r c
      else result r c := by
  rcases hs : (encode input).dlx.search fuel with _ | ⟨b, d⟩
  · rw [SolveSudokuDLX_none result hs] at h
    cases h
  · cases b
    · rw [SolveSudokuDLX_false result hs] at h
      cases h
    · rw [SolveSudokuDLX_true result hs] at h
      cases h
      exact ⟨d, rfl, rfl⟩

theorem SolveSudokuDLX_inv_false {fuel : Nat} {input result res : Grid}
    (h : SolveSudokuDLX fuel input result = some (false, res)) :
    ∃ d, (encode input).dlx.search fuel = some (false, d) ∧ res = result := by
  rcases hs : (encode input).dlx.search fuel with _ | ⟨b, d⟩
  · rw [SolveSudokuDLX_none result hs] at h
    cases h
  · cases b
    · rw [SolveSudokuDLX_false result hs] at h
      cases h
      exact ⟨d, rfl, rfl⟩
    · rw [SolveSudokuDLX_true result hs] at h
      cases h

/-- Validity looks at the 81 cells only. -/
theorem ValidGrid.of_cells_eq {g g' : Grid} (h : ValidGrid g)
    (e : ∀ r c, r < 9 → c < 9 → g' r c = g r c) : ValidGrid g' := by
  refine ⟨?_, ?_⟩
  · intro r c hr hc
    rw [e r c hr hc]
    exact h.1 r c hr hc
  · intro v h1 h9 k hk
    obtain ⟨a, b, c⟩ := h.2 v h1 h9 k hk
    refine ⟨?_, ?_, ?_⟩
    · rw [← a]
      unfold countRow
      congr 1
      refine List.filter_congr ?_
      intro x hx
      rw [e k x hk (List.mem_range.1 hx)]
    · rw [← b]
      unfold countCol
      congr 1
      refine List.filter_congr ?_
      intro x hx
      rw [e x k (List.mem_range.1 hx) hk]
    · rw [← c]
      unfold countBox
      congr 1
      refine List.filter_congr ?_
      intro x hx
      have := List.mem_range.1 hx
      rw [e _ _ (by omega) (by omega)]

/-- A call that returns true has written a rule-valid grid that keeps the givens, and has
left everything outside the 81 cells alone. -/
theorem solve_sound {fuel : Nat} {input result res : Grid}
    (h : SolveSudokuDLX fuel input result = some (true, res)) :
    ValidGrid res ∧ Agrees input res := by
  obtain ⟨rows, henc⟩ := encoded input
  obtain ⟨d, hs, rfl⟩ := SolveSudokuDLX_inv_true h
  obtain ⟨hc, hmem, _⟩ := henc.search_true hs
  refine ⟨(hc.valid (fun _ _ => 0)).of_cells_eq ?_, ?_⟩
  · intro r c hr hc'
    simp only [hr, hc', and_self, if_true]
  · intro r c hr hc' hne
    simp only [hr, hc', and_self, if_true]
    obtain ⟨m, hm, rfl, rfl⟩ := hc.cell hr hc'
    rw [hc.decode_at _ hm]
    rcases ((mem_allTags input m).1 (hmem m hm)).2.2.2.2 with h0 | hv
    · exact absurd h0 hne
    · exact hv.symm

/-- A valid completion of the input is an exact cover by tags of the encoder. -/
theorem gridTags_allowed {input g : Grid} (hv : ValidGrid g) (ha : Agrees input g) :
    ∀ m, m ∈ gridTags g → m ∈ allTags input := by
  intro m hm
  obtain ⟨h1, h2, h3, h4⟩ := hv.coverTags.ok m hm
  rw [mem_allTags]
  refine ⟨h1, h2, h3, h4, ?_⟩
  obtain ⟨k, hk, rfl⟩ := List.mem_map.1 hm
  have hk' := List.mem_range.1 hk
  have hr : k / 9 < 9 := by omega
  have hc : k % 9 < 9 := by omega
  by_cases h0 : input (k / 9) (k % 9) = 0
  · exact Or.inl h0
  · refine Or.inr ?_
    show input (k / 9) (k % 9) = ((g (k / 9) (k % 9)).toNat : Int)
    rw [(hv.digit hr hc).2.2, ha _ _ hr hc h0]

/-- A call with enough fuel returns. -/
theorem solve_total {fuel : Nat} (hf : solveFuel ≤ fuel) (input result : Grid) :
    ∃ b res, SolveSudokuDLX fuel input result = some (b, res) := by
  obtain ⟨rows, henc⟩ := encoded input
  obtain ⟨⟨b, d⟩, hs⟩ := henc.search_returns hf
  cases b
  · exact ⟨false, _, SolveSudokuDLX_false result hs⟩
  · exact ⟨true, _, SolveSudokuDLX_true result hs⟩

/-- A call that returns false leaves `result` alone, and the input has no valid
completion. -/
theorem solve_false {fuel : Nat} {input result res : Grid}
    (h : SolveSudokuDLX fuel input result = some (false, res)) :
    res = result ∧ ¬ ∃ g, ValidGrid g ∧ Agrees input g := by
  obtain ⟨rows, henc⟩ := encoded input
  obtain ⟨d, hs, rfl⟩ := SolveSudokuDLX_inv_false h
  refine ⟨rfl, ?_⟩
  rintro ⟨g, hv, ha⟩
  exact (henc.search_false hs).2 _ hv.coverTags (gridTags_allowed hv ha)

/-- A call with enough fuel on an input that has a valid completion returns true. -/
theorem solve_complete {fuel : Nat} (hf : solveFuel ≤ fuel) {input g : Grid} (result : Grid)
    (hv : ValidGrid g) (ha : Agrees input g) :
    ∃ res, SolveSudokuDLX fuel input result = some (true, res) := by
  obtain ⟨b, res, h⟩ := solve_total hf input result
  cases b
  · exact absurd ⟨g, hv, ha⟩ (solve_false h).2
  · exact ⟨res, h⟩

/-- A call that returns true has left everything outside the 81 cells alone. -/
theorem solve_outside {fuel : Nat} {input result res : Grid}
    (h : SolveSudokuDLX fuel input result = some (true, res)) (r c : Nat)
    (hrc : ¬ (r < 9 ∧ c < 9)) : res r c = result r c := by
  obtain ⟨d, _, rfl⟩ := SolveSudokuDLX_inv_true h
  simp only [hrc, if_false]

theorem validB_sound {g : Grid} (h : validB g = true) : ValidGrid g := by
  unfold validB at h
  simp only [Bool.and_eq_true, List.all_eq_true, List.mem_range, List.mem_range'_1,
    decide_eq_true_eq] at h
  refine ⟨fun r c hr hc => h.1 r hr c hc, ?_⟩
  intro v h1 h9 k hk
  exact h.2 v ⟨h1, by omega⟩ k hk

set_option maxRecDepth 100000 in
theorem shiftGrid_validB : ∀ k, k < 9 → validB (shiftGrid k) = true := by
  decide

theorem shiftGrid_valid {k : Nat} (hk : k < 9) : ValidGrid (shiftGrid k) :=
  validB_sound (shiftGrid_validB k hk)

/-- Every digit can be put at every cell by one of the nine shifted patterns. -/
theorem shiftGrid_hits {r c v : Nat} (h1 : 1 ≤ v) (h9 : v ≤ 9) :
    ∃ k, k < 9 ∧ shiftGrid k r c = (v : Int) := by
  refine ⟨(v + 8 - ((r % 3) * 3 + r / 3 + c) % 9) % 9, by omega, ?_⟩
  unfold shiftGrid
  congr 1
  omega

theorem agrees_emptyGrid (g : Grid) : Agrees emptyGrid g :=
  fun _ _ _ _ h => absurd rfl h

theorem agrees_clueGrid {r c : Nat} {v : Int} {g : Grid} (h : g r c = v) :
    Agrees (clueGrid r c v) g := by
  intro r' c' _ _ hne
  unfold clueGrid at hne ⊢
  by_cases e : r' = r ∧ c' = c
  · rw [if_pos e, e.1, e.2, h]
  · rw [if_neg e] at hne
    exact absurd rfl hne

theorem foldl_congr_mem {α β : Type} (f g : β → α → β) (l : List α)
    (h : ∀ b a, a ∈ l → f b a = g b a) (b : β) : l.foldl f b = l.foldl g b := by
  induction l generalizing b with
  | nil => rfl
  | cons x xs ih =>
    rw [List.foldl_cons, List.foldl_cons, h b x (List.mem_cons_self _ _)]
    exact ih (fun b a ha => h b a (List.mem_cons_of_mem _ ha)) _

/-- The encoder reads the 81 cells of the input and nothing else. -/
theorem encode_congr {input1 input2 : Grid}
    (h : ∀ r c, r < 9 → c < 9 → input1 r c = input2 r c) : encode input1 = encode input2 := by
  unfold encode
  refine foldl_congr_mem _ _ _ ?_ _
  intro e r hr
  unfold encodeRow
  refine foldl_congr_mem _ _ _ ?_ _
  intro e c hc
  unfold encodeCell
  refine foldl_congr_mem _ _ _ ?_ _
  intro e v _
  unfold encodeDigit
  rw [h r c (List.mem_range.1 hr) (List.mem_range.1 hc)]

/-- Two calls on inputs with the same 81 cells return the same flag and, when true, the same
81 result cells, whatever the fuel above the bound and whatever `result` held before. -/
theorem solve_deterministic {input1 input2 : Grid}
    (h : ∀ r c, r < 9 → c < 9 → input1 r c = input2 r c) {fuel1 fuel2 : Nat}
    (hf1 : solveFuel ≤ fuel1) (hf2 : solveFuel ≤ fuel2) (result1 result2 : Grid) :
    ∃ b g1 g2, SolveSudokuDLX fuel1 input1 result1 = some (b, g1) ∧
      SolveSudokuDLX fuel2 input2 result2 = some (b, g2) ∧
      (b = true → ∀ r c, r < 9 → c < 9 → g1 r c = g2 r c) ∧
      (result1 = result2 → g1 = g2) := by
  obtain ⟨rows, henc⟩ := encoded input1
  obtain ⟨⟨b, d⟩, hs⟩ := henc.search_returns (le_refl solveFuel)
  have hs1 := search_mono hf1 hs
  have hs2 := search_mono hf2 hs
  rw [encode_congr h] at hs2
  cases b
  · refine ⟨false, _, _, SolveSudokuDLX_false result1 hs1, SolveSudokuDLX_false result2 hs2,
      fun e => Bool.noConfusion e, fun e => e⟩
  · refine ⟨true, _, _, SolveSudokuDLX_true result1 hs1, SolveSudokuDLX_true result2 hs2,
      ?_, ?_⟩
    · intro _ r c hr hc
      simp only [hr, hc, and_self, if_true, encode_congr h]
    · intro e
      rw [e, encode_congr h]

theorem Built.addRows {n : Nat} (rs : List (Int × List Nat))
    (hrs : ∀ r, r ∈ rs → r.2.Nodup ∧ ∀ c, c ∈ r.2 → c < n) :
    ∀ (rows : Layout) (tags : List (Int × List Nat)) (s : DLXSolver), Built rows s →
      RowTags rows tags s → s.nCols = n →
      ∃ rows', Built rows' (rs.foldl (fun s r => s.addRow r.1 r.2) s) ∧
        (rs.foldl (fun s r => s.addRow r.1 r.2) s).nCols = n := by
  induction rs with
  | nil => intro rows tags s hb _ hn; exact ⟨rows, hb, hn⟩
  | cons r rs ih =>
    intro rows tags s hb ht hn
    obtain ⟨hnd, hlt⟩ := hrs r (List.mem_cons_self _ _)
    obtain ⟨row, hb', ht', hn'⟩ := hb.addRow ht r.1 r.2 hnd (fun c hc => by rw [hn]; exact hlt c hc)
    exact ih (fun x hx => hrs x (List.mem_cons_of_mem _ hx)) _ _ _ hb' ht' (hn'.trans hn)

theorem buildMatrix_built (n : Nat) (rs : List (Int × List Nat))
    (hrs : ∀ r, r ∈ rs → r.2.Nodup ∧ ∀ c, c ∈ r.2 → c < n) :
    ∃ rows, Built rows (buildMatrix n rs) ∧ (buildMatrix n rs).nCols = n := by
  obtain ⟨hb, hn, _⟩ := Built.init n
  exact Built.addRows rs hrs [] [] _ hb List.Forall₂.nil hn

/-- The nodes of a built matrix number fewer than the allocation counter. -/
theorem Built.flatten_length_lt {rows : Layout} {s : DLXSolver} (h : Built rows s) :
    rows.flatten.length < s.next := by
  have hnd := h.static.addrs
  have hsub : ∀ x, x ∈ null :: head :: ((List.range s.nCols).map s.colHead.get ++ rows.flatten) →
      x ∈ List.range s.next := by
    intro x hx
    rw [List.mem_range]
    have := h.next_ge
    rcases List.mem_cons.1 hx with rfl | hx
    · unfold null; omega
    · rcases List.mem_cons.1 hx with rfl | hx
      · unfold head; omega
      · exact h.alloc x hx
  have := (List.subperm_of_subset hnd hsub).length_le
  simp only [List.length_cons, List.length_append, List.length_range] at this
  omega

/-- On a built matrix, `cover` of a column followed by `uncover` of the same column returns,
and gives back the very same state. -/
theorem cover_uncover_built (n : Nat) (rs : List (Int × List Nat))
    (hrs : ∀ r, r ∈ rs → r.2.Nodup ∧ ∀ c, c ∈ r.2 → c < n) (c : Nat) (hc : c < n)
    (fuel : Nat) (hf : (buildMatrix n rs).next ≤ fuel) :
    ∃ s', cover fuel (buildMatrix n rs) ((buildMatrix n rs).colHead.get c) = some s' ∧
      uncover fuel s' ((buildMatrix n rs).colHead.get c) = some (buildMatrix n rs) := by
  obtain ⟨rows, hb, hn⟩ := buildMatrix_built n rs hrs
  have hlen := lt_of_lt_of_le hb.flatten_length_lt hf
  have hca : c ∈ (builtAbs rows (buildMatrix n rs)).active := by
    show c ∈ List.range _
    rw [hn]
    exact List.mem_range.2 hc
  exact ⟨_, hb.rep.cover_eq hb.static hca hlen, hb.rep.uncover_eq hb.static hca hlen⟩

theorem dupGrid_hasDuplicate : HasDuplicate dupGrid :=
  ⟨0, 0, 0, 1, by decide, by decide, by decide, by decide, Or.inr (by decide), Or.inl rfl,
    by decide, by decide⟩

/-- A grid with a duplicated given has no valid completion. -/
theorem HasDuplicate.no_completion {input : Grid} (h : HasDuplicate input) :
    ¬ ∃ g, ValidGrid g ∧ Agrees input g := by
  rintro ⟨g, hv, ha⟩
  obtain ⟨r, c, r', c', hr, hc, hr', hc', hne, hunit, h0, heq⟩ := h
  have e : g r c = g r' c' := by
    rw [ha r c hr hc h0, ha r' c' hr' hc' (by rw [← heq]; exact h0), heq]
  rcases hunit with rfl | rfl | hb
  · have := hv.row_unique hr hc hc' e
    omega
  · have := hv.col_unique hc hr hr' e
    omega
  · have := hv.box_unique hr hc hr' hc' hb e
    omega

/-- A call with enough fuel on an input without valid completion returns false and leaves
`result` alone. -/
theorem solve_unsat {fuel : Nat} (hf : solveFuel ≤ fuel) {input : Grid} (result : Grid)
    (hno : ¬ ∃ g, ValidGrid g ∧ Agrees input g) :
    SolveSudokuDLX fuel input result = some (false, result) := by
  obtain ⟨b, res, h⟩ := solve_total hf input result
  cases b
  · rw [h, (solve_false h).1]
  · exact absurd ⟨res, solve_sound h⟩ hno

/-- A call with enough fuel on a solved grid returns true with the same 81 cells. -/
theorem solve_solved {fuel : Nat} (hf : solveFuel ≤ fuel) {g : Grid} (result : Grid)
    (hv : ValidGrid g) :
    ∃ res, SolveSudokuDLX fuel g result = some (true, res) ∧
      ∀ r c, r < 9 → c < 9 → res r c = g r c := by
  obtain ⟨res, h⟩ := solve_complete hf result hv (fun _ _ _ _ _ => rfl)
  refine ⟨res, h, ?_⟩
  intro r c hr hc
  refine (solve_sound h).2 r c hr hc ?_
  have := (hv.1 r c hr hc).1
  omega

/-- A call on a solved grid, with `result` holding that grid already, gives it back. -/
theorem solve_solved_eq {fuel : Nat} (hf : solveFuel ≤ fuel) {g : Grid} (hv : ValidGrid g) :
    SolveSudokuDLX fuel g g = some (true, g) := by
  obtain ⟨res, h, e⟩ := solve_solved hf g hv
  rw [h]
  congr 2
  funext r c
  by_cases hrc : r < 9 ∧ c < 9
  · exact e r c hrc.1 hrc.2
  · exact solve_outside h r c hrc

/-- A call with enough fuel on the empty grid returns true with a valid grid. -/
theorem solve_empty {fuel : Nat} (hf : solveFuel ≤ fuel) (result : Grid) :
    ∃ res, SolveSudokuDLX fuel emptyGrid result = some (true, res) ∧ ValidGrid res := by
  obtain ⟨res, h⟩ := solve_complete hf result (shiftGrid_valid (by decide : 0 < 9))
    (agrees_emptyGrid _)
  exact ⟨res, h, (solve_sound h).1⟩

/-- A call with enough fuel on a grid with a single clue returns true with a valid grid
that holds the clue. -/
theorem solve_clue {fuel : Nat} (hf : solveFuel ≤ fuel) (result : Grid) {r c v : Nat}
    (hr : r < 9) (hc : c < 9) (h1 : 1 ≤ v) (h9 : v ≤ 9) :
    ∃ res, SolveSudokuDLX fuel (clueGrid r c (v : Int)) result = some (true, res) ∧
      ValidGrid res ∧ res r c = (v : Int) := by
  obtain ⟨k, hk, hit⟩ := shiftGrid_hits (r := r) (c := c) h1 h9
  obtain ⟨res, h⟩ := solve_complete hf result (shiftGrid_valid hk) (agrees_clueGrid hit)
  have hcl : clueGrid r c (v : Int) r c = (v : Int) := by
    unfold clueGrid
    rw [if_pos ⟨rfl, rfl⟩]
  refine ⟨res, h, (solve_sound h).1, ?_⟩
  rw [(solve_sound h).2 r c hr hc (by rw [hcl]; omega), hcl]

theorem flatMap_map_eq {α β γ : Type} (f : α → β) (g : β → List γ) (l : List α) :
    (l.map f).flatMap g = l.flatMap (fun x => g (f x)) := by
  induction l with
  | nil => rfl
  | cons x xs ih => rw [List.map_cons, List.flatMap_cons, List.flatMap_cons, ih]

theorem search_outRows {input : Grid} {fuel : Nat} {d : DLXSolver}
    (e : (encode input).dlx.search fuel = some (true, d)) :
    OutRowsCover (encode input) d.outRows := by
  obtain ⟨rows, henc⟩ := encoded input
  obtain ⟨hc, _, hid⟩ := henc.search_true e
  have hperm := hc.perm
  have hlen := hperm.length_eq
  rw [length_flatMap_colsOf, List.length_range] at hlen
  have hnd := (List.nodup_flatMap.1 (hperm.nodup_iff.2 (List.nodup_range 324))).2
  unfold pickedTags at hperm hlen hnd
  rw [flatMap_map_eq] at hperm
  rw [List.length_map] at hlen
  rw [List.pairwise_map] at hnd
  refine ⟨hid, hperm, by omega, hnd, ?_⟩
  intro r c hr hc'
  obtain ⟨m, hm, e1, e2⟩ := hc.cell hr hc'
  obtain ⟨id, hidm, rfl⟩ := List.mem_map.1 hm
  exact ⟨id, hidm, e1, e2⟩

theorem search_encode_returns (input : Grid) {fuel : Nat} (hf : solveFuel ≤ fuel) :
    ∃ res, (encode input).dlx.search fuel = some res := by
  obtain ⟨rows, henc⟩ := encoded input
  exact henc.search_returns hf

theorem search_solved {g : Grid} (hv : ValidGrid g) :
    ∃ d, (encode g).dlx.search solveFuel = some (true, d) := by
  obtain ⟨d, h, _⟩ := SolveSudokuDLX_inv_true (solve_solved_eq (le_refl _) hv)
  exact ⟨d, h⟩

/-- C1, soundness. A call of `SolveSudokuDLX` with fuel `solveFuel` or more returns, and
whenever a call returns true, every cell of the result grid holds a value in 1..9 and each
of the 9 rows, 9 columns and 9 boxes holds each digit 1..9 exactly once. -/
theorem SolveSudokuDLX_sound (fuel : Nat) (input result : Grid) :
    (solveFuel ≤ fuel → ∃ b res, SolveSudokuDLX fuel input result = some (b, res)) ∧
    ∀ res, SolveSudokuDLX fuel input result = some (true, res) → ValidGrid res :=
  ⟨fun hf => solve_total hf input result, fun _ h => (solve_sound h).1⟩

theorem SolveSudokuDLX_sound_witness :
    ∃ res, SolveSudokuDLX solveFuel emptyGrid emptyGrid = some (true, res) ∧ ValidGrid res :=
  (solve_empty (le_refl solveFuel) emptyGrid).elim fun res h =>
    ⟨res, h.1, (SolveSudokuDLX_sound solveFuel emptyGrid emptyGrid).2 res h.1⟩

/-- C2, givens are preserved. A call of `SolveSudokuDLX` with fuel `solveFuel` or more
returns, and whenever a call returns true, every cell `(r, c)` with `input[r][c] != 0` has
`result[r][c] == input[r][c]`. -/
theorem SolveSudokuDLX_keeps_givens (fuel : Nat) (input result : Grid) :
    (solveFuel ≤ fuel → ∃ b res, SolveSudokuDLX fuel input result = some (b, res)) ∧
    ∀ res, SolveSudokuDLX fuel input result = some (true, res) →
      ∀ r c, r < 9 → c < 9 → input r c ≠ 0 → res r c = input r c :=
  ⟨fun hf => solve_total hf input result, fun _ h => (solve_sound h).2⟩

theorem SolveSudokuDLX_keeps_givens_witness :
    ∃ res, SolveSudokuDLX solveFuel (clueGrid 0 0 ((5 : Nat) : Int)) emptyGrid = some (true, res) ∧
      res 0 0 = clueGrid 0 0 ((5 : Nat) : Int) 0 0 :=
  (solve_clue (le_refl solveFuel) emptyGrid (r := 0) (c := 0) (v := 5)
      (by decide) (by decide) (by decide) (by decide)).elim fun res h =>
    ⟨res, h.1, (SolveSudokuDLX_keeps_givens solveFuel _ emptyGrid).2 res h.1 0 0
      (by decide) (by decide) (by decide)⟩

/-- C3, completeness. If some complete rule-valid grid `g` agrees with the input on every
non-zero cell, then `SolveSudokuDLX`, given fuel `solveFuel` or more, returns true, and so
does not return false. The entries of the input need not be assumed to lie in 0..9. -/
theorem SolveSudokuDLX_complete (fuel : Nat) (input result g : Grid) (hv : ValidGrid g)
    (ha : Agrees input g) (hf : solveFuel ≤ fuel) :
    (∃ res, SolveSudokuDLX fuel input result = some (true, res)) ∧
    ∀ res, SolveSudokuDLX fuel input result ≠ some (false, res) :=
  ⟨solve_complete hf result hv ha, fun _ h => (solve_false h).2 ⟨g, hv, ha⟩⟩

theorem SolveSudokuDLX_complete_witness :
    (∃ res, SolveSudokuDLX solveFuel (clueGrid 0 0 5) emptyGrid = some (true, res)) ∧
    ∀ res, SolveSudokuDLX solveFuel (clueGrid 0 0 5) emptyGrid ≠ some (false, res) :=
  SolveSudokuDLX_complete solveFuel (clueGrid 0 0 5) emptyGrid (shiftGrid 4)
    (shiftGrid_valid (by decide)) (agrees_clueGrid (by decide)) (le_refl solveFuel)

/-- C4, unsatisfiability detection. On an input in which two distinct cells of one row, one
column or one 3x3 box hold the same non-zero value, `SolveSudokuDLX`, given fuel
`solveFuel` or more, returns false (and leaves `result` as it was). -/
theorem SolveSudokuDLX_rejects_duplicates (fuel : Nat) (input result : Grid)
    (h : HasDuplicate input) (hf : solveFuel ≤ fuel) :
    SolveSudokuDLX fuel input result = some (false, result) :=
  solve_unsat hf result h.no_completion

theorem SolveSudokuDLX_rejects_duplicates_witness :
    SolveSudokuDLX solveFuel dupGrid emptyGrid = some (false, emptyGrid) :=
  SolveSudokuDLX_rejects_duplicates solveFuel dupGrid emptyGrid dupGrid_hasDuplicate
    (le_refl solveFuel)

/-- C5, idempotence on solved grids. On a complete rule-valid grid `g`, `SolveSudokuDLX`,
given fuel `solveFuel` or more, returns true and the result equals `g` cell for cell. -/
theorem SolveSudokuDLX_solved_grid (fuel : Nat) (g result : Grid) (hv : ValidGrid g)
    (hf : solveFuel ≤ fuel) :
    ∃ res, SolveSudokuDLX fuel g result = some (true, res) ∧
      ∀ r c, r < 9 → c < 9 → res r c = g r c :=
  solve_solved hf result hv

theorem SolveSudokuDLX_solved_grid_witness :
    ∃ res, SolveSudokuDLX solveFuel (shiftGrid 0) emptyGrid = some (true, res) ∧
      ∀ r c, r < 9 → c < 9 → res r c = shiftGrid 0 r c :=
  SolveSudokuDLX_solved_grid solveFuel (shiftGrid 0) emptyGrid (shiftGrid_valid (by decide))
    (le_refl solveFuel)

/-- C6, the empty grid. On the all-zero grid, `SolveSudokuDLX`, given fuel `solveFuel` or
more, returns true and the result is a valid completed Sudoku. -/
theorem SolveSudokuDLX_empty_grid (fuel : Nat) (result : Grid) (hf : solveFuel ≤ fuel) :
    ∃ res, SolveSudokuDLX fuel emptyGrid result = some (true, res) ∧ ValidGrid res :=
  solve_empty hf result

theorem SolveSudokuDLX_empty_grid_witness :
    ∃ res, SolveSudokuDLX (solveFuel + 1) emptyGrid (shiftGrid 0) = some (true, res) ∧
      ValidGrid res :=
  SolveSudokuDLX_empty_grid (solveFuel + 1) (shiftGrid 0) (by decide)

/-- C7, single-clue grids. For every cell `(r, c)` and digit `v` in 1..9, on the grid whose
only non-zero cell is `grid[r][c] = v`, `SolveSudokuDLX`, given fuel `solveFuel` or more,
returns true with a rule-valid, fully filled result that has `result[r][c] == v`. -/
theorem SolveSudokuDLX_single_clue (fuel : Nat) (result : Grid) (r c v : Nat) (hr : r < 9)
    (hc : c < 9) (h1 : 1 ≤ v) (h9 : v ≤ 9) (hf : solveFuel ≤ fuel) :
    ∃ res, SolveSudokuDLX fuel (clueGrid r c (v : Int)) result = some (true, res) ∧
      ValidGrid res ∧ res r c = (v : Int) :=
  solve_clue hf result hr hc h1 h9

theorem SolveSudokuDLX_single_clue_witness :
    ∃ res, SolveSudokuDLX solveFuel (clueGrid 0 0 ((5 : Nat) : Int)) emptyGrid = some (true, res) ∧
      ValidGrid res ∧ res 0 0 = ((5 : Nat) : Int) :=
  SolveSudokuDLX_single_clue solveFuel emptyGrid 0 0 5 (by decide) (by decide) (by decide)
    (by decide) (le_refl solveFuel)

/-- C8, cover and uncover are inverse. On the matrix built by `init(n)` followed by any
`addRow` calls whose columns are below `n` and distinct within each row, for every column
`c < n`, `cover` of the header of `c` returns a state on which `uncover` of the same header
returns the state before the `cover`: all links `L`, `R`, `U`, `D`, all `colSize` counts
and everything else are as they were. Fuel from the allocation counter on suffices. -/
theorem cover_uncover_inverse (n : Nat) (rs : List (Int × List Nat))
    (hrs : ∀ r, r ∈ rs → r.2.Nodup ∧ ∀ c, c ∈ r.2 → c < n) (c : Nat) (hc : c < n)
    (fuel : Nat) (hf : (buildMatrix n rs).next ≤ fuel) :
    ∃ s', cover fuel (buildMatrix n rs) ((buildMatrix n rs).colHead.get c) = some s' ∧
      uncover fuel s' ((buildMatrix n rs).colHead.get c) = some (buildMatrix n rs) :=
  cover_uncover_built n rs hrs c hc fuel hf

theorem cover_uncover_inverse_witness :
    ∃ s', cover (buildMatrix 3 [(0, [0, 2]), (1, [1]), (2, [2, 1, 0])]).next
        (buildMatrix 3 [(0, [0, 2]), (1, [1]), (2, [2, 1, 0])])
        ((buildMatrix 3 [(0, [0, 2]), (1, [1]), (2, [2, 1, 0])]).colHead.get 2) = some s' ∧
      uncover (buildMatrix 3 [(0, [0, 2]), (1, [1]), (2, [2, 1, 0])]).next s'
        ((buildMatrix 3 [(0, [0, 2]), (1, [1]), (2, [2, 1, 0])]).colHead.get 2) =
        some (buildMatrix 3 [(0, [0, 2]), (1, [1]), (2, [2, 1, 0])]) :=
  cover_uncover_inverse 3 [(0, [0, 2]), (1, [1]), (2, [2, 1, 0])] (by decide) 2 (by decide) _
    (le_refl _)

/-- C9, search returns an exact cover. On the matrix that `SolveSudokuDLX` builds from any
input grid, `search` returns when given fuel `solveFuel` or more, and whenever it returns
true, `outRows` lists ids of rows that were added, the columns of these rows are the 324
columns, each once, and so `outRows` holds 81 pairwise column-disjoint rows, one for every
cell. -/
theorem search_exact_cover (fuel : Nat) (input : Grid) :
    (solveFuel ≤ fuel → ∃ res, (encode input).dlx.search fuel = some res) ∧
    ∀ d, (encode input).dlx.search fuel = some (true, d) →
      OutRowsCover (encode input) d.outRows :=
  ⟨fun hf => search_encode_returns input hf, fun _ h => search_outRows h⟩

theorem search_exact_cover_witness :
    ∃ d, (encode (shiftGrid 0)).dlx.search solveFuel = some (true, d) ∧
      OutRowsCover (encode (shiftGrid 0)) d.outRows :=
  (search_solved (shiftGrid_valid (by decide : 0 < 9))).elim fun d h =>
    ⟨d, h, (search_exact_cover solveFuel (shiftGrid 0)).2 d h⟩

/-- C10, determinism. `SolveSudokuDLX` is a function of the 81 cells of its input: two
calls on inputs with equal cells, with any fuel from `solveFuel` on and whatever `result`
held before, both return, with the same flag and, when it is true, with the same 81 result
cells; with equal `result` before, the contents of `result` after are equal as a whole. -/
theorem SolveSudokuDLX_deterministic (fuel1 fuel2 : Nat) (input1 input2 result1 result2 : Grid)
    (h : ∀ r c, r < 9 → c < 9 → input1 r c = input2 r c)
    (hf1 : solveFuel ≤ fuel1) (hf2 : solveFuel ≤ fuel2) :
    ∃ b g1 g2, SolveSudokuDLX fuel1 input1 result1 = some (b, g1) ∧
      SolveSudokuDLX fuel2 input2 result2 = some (b, g2) ∧
      (b = true → ∀ r c, r < 9 → c < 9 → g1 r c = g2 r c) ∧
      (result1 = result2 → g1 = g2) :=
  solve_deterministic h hf1 hf2 result1 result2

theorem SolveSudokuDLX_deterministic_witness :
    ∃ b g1 g2, SolveSudokuDLX solveFuel (clueGrid 0 0 5) emptyGrid = some (b, g1) ∧
      SolveSudokuDLX (solveFuel + 7) (clueGrid 0 0 5) dupGrid = some (b, g2) ∧
      (b = true → ∀ r c, r < 9 → c < 9 → g1 r c = g2 r c) ∧
      (emptyGrid = dupGrid → g1 = g2) :=
  SolveSudokuDLX_deterministic solveFuel (solveFuel + 7) (clueGrid 0 0 5) (clueGrid 0 0 5)
    emptyGrid dupGrid (fun _ _ _ _ => rfl) (le_refl solveFuel) (by decide)

theorem rowTag_mem {input : Grid} {id : Int}
    (hid : 0 ≤ id ∧ id < (encode input).rowID) :
    rowTag (encode input) id ∈ allTags input := by
  obtain ⟨henc, hm⟩ := encode_spec input
  have hlen := henc.rowID
  unfold rowTag
  have hlt : id.toNat < (encode input).mapRows.length := by omega
  rw [List.getD_eq_getElem _ _ hlt, ← hm]
  exact List.getElem_mem _

theorem rowTag_ok {input : Grid} {id : Int} (hid : 0 ≤ id ∧ id < (encode input).rowID) :
    (rowTag (encode input) id).r < 9 ∧ (rowTag (encode input) id).c < 9 ∧
      1 ≤ (rowTag (encode input) id).v ∧ (rowTag (encode input) id).v ≤ 9 := by
  have := (mem_allTags input _).1 (rowTag_mem hid)
  exact ⟨this.1, this.2.1, this.2.2.1, this.2.2.2.1⟩

theorem gridOfRows_eq (e : Enc) (ids : List Int) :
    gridOfRows e ids = decodeTags (ids.map (rowTag e)) (fun _ _ => 0) :=
  foldl_decodeStep _ _ _

/-- Rows that cover every column exactly once have tags that form an exact cover. -/
theorem ExactCover.tags_cover {input : Grid} {ids : List Int} (hnd : ids.Nodup)
    (hid : ∀ id, id ∈ ids → 0 ≤ id ∧ id < (encode input).rowID)
    (h : ExactCover (encode input) ids) : CoverTags (ids.map (rowTag (encode input))) := by
  refine ⟨?_, ?_⟩
  · intro m hm
    obtain ⟨id, hi, rfl⟩ := List.mem_map.1 hm
    exact rowTag_ok (hid id hi)
  · rw [flatMap_map_eq]
    have hnd2 : (ids.flatMap (fun id => colsOf (rowTag (encode input) id))).Nodup := by
      rw [List.nodup_flatMap]
      refine ⟨?_, ?_⟩
      · intro id hi
        obtain ⟨h1, h2, h3, h4⟩ := rowTag_ok (hid id hi)
        exact (colsOf_ok _ h1 h2 h3 h4).1
      · refine List.Pairwise.imp_of_mem ?_ hnd
        intro a b ha hb hne
        show List.Disjoint (colsOf _) (colsOf _)
        intro x hxa hxb
        obtain ⟨h1, h2, h3, h4⟩ := rowTag_ok (hid a ha)
        have hx := (colsOf_ok _ h1 h2 h3 h4).2 x hxa
        obtain ⟨id0, _, huniq⟩ := h x hx
        exact hne ((huniq a ⟨ha, hxa⟩).trans (huniq b ⟨hb, hxb⟩).symm)
    refine (List.perm_ext_iff_of_nodup hnd2 (List.nodup_range 324)).2 ?_
    intro x
    rw [List.mem_range, List.mem_flatMap]
    constructor
    · rintro ⟨id, hi, hx⟩
      obtain ⟨h1, h2, h3, h4⟩ := rowTag_ok (hid id hi)
      exact (colsOf_ok _ h1 h2 h3 h4).2 x hx
    · intro hx
      obtain ⟨id, ⟨hi, hxi⟩, _⟩ := h x hx
      exact ⟨id, hi, hxi⟩

/-- With one tag for each cell, the decoded grid holds at the cell of each tag its
digit. -/
theorem OneDigitPerCell.grid_at {input : Grid} {ids : List Int}
    (hid : ∀ id, id ∈ ids → 0 ≤ id ∧ id < (encode input).rowID)
    (h : OneDigitPerCell (encode input) ids) {id : Int} (hi : id ∈ ids) :
    gridOfRows (encode input) ids (rowTag (encode input) id).r (rowTag (encode input) id).c =
      ((rowTag (encode input) id).v : Int) := by
  rw [gridOfRows_eq, decodeTags_get _ _ _ ((rowTag (encode input) id).v : Int),
    if_pos ⟨_, List.mem_map_of_mem _ hi, rfl, rfl⟩]
  intro m hm hr hc
  obtain ⟨id', hi', rfl⟩ := List.mem_map.1 hm
  obtain ⟨h1, h2, _, _⟩ := rowTag_ok (hid id hi)
  obtain ⟨id0, _, huniq⟩ := h _ _ h1 h2
  rw [(huniq id' ⟨hi', hr, hc⟩).trans (huniq id ⟨hi, rfl, rfl⟩).symm]

theorem OneDigitPerCell.tag_mem_gridTags {input : Grid} {ids : List Int}
    (hid : ∀ id, id ∈ ids → 0 ≤ id ∧ id < (encode input).rowID)
    (h : OneDigitPerCell (encode input) ids) {id : Int} (hi : id ∈ ids) :
    rowTag (encode input) id ∈ gridTags (gridOfRows (encode input) ids) := by
  obtain ⟨h1, h2, _, _⟩ := rowTag_ok (hid id hi)
  have hg := h.grid_at hid hi
  unfold gridTags
  refine List.mem_map.2 ⟨(rowTag (encode input) id).r * 9 + (rowTag (encode input) id).c,
    List.mem_range.2 (by omega), ?_⟩
  have e1 : ((rowTag (encode input) id).r * 9 + (rowTag (encode input) id).c) / 9 =
      (rowTag (encode input) id).r := by omega
  have e2 : ((rowTag (encode input) id).r * 9 + (rowTag (encode input) id).c) % 9 =
      (rowTag (encode input) id).c := by omega
  rw [e1, e2, hg, Int.toNat_ofNat]

/-- The encoding correspondence: a set of emitted rows covers every column exactly once if
and only if its tags give every cell one digit and the grid so defined is rule-valid and
keeps the givens. -/
theorem encoding_correspondence (input : Grid) (ids : List Int) (hnd : ids.Nodup)
    (hid : ∀ id, id ∈ ids → 0 ≤ id ∧ id < (encode input).rowID) :
    ExactCover (encode input) ids ↔
      OneDigitPerCell (encode input) ids ∧ ValidGrid (gridOfRows (encode input) ids) ∧
        Agrees input (gridOfRows (encode input) ids) := by
  constructor
  · intro h
    have hc := h.tags_cover hnd hid
    have hcell : OneDigitPerCell (encode input) ids := by
      intro r c hr hc'
      obtain ⟨m, hm, e1, e2⟩ := hc.cell hr hc'
      obtain ⟨id, hi, rfl⟩ := List.mem_map.1 hm
      refine ⟨id, ⟨hi, e1, e2⟩, ?_⟩
      rintro id' ⟨hi', e1', e2'⟩
      obtain ⟨id0, _, huniq⟩ := h (r * 9 + c) (by omega)
      have k1 : r * 9 + c ∈ rowCols (encode input) id :=
        (mem_colsOf (rowTag (encode input) id) _).2 (Or.inl (by rw [e1, e2]))
      have k2 : r * 9 + c ∈ rowCols (encode input) id' :=
        (mem_colsOf (rowTag (encode input) id') _).2 (Or.inl (by rw [e1', e2']))
      exact (huniq id' ⟨hi', k2⟩).trans (huniq id ⟨hi, k1⟩).symm
    refine ⟨hcell, ?_, ?_⟩
    · rw [gridOfRows_eq]
      exact hc.valid _
    · intro r c hr hc' hne
      obtain ⟨id, ⟨hi, e1, e2⟩, _⟩ := hcell r c hr hc'
      have hg := hcell.grid_at hid hi
      rw [e1, e2] at hg
      rw [hg]
      have hal := ((mem_allTags input _).1 (rowTag_mem (hid id hi))).2.2.2.2
      unfold Allowed at hal
      rw [e1, e2] at hal
      rcases hal with h0 | hv
      · exact absurd h0 hne
      · exact hv.symm
  · rintro ⟨hcell, hv, _⟩
    have hct := hv.coverTags
    intro k hk
    obtain ⟨m0, hm0, hk0⟩ := hct.ex hk
    obtain ⟨h1, h2, _, _⟩ := hct.ok m0 hm0
    obtain ⟨id0, ⟨hi0, e1, e2⟩, huniq⟩ := hcell _ _ h1 h2
    have hm : rowTag (encode input) id0 = m0 := by
      refine hct.cell_inj (hcell.tag_mem_gridTags hid hi0) hm0 e1 e2
    refine ⟨id0, ⟨hi0, by show k ∈ colsOf (rowTag (encode input) id0); rw [hm]; exact hk0⟩, ?_⟩
    rintro id' ⟨hi', hk'⟩
    have hm' : rowTag (encode input) id' = m0 :=
      hct.inj (hcell.tag_mem_gridTags hid hi') hm0 hk' hk0
    exact huniq id' ⟨hi', by rw [hm'], by rw [hm']⟩

/-- A grid with a cell outside 0..9 has no tag for that cell. -/
theorem no_tag_of_out_of_range {input : Grid} {r c : Nat}
    (h : input r c < 0 ∨ 9 < input r c) {m : MapRow} (hm : m ∈ allTags input) :
    ¬ (m.r = r ∧ m.c = c) := by
  rintro ⟨rfl, rfl⟩
  obtain ⟨_, _, h1, h9, hal⟩ := (mem_allTags input m).1 hm
  unfold Allowed at hal
  omega

/-- A grid with a cell outside 0..9 has no valid completion. -/
theorem no_completion_of_out_of_range {input : Grid} {r c : Nat} (hr : r < 9) (hc : c < 9)
    (h : input r c < 0 ∨ 9 < input r c) : ¬ ∃ g, ValidGrid g ∧ Agrees input g := by
  rintro ⟨g, hv, ha⟩
  have h1 := hv.1 r c hr hc
  have h2 := ha r c hr hc (by omega)
  omega

/-- In the encoded matrix, the nodes of a column are those of the rows whose tag has the
column. -/
theorem Encoded.colSize_zero {input : Grid} {rows : Layout} (h : Encoded input rows)
    {d : Nat} (hd : d < 324) (hno : ∀ m, m ∈ allTags input → d ∉ colsOf m) :
    (encode input).dlx.colSize.get d = 0 := by
  have hsz := h.built.rep.vinv.size d (by rw [h.nCols]; exact hd)
  rw [hsz]
  have hv : (builtAbs rows (encode input).dlx).vring d = [] := by
    show rows.flatten.filter _ = []
    rw [List.filter_eq_nil_iff]
    intro j hj
    rw [decide_eq_true_eq]
    intro hjd
    obtain ⟨p, hp, hjp⟩ := List.mem_flatten.1 hj
    obtain ⟨i, _, hmem, hcols, _⟩ := h.tags.tag_of_row hp
    refine hno _ hmem ?_
    rw [← hcols, ← hjd]
    exact List.mem_map_of_mem _ hjp
  rw [hv]
  rfl

theorem out_of_range_colSize {input : Grid} {r c : Nat} (hr : r < 9) (hc : c < 9)
    (h : input r c < 0 ∨ 9 < input r c) :
    (encode input).dlx.colSize.get (r * 9 + c) = 0 := by
  obtain ⟨rows, henc⟩ := encoded input
  refine henc.colSize_zero (by omega) ?_
  intro m hm hk
  obtain ⟨h1, h2, h3, h4, _⟩ := (mem_allTags input m).1 hm
  have hb : BoxIndex m.r m.c < 9 := by unfold BoxIndex; omega
  rw [mem_colsOf] at hk
  exact no_tag_of_out_of_range h hm ⟨by omega, by omega⟩

/-- What `SolveSudokuDLX` does with a grid that has a cell outside 0..9. -/
theorem solve_out_of_range {fuel : Nat} (hf : solveFuel ≤ fuel) {input : Grid} (result : Grid)
    {r c : Nat} (hr : r < 9) (hc : c < 9) (h : input r c < 0 ∨ 9 < input r c) :
    (∀ m, m ∈ (encode input).mapRows → ¬ (m.r = r ∧ m.c = c)) ∧
      (encode input).dlx.colSize.get (r * 9 + c) = 0 ∧
      SolveSudokuDLX fuel input result = some (false, result) := by
  refine ⟨?_, out_of_range_colSize hr hc h,
    solve_unsat hf result (no_completion_of_out_of_range hr hc h)⟩
  intro m hm
  rw [(encode_spec input).2] at hm
  exact no_tag_of_out_of_range h hm

/-- The fields `next`, `row` and `col` after the loop of `addRow`. -/
theorem addRow_fold_fields (rowID : Int) (cols : List Nat) (st : DLXSolver × Nat × Nat) :
    (cols.foldl (DLXSolver.addRowStep rowID) st).1.next = st.1.next + cols.length ∧
    (∀ x, (cols.foldl (DLXSolver.addRowStep rowID) st).1.row.get x =
      if st.1.next ≤ x ∧ x < st.1.next + cols.length then rowID else st.1.row.get x) ∧
    (∀ x, (cols.foldl (DLXSolver.addRowStep rowID) st).1.col.get x =
      if st.1.next ≤ x ∧ x < st.1.next + cols.length then ((cols.getD (x - st.1.next) 0 : Nat) : Int)
      else st.1.col.get x) := by
  induction cols generalizing st with
  | nil =>
    refine ⟨rfl, fun x => ?_, fun x => ?_⟩
    · rw [if_neg (by simp only [List.length_nil]; omega)]; rfl
    · rw [if_neg (by simp only [List.length_nil]; omega)]; rfl
  | cons c cs ih =>
    obtain ⟨s, first, prev⟩ := st
    obtain ⟨h1, h2, h3⟩ := ih (DLXSolver.addRowStep rowID (s, first, prev) c)
    rw [addRowStep_next] at h1 h2 h3
    simp only [List.foldl_cons, List.length_cons]
    refine ⟨by rw [h1]; omega, fun x => ?_, fun x => ?_⟩
    · rw [h2 x, addRowStep_rowget]
      by_cases hx : x = s.next
      · subst hx
        simp
      · rw [if_neg hx]
        by_cases hx2 : s.next + 1 ≤ x ∧ x < s.next + 1 + cs.length
        · rw [if_pos hx2, if_pos (by omega)]
        · rw [if_neg hx2, if_neg (by omega)]
    · rw [h3 x, addRowStep_col, Function.update_apply]
      by_cases hx : x = s.next
      · subst hx
        simp
      · rw [if_neg hx]
        by_cases hx2 : s.next + 1 ≤ x ∧ x < s.next + 1 + cs.length
        · rw [if_pos hx2, if_pos (by omega)]
          have e : x - s.next = (x - (s.next + 1)) + 1 := by omega
          rw [e, List.getD_cons_succ]
        · rw [if_neg hx2, if_neg (by omega)]

theorem addRow_fields (s : DLXSolver) (rowID : Int) (cols : List Nat) :
    (s.addRow rowID cols).next = s.next + cols.length ∧
    (∀ x, (s.addRow rowID cols).row.get x =
      if s.next ≤ x ∧ x < s.next + cols.length then rowID else s.row.get x) ∧
    (∀ x, (s.addRow rowID cols).col.get x =
      if s.next ≤ x ∧ x < s.next + cols.length then ((cols.getD (x - s.next) 0 : Nat) : Int)
      else s.col.get x) :=
  addRow_fold_fields rowID cols (s, null, null)

theorem foldl_inv {α β : Type} (P : β → Prop) (f : β → α → β) (l : List α) (b : β)
    (h0 : P b) (hstep : ∀ b a, P b → P (f b a)) : P (l.foldl f b) := by
  induction l generalizing b with
  | nil => exact h0
  | cons x xs ih => exact ih _ (hstep b x h0)

/-- An invariant of the body of the innermost encoding loop holds of the encoder's result. -/
theorem encode_induction (input : Grid) (P : Enc → Prop)
    (h0 : P ⟨DLXSolver.new.init 324, [], 0⟩)
    (hstep : ∀ e r c v, P e → P (encodeDigit input r c e v)) : P (encode input) := by
  unfold encode
  refine foldl_inv P _ _ _ h0 ?_
  intro e r he
  unfold encodeRow
  refine foldl_inv P _ _ _ he ?_
  intro e c he
  unfold encodeCell
  exact foldl_inv P _ _ _ he (fun e v he => hstep e r c v he)

theorem init_next (n : Nat) : (DLXSolver.new.init n).next = 2 + n := by
  have h := (initReset_new_inv n).fold n
  rw [← init_eq] at h
  exact h.next

theorem EncAddr.encodeDigit_addr {input : Grid} {e : Enc} (h : EncAddr e) (r c v : Nat) :
    EncAddr (encodeDigit input r c e v) := by
  unfold encodeDigit
  split
  · exact h
  · obtain ⟨k1, k2, k3⟩ := addRow_fields e.dlx e.rowID
      [r * 9 + c, 81 + r * 9 + (v - 1), 162 + c * 9 + (v - 1), 243 + BoxIndex r c * 9 + (v - 1)]
    have hn := h.next
    refine ⟨?_, ?_, ?_⟩
    · simp only [List.length_append, List.length_singleton, h.rowID]
      push_cast
      rfl
    · simp only [List.length_append, List.length_singleton]
      rw [k1, hn]
      simp only [List.length_cons, List.length_nil]
      omega
    · intro id hid
      simp only [List.length_append, List.length_singleton] at hid
      simp only [List.length_cons, List.length_nil] at k2 k3
      by_cases hlt : id < e.mapRows.length
      · obtain ⟨q1, q2, q3, q4, q5⟩ := h.shape id hlt
        unfold RowShape
        simp only [List.getD_append _ _ _ _ hlt]
        refine ⟨?_, ?_, ?_, ?_, ?_⟩
        · intro t ht
          rw [k2, if_neg (by omega)]
          exact q1 t ht
        · rw [k3, if_neg (by omega)]; exact q2
        · rw [k3, if_neg (by omega)]; exact q3
        · rw [k3, if_neg (by omega)]; exact q4
        · rw [k3, if_neg (by omega)]; exact q5
      · have hid' : id = e.mapRows.length := by omega
        subst hid'
        unfold RowShape
        have hg : (e.mapRows ++ [(⟨r, c, v⟩ : MapRow)]).getD e.mapRows.length default =
            ⟨r, c, v⟩ := by
          rw [List.getD_append_right _ _ _ _ (le_refl _), Nat.sub_self]
          rfl
        simp only [hg]
        have ha : 326 + 4 * e.mapRows.length = e.dlx.next := hn.symm
        refine ⟨?_, ?_, ?_, ?_, ?_⟩
        · intro t ht
          rw [k2, if_pos (by omega), h.rowID]
        · rw [k3, if_pos (by omega), ha, Nat.sub_self]; rfl
        · rw [k3, if_pos (by omega), ha, Nat.add_sub_cancel_left]; rfl
        · rw [k3, if_pos (by omega), ha, Nat.add_sub_cancel_left]; rfl
        · rw [k3, if_pos (by omega), ha, Nat.add_sub_cancel_left]; rfl

theorem encode_addr (input : Grid) : EncAddr (encode input) := by
  refine encode_induction input EncAddr ?_ (fun e r c v he => he.encodeDigit_addr r c v)
  refine ⟨rfl, ?_, ?_⟩
  · rw [init_next]; rfl
  · intro id hid
    simp at hid

theorem tagKey_lt_of_cell {a b : MapRow} (hav : a.v ≤ 9)
    (h : a.r * 9 + a.c < b.r * 9 + b.c) : tagKey a < tagKey b := by
  unfold tagKey
  omega

/-- The tags are emitted cell by cell, and within a cell digit by digit. -/
theorem allTags_sorted (input : Grid) :
    (allTags input).Pairwise (fun a b => tagKey a < tagKey b) := by
  have hcell : ∀ r c m, m ∈ cellTags input r c → m.r = r ∧ m.c = c ∧ 1 ≤ m.v ∧ m.v ≤ 9 := by
    intro r c m hm
    unfold cellTags at hm
    obtain ⟨v, hv, rfl⟩ := List.mem_map.1 hm
    have := (List.mem_filter.1 hv).1
    rw [List.mem_range'_1] at this
    exact ⟨rfl, rfl, this.1, by show v ≤ 9; omega⟩
  unfold allTags
  rw [List.pairwise_flatMap]
  refine ⟨?_, ?_⟩
  · intro r hr
    rw [List.pairwise_flatMap]
    refine ⟨?_, ?_⟩
    · intro c _
      unfold cellTags
      rw [List.pairwise_map]
      refine List.Pairwise.filter _ ?_
      refine (List.pairwise_lt_range' 1 9).imp_of_mem ?_
      intro v w hv _ hvw
      rw [List.mem_range'_1] at hv
      unfold tagKey
      show (r * 9 + c) * 9 + (v - 1) < (r * 9 + c) * 9 + (w - 1)
      omega
    · refine (List.pairwise_lt_range 9).imp_of_mem ?_
      intro c c' hc hc' hlt x hx y hy
      obtain ⟨e1, e2, _, e4⟩ := hcell r c x hx
      obtain ⟨e1', e2', _, _⟩ := hcell r c' y hy
      refine tagKey_lt_of_cell e4 (by omega)
  · refine (List.pairwise_lt_range 9).imp_of_mem ?_
    intro r r' hr hr' hlt x hx y hy
    obtain ⟨c, hc, hxc⟩ := List.mem_flatMap.1 hx
    obtain ⟨c', hc', hyc⟩ := List.mem_flatMap.1 hy
    obtain ⟨e1, e2, _, e4⟩ := hcell r c x hxc
    obtain ⟨e1', e2', _, _⟩ := hcell r' c' y hyc
    have := List.mem_range.1 hc
    have := List.mem_range.1 hc'
    refine tagKey_lt_of_cell e4 (by omega)

/-- The rows that the encoder emits, their order, ids and nodes. -/
theorem encode_rows (input : Grid) :
    (∀ m, m ∈ (encode input).mapRows ↔
      m.r < 9 ∧ m.c < 9 ∧ 1 ≤ m.v ∧ m.v ≤ 9 ∧ (input m.r m.c = 0 ∨ input m.r m.c = (m.v : Int))) ∧
    (encode input).mapRows.Pairwise (fun a b => tagKey a < tagKey b) ∧
    (encode input).rowID = ((encode input).mapRows.length : Int) ∧
    (encode input).dlx.next = 326 + 4 * (encode input).mapRows.length ∧
    ∀ id, id < (encode input).mapRows.length →
      RowShape (encode input) id ∧
      (encode input).mapRows.getD id default ∈ (encode input).mapRows := by
  have ha := encode_addr input
  have hm := (encode_spec input).2
  refine ⟨?_, ?_, ha.rowID, ha.next, ?_⟩
  · intro m
    rw [hm]
    exact mem_allTags input m
  · rw [hm]
    exact allTags_sorted input
  · intro id hid
    refine ⟨ha.shape id hid, ?_⟩
    rw [List.getD_eq_getElem _ _ hid]
    exact List.getElem_mem _

theorem walk_of_seg {nx pv : Nat → Nat} {a b : Nat} {l : List Nat} (h : Seg nx pv a l b)
    (hb : b ∉ l) {fuel : Nat} (hf : l.length < fuel) : walk nx b fuel (nx a) = some l := by
  induction l generalizing a fuel with
  | nil =>
    cases fuel with
    | zero => simp at hf
    | succ f => rw [h.1, walk, if_pos rfl]
  | cons x xs ih =>
    obtain ⟨h1, _, h3⟩ := h
    cases fuel with
    | zero => simp at hf
    | succ f =>
      have hxb : x ≠ b := fun e => hb (e ▸ List.mem_cons_self _ _)
      rw [h1, walk, if_neg hxb, ih h3 (fun e => hb (List.mem_cons_of_mem _ e))
        (by simpa using hf)]
      rfl

theorem walk_mono {nx : Nat → Nat} {stop : Nat} (f : Nat) : ∀ (f' p : Nat) (l : List Nat),
    f ≤ f' → walk nx stop f p = some l → walk nx stop f' p = some l := by
  induction f with
  | zero => intro f' p l _ h; simp [walk] at h
  | succ n ih =>
    intro f' p l hle h
    cases f' with
    | zero => omega
    | succ m =>
      rw [walk] at h ⊢
      by_cases hp : p = stop
      · rw [if_pos hp] at h ⊢; exact h
      · rw [if_neg hp] at h ⊢
        cases hw : walk nx stop n (nx p) with
        | none => rw [hw] at h; simp at h
        | some l' =>
          rw [hw] at h
          rw [ih m (nx p) l' (by omega) hw]
          exact h

/-- The header ring of a represented state lists the headers of the active columns. -/
theorem Rep.headerRing_eq {rows : Layout} {a : Abs} {s : DLXSolver} (hs : Static rows s)
    (h : Rep rows a s) {fuel : Nat} (hf : a.active.length < fuel) :
    s.headerRing fuel = some (a.active.map s.colHead.get) :=
  walk_of_seg h.hring (List.nodup_cons.1 (h.hdr_list_nodup hs)).1
    (by rw [List.length_map]; exact hf)

/-- The vertical ring of a column of a represented state lists the linked nodes of the
column. -/
theorem Rep.colRing_eq {rows : Layout} {a : Abs} {s : DLXSolver} (hs : Static rows s)
    (h : Rep rows a s) {d : Nat} (hd : d < s.nCols) {fuel : Nat}
    (hf : (a.vring d).length < fuel) :
    s.colRing fuel (s.colHead.get d) = some (a.vring d) :=
  walk_of_seg (h.vinv.vr d hd)
    (fun hm => hs.hdr_not_node hd (h.vinv.vr_mem d _ hm).1) hf

/-- The column-choosing loop, started with the candidate `c` and the bound `best`, keeps
them if no column on the rest of the ring is smaller than `best`, and else returns the
first of the smallest columns. -/
theorem chooseCol_first (s : DLXSolver) : ∀ (F : Nat) (hs : List Nat) (fuel p c : Nat)
    (best : Int), walk s.R.get head F p = some hs → hs.length < fuel →
    ((∀ h, h ∈ hs → best ≤ s.sizeAt h) ∧ chooseCol s fuel p c best = some (c, best)) ∨
    ∃ pre c' post, hs = pre ++ c' :: post ∧ s.sizeAt c' < best ∧
      (∀ h, h ∈ pre → s.sizeAt c' < s.sizeAt h) ∧ (∀ h, h ∈ post → s.sizeAt c' ≤ s.sizeAt h) ∧
      chooseCol s fuel p c best = some (c', s.sizeAt c') := by
  intro F
  induction F with
  | zero => intro hs fuel p c best hw _; simp [walk] at hw
  | succ F ih =>
    intro hs fuel p c best hw hf
    rw [walk] at hw
    cases fuel with
    | zero => omega
    | succ f =>
      by_cases hp : p = head
      · rw [if_pos hp] at hw
        cases hw
        refine Or.inl ⟨fun _ hm => absurd hm (List.not_mem_nil _), ?_⟩
        rw [chooseCol, if_pos hp]
      · rw [if_neg hp] at hw
        cases hw' : walk s.R.get head F (s.R.get p) with
        | none => rw [hw'] at hw; simp at hw
        | some l =>
          rw [hw'] at hw
          simp only [Option.map_some', Option.some.injEq] at hw
          subst hw
          simp only [List.length_cons] at hf
          rw [chooseCol, if_neg hp]
          by_cases hlt : s.colSize.get (s.col.get p).toNat < best
          · rw [if_pos hlt]
            rcases ih l f (s.R.get p) p (s.colSize.get (s.col.get p).toNat) hw' (by omega) with
              ⟨h1, h2⟩ | ⟨pre, c', post, e, h1, h2, h3, h4⟩
            · exact Or.inr ⟨[], p, l, rfl, hlt, fun _ hm => absurd hm (List.not_mem_nil _),
                h1, h2⟩
            · refine Or.inr ⟨p :: pre, c', post, by rw [e]; rfl, lt_trans h1 hlt, ?_, h3, h4⟩
              intro h hm
              rcases List.mem_cons.1 hm with rfl | hm
              · exact h1
              · exact h2 h hm
          · rw [if_neg hlt]
            rcases ih l f (s.R.get p) c best hw' (by omega) with
              ⟨h1, h2⟩ | ⟨pre, c', post, e, h1, h2, h3, h4⟩
            · refine Or.inl ⟨?_, h2⟩
              intro h hm
              rcases List.mem_cons.1 hm with rfl | hm
              · exact not_lt.1 hlt
              · exact h1 h hm
            · refine Or.inr ⟨p :: pre, c', post, by rw [e]; rfl, h1, ?_, h3, h4⟩
              intro h hm
              rcases List.mem_cons.1 hm with rfl | hm
              · exact lt_of_lt_of_le h1 (not_lt.1 hlt)
              · exact h2 h hm

/-- The choice of `search`: with a non-empty header ring, `search` picks the first of the
columns of least live count; it returns false at once, with the state as it is, if that
count is 0, and else covers the column and runs the row loop on it. -/
theorem search_choice (s : DLXSolver) (F fuel : Nat) (hs : List Nat)
    (hw : s.headerRing F = some hs) (hne : hs ≠ []) (hnull : null ∉ hs)
    (hsz : ∀ h, h ∈ hs → s.sizeAt h < INT_MAX) (hf : hs.length < fuel) :
    ∃ pre c post, hs = pre ++ c :: post ∧
      (∀ h, h ∈ pre → s.sizeAt c < s.sizeAt h) ∧ (∀ h, h ∈ post → s.sizeAt c ≤ s.sizeAt h) ∧
      chooseCol s fuel (s.R.get head) null INT_MAX = some (c, s.sizeAt c) ∧
      (s.sizeAt c = 0 → search (fuel + 1) s = some (false, s)) ∧
      (s.sizeAt c ≠ 0 → search (fuel + 1) s =
        match cover fuel s c with
        | none => none
        | some s1 => searchRows c fuel (s1.D.get c) s1) := by
  have hR : s.R.get head ≠ head := by
    intro e
    unfold DLXSolver.headerRing at hw
    cases F with
    | zero => simp [walk] at hw
    | succ F =>
      rw [walk, if_pos e] at hw
      exact hne (Option.some.inj hw).symm
  rcases chooseCol_first s F hs fuel (s.R.get head) null INT_MAX hw hf with
    ⟨h1, _⟩ | ⟨pre, c, post, e, _, h2, h3, h4⟩
  · exfalso
    obtain ⟨x, hx⟩ := List.exists_mem_of_ne_nil hs hne
    have := h1 x hx
    have := hsz x hx
    omega
  · have hc : c ≠ null := by
      rintro rfl
      exact hnull (by rw [e]; simp)
    refine ⟨pre, c, post, e, h2, h3, h4, ?_, ?_⟩
    · intro h0
      rw [search_succ, if_neg hR, h4]
      simp only []
      rw [if_pos (Or.inr h0)]
    · intro h0
      rw [search_succ, if_neg hR, h4]
      simp only []
      rw [if_neg (by rintro (h | h); exact hc h; exact h0 h)]

/-- On a represented state, `cover` of an active column returns the state `coverState`
whenever it returns. -/
theorem Rep.cover_det {rows : Layout} {a : Abs} {s : DLXSolver} (hs : Static rows s)
    (h : Rep rows a s) {c : Nat} (hc : c ∈ a.active) {fuel : Nat} {t : DLXSolver}
    (e : cover fuel s (s.colHead.get c) = some t) : t = coverState rows a s c := by
  have h1 := cover_mono (le_max_left fuel (rows.flatten.length + 1)) e
  have h2 := h.cover_eq hs hc
    (lt_of_lt_of_le (Nat.lt_succ_self _) (le_max_right fuel (rows.flatten.length + 1)))
  rw [h1] at h2
  exact Option.some.inj h2

/-- On the state that `cover` of an active column has produced, `uncover` of the column
returns the state before the `cover` whenever it returns. -/
theorem Rep.uncover_det {rows : Layout} {a : Abs} {s : DLXSolver} (hs : Static rows s)
    (h : Rep rows a s) {c : Nat} (hc : c ∈ a.active) {fuel : Nat} {t : DLXSolver}
    (e : uncover fuel (coverState rows a s c) (s.colHead.get c) = some t) : t = s := by
  have h1 := uncover_mono (le_max_left fuel (rows.flatten.length + 1)) e
  have h2 := h.uncover_eq hs hc
    (lt_of_lt_of_le (Nat.lt_succ_self _) (le_max_right fuel (rows.flatten.length + 1)))
  rw [h1] at h2
  exact (Option.some.inj h2)

/-- `search` gives the state back as it was whenever it returns false. -/
theorem search_false_det {rows : Layout} {a : Abs} {s : DLXSolver}
    (hN : (rows.flatten.length : Int) < INT_MAX) (hs : Static rows s) (h : Rep rows a s)
    {fuel : Nat} {t : DLXSolver} (e : search fuel s = some (false, t)) : t = s :=
  ((search_sound hN hs h e).2 rfl).1

/-- The column that `search` picks is an active column. -/
theorem Rep.chooseCol_active {rows : Layout} {a : Abs} {s : DLXSolver} (hs : Static rows s)
    (h : Rep rows a s) {fuel c : Nat} {best : Int}
    (e : chooseCol s fuel (s.R.get head) null INT_MAX = some (c, best)) (hc : c ≠ null) :
    ∃ d, d ∈ a.active ∧ c = s.colHead.get d := by
  have h1 := chooseCol_mono s fuel (max fuel (a.active.length + 1)) _ _ _ _
    (le_max_left _ _) e
  have hw := @Rep.headerRing_eq rows a s hs h (a.active.length + 1) (Nat.lt_succ_self _)
  rcases chooseCol_first s _ _ (max fuel (a.active.length + 1)) (s.R.get head) null INT_MAX hw
    (by rw [List.length_map]; exact lt_of_lt_of_le (Nat.lt_succ_self _) (le_max_right _ _))
    with ⟨_, h2⟩ | ⟨pre, c', post, e', _, _, _, h2⟩
  · rw [h1] at h2
    exact absurd (congrArg Prod.fst (Option.some.inj h2)) hc
  · rw [h1] at h2
    have hcc : c = c' := congrArg Prod.fst (Option.some.inj h2)
    have hm : c' ∈ a.active.map s.colHead.get := by rw [e']; simp
    obtain ⟨d, hd, hdc⟩ := List.mem_map.1 hm
    exact ⟨d, hd, by rw [hcc, hdc]⟩

/-- The states in which the `cover` calls of the loop over a row return are represented
states. -/
theorem Rep.coverRowVisits_good {rows : Layout} {r : Nat} (js : List Nat) (a : Abs)
    (s : DLXSolver) (p fuel : Nat) (hs : Static rows s) (h : Rep rows a s)
    (hseg : Seg s.R.get s.L.get p js r) (hr : r ∉ js)
    (hnode : ∀ x, x ∈ js ++ [r] → x ∈ rows.flatten)
    (hnd : (js.map s.colN).Nodup) (hact : ∀ j, j ∈ js → s.colN j ∈ a.active)
    {t : DLXSolver} (hv : CoverRowVisits r fuel (s.R.get p) s t) :
    Static rows t ∧ (∃ a', Rep rows a' t) ∧ Frame s t := by
  induction js generalizing a s p fuel with
  | nil =>
    obtain ⟨h1, _⟩ := hseg
    cases fuel with
    | zero => exact absurd hv (by simp [CoverRowVisits])
    | succ f =>
      rw [h1, CoverRowVisits] at hv
      exact absurd rfl hv.1
  | cons j js ih =>
    obtain ⟨h1, _, h3⟩ := hseg
    cases fuel with
    | zero => exact absurd hv (by simp [CoverRowVisits])
    | succ f =>
      have hja := hact j (List.mem_cons_self _ _)
      rw [List.map_cons] at hnd
      have hjnd := List.nodup_cons.1 hnd
      rw [h1, CoverRowVisits] at hv
      obtain ⟨_, s', hcov, hv'⟩ := hv
      have es : s' = coverState rows a s (s.colN j) := h.cover_det hs hja hcov
      subst es
      obtain ⟨hs1, hrep1⟩ := h.cover_rep hs hja
      have hfr := coverState_frame rows a s (s.colN j)
      have hcn := hfr.colN
      rcases hv' with rfl | hv'
      · exact ⟨hs1, ⟨_, hrep1⟩, hfr⟩
      · have key := ih (coverAbs rows a (s.colN j)) (coverState rows a s (s.colN j)) j f hs1 hrep1
          (by
            refine seg_congr ?_ ?_ h3
            · intro x hx
              exact (h.coverState_nodeLR hs hja (hnode x (by simp at hx ⊢; tauto))).1
            · intro x hx
              exact (h.coverState_nodeLR hs hja (hnode x (by simp at hx ⊢; tauto))).2)
          (fun e => hr (List.mem_cons_of_mem _ e))
          (fun x hx => hnode x (by simp at hx ⊢; tauto))
          (by rw [hcn]; exact hjnd.2)
          (by
            intro j' hj'
            rw [hcn]
            show s.colN j' ∈ a.active.erase (s.colN j)
            refine (h.act_nodup.mem_erase_iff).2 ⟨?_, hact j' (List.mem_cons_of_mem _ hj')⟩
            intro e
            exact hjnd.1 (e ▸ List.mem_map_of_mem _ hj'))
          hv'
        exact ⟨key.1, key.2.1, hfr.trans key.2.2⟩

theorem mem_foldl_erase (x : Nat) (l A : List Nat) (hA : x ∈ A) (hn : x ∉ l) :
    x ∈ l.foldl List.erase A := by
  induction l generalizing A with
  | nil => exact hA
  | cons y ys ih =>
    rw [List.foldl_cons]
    refine ih _ ?_ (fun e => hn (List.mem_cons_of_mem _ e))
    have hne : x ≠ y := fun e => hn (by rw [e]; exact List.mem_cons_self _ _)
    exact (List.mem_erase_of_ne hne).2 hA

/-- The states in which the `uncover` calls of the loop over a row return are represented
states. -/
theorem Rep.uncoverRowVisits_good {rows : Layout} {r : Nat} (a : Abs) (s : DLXSolver)
    (hs : Static rows s) (h : Rep rows a s) (jsr : List Nat) (p fuel : Nat)
    (hseg : Seg s.L.get s.R.get p jsr r) (hr : r ∉ jsr)
    (hnode : ∀ x, x ∈ p :: jsr → x ∈ rows.flatten)
    (hnd : (jsr.map s.colN).Nodup) (hact : ∀ j, j ∈ jsr → s.colN j ∈ a.active)
    {t : DLXSolver}
    (hv : UncoverRowVisits r fuel (s.L.get p)
      (coverAll rows (jsr.reverse.map s.colN) (a, s)).2 t) :
    Static rows t ∧ (∃ a', Rep rows a' t) ∧ Frame s t := by
  induction jsr generalizing p fuel with
  | nil =>
    obtain ⟨h1, _⟩ := hseg
    cases fuel with
    | zero => exact absurd hv (by simp [UncoverRowVisits])
    | succ f =>
      rw [h1, UncoverRowVisits] at hv
      exact absurd rfl hv.1
  | cons j jsr ih =>
    obtain ⟨h1, _, h3⟩ := hseg
    cases fuel with
    | zero => exact absurd hv (by simp [UncoverRowVisits])
    | succ f =>
      rw [List.map_cons] at hnd
      have hjnd := List.nodup_cons.1 hnd
      have hnd' : (jsr.reverse.map s.colN).Nodup := by
        rw [List.map_reverse]; exact List.nodup_reverse.2 hjnd.2
      obtain ⟨k1, k2, k3, k4, k5⟩ := Rep.coverAll_inv (jsr.reverse.map s.colN) a s hs h hnd'
        (by
          intro d hd
          obtain ⟨j', hj', rfl⟩ := List.mem_map.1 hd
          exact hact j' (List.mem_cons_of_mem _ (List.mem_reverse.1 hj')))
      have hja : s.colN j ∈ (coverAll rows (jsr.reverse.map s.colN) (a, s)).1.active := by
        rw [k4]
        refine mem_foldl_erase _ _ _ (hact j (List.mem_cons_self _ _)) ?_
        rw [List.map_reverse, List.mem_reverse]
        exact hjnd.1
      have hcn := k3.colN
      rw [h1, List.reverse_cons, List.map_append, List.map_cons, List.map_nil, coverAll_snoc,
        UncoverRowVisits] at hv
      obtain ⟨_, s', hunc, hv'⟩ := hv
      have hcol : ((coverState rows (coverAll rows (jsr.reverse.map s.colN) (a, s)).1
          (coverAll rows (jsr.reverse.map s.colN) (a, s)).2 (s.colN j)).col.get j).toNat =
          s.colN j := by
        have := (coverState_frame rows (coverAll rows (jsr.reverse.map s.colN) (a, s)).1
          (coverAll rows (jsr.reverse.map s.colN) (a, s)).2 (s.colN j)).colN
        have e := congrFun this j
        rw [hcn] at e
        exact e
      have hch : (coverState rows (coverAll rows (jsr.reverse.map s.colN) (a, s)).1
          (coverAll rows (jsr.reverse.map s.colN) (a, s)).2 (s.colN j)).colHead =
          (coverAll rows (jsr.reverse.map s.colN) (a, s)).2.colHead :=
        (coverState_frame rows _ _ _).colHead
      have hunc' : uncover f (coverState rows (coverAll rows (jsr.reverse.map s.colN) (a, s)).1
          (coverAll rows (jsr.reverse.map s.colN) (a, s)).2 (s.colN j))
          ((coverState rows (coverAll rows (jsr.reverse.map s.colN) (a, s)).1
            (coverAll rows (jsr.reverse.map s.colN) (a, s)).2 (s.colN j)).colHead.get
            ((coverState rows (coverAll rows (jsr.reverse.map s.colN) (a, s)).1
              (coverAll rows (jsr.reverse.map s.colN) (a, s)).2 (s.colN j)).col.get j).toNat) =
          some s' := hunc
      rw [hcol, hch] at hunc'
      have es : s' = (coverAll rows (jsr.reverse.map s.colN) (a, s)).2 :=
        k2.uncover_det k1 hja hunc'
      subst es
      rcases hv' with rfl | hv'
      · exact ⟨k1, ⟨_, k2⟩, k3⟩
      · rw [(k5 j (hnode j (by simp))).2] at hv'
        exact ih j f h3 (fun e => hr (List.mem_cons_of_mem _ e))
          (fun x hx => hnode x (by simp at hx ⊢; tauto)) hjnd.2
          (fun j' hj' => hact j' (List.mem_cons_of_mem _ hj')) hv'

/-- One round of the row loop of `search`: what choosing the row of the node `r`, linked in
the covered column `c`, does to the state, and that the loops of the round are undone by
their counterparts. -/
theorem Rep.row_iter {rows : Layout} {a : Abs} {s : DLXSolver} (hs : Static rows s)
    (h : Rep rows a s) {c r : Nat} (hc : c ∈ a.active) (hrv : r ∈ a.vring c) :
    ∃ a3 s3 row, Static rows s3 ∧ Rep rows a3 s3 ∧
      Frame ((coverState rows a s c).pushSolution r) s3 ∧
      row ∈ rows ∧ r ∈ row ∧ (row.map s.colN ++ a3.active).Perm a.active ∧
      (∀ F t, coverRowCols r F (((coverState rows a s c).pushSolution r).R.get r)
        ((coverState rows a s c).pushSolution r) = some t → t = s3) ∧
      (∀ F t, uncoverRowCols r F (s3.L.get r) s3 = some t →
        t = (coverState rows a s c).pushSolution r) ∧
      (∀ F t, CoverRowVisits r F (((coverState rows a s c).pushSolution r).R.get r)
        ((coverState rows a s c).pushSolution r) t →
        Static rows t ∧ (∃ a', Rep rows a' t) ∧
          Frame ((coverState rows a s c).pushSolution r) t) ∧
      (∀ F t, UncoverRowVisits r F (s3.L.get r) s3 t →
        Static rows t ∧ (∃ a', Rep rows a' t) ∧
          Frame ((coverState rows a s c).pushSolution r) t) := by
  have hcl := h.act_lt c hc
  obtain ⟨hs1, h1⟩ := h.cover_rep hs hc
  have hfr := coverState_frame rows a s c
  have hcn : (coverState rows a s c).colN = s.colN := hfr.colN
  obtain ⟨hrn, hrc⟩ := h.vinv.vr_mem c r hrv
  have hs1' : Static rows ((coverState rows a s c).pushSolution r) :=
    hs1.congr_links rfl rfl rfl rfl rfl
  have h1' : Rep rows (coverAbs rows a c) ((coverState rows a s c).pushSolution r) :=
    h1.of_links_eq rfl rfl rfl rfl rfl rfl rfl rfl
  have hcn' : ((coverState rows a s c).pushSolution r).colN = s.colN := hcn
  obtain ⟨row, hrow, hrr, hmem, hsg, hnr, hnd, hne', hcnd⟩ := hs1'.row_facts hrn
  have hnodes : ∀ x, x ∈ rowRest rows r → x ∈ rows.flatten := fun x hx =>
    List.mem_flatten.2 ⟨row, hrow, (hmem x).2 (Or.inr hx)⟩
  have hact : ∀ j, j ∈ rowRest rows r →
      ((coverState rows a s c).pushSolution r).colN j ∈ (coverAbs rows a c).active := by
    intro j hj
    have hjc : j ∈ coverNodes rows a c := List.mem_flatMap.2 ⟨r, hrv, hj⟩
    obtain ⟨_, k2, k3, _⟩ := h.coverNodes_linked hs hc hjc
    rw [hcn']
    exact (h.act_nodup.mem_erase_iff).2 ⟨k3, k2⟩
  have hnode1 : ∀ x, x ∈ rowRest rows r ++ [r] → x ∈ rows.flatten := by
    intro x hx
    rcases List.mem_append.1 hx with hx | hx
    · exact hnodes x hx
    · rw [List.mem_singleton.1 hx]; exact hrn
  obtain ⟨k1, k2, k3, k4, k5⟩ := Rep.coverAll_inv
    ((rowRest rows r).map ((coverState rows a s c).pushSolution r).colN) (coverAbs rows a c) _
    hs1' h1' hcnd (by
      intro d hd
      obtain ⟨j, hj, rfl⟩ := List.mem_map.1 hd
      exact hact j hj)
  have hafter : (coverAll rows
      ((rowRest rows r).map ((coverState rows a s c).pushSolution r).colN)
      (coverAbs rows a c, (coverState rows a s c).pushSolution r)).1.active =
      afterRow rows s.colN a.active r := by
    rw [k4, hcn']
    unfold afterRow
    rw [List.map_cons, List.foldl_cons, hrc]
    rfl
  have hlive := (h.live row hrow r hrr (by rw [hrc]; exact hc)).1 (by rw [hrc]; exact hrv)
  have hperm := hs.row_perm hrow hrr
  refine ⟨_, _, row, k1, k2, k3, hrow, hrr, ?_, ?_, ?_, ?_, ?_⟩
  · rw [hafter]
    unfold afterRow
    have hl : ((r :: rowRest rows r).map s.colN).Nodup :=
      (hperm.map s.colN).nodup_iff.1 (hs.rcols row hrow)
    refine ((hperm.map s.colN).append_right _).trans
      (perm_append_foldl_erase _ _ ?_ hl)
    intro x hx
    obtain ⟨j, hj, rfl⟩ := List.mem_map.1 hx
    exact hlive j (hperm.mem_iff.2 hj)
  · intro F t e
    have e1 := coverRowCols_mono F
      (max F (rows.flatten.length + (rowRest rows r).length + 2)) _ _ _ (le_max_left _ _) e
    have e2 := Rep.coverRowCols_eq (rowRest rows r) (coverAbs rows a c) _ r
      (max F (rows.flatten.length + (rowRest rows r).length + 2)) hs1' h1' hsg hnr hnode1
      hcnd hact (lt_of_lt_of_le (Nat.lt_succ_self _) (le_max_right _ _))
    rw [e1] at e2
    exact Option.some.inj e2
  · intro F t e
    have hunc := Rep.uncoverRowCols_eq (coverAbs rows a c) _ hs1' h1'
      (rowRest rows r).reverse r
      (max F (rows.flatten.length + (rowRest rows r).length + 2)) (seg_reverse hsg)
      (fun hm => hnr (List.mem_reverse.1 hm))
      (by
        intro x hx
        rcases List.mem_cons.1 hx with rfl | hx
        · exact hrn
        · exact hnodes x (List.mem_reverse.1 hx))
      (by rw [List.map_reverse]; exact List.nodup_reverse.2 hcnd)
      (fun j hj => hact j (List.mem_reverse.1 hj))
      (by
        rw [List.length_reverse]
        exact lt_of_lt_of_le (Nat.lt_succ_self _) (le_max_right _ _))
    rw [List.reverse_reverse] at hunc
    rw [(k5 r hrn).2] at e
    have e1 := uncoverRowCols_mono F
      (max F (rows.flatten.length + (rowRest rows r).length + 2)) _ _ _ (le_max_left _ _) e
    rw [e1] at hunc
    exact Option.some.inj hunc
  · intro F t hv
    exact Rep.coverRowVisits_good (rowRest rows r) (coverAbs rows a c) _ r F hs1' h1' hsg hnr
      hnode1 hcnd hact hv
  · intro F t hv
    rw [(k5 r hrn).2] at hv
    have := Rep.uncoverRowVisits_good (coverAbs rows a c) _ hs1' h1'
      (rowRest rows r).reverse r F (seg_reverse hsg)
      (fun hm => hnr (List.mem_reverse.1 hm))
      (by
        intro x hx
        rcases List.mem_cons.1 hx with rfl | hx
        · exact hrn
        · exact hnodes x (List.mem_reverse.1 hx))
      (by rw [List.map_reverse]; exact List.nodup_reverse.2 hcnd)
      (fun j hj => hact j (List.mem_reverse.1 hj))
      (t := t) (by rw [List.reverse_reverse]; exact hv)
    exact this

theorem frame_eqs {s0 s t : DLXSolver} (hf : Frame s t)
    (h : s.nCols = s0.nCols ∧ s.colHead = s0.colHead ∧ s.row = s0.row ∧ s.col = s0.col) :
    t.nCols = s0.nCols ∧ t.colHead = s0.colHead ∧ t.row = s0.row ∧ t.col = s0.col :=
  ⟨hf.nCols.trans h.1, hf.colHead.trans h.2.1, hf.row.trans h.2.2.1, hf.col.trans h.2.2.2⟩

theorem frame_push (s : DLXSolver) (r : Nat) :
    (s.pushSolution r).nCols = s.nCols ∧ (s.pushSolution r).colHead = s.colHead ∧
      (s.pushSolution r).row = s.row ∧ (s.pushSolution r).col = s.col :=
  ⟨rfl, rfl, rfl, rfl⟩

/-- The invocations of `search()` made by the row loop of `search` keep the invariant, and
each finds one more row on the solution stack. -/
theorem rowsCalls_inv {rows : Layout} (hN : (rows.flatten.length : Int) < INT_MAX)
    {a : Abs} {s s0 : DLXSolver} (hs : Static rows s) (h : Rep rows a s) {c : Nat}
    (hc : c ∈ a.active)
    (hE : s.nCols = s0.nCols ∧ s.colHead = s0.colHead ∧ s.row = s0.row ∧ s.col = s0.col)
    {P : List (List Nat)} (hP : List.Forall₂ (fun r p => r ∈ p) s.solution P)
    (hPr : ∀ p, p ∈ P → p ∈ rows)
    (hperm : (P.flatMap (fun p => p.map s.colN) ++ a.active).Perm (List.range s.nCols)) :
    ∀ (rest : List Nat) (p fuel : Nat),
      Seg (coverState rows a s c).D.get (coverState rows a s c).U.get p rest (s.colHead.get c) →
      (∀ r, r ∈ rest → r ∈ a.vring c) → ∀ (f' : Nat) (s' : DLXSolver),
      RowsCalls (s.colHead.get c) fuel ((coverState rows a s c).D.get p)
        (coverState rows a s c) f' s' →
      CallInv rows s0 s' ∧ s'.solution.length = s.solution.length + 1 := by
  have hfr := coverState_frame rows a s c
  intro rest
  induction rest with
  | nil =>
    intro p fuel hseg _ f' s' hv
    cases fuel with
    | zero => exact absurd hv (by simp [RowsCalls])
    | succ f =>
      rw [hseg.1, RowsCalls] at hv
      exact absurd rfl hv.1
  | cons r rest' ih =>
    intro p fuel hseg hrest f' s' hv
    obtain ⟨hD, _, hseg'⟩ := hseg
    have hrv := hrest r (List.mem_cons_self _ _)
    cases fuel with
    | zero => exact absurd hv (by simp [RowsCalls])
    | succ f =>
      rw [hD, RowsCalls] at hv
      obtain ⟨_, s3', hcov, hcase⟩ := hv
      obtain ⟨a3, s3, row, k1, k2, k3, hrow, hrr, hpm, hcd, hud, _, _⟩ :=
        h.row_iter hs hc hrv
      have es : s3' = s3 := hcd _ _ hcov
      rw [es] at hcase
      have hE0 := frame_eqs hfr hE
      have hE1 : ((coverState rows a s c).pushSolution r).nCols = s0.nCols ∧
          ((coverState rows a s c).pushSolution r).colHead = s0.colHead ∧
          ((coverState rows a s c).pushSolution r).row = s0.row ∧
          ((coverState rows a s c).pushSolution r).col = s0.col := hE0
      rcases hcase with ⟨_, es'⟩ | ⟨s4, s5, hsr, hunc, hrec⟩
      · rw [es']
        have hE3 := frame_eqs k3 hE1
        have hsol : s3.solution = s.solution ++ [r] := by
          rw [k3.solution]
          show (coverState rows a s c).solution ++ [r] = _
          rw [hfr.solution]
        have hcn : s3.colN = s.colN := by
          rw [k3.colN]
          exact hfr.colN
        have hn3 : s3.nCols = s.nCols := k3.nCols.trans hfr.nCols
        refine ⟨⟨k1, hE3.1, hE3.2.1, hE3.2.2.1, hE3.2.2.2, a3, P ++ [row], k2, ?_, ?_, ?_⟩, ?_⟩
        · rw [hsol]
          exact List.rel_append hP (List.Forall₂.cons hrr List.Forall₂.nil)
        · intro q hq
          rcases List.mem_append.1 hq with hq | hq
          · exact hPr q hq
          · rw [List.mem_singleton.1 hq]; exact hrow
        · rw [hcn, hn3, List.flatMap_append, List.append_assoc]
          refine List.Perm.trans (List.Perm.append_left _ ?_) hperm
          simp only [List.flatMap_cons, List.flatMap_nil, List.append_nil]
          exact hpm
        · rw [hsol, List.length_append, List.length_singleton]
      · have e4 : s4 = s3 := search_false_det hN k1 k2 hsr
        rw [e4] at hunc
        have e5 : s5 = (coverState rows a s c).pushSolution r := hud _ _ hunc
        rw [e5, popSolution_pushSolution] at hrec
        exact ih r f hseg' (fun x hx => hrest x (List.mem_cons_of_mem _ hx)) f' s' hrec

/-- The invocations of `search()` made by an invocation that satisfies the invariant
satisfy it too, with one more row on the solution stack. -/
theorem searchCalls_inv {rows : Layout} (hN : (rows.flatten.length : Int) < INT_MAX)
    {s0 s s' : DLXSolver} {f f' : Nat} (hinv : CallInv rows s0 s)
    (hc : SearchCalls f s f' s') :
    CallInv rows s0 s' ∧ s'.solution.length = s.solution.length + 1 := by
  obtain ⟨hs, e1, e2, e3, e4, a, P, h, hP, hPr, hperm⟩ := hinv
  cases f with
  | zero => exact absurd hc (by simp [SearchCalls])
  | succ f =>
    rw [SearchCalls] at hc
    obtain ⟨_, c, best, hch, hnz, s1, hcov, hrows⟩ := hc
    obtain ⟨d, hd, rfl⟩ := h.chooseCol_active hs hch (fun e => hnz (Or.inl e))
    have es : s1 = coverState rows a s d := h.cover_det hs hd hcov
    subst es
    exact rowsCalls_inv hN hs h hd ⟨e1, e2, e3, e4⟩ hP hPr hperm (a.vring d) _ f
      (h.coverState_vring hs hd) (fun r hr => hr) f' s' hrows

/-- Every invocation of `search()` satisfies the invariant that the first one satisfies,
and finds as many rows on the solution stack as it lies levels below the first. -/
theorem invoked_inv {rows : Layout} (hN : (rows.flatten.length : Int) < INT_MAX)
    {s0 s : DLXSolver} {f0 d f : Nat} (h0 : CallInv rows s0 s0)
    (hi : Invoked f0 s0 d f s) :
    CallInv rows s0 s ∧ s.solution.length = s0.solution.length + d := by
  induction hi with
  | top => exact ⟨h0, rfl⟩
  | call _ hc ih =>
    obtain ⟨k1, k2⟩ := searchCalls_inv hN ih.1 hc
    exact ⟨k1, by rw [k2, ih.2]; omega⟩

/-- The `cover` and `uncover` calls of the row loop of `search` return in good states. -/
theorem rowsVisits_good {rows : Layout} (hN : (rows.flatten.length : Int) < INT_MAX)
    {a : Abs} {s s0 : DLXSolver} (hs : Static rows s) (h : Rep rows a s) {c : Nat}
    (hc : c ∈ a.active)
    (hE : s.nCols = s0.nCols ∧ s.colHead = s0.colHead ∧ s.row = s0.row ∧ s.col = s0.col) :
    ∀ (rest : List Nat) (p fuel : Nat),
      Seg (coverState rows a s c).D.get (coverState rows a s c).U.get p rest (s.colHead.get c) →
      (∀ r, r ∈ rest → r ∈ a.vring c) → ∀ (t : DLXSolver),
      RowsVisits (s.colHead.get c) fuel ((coverState rows a s c).D.get p)
        (coverState rows a s c) t → Good rows s0 t := by
  have hfr := coverState_frame rows a s c
  have hcl := h.act_lt c hc
  intro rest
  induction rest with
  | nil =>
    intro p fuel hseg _ t hv
    cases fuel with
    | zero => exact absurd hv (by simp [RowsVisits])
    | succ f =>
      rw [hseg.1, RowsVisits] at hv
      rcases hv with ⟨_, hunc⟩ | ⟨hne, _⟩
      · have et : t = s := h.uncover_det hs hc hunc
        subst et
        exact ⟨hs, hE.1, hE.2.1, hE.2.2.1, hE.2.2.2, a, h⟩
      · exact absurd rfl hne
  | cons r rest' ih =>
    intro p fuel hseg hrest t hv
    obtain ⟨hD, _, hseg'⟩ := hseg
    have hrv := hrest r (List.mem_cons_self _ _)
    have hrn := (h.vinv.vr_mem c r hrv).1
    cases fuel with
    | zero => exact absurd hv (by simp [RowsVisits])
    | succ f =>
      rw [hD, RowsVisits] at hv
      obtain ⟨a3, s3, row, k1, k2, k3, hrow, hrr, hpm, hcd, hud, hcv, huv⟩ :=
        h.row_iter hs hc hrv
      have hE0 := frame_eqs hfr hE
      have hE1 : ((coverState rows a s c).pushSolution r).nCols = s0.nCols ∧
          ((coverState rows a s c).pushSolution r).colHead = s0.colHead ∧
          ((coverState rows a s c).pushSolution r).row = s0.row ∧
          ((coverState rows a s c).pushSolution r).col = s0.col := hE0
      rcases hv with ⟨heq, _⟩ | ⟨_, hcase⟩
      · exact absurd (heq ▸ hrn) (hs.hdr_not_node hcl)
      · rcases hcase with hv1 | ⟨s3', s4, hcov, hsr, hcase2⟩
        · obtain ⟨q1, ⟨a', q2⟩, q3⟩ := hcv _ _ hv1
          have hEt := frame_eqs q3 hE1
          exact ⟨q1, hEt.1, hEt.2.1, hEt.2.2.1, hEt.2.2.2, a', q2⟩
        · have es : s3' = s3 := hcd _ _ hcov
          rw [es] at hsr
          have e4 : s4 = s3 := search_false_det hN k1 k2 hsr
          rw [e4] at hcase2
          rcases hcase2 with hv2 | ⟨s5, hunc, hrec⟩
          · obtain ⟨q1, ⟨a', q2⟩, q3⟩ := huv _ _ hv2
            have hEt := frame_eqs q3 hE1
            exact ⟨q1, hEt.1, hEt.2.1, hEt.2.2.1, hEt.2.2.2, a', q2⟩
          · have e5 : s5 = (coverState rows a s c).pushSolution r := hud _ _ hunc
            rw [e5, popSolution_pushSolution] at hrec
            exact ih r f hseg' (fun x hx => hrest x (List.mem_cons_of_mem _ hx)) t hrec

/-- The `cover` and `uncover` calls of the body of `search()` return in good states. -/
theorem searchVisits_good {rows : Layout} (hN : (rows.flatten.length : Int) < INT_MAX)
    {s0 s t : DLXSolver} {f : Nat} (hg : Good rows s0 s) (hv : SearchVisits f s t) :
    Good rows s0 t := by
  obtain ⟨hs, e1, e2, e3, e4, a, h⟩ := hg
  cases f with
  | zero => exact absurd hv (by simp [SearchVisits])
  | succ f =>
    rw [SearchVisits] at hv
    obtain ⟨_, c, best, hch, hnz, s1, hcov, hcase⟩ := hv
    obtain ⟨d, hd, rfl⟩ := h.chooseCol_active hs hch (fun e => hnz (Or.inl e))
    have es : s1 = coverState rows a s d := h.cover_det hs hd hcov
    subst es
    rcases hcase with rfl | hrows
    · obtain ⟨q1, q2⟩ := h.cover_rep hs hd
      have hEt := frame_eqs (coverState_frame rows a s d) ⟨e1, e2, e3, e4⟩
      exact ⟨q1, hEt.1, hEt.2.1, hEt.2.2.1, hEt.2.2.2, _, q2⟩
    · exact rowsVisits_good hN hs h hd ⟨e1, e2, e3, e4⟩ (a.vring d) _ f
        (h.coverState_vring hs hd) (fun r hr => hr) t hrows

theorem CallInv.good {rows : Layout} {s0 s : DLXSolver} (h : CallInv rows s0 s) :
    Good rows s0 s := by
  obtain ⟨hs, e1, e2, e3, e4, a, P, h, _⟩ := h
  exact ⟨hs, e1, e2, e3, e4, a, h⟩

/-- Every state in which a `cover` or `uncover` call of the search returns is good. -/
theorem visited_good {rows : Layout} (hN : (rows.flatten.length : Int) < INT_MAX)
    {s0 t : DLXSolver} {f0 : Nat} (h0 : CallInv rows s0 s0) (hv : Visited f0 s0 t) :
    Good rows s0 t := by
  obtain ⟨d, f, s, hi, hv⟩ := hv
  exact searchVisits_good hN (invoked_inv hN h0 hi).1.good hv

/-- A built matrix with an empty solution stack satisfies the invariant of `search`. -/
theorem Built.callInv {rows : Layout} {s : DLXSolver} (h : Built rows s)
    (hsol : s.solution = []) : CallInv rows s s := by
  refine ⟨h.static, rfl, rfl, rfl, rfl, builtAbs rows s, [], h.rep, ?_, ?_, ?_⟩
  · rw [hsol]; exact List.Forall₂.nil
  · intro p hp; cases hp
  · exact List.Perm.refl _

/-- In a good state the live count of every column is the length of its vertical ring. -/
theorem Good.live_count {rows : Layout} {s0 s : DLXSolver} (hg : Good rows s0 s) {c : Nat}
    (hc : c < s0.nCols) {F : Nat} (hF : rows.flatten.length < F) :
    ∃ ring, s.colRing F (s.colHead.get c) = some ring ∧ s.colSize.get c = (ring.length : Int) := by
  obtain ⟨hs, e1, _, _, _, a, h⟩ := hg
  rw [← e1] at hc
  exact ⟨a.vring c, h.colRing_eq hs hc (lt_of_le_of_lt (h.vring_length_le c) hF),
    h.vinv.size c hc⟩

theorem foldl_addRow_solution (rs : List (Int × List Nat)) (s : DLXSolver) :
    (rs.foldl (fun s r => s.addRow r.1 r.2) s).solution = s.solution := by
  induction rs generalizing s with
  | nil => rfl
  | cons r rs ih => rw [List.foldl_cons, ih, addRow_solution]

theorem buildMatrix_solution (n : Nat) (rs : List (Int × List Nat)) :
    (buildMatrix n rs).solution = [] := by
  unfold buildMatrix
  rw [foldl_addRow_solution]
  exact (Built.init n).2.2

/-- The live-count invariant: in a built matrix, and in every state in which a `cover` or
`uncover` call of a search on it returns, the count of each column is the number of nodes
on its vertical ring. -/
theorem live_count_reachable (n : Nat) (rs : List (Int × List Nat))
    (hrs : ∀ r, r ∈ rs → r.2.Nodup ∧ ∀ c, c ∈ r.2 → c < n)
    (hN : ((buildMatrix n rs).next : Int) ≤ INT_MAX) (f0 : Nat) (t : DLXSolver)
    (ht : t = buildMatrix n rs ∨ Visited f0 (buildMatrix n rs) t) (c : Nat) (hc : c < n)
    (F : Nat) (hF : (buildMatrix n rs).next ≤ F) :
    ∃ ring, t.colRing F (t.colHead.get c) = some ring ∧
      t.colSize.get c = (ring.length : Int) := by
  obtain ⟨rows, hb, hn⟩ := buildMatrix_built n rs hrs
  have hlen := hb.flatten_length_lt
  have h0 := hb.callInv (buildMatrix_solution n rs)
  have hN' : (rows.flatten.length : Int) < INT_MAX := by omega
  have hg : Good rows (buildMatrix n rs) t := by
    rcases ht with rfl | hv
    · exact h0.good
    · exact visited_good hN' h0 hv
  exact hg.live_count (by rw [hn]; exact hc) (lt_of_lt_of_le hlen hF)

theorem Encoded.callInv_top {input : Grid} {rows : Layout} (h : Encoded input rows) :
    CallInv rows (encode input).dlx (encode input).dlx :=
  h.built.callInv h.sol

theorem length_flatMap_const {α β : Type} (f : α → List β) (k : Nat) (l : List α)
    (h : ∀ x, x ∈ l → (f x).length = k) : (l.flatMap f).length = k * l.length := by
  induction l with
  | nil => simp
  | cons x xs ih =>
    rw [List.flatMap_cons, List.length_append, List.length_cons,
      h x (List.mem_cons_self _ _), ih (fun y hy => h y (List.mem_cons_of_mem _ hy)),
      Nat.mul_succ]
    omega

/-- What the invariant says of an invocation of `search()` on the encoded matrix, in terms
of the header ring and of the rows on the solution stack. -/
theorem Encoded.invocation {input : Grid} {rows : Layout} (h : Encoded input rows)
    {s : DLXSolver} (hinv : CallInv rows (encode input).dlx s) {F : Nat} (hF : 324 < F) :
    ∃ ring, s.headerRing F = some ring ∧
      (stackCols (encode input) s ++ ring.map s.colN).Perm (List.range 324) ∧
      (s.R.get head = head ↔ (stackCols (encode input) s).Perm (List.range 324)) ∧
      s.solution.length ≤ 81 ∧
      ∀ f t, search f s = some (false, t) → t = s := by
  obtain ⟨hs, e1, e2, e3, e4, a, P, hr, hP, hPr, hperm⟩ := hinv
  have hn : s.nCols = 324 := e1.trans h.nCols
  rw [hn] at hperm
  have hcn : s.colN = (encode input).dlx.colN := by
    funext x; simp only [DLXSolver.colN, e4]
  have hcols : stackCols (encode input) s = P.flatMap (fun p => p.map s.colN) := by
    obtain ⟨k1, _, _⟩ := h.tags.tags_of_picks hP hPr
    unfold stackCols rowCols
    rw [h.mapRows, e3, hcn, ← k1, flatMap_map_eq, flatMap_map_eq]
  have hring : (a.active.map s.colHead.get).map s.colN = a.active := by
    rw [List.map_map]
    conv_rhs => rw [← List.map_id a.active]
    refine List.map_congr_left ?_
    intro d hd
    exact hs.hcol d (hr.act_lt d hd)
  have hal : a.active.length < F := by
    have := hperm.length_eq
    rw [List.length_append, List.length_range] at this
    omega
  have hP4 : (P.flatMap (fun p => p.map s.colN)).length = 4 * P.length := by
    refine length_flatMap_const _ 4 P ?_
    intro p hp
    obtain ⟨i, _, _, hc, _⟩ := h.tags.tag_of_row (hPr p hp)
    rw [hcn, hc]
    rfl
  refine ⟨_, hr.headerRing_eq hs hal, ?_, ?_, ?_, ?_⟩
  · rw [hring, hcols]; exact hperm
  · rw [hcols]
    constructor
    · intro hR
      have hact : a.active = [] := by
        cases hA : a.active with
        | nil => rfl
        | cons d ds =>
          exfalso
          have h1 := hr.hring
          rw [hA] at h1
          exact (hs.hdr_ne (hr.act_lt d (by rw [hA]; simp))).1 (h1.1.symm.trans hR)
      rw [hact, List.append_nil] at hperm
      exact hperm
    · intro hp
      have hl1 := hp.length_eq
      have hl2 := hperm.length_eq
      rw [List.length_append, hl1] at hl2
      have hact : a.active = [] := List.length_eq_zero.1 (by omega)
      have h1 := hr.hring
      rw [hact] at h1
      exact h1.1
  · have hl2 := hperm.length_eq
    rw [List.length_append, hP4, List.length_range] at hl2
    rw [hP.length_eq]
    omega
  · intro f t e
    exact search_false_det h.hN hs hr e

/-- The invariant of the invocations of `search()` during a solve. -/
theorem solve_invocation (input : Grid) {f0 d f : Nat} {s : DLXSolver}
    (hi : Invoked f0 (encode input).dlx d f s) {F : Nat} (hF : 324 < F) :
    s.solution.length = d ∧
    ∃ ring, s.headerRing F = some ring ∧
      (stackCols (encode input) s ++ ring.map s.colN).Perm (List.range 324) ∧
      (s.R.get head = head ↔ (stackCols (encode input) s).Perm (List.range 324)) ∧
      s.solution.length ≤ 81 ∧
      ∀ f t, search f s = some (false, t) → t = s := by
  obtain ⟨rows, henc⟩ := encoded input
  obtain ⟨k1, k2⟩ := invoked_inv henc.hN henc.callInv_top hi
  refine ⟨?_, henc.invocation k1 hF⟩
  rw [k2, henc.sol]
  simp

theorem some_getD_of_isSome {α : Type} {o : Option α} (d : α) (h : o.isSome = true) :
    o = some (o.getD d) := by
  cases o with
  | none => cases h
  | some x => rfl

/-- On the demo matrix, `search` invokes itself in the state `demoChild`. -/
theorem demo_call : SearchCalls 20 demoMatrix 18 demoChild := by
  show SearchCalls (19 + 1) demoMatrix 18 demoChild
  rw [SearchCalls]
  refine ⟨by decide, 2, 2, by decide, by decide, demoCovered,
    some_getD_of_isSome _ (by decide), ?_⟩
  have hD : demoCovered.D.get 2 = 5 := by decide
  rw [hD]
  show RowsCalls 2 (18 + 1) 5 _ 18 demoChild
  rw [RowsCalls]
  exact ⟨by decide, demoChild, some_getD_of_isSome _ (by decide), Or.inl ⟨rfl, rfl⟩⟩

theorem demo_invoked : Invoked 20 demoMatrix 1 18 demoChild :=
  Invoked.call Invoked.top demo_call

/-- On the demo matrix, the first `cover` call of `search` returns in `demoCovered`. -/
theorem demo_visited : Visited 20 demoMatrix demoCovered := by
  refine ⟨0, 20, demoMatrix, Invoked.top, ?_⟩
  show SearchVisits (19 + 1) demoMatrix demoCovered
  rw [SearchVisits]
  exact ⟨by decide, 2, 2, by decide, by decide, demoCovered,
    some_getD_of_isSome _ (by decide), Or.inl rfl⟩

set_option maxRecDepth 100000 in
/-- On the demo matrix, the nested invocation of `search` returns false. -/
theorem demo_child_fails : (search 18 demoChild).map Prod.fst = some false := by
  decide

theorem emptyGrid_rowID_pos : 0 < (encode emptyGrid).rowID := by
  obtain ⟨henc, hm⟩ := encode_spec emptyGrid
  rw [henc.rowID, hm]
  have : (⟨0, 0, 1⟩ : MapRow) ∈ allTags emptyGrid :=
    (mem_allTags emptyGrid _).2 ⟨by decide, by decide, by decide, by decide, Or.inl rfl⟩
  have := List.length_pos_of_mem this
  omega

theorem emptyGrid_mapRows_pos : 0 < (encode emptyGrid).mapRows.length := by
  have h1 := emptyGrid_rowID_pos
  have h2 := (encode_addr emptyGrid).rowID
  omega

/-- The four columns of a tag with cell and digit in range lie in the four groups. -/
theorem tag_cols_range (m : MapRow) (hr : m.r < 9) (hc : m.c < 9) (h1 : 1 ≤ m.v)
    (h9 : m.v ≤ 9) :
    m.r * 9 + m.c < 81 ∧
    (81 ≤ 81 + m.r * 9 + (m.v - 1) ∧ 81 + m.r * 9 + (m.v - 1) < 162) ∧
    (162 ≤ 162 + m.c * 9 + (m.v - 1) ∧ 162 + m.c * 9 + (m.v - 1) < 243) ∧
    (243 ≤ 243 + (m.r / 3 * 3 + m.c / 3) * 9 + (m.v - 1) ∧
      243 + (m.r / 3 * 3 + m.c / 3) * 9 + (m.v - 1) < 324) := by
  omega

/-- Every node of the encoded matrix belongs to the row whose id its address gives. -/
theorem encode_node_row (input : Grid) (x : Nat) (h1 : 326 ≤ x)
    (h2 : x < (encode input).dlx.next) :
    (encode input).dlx.row.get x = (((x - 326) / 4 : Nat) : Int) := by
  have ha := encode_addr input
  rw [ha.next] at h2
  have hid : (x - 326) / 4 < (encode input).mapRows.length := by omega
  have := (ha.shape _ hid).1 ((x - 326) % 4) (Nat.mod_lt _ (by decide))
  have e : 326 + 4 * ((x - 326) / 4) + (x - 326) % 4 = x := by omega
  rw [e] at this
  exact this

/-- At an invocation of `search()` during a solve, the header ring is a list of headers,
none null, whose live counts are below `INT_MAX`: the choice of `search` is the one that
`search_choice` describes. -/
theorem invocation_ring_ok (input : Grid) {f0 d f : Nat} {s : DLXSolver}
    (hi : Invoked f0 (encode input).dlx d f s) {F : Nat} (hF : 324 < F) :
    ∃ hs, s.headerRing F = some hs ∧ null ∉ hs ∧ hs.length ≤ 324 ∧
      ∀ h, h ∈ hs → s.sizeAt h < INT_MAX := by
  obtain ⟨rows, henc⟩ := encoded input
  obtain ⟨⟨hs, e1, _, _, _, a, P, hr, _, _, hperm⟩, _⟩ := invoked_inv henc.hN henc.callInv_top hi
  have hn : s.nCols = 324 := e1.trans henc.nCols
  rw [hn] at hperm
  have hl := hperm.length_eq
  rw [List.length_append, List.length_range] at hl
  refine ⟨_, hr.headerRing_eq hs (by omega), ?_, by rw [List.length_map]; omega, ?_⟩
  · intro hm
    obtain ⟨x, hx, e⟩ := List.mem_map.1 hm
    exact (hs.hdr_ne (hr.act_lt x hx)).2 e
  · intro h hm
    obtain ⟨x, hx, rfl⟩ := List.mem_map.1 hm
    have hx' := hr.act_lt x hx
    show s.colSize.get (s.colN (s.colHead.get x)) < INT_MAX
    rw [hs.hcol x hx', hr.vinv.size x hx']
    have := hr.vring_length_le x
    have := henc.hN
    omega

/-- With enough fuel, in a state with active columns that all have linked nodes, `search()`
invokes itself. -/
theorem Rep.exists_call {rows : Layout} {a : Abs} {s : DLXSolver}
    (hN : (rows.flatten.length : Int) < INT_MAX) (hs : Static rows s) (h : Rep rows a s)
    (hne : a.active ≠ []) (hpos : ∀ d, d ∈ a.active → a.vring d ≠ []) {f : Nat}
    (hf1 : fuelBound rows a.active.length ≤ f + 2) (hf2 : a.active.length < f + 1) :
    ∃ s', SearchCalls (f + 2) s f s' := by
  obtain ⟨res, e, _⟩ := search_total hN hs h hf1
  obtain ⟨d0, hd0⟩ := List.exists_mem_of_ne_nil _ hne
  have hR : s.R.get head ≠ head := by
    intro hR
    cases hA : a.active with
    | nil => exact hne hA
    | cons d ds =>
      have h1 := h.hring
      rw [hA] at h1
      exact (hs.hdr_ne (h.act_lt d (by rw [hA]; simp))).1 (h1.1.symm.trans hR)
  have hsz : ∀ d, d ∈ a.active →
      s.sizeAt (s.colHead.get d) = ((a.vring d).length : Int) := by
    intro d hd
    show s.colSize.get (s.colN (s.colHead.get d)) = _
    rw [hs.hcol d (h.act_lt d hd)]
    exact h.vinv.size d (h.act_lt d hd)
  have hw := @Rep.headerRing_eq rows a s hs h (a.active.length + 1) (Nat.lt_succ_self _)
  have hch : ∃ d, d ∈ a.active ∧
      chooseCol s (f + 1) (s.R.get head) null INT_MAX =
        some (s.colHead.get d, s.sizeAt (s.colHead.get d)) := by
    rcases chooseCol_first s _ _ (f + 1) (s.R.get head) null INT_MAX hw
      (by rw [List.length_map]; exact hf2) with ⟨h1, _⟩ | ⟨pre, c', post, e', _, _, _, h2⟩
    · exfalso
      have k1 := h1 _ (List.mem_map_of_mem _ hd0)
      rw [hsz d0 hd0] at k1
      have k2 := h.vring_length_le d0
      omega
    · have hm : c' ∈ a.active.map s.colHead.get := by rw [e']; simp
      obtain ⟨d, hd, rfl⟩ := List.mem_map.1 hm
      exact ⟨d, hd, h2⟩
  obtain ⟨d, hd, hch⟩ := hch
  have hdl := h.act_lt d hd
  have hnz : ¬ (s.colHead.get d = null ∨ s.sizeAt (s.colHead.get d) = 0) := by
    rintro (hz | hz)
    · exact (hs.hdr_ne hdl).2 hz
    · rw [hsz d hd] at hz
      exact hpos d hd (List.length_eq_zero.1 (by exact_mod_cast hz))
  obtain ⟨r, rest, hv⟩ := List.exists_cons_of_ne_nil (hpos d hd)
  have hseg := h.coverState_vring hs hd
  rw [hv] at hseg
  have hrn : r ∈ rows.flatten := (h.vinv.vr_mem d r (by rw [hv]; simp)).1
  have hrc : r ≠ s.colHead.get d := by
    rintro rfl
    exact hs.hdr_not_node hdl hrn
  rw [search_succ, if_neg hR, hch] at e
  simp only [] at e
  rw [if_neg hnz] at e
  rcases hcov : cover (f + 1) s (s.colHead.get d) with _ | s1
  · rw [hcov] at e; simp at e
  · have es : s1 = coverState rows a s d := h.cover_det hs hd hcov
    rw [hcov] at e
    simp only [] at e
    rw [es, hseg.1, searchRows_succ, if_neg hrc] at e
    rcases hcr : coverRowCols r f (((coverState rows a s d).pushSolution r).R.get r)
        ((coverState rows a s d).pushSolution r) with _ | s3
    · rw [hcr] at e; simp at e
    · refine ⟨s3, ?_⟩
      rw [SearchCalls]
      refine ⟨hR, _, _, hch, hnz, s1, hcov, ?_⟩
      rw [es, hseg.1, RowsCalls]
      exact ⟨hrc, s3, hcr, Or.inl ⟨rfl, rfl⟩⟩

/-- Every column of the matrix encoded from the empty grid has nodes. -/
theorem emptyGrid_vring_ne_nil {rows : Layout} (h : Encoded emptyGrid rows) {d : Nat}
    (hd : d < 324) : (builtAbs rows (encode emptyGrid).dlx).vring d ≠ [] := by
  have hv := shiftGrid_valid (by decide : 0 < 9)
  obtain ⟨m, hm, hk⟩ := hv.coverTags.ex hd
  obtain ⟨p, hp, hc⟩ := h.tags.row_of_tag (gridTags_allowed hv (agrees_emptyGrid _) m hm)
  rw [← hc] at hk
  obtain ⟨j, hj, hjd⟩ := List.mem_map.1 hk
  intro e
  have : j ∈ (builtAbs rows (encode emptyGrid).dlx).vring d := by
    show j ∈ rows.flatten.filter _
    exact List.mem_filter.2 ⟨List.mem_flatten.2 ⟨p, hp, hj⟩, by rw [decide_eq_true_eq]; exact hjd⟩
  rw [e] at this
  cases this

/-- On the empty grid, the first call of `search` invokes `search` one level down. -/
theorem emptyGrid_invoked :
    ∃ s, Invoked solveFuel (encode emptyGrid).dlx 1 (solveFuel - 2) s := by
  obtain ⟨rows, henc⟩ := encoded emptyGrid
  have hact := henc.active
  obtain ⟨s', hs'⟩ := Rep.exists_call (f := solveFuel - 2) henc.hN henc.built.static
    henc.built.rep (by rw [hact]; decide)
    (fun d hd => emptyGrid_vring_ne_nil henc (by rw [hact] at hd; exact List.mem_range.1 hd))
    henc.fuel (by rw [hact, List.length_range]; decide)
  exact ⟨s', Invoked.call Invoked.top hs'⟩

/-- The row of the encoded matrix with a given index: its nodes carry the index as row id
and lie in the columns of the tag at that index. -/
theorem RowTags.row_of_index {rows : Layout} {k : Nat} {ms : List MapRow} {s : DLXSolver}
    (h : RowTags rows (tagsFrom k ms) s) {i : Nat} (hi : i < ms.length) :
    ∃ p, p ∈ rows ∧ p.map s.colN = colsOf (ms.getD i default) ∧
      ∀ j, j ∈ p → s.row.get j = ((k + i : Nat) : Int) := by
  induction ms generalizing rows k i with
  | nil => cases hi
  | cons m ms ih =>
    obtain ⟨q, rows', rfl, hq, hid, hrest⟩ := h.cons_inv
    cases i with
    | zero => exact ⟨q, List.mem_cons_self _ _, hq, hid⟩
    | succ i =>
      obtain ⟨p, hp, hc, hr⟩ := ih hrest (Nat.lt_of_succ_lt_succ hi)
      refine ⟨p, List.mem_cons_of_mem _ hp, hc, ?_⟩
      intro j hj
      rw [hr j hj]
      congr 1
      omega

/-- In the matrix that the encoder builds, the column ring of column `k` holds a node of
the row with id `id` exactly when `k` is one of the four columns of the tag `mapRows[id]`. -/
theorem encode_rowMeets (input : Grid) {id : Int}
    (hid : 0 ≤ id ∧ id < (encode input).rowID) {k : Nat} (hk : k < 324) :
    (encode input).dlx.rowMeets id k = true ↔ k ∈ rowCols (encode input) id := by
  obtain ⟨rows, henc⟩ := encoded input
  have hb := henc.built
  have hk' : k < (encode input).dlx.nCols := by rw [henc.nCols]; exact hk
  have hring : (encode input).dlx.colRing (encode input).dlx.next
      ((encode input).dlx.colHead.get k) = some ((builtAbs rows (encode input).dlx).vring k) :=
    hb.rep.colRing_eq hb.static hk'
      (lt_of_le_of_lt (hb.rep.vring_length_le k) hb.flatten_length_lt)
  have hlen : id.toNat < (allTags input).length := by
    have := hid.2
    rw [henc.rowID] at this
    omega
  unfold DLXSolver.rowMeets rowCols
  rw [hring, henc.mapRows]
  simp only [List.any_eq_true, decide_eq_true_eq]
  constructor
  · rintro ⟨x, hx, hrow⟩
    have hx' : x ∈ rows.flatten.filter (fun j => decide ((encode input).dlx.colN j = k)) := hx
    obtain ⟨hfl, hcol⟩ := List.mem_filter.1 hx'
    rw [decide_eq_true_eq] at hcol
    obtain ⟨p, hp, hxp⟩ := List.mem_flatten.1 hfl
    obtain ⟨i, _, _, hc, hr⟩ := henc.tags.tag_of_row hp
    have hi : id = ((0 + i : Nat) : Int) := by rw [← hrow]; exact hr x hxp
    have hi' : id.toNat = i := by omega
    rw [hi', ← hc, ← hcol]
    exact List.mem_map_of_mem _ hxp
  · intro hmem
    obtain ⟨p, hp, hc, hr⟩ := henc.tags.row_of_index hlen
    rw [← hc] at hmem
    obtain ⟨x, hxp, hxk⟩ := List.mem_map.1 hmem
    refine ⟨x, ?_, ?_⟩
    · show x ∈ rows.flatten.filter (fun j => decide ((encode input).dlx.colN j = k))
      exact List.mem_filter.2 ⟨List.mem_flatten.2 ⟨p, hp, hxp⟩, by
        rw [decide_eq_true_eq]; exact hxk⟩
    · rw [hr x hxp]
      omega

/-- For ids of emitted rows, covering the columns of the matrix is covering them with the
columns of the tags. -/
theorem coversMatrix_iff (input : Grid) (ids : List Int)
    (hid : ∀ id, id ∈ ids → 0 ≤ id ∧ id < (encode input).rowID) :
    CoversMatrix (encode input) ids ↔ ExactCover (encode input) ids := by
  unfold CoversMatrix ExactCover
  refine forall_congr' (fun k => forall_congr' (fun hk => ?_))
  refine existsUnique_congr (fun id => ?_)
  constructor
  · rintro ⟨h, hm⟩
    exact ⟨h, (encode_rowMeets input (hid id h) hk).1 hm⟩
  · rintro ⟨h, hm⟩
    exact ⟨h, (encode_rowMeets input (hid id h) hk).2 hm⟩

/-- The encoding correspondence, with the cover read off the matrix. -/
theorem matrix_correspondence (input : Grid) (ids : List Int) (hnd : ids.Nodup)
    (hid : ∀ id, id ∈ ids → 0 ≤ id ∧ id < (encode input).rowID) :
    CoversMatrix (encode input) ids ↔
      OneDigitPerCell (encode input) ids ∧ ValidGrid (gridOfRows (encode input) ids) ∧
        Agrees input (gridOfRows (encode input) ids) :=
  (coversMatrix_iff input ids hid).trans (encoding_correspondence input ids hnd hid)

/-- Rows whose columns, listed together, are a permutation of the 324 columns cover every
column exactly once. -/
theorem exactCover_of_perm {e : Enc} {ids : List Int}
    (hperm : (ids.flatMap (rowCols e)).Perm (List.range 324)) : ExactCover e ids := by
  intro k hk
  have hmem : k ∈ ids.flatMap (rowCols e) := hperm.mem_iff.2 (List.mem_range.2 hk)
  obtain ⟨id, hid, hkid⟩ := List.mem_flatMap.1 hmem
  have hnd : (ids.flatMap (rowCols e)).Nodup := hperm.nodup_iff.2 (List.nodup_range 324)
  exact ⟨id, ⟨hid, hkid⟩, fun id' h' => nodup_flatMap_inj hnd h'.1 hid h'.2 hkid⟩

/-- On the solved grid `shiftGrid 0` the encoder emits one row for each cell. -/
theorem allTags_shiftGrid : allTags (shiftGrid 0) = gridTags (shiftGrid 0) := by
  decide

theorem solvedIds_tags :
    solvedIds.map (fun id => (gridTags (shiftGrid 0)).getD id.toNat default) =
      gridTags (shiftGrid 0) := by
  decide

/-- The 81 rows that the encoder emits for the solved grid `shiftGrid 0` are distinct rows
of the matrix that cover every column once. -/
theorem solvedIds_cover : solvedIds.Nodup ∧
    (∀ id, id ∈ solvedIds → 0 ≤ id ∧ id < (encode (shiftGrid 0)).rowID) ∧
      CoversMatrix (encode (shiftGrid 0)) solvedIds := by
  obtain ⟨rows, henc⟩ := encoded (shiftGrid 0)
  have hm : (encode (shiftGrid 0)).mapRows = gridTags (shiftGrid 0) :=
    henc.mapRows.trans allTags_shiftGrid
  have hr : (encode (shiftGrid 0)).rowID = 81 := by
    rw [henc.rowID, allTags_shiftGrid]
    rfl
  have hid : ∀ id, id ∈ solvedIds → 0 ≤ id ∧ id < (encode (shiftGrid 0)).rowID := by
    intro id h
    rw [hr]
    obtain ⟨k, hk, rfl⟩ := List.mem_map.1 h
    rw [List.mem_range] at hk
    exact ⟨Int.ofNat_nonneg k, Int.ofNat_lt.2 hk⟩
  refine ⟨by decide, hid, (coversMatrix_iff _ _ hid).2 (exactCover_of_perm ?_)⟩
  have hp := (shiftGrid_valid (by decide : 0 < 9)).coverTags.perm
  have e : solvedIds.flatMap (rowCols (encode (shiftGrid 0))) =
      (gridTags (shiftGrid 0)).flatMap colsOf := by
    rw [← solvedIds_tags, flatMap_map_eq]
    unfold rowCols
    rw [hm]
  rw [e]
  exact hp

/-- C11, encoding correspondence. For every input grid and every set `ids` of ids of rows
that the encoder has emitted: the rows of the encoded matrix with these ids cover each of
the 324 columns exactly once, that is, every column ring of the matrix holds a node of
exactly one of them, if and only if their tags `mapRows[id]` give each of the 81 cells
exactly one digit, the grid so defined has each digit 1..9 exactly once in every row, column
and box, and it agrees with every non-zero input cell. The entries of the input need not be
assumed to lie in 0..9. -/
theorem encoder_exact_cover_iff (input : Grid) (ids : List Int) (hnd : ids.Nodup)
    (hid : ∀ id, id ∈ ids → 0 ≤ id ∧ id < (encode input).rowID) :
    CoversMatrix (encode input) ids ↔
      OneDigitPerCell (encode input) ids ∧ ValidGrid (gridOfRows (encode input) ids) ∧
        Agrees input (gridOfRows (encode input) ids) :=
  matrix_correspondence input ids hnd hid

theorem encoder_exact_cover_iff_witness :
    CoversMatrix (encode (shiftGrid 0)) solvedIds ∧
      OneDigitPerCell (encode (shiftGrid 0)) solvedIds ∧
        ValidGrid (gridOfRows (encode (shiftGrid 0)) solvedIds) ∧
          Agrees (shiftGrid 0) (gridOfRows (encode (shiftGrid 0)) solvedIds) :=
  ⟨solvedIds_cover.2.2,
    (encoder_exact_cover_iff (shiftGrid 0) solvedIds solvedIds_cover.1
      solvedIds_cover.2.1).1 solvedIds_cover.2.2⟩

/-- C12, encoder row shape. For every input grid: the encoder emits a row tagged
`(r, c, v)` exactly for `r, c` in 0..8 and `v` in 1..9 with `input[r][c] == 0` or
`input[r][c] == v`; the tags stand in `mapRows` in cell-major, digit-minor order; the row
ids run from 0 to `rowID - 1`, `mapRows[id]` being the tag of row `id`; the four nodes of
row `id` carry the id and the columns `r*9+c`, `81+r*9+(v-1)`, `162+c*9+(v-1)` and
`243+((r/3)*3+(c/3))*9+(v-1)` of its tag, which lie in 0..80, 81..161, 162..242 and
243..323; and no other node carries the id. -/
theorem encoder_row_shape (input : Grid) :
    (∀ m, m ∈ (encode input).mapRows ↔
      m.r < 9 ∧ m.c < 9 ∧ 1 ≤ m.v ∧ m.v ≤ 9 ∧ (input m.r m.c = 0 ∨ input m.r m.c = (m.v : Int))) ∧
    (encode input).mapRows.Pairwise (fun a b => tagKey a < tagKey b) ∧
    (encode input).rowID = ((encode input).mapRows.length : Int) ∧
    (encode input).dlx.next = 326 + 4 * (encode input).mapRows.length ∧
    (∀ id, id < (encode input).mapRows.length →
      RowShape (encode input) id ∧
      (encode input).mapRows.getD id default ∈ (encode input).mapRows) ∧
    (∀ x, 326 ≤ x → x < (encode input).dlx.next →
      (encode input).dlx.row.get x = (((x - 326) / 4 : Nat) : Int)) ∧
    ∀ m, m ∈ (encode input).mapRows →
      m.r * 9 + m.c < 81 ∧
      (81 ≤ 81 + m.r * 9 + (m.v - 1) ∧ 81 + m.r * 9 + (m.v - 1) < 162) ∧
      (162 ≤ 162 + m.c * 9 + (m.v - 1) ∧ 162 + m.c * 9 + (m.v - 1) < 243) ∧
      (243 ≤ 243 + (m.r / 3 * 3 + m.c / 3) * 9 + (m.v - 1) ∧
        243 + (m.r / 3 * 3 + m.c / 3) * 9 + (m.v - 1) < 324) :=
  ⟨(encode_rows input).1, (encode_rows input).2.1, (encode_rows input).2.2.1,
    (encode_rows input).2.2.2.1, (encode_rows input).2.2.2.2, encode_node_row input,
    fun m hm => tag_cols_range m (((encode_rows input).1 m).1 hm).1
      (((encode_rows input).1 m).1 hm).2.1 (((encode_rows input).1 m).1 hm).2.2.1
      (((encode_rows input).1 m).1 hm).2.2.2.1⟩

theorem encoder_row_shape_witness :
    RowShape (encode emptyGrid) 0 ∧
      (⟨4, 7, 3⟩ : MapRow) ∈ (encode emptyGrid).mapRows :=
  ⟨((encoder_row_shape emptyGrid).2.2.2.2.1 0 emptyGrid_mapRows_pos).1,
    ((encoder_row_shape emptyGrid).1 ⟨4, 7, 3⟩).2
      ⟨by decide, by decide, by decide, by decide, Or.inl rfl⟩⟩

/-- C13, live-count invariant. On a matrix built by `init(n)` and `addRow` calls with
columns below `n`, distinct within each row, and with fewer than `INT_MAX` nodes: in the
built state and in every state in which a `cover` or `uncover` call made by `search()`
returns, nested invocations included, `colSize[c]` is for every column `c < n` the number
of nodes met on the way along the `D` links from `colHead[c]` back to `colHead[c]`. -/
theorem colSize_counts_ring (n : Nat) (rs : List (Int × List Nat))
    (hrs : ∀ r, r ∈ rs → r.2.Nodup ∧ ∀ c, c ∈ r.2 → c < n)
    (hN : ((buildMatrix n rs).next : Int) ≤ INT_MAX) (f0 : Nat) (t : DLXSolver)
    (ht : t = buildMatrix n rs ∨ Visited f0 (buildMatrix n rs) t) (c : Nat) (hc : c < n)
    (F : Nat) (hF : (buildMatrix n rs).next ≤ F) :
    ∃ ring, t.colRing F (t.colHead.get c) = some ring ∧
      t.colSize.get c = (ring.length : Int) :=
  live_count_reachable n rs hrs hN f0 t ht c hc F hF

theorem colSize_counts_ring_witness :
    ∃ ring, demoCovered.colRing 12 (demoCovered.colHead.get 1) = some ring ∧
      demoCovered.colSize.get 1 = (ring.length : Int) :=
  colSize_counts_ring 3 [(0, [0, 1]), (1, [0, 2]), (2, [1]), (3, [1, 2])] (by decide)
    (by decide) 20 demoCovered (Or.inr demo_visited) 1 (by decide) 12 (by decide)

/-- C14, active-ring invariant. At every invocation of `search()` during a solve, the
columns of the headers on the header ring, together with the columns of the rows on the
solution stack, are the 324 columns, each exactly once: the ring holds exactly the columns
that no stacked row has, and the stacked rows are pairwise column-disjoint. Hence
`head.R == &head` holds exactly when the stacked rows cover every column exactly once. -/
theorem search_active_ring (input : Grid) (f0 d f : Nat) (s : DLXSolver)
    (hi : Invoked f0 (encode input).dlx d f s) (F : Nat) (hF : 324 < F) :
    ∃ ring, s.headerRing F = some ring ∧
      (stackCols (encode input) s ++ ring.map s.colN).Perm (List.range 324) ∧
      (s.R.get head = head ↔ (stackCols (encode input) s).Perm (List.range 324)) :=
  (solve_invocation input hi hF).2.elim fun ring h => ⟨ring, h.1, h.2.1, h.2.2.1⟩

theorem search_active_ring_witness :
    ∃ s, Invoked solveFuel (encode emptyGrid).dlx 1 (solveFuel - 2) s ∧
      ∃ ring, s.headerRing 325 = some ring ∧
        (stackCols (encode emptyGrid) s ++ ring.map s.colN).Perm (List.range 324) ∧
        (s.R.get head = head ↔ (stackCols (encode emptyGrid) s).Perm (List.range 324)) :=
  emptyGrid_invoked.elim fun s hi =>
    ⟨s, hi, search_active_ring emptyGrid solveFuel 1 (solveFuel - 2) s hi 325 (by decide)⟩

/-- C15, minimum-column selection. In a state whose header ring, walked from `head.R`, is
the non-empty list `hs` of headers with live counts below `INT_MAX`, `search()` picks the
header `c` of least live count, the first such on the ring. If that count is 0, `search()`
returns false with the state as it is: no column is covered and the solution stack is
untouched. Otherwise `search()` is `cover(c)` followed by the row loop on `c`. The
invocations made during a solve are in such states, by `invocation_ring_ok`. -/
theorem search_picks_first_min_column (s : DLXSolver) (F fuel : Nat) (hs : List Nat)
    (hw : s.headerRing F = some hs) (hne : hs ≠ []) (hnull : null ∉ hs)
    (hsz : ∀ h, h ∈ hs → s.sizeAt h < INT_MAX) (hf : hs.length < fuel) :
    ∃ pre c post, hs = pre ++ c :: post ∧
      (∀ h, h ∈ pre → s.sizeAt c < s.sizeAt h) ∧ (∀ h, h ∈ post → s.sizeAt c ≤ s.sizeAt h) ∧
      chooseCol s fuel (s.R.get head) null INT_MAX = some (c, s.sizeAt c) ∧
      (s.sizeAt c = 0 → search (fuel + 1) s = some (false, s)) ∧
      (s.sizeAt c ≠ 0 → search (fuel + 1) s =
        match cover fuel s c with
        | none => none
        | some s1 => searchRows c fuel (s1.D.get c) s1) :=
  search_choice s F fuel hs hw hne hnull hsz hf

theorem search_picks_first_min_column_witness :
    ∃ pre c post, [2, 3, 4] = pre ++ c :: post ∧
      (∀ h, h ∈ pre → demoMatrix.sizeAt c < demoMatrix.sizeAt h) ∧
      (∀ h, h ∈ post → demoMatrix.sizeAt c ≤ demoMatrix.sizeAt h) ∧
      chooseCol demoMatrix 19 (demoMatrix.R.get head) null INT_MAX =
        some (c, demoMatrix.sizeAt c) ∧
      (demoMatrix.sizeAt c = 0 → search (19 + 1) demoMatrix = some (false, demoMatrix)) ∧
      (demoMatrix.sizeAt c ≠ 0 → search (19 + 1) demoMatrix =
        match cover 19 demoMatrix c with
        | none => none
        | some s1 => searchRows c 19 (s1.D.get c) s1) :=
  search_picks_first_min_column demoMatrix 10 19 [2, 3, 4] (by decide) (by decide)
    (by decide) (by decide) (by decide)

/-- C16, exact restoration on backtrack. Whenever an invocation of `search()` made during a
solve returns false, the state it returns is the state in which it was entered: every
link `L`, `R`, `U`, `D`, every live count and the solution stack are as they were. -/
theorem search_false_restores_state (input : Grid) (f0 d f : Nat) (s t : DLXSolver)
    (hi : Invoked f0 (encode input).dlx d f s) (e : search f s = some (false, t)) : t = s :=
  (solve_invocation input hi (Nat.lt_succ_self 324)).2.elim fun _ h => h.2.2.2.2 f t e

theorem search_false_restores_state_witness :
    ∃ t, search solveFuel (encode dupGrid).dlx = some (false, t) ∧ t = (encode dupGrid).dlx :=
  (SolveSudokuDLX_inv_false
    (solve_unsat (le_refl solveFuel) emptyGrid dupGrid_hasDuplicate.no_completion)).elim
    fun t h => ⟨t, h.1, search_false_restores_state dupGrid solveFuel 0 solveFuel
      (encode dupGrid).dlx t Invoked.top h.1⟩

/-- C17, bounded recursion and termination. For every input grid, `search()` on the matrix
that `SolveSudokuDLX` builds returns when given fuel `solveFuel` or more; and an invocation
of `search()` that lies `d` levels below the first finds exactly `d` rows on the solution
stack, and `d` is at most 81. -/
theorem search_depth_bounded (input : Grid) :
    (∀ fuel, solveFuel ≤ fuel → ∃ res, (encode input).dlx.search fuel = some res) ∧
    ∀ f0 d f s, Invoked f0 (encode input).dlx d f s → s.solution.length = d ∧ d ≤ 81 :=
  ⟨fun _ hf => search_encode_returns input hf, fun _ _ _ _ hi =>
    ⟨(solve_invocation input hi (Nat.lt_succ_self 324)).1,
      (solve_invocation input hi (Nat.lt_succ_self 324)).1 ▸
        (solve_invocation input hi (Nat.lt_succ_self 324)).2.elim fun _ h => h.2.2.2.1⟩⟩

theorem search_depth_bounded_witness :
    (∃ res, (encode emptyGrid).dlx.search solveFuel = some res) ∧
      ∃ s, Invoked solveFuel (encode emptyGrid).dlx 1 (solveFuel - 2) s ∧
        s.solution.length = 1 ∧ 1 ≤ 81 :=
  ⟨(search_depth_bounded emptyGrid).1 solveFuel (le_refl solveFuel),
    emptyGrid_invoked.elim fun s hi =>
      ⟨s, hi, (search_depth_bounded emptyGrid).2 solveFuel 1 (solveFuel - 2) s hi⟩⟩

/-- C19, out-of-range input. On an input grid in which some cell holds a value below 0 or
above 9, the encoder emits no row for that cell, the cell column of the cell stays empty,
and `SolveSudokuDLX`, given fuel `solveFuel` or more, returns false. -/
theorem SolveSudokuDLX_rejects_out_of_range (fuel : Nat) (input result : Grid) (r c : Nat)
    (hr : r < 9) (hc : c < 9) (h : input r c < 0 ∨ 9 < input r c) (hf : solveFuel ≤ fuel) :
    (∀ m, m ∈ (encode input).mapRows → ¬ (m.r = r ∧ m.c = c)) ∧
      (encode input).dlx.colSize.get (r * 9 + c) = 0 ∧
      SolveSudokuDLX fuel input result = some (false, result) :=
  solve_out_of_range hf result hr hc h

theorem SolveSudokuDLX_rejects_out_of_range_witness :
    (∀ m, m ∈ (encode (clueGrid 0 0 10)).mapRows → ¬ (m.r = 0 ∧ m.c = 0)) ∧
      (encode (clueGrid 0 0 10)).dlx.colSize.get (0 * 9 + 0) = 0 ∧
      SolveSudokuDLX solveFuel (clueGrid 0 0 10) emptyGrid = some (false, emptyGrid) :=
  SolveSudokuDLX_rejects_out_of_range solveFuel (clueGrid 0 0 10) emptyGrid 0 0 (by decide)
    (by decide) (by decide) (le_refl solveFuel)

end Sudoku
